import Mathlib

/-!
# aur-update-checker: version processor

A shallow embedding of the version processor of `aur-update-checker`
(`internal/checkers/version` and `internal/utils/version_compare.go`).

Go strings are modelled as lists of Unicode characters (`Str`); the inputs
are assumed to be valid UTF-8.  Regular expressions of Go's `regexp`
package are embedded as syntax trees (`Re`) run by a backtracking matcher
that returns the matches in the priority order of a leftmost-first search.
-/

namespace AurUpdateChecker

/-- A Go string, as its list of runes. -/
abbrev Str := List Char

/-! ## Regular expressions -/

/-- The body of a regular expression (anchors are kept in `Regex`). -/
inductive Re where
  | cls : (Char → Bool) → Re
  | eps : Re
  | seq : Re → Re → Re
  | alt : Re → Re → Re
  | star : Re → Re
  | grp : Nat → Re → Re

/-- Capture groups recorded so far, most recent first. -/
abbrev Caps := List (Nat × Str)

/-- Greedy iteration of a matcher step, at most `n` rounds. -/
def starRun (step : Caps → Str → List (Caps × Str)) : Nat → Caps → Str → List (Caps × Str)
  | 0, cs, s => [(cs, s)]
  | n + 1, cs, s => (step cs s).flatMap (fun r => starRun step n r.1 r.2) ++ [(cs, s)]

/-- All ways `r` matches a prefix of the input, in backtracking priority
order; each result is the captures and the unread rest of the input. -/
def Re.run : Re → Caps → Str → List (Caps × Str)
  | .cls _, _, [] => []
  | .cls p, cs, c :: s => if p c then [(cs, s)] else []
  | .eps, cs, s => [(cs, s)]
  | .seq a b, cs, s => (a.run cs s).flatMap (fun r => b.run r.1 r.2)
  | .alt a b, cs, s => a.run cs s ++ b.run cs s
  | .star a, cs, s => starRun (fun cs1 s1 => a.run cs1 s1) s.length cs s
  | .grp i a, cs, s =>
      (a.run cs s).map (fun r => ((i, s.take (s.length - r.2.length)) :: r.1, r.2))

/-- The text of capture group `i` (empty when the group took no part). -/
def capOf (cs : Caps) (i : Nat) : Str :=
  match cs.find? (fun e => e.1 == i) with
  | some e => e.2
  | none => []

/-- A compiled pattern: `^`? body `$`?. -/
structure Regex where
  bol : Bool
  re : Re
  eol : Bool

/-- The first match of `p` that starts exactly at the current position. -/
def Regex.matchAt (p : Regex) (atStart : Bool) (s : Str) : Option (Caps × Str) :=
  if p.bol && !atStart then none
  else (p.re.run [] s).find? (fun r => !p.eol || r.2.isEmpty)

/-- Leftmost match: the text skipped, the captures and the rest. -/
def Regex.findFrom (p : Regex) : Bool → Str → Option (Str × Caps × Str)
  | atStart, [] =>
      match p.matchAt atStart [] with
      | some r => some ([], r.1, r.2)
      | none => none
  | atStart, c :: s =>
      match p.matchAt atStart (c :: s) with
      | some r => some ([], r.1, r.2)
      | none =>
          match p.findFrom false s with
          | some (pre, cs, rest) => some (c :: pre, cs, rest)
          | none => none

/-- `regexp.MatchString`. -/
def Regex.MatchString (p : Regex) (s : Str) : Bool :=
  (p.findFrom true s).isSome

/-- `regexp.FindStringSubmatch`: the whole match and the captures. -/
def Regex.FindStringSubmatch (p : Regex) (s : Str) : Option (Str × Caps) :=
  match p.findFrom true s with
  | some (pre, cs, rest) =>
      some ((s.drop pre.length).take (s.length - pre.length - rest.length), cs)
  | none => none

/-- `regexp.FindString`: the leftmost match, or the empty string. -/
def Regex.FindString (p : Regex) (s : Str) : Str :=
  match p.FindStringSubmatch s with
  | some (m, _) => m
  | none => []

/-- The loop of `ReplaceAllString(s, "")`: delete every match, left to right. -/
def Regex.removeAllFrom (p : Regex) : Nat → Bool → Str → Str
  | 0, _, s => s
  | _ + 1, _, [] => []
  | n + 1, atStart, c :: s =>
      match p.matchAt atStart (c :: s) with
      | some r =>
          if r.2.length < (c :: s).length then p.removeAllFrom n false r.2
          else c :: p.removeAllFrom n false s
      | none => c :: p.removeAllFrom n false s

/-- `regexp.ReplaceAllString(s, "")`. -/
def Regex.ReplaceAllString (p : Regex) (s : Str) : Str :=
  p.removeAllFrom (s.length + 1) true s

/-- The loop of `FindAllStringSubmatch(s, -1)`: the captures of the successive matches. -/
def Regex.findAllFrom (p : Regex) : Nat → Bool → Str → List Caps
  | 0, _, _ => []
  | _ + 1, atStart, [] =>
      match p.matchAt atStart [] with
      | some r => [r.1]
      | none => []
  | n + 1, atStart, c :: s =>
      match p.matchAt atStart (c :: s) with
      | some r =>
          if r.2.length < (c :: s).length then r.1 :: p.findAllFrom n false r.2
          else r.1 :: p.findAllFrom n false s
      | none => p.findAllFrom n false s

/-- `regexp.FindAllStringSubmatch(s, -1)`, as the captures of each match. -/
def Regex.FindAllStringSubmatch (p : Regex) (s : Str) : List Caps :=
  p.findAllFrom (s.length + 1) true s

/-! ## Character classes and pattern combinators -/

/-- The class `\d`. -/
def isDigitC (c : Char) : Bool := c.isDigit

/-- The class `[A-Za-z]`. -/
def isLetterC (c : Char) : Bool := c.isAlpha

/-- The class `[A-Z]`. -/
def isUpperC (c : Char) : Bool := c.isUpper

/-- The class `\w`. -/
def isWordC (c : Char) : Bool := c.isAlphanum || c == '_'

/-- The class `[0-9A-Za-z-]`. -/
def isIdentC (c : Char) : Bool := c.isAlphanum || c == '-'

/-- The class `[_\-\.]`. -/
def isSepC (c : Char) : Bool := c == '_' || c == '-' || c == '.'

/-- The class `[_\-]`. -/
def isSep2C (c : Char) : Bool := c == '_' || c == '-'

/-- A literal character under `(?i)`: ASCII case folding, and the two
non-ASCII runes that fold to `k` and `s`. -/
def foldEq (c x : Char) : Bool :=
  x.toLower == c.toLower
    || (c.toLower == 'k' && x == Char.ofNat 0x212A)
    || (c.toLower == 's' && x == Char.ofNat 0x17F)

/-- A literal character. -/
def Re.chr (c : Char) : Re := .cls (fun x => x == c)

/-- `a+`. -/
def Re.plus (a : Re) : Re := .seq a (.star a)

/-- `a?`. -/
def Re.opt (a : Re) : Re := .alt a .eps

/-- A literal string. -/
def Re.lit (s : String) : Re := s.toList.foldr (fun c r => .seq (.chr c) r) .eps

/-- A literal string under `(?i)`. -/
def Re.liti (s : String) : Re := s.toList.foldr (fun c r => .seq (.cls (foldEq c)) r) .eps

/-- `a|b|...`, the first alternative preferred. -/
def Re.alts : List Re → Re
  | [] => .cls (fun _ => false)
  | [a] => a
  | a :: b :: rest => .alt a (Re.alts (b :: rest))

/-- A sequence of expressions. -/
def Re.seqs : List Re → Re
  | [] => .eps
  | [a] => a
  | a :: b :: rest => .seq a (Re.seqs (b :: rest))

/-- The expression `\d+`. -/
def reNum : Re := Re.plus (.cls isDigitC)

/-- The expression `\.\d+`. -/
def reDotNum : Re := .seq (.chr '.') reNum

/-- The expression `\d+(?:\.\d+)*`. -/
def reDotted : Re := .seq reNum (.star reDotNum)

/-- The expression `\d+(?:\.\d+)+`. -/
def reDotted2 : Re := .seq reNum (Re.plus reDotNum)

/-! ## The Go `strings` and `strconv` functions used -/

/-- `strings.HasPrefix`. -/
def HasPrefix (s p : Str) : Bool := p.isPrefixOf s

/-- `strings.TrimPrefix`. -/
def TrimPrefix (s p : Str) : Str := if p.isPrefixOf s then s.drop p.length else s

/-- `strings.TrimSuffix`. -/
def TrimSuffix (s p : Str) : Str :=
  if p.reverse.isPrefixOf s.reverse then (s.reverse.drop p.length).reverse else s

/-- `strings.TrimRight(s, "_")`. -/
def TrimRightUnderscore (s : Str) : Str := (s.reverse.dropWhile (fun c => c == '_')).reverse

/-- `unicode.IsSpace`. -/
def isSpaceC (c : Char) : Bool :=
  let n := c.toNat
  (9 ≤ n && n ≤ 13) || n == 32 || n == 0x85 || n == 0xA0 || n == 0x1680
    || (0x2000 ≤ n && n ≤ 0x200A) || n == 0x2028 || n == 0x2029 || n == 0x202F
    || n == 0x205F || n == 0x3000

/-- `strings.TrimSpace`. -/
def TrimSpace (s : Str) : Str := ((s.dropWhile isSpaceC).reverse.dropWhile isSpaceC).reverse

/-- `strings.Contains`. -/
def Contains : Str → Str → Bool
  | [], sub => sub.isEmpty
  | c :: s, sub => sub.isPrefixOf (c :: s) || Contains s sub

/-- The text before the first occurrence of the character `d` and the text after it. -/
def cutAt (d : Char) : Str → Option (Str × Str)
  | [] => none
  | c :: s =>
      if c == d then some ([], s)
      else match cutAt d s with
        | some (a, b) => some (c :: a, b)
        | none => none

/-- `strings.Split(s, d)` for a one-character separator. -/
def Split (d : Char) : Str → List Str
  | [] => [[]]
  | c :: s =>
      if c == d then [] :: Split d s
      else match Split d s with
        | [] => [[c]]
        | p :: ps => (c :: p) :: ps

/-- `strings.Join(parts, d)` for a one-character separator. -/
def Join (d : Char) : List Str → Str
  | [] => []
  | [p] => p
  | p :: q :: ps => p ++ d :: Join d (q :: ps)

/-- `strings.ToLower` (on the ASCII letters it is applied to). -/
def ToLower (s : Str) : Str := s.map Char.toLower

/-- The UTF-8 bytes of a string. -/
def toBytes (s : Str) : List Nat := s.flatMap (fun c => (String.utf8EncodeChar c).map (fun b => b.toNat))

/-- `strings.Index` on bytes: the offset of the first occurrence, if any. -/
def indexOf (sub : List Nat) : List Nat → Option Nat
  | [] => if sub.isEmpty then some 0 else none
  | b :: s =>
      if sub.isPrefixOf (b :: s) then some 0
      else match indexOf sub s with
        | some i => some (i + 1)
        | none => none

/-- The value of a string of decimal digits, most significant first. -/
def decValue (s : Str) : Nat := s.foldl (fun n c => 10 * n + (c.toNat - 48)) 0

/-- `strconv.ParseUint(s, 10, 64)`: `none` on a syntax or range error. -/
def ParseUint (s : Str) : Option Nat :=
  if s.isEmpty || !s.all isDigitC then none
  else if decValue s < 2 ^ 64 then some (decValue s) else none

/-- `strconv.ParseInt(s, 10, 64)`: `none` on a syntax or range error. -/
def ParseInt (s : Str) : Option Int :=
  match s with
  | '-' :: d =>
      if d.isEmpty || !d.all isDigitC then none
      else if decValue d ≤ 2 ^ 63 then some (-(decValue d : Int)) else none
  | '+' :: d =>
      if d.isEmpty || !d.all isDigitC then none
      else if decValue d < 2 ^ 63 then some (decValue d : Int) else none
  | d =>
      if d.isEmpty || !d.all isDigitC then none
      else if decValue d < 2 ^ 63 then some (decValue d : Int) else none

/-- `strconv.Atoi` (`int` is 64 bits wide). -/
def Atoi (s : Str) : Option Int := ParseInt s

/-- The verb `%d` of `fmt`. -/
def fmtInt (n : Int) : Str :=
  if n < 0 then '-' :: Nat.toDigits 10 n.natAbs else Nat.toDigits 10 n.natAbs

/-- The comparison `s > o` of two Go strings (bytewise, which on valid UTF-8
is the order of the code points). -/
def strLt : Str → Str → Bool
  | [], [] => false
  | [], _ :: _ => true
  | _ :: _, [] => false
  | a :: s, b :: t => a.toNat < b.toNat || (a.toNat == b.toNat && strLt s t)

/-! ## The library `github.com/Masterminds/semver` (v1), as far as it is called -/

/-- The expression `[0-9A-Za-z\-]+(\.[0-9A-Za-z\-]+)*`, its inner group numbered `g`. -/
def reIdents (g : Nat) : Re :=
  .seq (Re.plus (.cls isIdentC))
    (.star (.grp g (.seq (.chr '.') (Re.plus (.cls isIdentC)))))

/-- The library's `versionRegex`: `^v?([0-9]+)(\.[0-9]+)?(\.[0-9]+)?` followed by
`(-([0-9A-Za-z\-]+(\.[0-9A-Za-z\-]+)*))?` and
`(\+([0-9A-Za-z\-]+(\.[0-9A-Za-z\-]+)*))?$`. -/
def versionRegex : Regex :=
  ⟨true, Re.seqs [
    Re.opt (.chr 'v'),
    .grp 1 reNum,
    Re.opt (.grp 2 reDotNum),
    Re.opt (.grp 3 reDotNum),
    Re.opt (.grp 4 (.seq (.chr '-') (.grp 5 (reIdents 6)))),
    Re.opt (.grp 7 (.seq (.chr '+') (.grp 8 (reIdents 9))))], true⟩

/-- The library's `Version`. -/
structure Version where
  major : Int
  minor : Int
  patch : Int
  pre : Str
  metadata : Str
deriving DecidableEq

/-- The segment after the dot of an optional `(\.[0-9]+)` group, 0 when absent. -/
def parseSegment (m : Str) : Option Int :=
  if m.isEmpty then some 0 else ParseInt (TrimPrefix m ['.'])

/-- `semver.NewVersion`: `none` stands for a returned error. -/
def NewVersion (v : Str) : Option Version :=
  match versionRegex.FindStringSubmatch v with
  | none => none
  | some (_, m) =>
      match ParseInt (capOf m 1), parseSegment (capOf m 2), parseSegment (capOf m 3) with
      | some major, some minor, some patch =>
          some { major := major, minor := minor, patch := patch,
                 pre := capOf m 5, metadata := capOf m 8 }
      | _, _, _ => none

/-- `Version.String`. -/
def Version.String (v : Version) : Str :=
  fmtInt v.major ++ '.' :: fmtInt v.minor ++ '.' :: fmtInt v.patch
    ++ (if v.pre.isEmpty then [] else '-' :: v.pre)
    ++ (if v.metadata.isEmpty then [] else '+' :: v.metadata)

/-- The library's `compareSegment`. -/
def compareSegment (v o : Int) : Int :=
  if v < o then -1 else if v > o then 1 else 0

/-- The library's `comparePrePart`. -/
def comparePrePart (s o : Str) : Int :=
  if s = o then 0
  else if s.isEmpty then (if !o.isEmpty then -1 else 1)
  else if o.isEmpty then (if !s.isEmpty then 1 else -1)
  else
    match ParseUint o, ParseUint s with
    | none, none => if strLt o s then 1 else -1
    | none, some _ => -1
    | some _, none => 1
    | some oi, some si => if si > oi then 1 else -1

/-- The loop of the library's `comparePrerelease`, from index `i` for `k` rounds. -/
def comparePreLoop (sparts oparts : List Str) : Nat → Nat → Int
  | 0, _ => 0
  | k + 1, i =>
      let d := comparePrePart (sparts.getD i []) (oparts.getD i [])
      if d ≠ 0 then d else comparePreLoop sparts oparts k (i + 1)

/-- The library's `comparePrerelease`. -/
def comparePrerelease (v o : Str) : Int :=
  let sparts := Split '.' v
  let oparts := Split '.' o
  comparePreLoop sparts oparts (max sparts.length oparts.length) 0

/-- `Version.Compare`. -/
def Version.Compare (v o : Version) : Int :=
  if compareSegment v.major o.major ≠ 0 then compareSegment v.major o.major
  else if compareSegment v.minor o.minor ≠ 0 then compareSegment v.minor o.minor
  else if compareSegment v.patch o.patch ≠ 0 then compareSegment v.patch o.patch
  else if v.pre.isEmpty && o.pre.isEmpty then 0
  else if v.pre.isEmpty then 1
  else if o.pre.isEmpty then -1
  else comparePrerelease v.pre o.pre

/-- `Version.GreaterThan`. -/
def Version.GreaterThan (v o : Version) : Bool := decide (v.Compare o > 0)

/-- `Version.LessThan`. -/
def Version.LessThan (v o : Version) : Bool := decide (v.Compare o < 0)

/-! ## `VersionProcessor`: the compiled patterns (`version_processor_types.go`) -/

/-- The class `[1-9]`. -/
def isPosDigitC (c : Char) : Bool := c.isDigit && c != '0'

/-- The class `[a-zA-Z-]`. -/
def isLetterDashC (c : Char) : Bool := c.isAlpha || c == '-'

/-- The class `[A-Z0-9]`. -/
def isUpperDigitC (c : Char) : Bool := c.isUpper || c.isDigit

/-- The expression `0|[1-9]\d*`. -/
def reNumId : Re := .alt (.chr '0') (.seq (.cls isPosDigitC) (.star (.cls isDigitC)))

/-- The expression `0|[1-9]\d*|\d*[a-zA-Z-][0-9a-zA-Z-]*`. -/
def rePreId : Re :=
  Re.alts [.chr '0', .seq (.cls isPosDigitC) (.star (.cls isDigitC)),
    Re.seqs [.star (.cls isDigitC), .cls isLetterDashC, .star (.cls isIdentC)]]

/-- The field `versionMainRegex`: `^(\d+(?:\.\d+)*)`. -/
def versionMainRegex : Regex := ⟨true, .grp 1 reDotted, false⟩

/-- The field `numberRegex`: `\d+`. -/
def numberRegex : Regex := ⟨false, reNum, false⟩

/-- The field `semverRegex`: `^v?(0|[1-9]\d*)\.(0|[1-9]\d*)\.(0|[1-9]\d*)`, then an
optional `-` with dot-separated pre-release identifiers
`0|[1-9]\d*|\d*[a-zA-Z-][0-9a-zA-Z-]*`, then an optional `+` with
dot-separated build identifiers `[0-9a-zA-Z-]+`, then `$`. -/
def semverRegex : Regex :=
  ⟨true, Re.seqs [
    Re.opt (.chr 'v'),
    .grp 1 reNumId, .chr '.', .grp 2 reNumId, .chr '.', .grp 3 reNumId,
    Re.opt (.seq (.chr '-') (.grp 4 (.seq rePreId (.star (.seq (.chr '.') rePreId))))),
    Re.opt (.seq (.chr '+') (.grp 5 (.seq (Re.plus (.cls isIdentC))
      (.star (.seq (.chr '.') (Re.plus (.cls isIdentC)))))))], true⟩

/-- A pattern `(?i)SEP(tok|tok|...)` of the platform and test lists, with or
without a `$` appended. -/
def tokenRegex (sep : Char → Bool) (toks : List String) (eol : Bool) : Regex :=
  ⟨false, .seq (.cls sep) (.grp 1 (Re.alts (toks.map Re.liti))), eol⟩

/-- The table `platformPatterns` of `initializePlatformRegexes`, each entry as
its separator class and its alternatives. -/
def platformPatterns : List ((Char → Bool) × List String) :=
  [ (isSepC, ["Linux", "linux", "Windows", "Mac", "windows", "mac", "osx", "android",
      "Android", "iOS", "ios", "ubuntu", "debian", "fedora", "centos", "redhat",
      "opensuse", "arch", "gentoo", "mint"]),
    (isSepC, ["x86", "x64", "x86_64", "x86-64", "X86", "X86_64", "X86-64", "amd64",
      "arm", "arm64", "aarch64"]),
    (isSepC, ["32bit", "64bit", "32", "_32", "64", "_64"]),
    (isSepC, ["bin", "exe", "dmg", "pkg", "deb", "rpm", "apk", "AppImage"]),
    (isSepC, ["x86", "x64", "x86_64", "amd64", "arm", "arm64", "aarch64"]),
    (isSepC, ["signed", "unsigned"]) ]

/-- The field `platformRegexes`; `eol` appends `$` as `cleanVersionWithOption`
does in its first loop. -/
def platformRegexes (eol : Bool) : List Regex :=
  platformPatterns.map (fun e => tokenRegex e.1 e.2 eol)

/-- The table `testPatterns` of `initializeTestRegexes`. -/
def testPatterns : List ((Char → Bool) × List String) :=
  [ (isSep2C, ["stable", "beta", "alpha", "rc", "nightly", "preview", "pre", "dev", "test"]),
    (isSepC, ["snapshot", "SNAPSHOT"]),
    (isSep2C, ["milestone", "m"]) ]

/-- The field `testRegexes`; `eol` appends `$`. -/
def testRegexes (eol : Bool) : List Regex :=
  testPatterns.map (fun e => tokenRegex e.1 e.2 eol)

/-- The field `prefixRegexes`: `(?i)` with `^release[_\-]`, `^version[_\-]`,
`^ver[_\-]?`, `^v`, `^=V`, `^r`. -/
def prefixRegexes : List Regex :=
  [ ⟨true, .seq (Re.liti "release") (.cls isSep2C), false⟩,
    ⟨true, .seq (Re.liti "version") (.cls isSep2C), false⟩,
    ⟨true, .seq (Re.liti "ver") (Re.opt (.cls isSep2C)), false⟩,
    ⟨true, Re.liti "v", false⟩,
    ⟨true, Re.liti "=V", false⟩,
    ⟨true, Re.liti "r", false⟩ ]

/-- The pattern `^([A-Za-z]+)(\d+(?:\.\d+)*)$`. -/
def alphaPrefix : Regex :=
  ⟨true, .seq (.grp 1 (Re.plus (.cls isLetterC))) (.grp 2 reDotted), true⟩

/-- The pattern `^\d+\.\d+-\d+\.\d+\.\d+$`. -/
def specialVersionFormat : Regex :=
  ⟨true, Re.seqs [reNum, reDotNum, .chr '-', reNum, reDotNum, reDotNum], true⟩

/-- The pattern `^\d+\.\d+\.\d+\.\d+\.\d+$`. -/
def fivePartVersionFormat : Regex :=
  ⟨true, Re.seqs [reNum, reDotNum, reDotNum, reDotNum, reDotNum], true⟩

/-- The pattern `^\d+\.\d+$`. -/
def simplifiedFormat : Regex := ⟨true, .seq reNum reDotNum, true⟩

/-- The table `platformSuffixes` of `cleanVersionWithOption`, each entry with
the `$` that the loops append. -/
def platformSuffixes : List Regex :=
  let w : Re := Re.plus (.cls isWordC)
  let d : Re := .cls isDigitC
  ([ .seq (Re.lit "-ubuntu-") w, Re.lit "-ubuntu", .seq (Re.lit "-linux-") w, Re.lit "-linux",
     .seq (Re.lit "-windows-") w, Re.lit "-windows", Re.seqs [Re.lit "-win", d, d], Re.lit "-win",
     .seq (Re.lit "-macos-") w, Re.lit "-macos", .seq (Re.lit "-osx-") w, Re.lit "-osx",
     .seq (Re.lit "-darwin-") w, Re.lit "-darwin",
     .seq (Re.lit "-android-") w, Re.lit "-android",
     Re.lit "-x86_64", Re.lit "-x64", Re.lit "-amd64", Re.lit "-i386", Re.lit "-i686",
     Re.lit "-x86", .seq (Re.lit "-arm") (.star d), .seq (Re.lit "-aarch") (.star d),
     Re.lit "-32bit", Re.lit "-64bit", Re.lit "-bit",
     Re.lit "-deb", Re.lit "-rpm", Re.lit "-dmg", Re.lit "-exe", Re.lit "-msi",
     Re.lit "-tar.gz", Re.lit "-zip" ] : List Re).map (fun r => (⟨false, r, true⟩ : Regex))

/-! ## `cleanVersionWithOption` (`version_processor_clean.go`) -/

/-- The first loop over `platformSuffixes`: the first suffix that matches is
removed and the loop ends. -/
def stripFirstSuffix : List Regex → Str → Str
  | [], result => result
  | re :: rest, result =>
      if re.MatchString result then re.ReplaceAllString result
      else stripFirstSuffix rest result

/-- A loop `for _, re := range res { result = re.ReplaceAllString(result, "") }`. -/
def removeEach (res : List Regex) (result : Str) : Str :=
  res.foldl (fun acc re => re.ReplaceAllString acc) result

/-- The pattern `^\d+[A-Za-z]+`. -/
def digitsLetters : Regex := ⟨true, .seq reNum (Re.plus (.cls isLetterC)), false⟩

/-- The pattern `^\d+`. -/
def leadingDigits : Regex := ⟨true, reNum, false⟩

/-- The body of the loop over `versionParts`. -/
def cleanPart (part : Str) : Str :=
  if digitsLetters.MatchString part then part
  else if leadingDigits.FindString part != [] then leadingDigits.FindString part
  else part

/-- `VersionProcessor.cleanVersionWithOption`. -/
def cleanVersionWithOption (version : Str) (checkTestVersion : Int) : Str :=
  let result := TrimPrefix version ['V']
  if alphaPrefix.MatchString result
      && (match alphaPrefix.FindStringSubmatch result with
          | some (_, m) => semverRegex.MatchString (capOf m 2)
          | none => false) then result
  else if !semverRegex.MatchString result && fivePartVersionFormat.MatchString result then result
  else
    let result :=
      if semverRegex.MatchString result then stripFirstSuffix platformSuffixes result else result
    let result := removeEach (platformRegexes true) result
    let result := removeEach (platformRegexes false) result
    let result := removeEach platformSuffixes result
    let hasTestVersion := (testRegexes false).any (fun re => re.MatchString result)
    if checkTestVersion == 0 && hasTestVersion then []
    else
      let result := if checkTestVersion == 0 then result else removeEach (testRegexes true) result
      let result := TrimRightUnderscore result
      let hasHyphenSuffix := Contains result ['-']
      let parts := cutAt '-' result
      let hyphenPart : Str := match parts with
        | some (_, b) => '-' :: b
        | none => []
      let result := match parts with
        | some (a, _) => a
        | none => result
      let versionParts := Split '.' result
      let result :=
        if versionParts.length ≥ 2 then Join '.' (versionParts.map cleanPart) else result
      let result := if hasHyphenSuffix && hyphenPart != [] then result ++ hyphenPart else result
      TrimSuffix (TrimSpace result) ['-']

/-- `VersionProcessor.cleanVersion`. -/
def cleanVersion (version : Str) : Str := cleanVersionWithOption version 0

/-! ## `fallbackStandardizeVersion` (`version_processor_standardize.go`) -/

/-- A pattern wrapped in a capture group, searched anywhere. -/
def grouped (r : Re) : Regex := ⟨false, .grp 1 r, false⟩

/-- The table `versionPatterns`, in its order of priority. -/
def versionPatterns : List Regex :=
  [ grouped (Re.seqs [reNum, reDotNum, reDotNum, reDotNum, Re.plus (.cls isUpperC),
      Re.opt (.seq (.chr '.') (Re.plus (.cls isUpperDigitC)))]),
    grouped (Re.seqs [reNum, reDotNum, reDotNum, reDotNum, reDotNum]),
    grouped (Re.seqs [reNum, reDotNum, reDotNum, reDotNum, .chr '-', reNum]),
    grouped (Re.seqs [reNum, reDotNum, reDotNum, reDotNum]),
    grouped (Re.seqs [reNum, reDotNum, reDotNum, .chr '-', reNum]),
    grouped (Re.seqs [reNum, reDotNum, reDotNum]),
    grouped (Re.seqs [reNum, reDotNum, .chr '-', reNum]),
    grouped (Re.seqs [reNum, reDotNum]),
    ⟨false, Re.seqs [Re.plus (.cls isLetterDashC), .chr '-', .grp 1 reDotted2], false⟩,
    ⟨false, Re.seqs [Re.plus (.cls isLetterC), .grp 1 reDotted2], false⟩,
    grouped reDotted2 ]

/-- The pattern `^\d+\.\d+\.\d+\.\d+ZH\.S1$`. -/
def validVersionFormat : Regex :=
  ⟨true, Re.seqs [reNum, reDotNum, reDotNum, reDotNum, Re.lit "ZH", Re.lit ".S1"], true⟩

/-- The pattern `^(\d+(?:\.\d+)*)(-\d+)`. -/
def hyphenPattern : Regex :=
  ⟨true, .seq (.grp 1 reDotted) (.grp 2 (.seq (.chr '-') reNum)), false⟩

/-- The loop over `versionPatterns`: `inl` is a value returned at once,
`inr` the new `result` after the loop. -/
def scanVersionPatterns : List Regex → Str → Str ⊕ Str
  | [], result => .inr result
  | re :: rest, result =>
      match re.FindStringSubmatch result with
      | some (_, m) =>
          if (Contains (capOf m 1) "ZH".toList || Contains (capOf m 1) "S1".toList)
              && validVersionFormat.MatchString (capOf m 1) then
            .inl (cleanVersion (capOf m 1))
          else .inr (capOf m 1)
      | none => scanVersionPatterns rest result

/-- The table `versionFeatures`. -/
def versionFeatures : List String := [".", "-", "_", "v", "V", "version", "Version"]

/-- The check of the context around the first number: `none` is the early
return of the empty string. -/
def checkFirstNumber (result firstNum : Str) : Option Str :=
  if !Contains result ['.'] then none
  else
    match indexOf (toBytes firstNum) (toBytes result) with
    | none => none
    | some numIndex =>
        let contextStart := numIndex - 5
        let contextEnd := Nat.min (numIndex + (toBytes firstNum).length + 5) (toBytes result).length
        let context := ((toBytes result).take contextEnd).drop contextStart
        if versionFeatures.any (fun f => (indexOf (toBytes f.toList) context).isSome) then
          some firstNum
        else none

/-- `VersionProcessor.fallbackStandardizeVersion`. -/
def fallbackStandardizeVersion (version : Str) : Str :=
  let result := removeEach prefixRegexes version
  if semverRegex.MatchString result then result
  else
    match scanVersionPatterns versionPatterns result with
    | .inl cleaned => cleaned
    | .inr result =>
        if versionMainRegex.MatchString result then
          let mainVersion := versionMainRegex.FindString result
          if !Contains mainVersion ['.'] then []
          else if Contains result ['-'] && (hyphenPattern.FindStringSubmatch result).isSome then
            match hyphenPattern.FindStringSubmatch result with
            | some (_, m) => cleanVersion (mainVersion ++ capOf m 2)
            | none => []
          else cleanVersion mainVersion
        else if Contains result "://".toList then []
        else if numberRegex.FindString result != [] then
          match checkFirstNumber result (numberRegex.FindString result) with
          | some r => cleanVersion r
          | none => []
        else cleanVersion result

/-! ## `StandardizeVersion` (`version_processor_standardize.go`) -/

/-- The part of `StandardizeVersion` after the letter-prefix, special-format
and five-part checks. -/
def standardizeBySemver (version : Str) : Str :=
  match NewVersion version with
  | some v =>
      if simplifiedFormat.MatchString version then
        if cleanVersionWithOption version 0 != [] then cleanVersionWithOption version 0
        else version
      else if cleanVersionWithOption v.String 0 != [] then cleanVersionWithOption v.String 0
      else v.String
  | none =>
      let cleaned := cleanVersionWithOption version 0
      match NewVersion cleaned with
      | some v => v.String
      | none =>
          match (if !HasPrefix version ['v'] then NewVersion ('v' :: cleaned) else none) with
          | some v => v.String
          | none => fallbackStandardizeVersion version

/-- `VersionProcessor.StandardizeVersion`. -/
def StandardizeVersion (version : Str) : Str :=
  match alphaPrefix.FindStringSubmatch version with
  | some (_, m) =>
      if HasPrefix (ToLower (capOf m 1)) "ipv".toList then []
      else if (NewVersion (capOf m 2)).isSome then
        if (capOf m 1).length == 1 then capOf m 2 else version
      else if specialVersionFormat.MatchString version then version
      else if fivePartVersionFormat.MatchString version then version
      else standardizeBySemver version
  | none =>
      if specialVersionFormat.MatchString version then version
      else if fivePartVersionFormat.MatchString version then version
      else standardizeBySemver version

/-! ## `utils/version_compare.go` -/

/-- `utils.NormalizeVersionString`. -/
def NormalizeVersionString (version : Str) : Str :=
  let version := TrimSpace version
  let version := TrimPrefix version "v".toList
  let version := TrimPrefix version "V".toList
  let version := TrimPrefix version "version".toList
  TrimPrefix version "Version".toList

/-- The pattern `(\d+)|([a-zA-Z]+)`. -/
def componentRegex : Regex :=
  ⟨false, .alt (.grp 1 reNum) (.grp 2 (Re.plus (.cls isLetterC))), false⟩

/-- The loop of `ExtractVersionComponentsFromString` over the matches. -/
def collectComponents : List Caps → List Int × List Str
  | [] => ([], [])
  | m :: rest =>
      let r := collectComponents rest
      if capOf m 1 != [] then
        match Atoi (capOf m 1) with
        | some num => (num :: r.1, r.2)
        | none => r
      else if capOf m 2 != [] then (r.1, ToLower (capOf m 2) :: r.2)
      else r

/-- `utils.ExtractVersionComponentsFromString`. -/
def ExtractVersionComponentsFromString (version : Str) : List Int × List Str :=
  collectComponents (componentRegex.FindAllStringSubmatch version)

/-- The first loop of `CompareVersionStrings`, from index `i` for `k` rounds:
`none` when the loop ends without returning. -/
def compareNumsLoop (v1Nums v2Nums : List Int) : Nat → Nat → Option Int
  | 0, _ => none
  | k + 1, i =>
      let n1 := v1Nums.getD i 0
      let n2 := v2Nums.getD i 0
      if n1 > n2 then some 1
      else if n1 < n2 then some (-1)
      else compareNumsLoop v1Nums v2Nums k (i + 1)

/-- The second loop of `CompareVersionStrings`. -/
def compareStrsLoop (v1Strs v2Strs : List Str) : Nat → Nat → Option Int
  | 0, _ => none
  | k + 1, i =>
      let s1 := v1Strs.getD i []
      let s2 := v2Strs.getD i []
      if strLt s2 s1 then some 1
      else if strLt s1 s2 then some (-1)
      else compareStrsLoop v1Strs v2Strs k (i + 1)

/-- The two loops of `CompareVersionStrings`, on the components extracted
from both versions. -/
def compareComponents (v1Nums v2Nums : List Int) (v1Strs v2Strs : List Str) : Int :=
  match compareNumsLoop v1Nums v2Nums (max v1Nums.length v2Nums.length) 0 with
  | some r => r
  | none =>
      match compareStrsLoop v1Strs v2Strs (max v1Strs.length v2Strs.length) 0 with
      | some r => r
      | none => 0

/-- `utils.CompareVersionStrings`. -/
def CompareVersionStrings (version1 version2 : Str) : Int :=
  let v1 := NormalizeVersionString version1
  let v2 := NormalizeVersionString version2
  compareComponents (ExtractVersionComponentsFromString v1).1
    (ExtractVersionComponentsFromString v2).1
    (ExtractVersionComponentsFromString v1).2
    (ExtractVersionComponentsFromString v2).2

/-- `utils.GenerateVersionRef`. -/
def GenerateVersionRef (version : Str) : Str :=
  let version := NormalizeVersionString version
  let numbers := (ExtractVersionComponentsFromString version).1
  if numbers.length ≥ 3 then "a.b.c.d".toList
  else if numbers.length ≥ 2 then "a.b.c".toList
  else if numbers.length ≥ 1 then "a.b".toList
  else version

/-! ## `CompareVersions` (`version_processor_compare.go`) -/

/-- `VersionProcessor.parseToSemver`: `none` stands for a returned error. -/
def parseToSemver (version : Str) : Option Version :=
  if !semverRegex.MatchString version then none else NewVersion version

/-- `VersionProcessor.CompareVersions`. -/
def CompareVersions (v1 v2 : Str) : Int :=
  let stdV1 := StandardizeVersion v1
  let stdV2 := StandardizeVersion v2
  if stdV1 = stdV2 then 0
  else
    match parseToSemver stdV1, parseToSemver stdV2 with
    | some v1Semver, some v2Semver =>
        if v1Semver.GreaterThan v2Semver then 1
        else if v1Semver.LessThan v2Semver then -1
        else 0
    | _, _ => CompareVersionStrings stdV1 stdV2

/-- `BaseChecker.NormalizeVersionWithOption`: the flag is not passed on. -/
def NormalizeVersionWithOption (version : Str) (_checkTestVersion : Int) : Str :=
  StandardizeVersion version

/-! ## The version reference in the cURL checker (`upstream_curl_checker.go`) -/

/-- `strings.Count(s, ".")`. -/
def countDots (s : Str) : Nat := s.count '.'

/-- `CurlChecker.analyzeVersionFormat`. -/
def analyzeVersionFormat (versionRef : Str) : Str :=
  match countDots versionRef with
  | 0 => "x".toList
  | 1 => "x.y".toList
  | 2 => "x.y.z".toList
  | 3 => "x.y.z.w".toList
  | _ => "x.y.z+".toList

/-- `CurlChecker.versionMatchesFormat`. -/
def versionMatchesFormat (version format : Str) : Bool :=
  let dotCount := countDots version
  if format = "x".toList then dotCount == 0
  else if format = "x.y".toList then dotCount == 1
  else if format = "x.y.z".toList then dotCount == 2
  else if format = "x.y.z.w".toList then dotCount == 3
  else if format = "x.y.z+".toList then decide (dotCount ≥ 2)
  else true

/-! ## Key search (`common/key_utils.go`); Go strings as their bytes -/

/-- The loop of `FindAllKeyPositions`, run for at most `fuel` rounds from
`index` with the positions found so far: `none` when the rounds run out
before the loop breaks. -/
def findAllKeyPositionsLoop (content key : List Nat) : Nat → Nat → List Nat → Option (List Nat)
  | 0, _, _ => none
  | fuel + 1, index, positions =>
      match indexOf key (content.drop index) with
      | none => some positions
      | some pos =>
          findAllKeyPositionsLoop content key fuel (index + pos + key.length)
            (positions ++ [index + pos])

/-- `common.FindAllKeyPositions`, with a bound on the rounds of its loop. -/
def FindAllKeyPositions (fuel : Nat) (content key : List Nat) : Option (List Nat) :=
  findAllKeyPositionsLoop content key fuel 0 []

/-! ## The key-location step of the cURL checker (`upstream_curl_checker.go`) -/

/-- The outcome of a step that may panic. -/
inductive Outcome (α : Type) where
  | done : α → Outcome α
  | panic : Outcome α

/-- The key-location step of `CurlChecker.CheckWithVersionRef` (lines 94 to
103). The package `regexp` is a parameter: `compile` is `regexp.Compile`
(`none` for a pattern that does not compile, on which `regexp.MustCompile`
panics), `findAll` is `FindAllStringIndex(content, -1)` and `quoteMeta` is
`regexp.QuoteMeta`. -/
def locateKey {R : Type} (compile : Str → Option R) (findAll : R → Str → List (Nat × Nat))
    (quoteMeta : Str → Str) (versionExtractKey content : Str) : Outcome (List (Nat × Nat)) :=
  match compile versionExtractKey with
  | none => .panic
  | some re =>
      if (findAll re content).length == 0 then
        match compile (quoteMeta versionExtractKey) with
        | none => .panic
        | some quoted => .done (findAll quoted content)
      else .done (findAll re content)

/-! ## The periodic scheduler (`services/update_timer_service.go`) -/

/-- The fields of `TimerService` that its methods read and write under the
mutex. Channels are numbered in the order `make` creates them; `closed`
lists the channels closed so far. -/
structure TimerService where
  isRunning : Bool
  stopChan : Nat
  closed : List Nat
  nextChan : Nat
  timerArmed : Bool
deriving DecidableEq

/-- `NewTimerService`. -/
def NewTimerService : TimerService :=
  { isRunning := false, stopChan := 0, closed := [], nextChan := 1, timerArmed := false }

/-- `TimerService.StartTimerTask`. -/
def StartTimerTask (s : TimerService) : TimerService :=
  if s.isRunning then s else { s with isRunning := true, timerArmed := true }

/-- `TimerService.StopTimerTask`: closes the current `stopChan` and makes a new one. -/
def StopTimerTask (s : TimerService) : TimerService :=
  if !s.isRunning then s
  else
    { isRunning := false, stopChan := s.nextChan, closed := s.stopChan :: s.closed,
      nextChan := s.nextChan + 1, timerArmed := false }

/-- The locked section at the start of `runTimerTask`: `none` when the
service is not running (the pass returns), else the channel saved in
`oldStopChan`; the pass replaces `stopChan` by a new channel. The AUR phase
follows. -/
def runTimerTaskBegin (s : TimerService) : TimerService × Option Nat :=
  if !s.isRunning then (s, none)
  else ({ s with stopChan := s.nextChan, nextChan := s.nextChan + 1, timerArmed := true },
        some s.stopChan)

/-- The `select` of `runTimerTask` after the AUR phase: `true` when the pass
goes on to `CheckAllUpstreamVersions` (its `oldStopChan` is not closed). -/
def upstreamPhaseStarts (s : TimerService) (oldStopChan : Nat) : Bool :=
  !s.closed.contains oldStopChan

/-- The steps that change the state of the service. -/
inductive TimerOp where
  | start
  | stop
  | passBegin
deriving DecidableEq

/-- The state after one step. -/
def timerStep (s : TimerService) : TimerOp → TimerService
  | .start => StartTimerTask s
  | .stop => StopTimerTask s
  | .passBegin => (runTimerTaskBegin s).1

/-- The state after a sequence of steps. -/
def timerRun (s : TimerService) (ops : List TimerOp) : TimerService :=
  ops.foldl timerStep s

/-- Channels in use are older than the next channel, and the current stop channel is open. -/
def TimerInv (s : TimerService) : Prop :=
  s.stopChan < s.nextChan ∧ ∀ c ∈ s.closed, c < s.stopChan

/-! ## JSON path extraction (`upstream_json_checker.go`) -/

/-- A value decoded by `encoding/json` into `interface{}`; a number is a
`float64`, kept abstract as an index. -/
inductive JValue where
  | null : JValue
  | bool : Bool → JValue
  | num : Nat → JValue
  | str : Str → JValue
  | arr : List JValue → JValue
  | obj : List (Str × JValue) → JValue

/-- The map lookup `v[path]`. -/
def jsonLookup : List (Str × JValue) → Str → Option JValue
  | [], _ => none
  | (k, v) :: rest, path => if k = path then some v else jsonLookup rest path

/-- The loop of `extractVersionFromJSON` over the remaining path segments:
the value of `current` when the loop ends, `none` when it returns an error. -/
def walkPath : JValue → List Str → Option JValue
  | current, [] => some current
  | .obj v, path :: rest =>
      match jsonLookup v path with
      | some next => walkPath next rest
      | none => none
  | current, _ :: rest => if rest ≠ [] then none else walkPath current rest

/-- `JsonChecker.extractVersionFromJSON`; `render` is the final conversion of
the value to a string (`fmt.Sprintf("%v")`, `json.Marshal`). -/
def extractVersionFromJSON (render : JValue → Str) (data : List (Str × JValue))
    (paths : List Str) : Option Str :=
  (walkPath (.obj data) paths).map render

/-- The traversal of the specification: each segment in turn names a key of
the object reached so far. -/
def followPath : JValue → List Str → Option JValue
  | current, [] => some current
  | .obj v, path :: rest =>
      match jsonLookup v path with
      | some next => followPath next rest
      | none => none
  | _, _ :: _ => none

/-- Whether a value is a JSON object. -/
def JValue.isObj : JValue → Bool
  | .obj _ => true
  | _ => false

/-- What `walkPath` returns where `followPath` fails: the non-object value
reached by all segments but the last. -/
def lastSegmentIgnored (current : JValue) (paths : List Str) : Option JValue :=
  if paths = [] then none
  else
    match followPath current paths.dropLast with
    | some x => if x.isObj then none else some x
    | none => none

/-! ## The configuration-driven selector
(`interfaces/checkers/upstream_config_checker_selector_interfaces.go`) -/

/-- `config.URLRule`. -/
structure URLRule where
  Name : Str
  Pattern : Str
  Checker : Str
  VersionExtractKey : Str
  CheckTestVersion : Bool
  Priority : Int
deriving DecidableEq

/-- The order `sort.Slice` of `updateURLRules` sorts by: a higher priority first. -/
def byPriority (a b : URLRule) : Prop := a.Priority ≥ b.Priority

instance : DecidableRel byPriority := fun a b => inferInstanceAs (Decidable (a.Priority ≥ b.Priority))

/-- `ConfigCheckerSelector.updateURLRules`: the rules sorted by descending
priority. `sort.Slice` is not a stable sort in general; it sorts slices
shorter than 12 elements by insertion, which this list sort reproduces. -/
def updateURLRules (rules : List URLRule) : List URLRule :=
  rules.insertionSort byPriority

/-- The loop over `s.urlRules`: the first rule whose pattern matches the URL.
`matchString` is `regexp.MatchString(pattern, url)`, `none` for a pattern
that does not compile (the rule is skipped). -/
def firstMatch (matchString : Str → Str → Option Bool) : List URLRule → Str → Option URLRule
  | [], _ => none
  | rule :: rest, url =>
      match matchString rule.Pattern url with
      | some true => some rule
      | _ => firstMatch matchString rest url

/-- What `SelectCheckerWithOptions` holds when it returns a checker: the name
of the checker created and the values of its local `versionExtractKey` and
`checkTestVersion` (the key is the one offered to `SetVersionExtractKey`). -/
structure Selection where
  checker : Str
  versionExtractKey : Str
  checkTestVersion : Int
deriving DecidableEq

/-- The body of `SelectCheckerWithOptions` on the sorted rules; `create` says
whether `registry.Create` knows the checker name (`none` is the returned error). -/
def selectOnSorted (matchString : Str → Str → Option Bool) (create : Str → Bool)
    (urlRules : List URLRule) (url versionExtractKey : Str) (checkTestVersion : Int) :
    Option Selection :=
  match firstMatch matchString urlRules url with
  | some rule =>
      let versionExtractKey :=
        if rule.VersionExtractKey ≠ [] then rule.VersionExtractKey else versionExtractKey
      let checkTestVersion := if rule.CheckTestVersion then 1 else checkTestVersion
      if create rule.Checker then
        some { checker := rule.Checker, versionExtractKey := versionExtractKey,
               checkTestVersion := checkTestVersion }
      else none
  | none =>
      if create "github".toList then
        some { checker := "github".toList, versionExtractKey := versionExtractKey,
               checkTestVersion := checkTestVersion }
      else none

/-- `ConfigCheckerSelector.SelectCheckerWithOptions`. -/
def SelectCheckerWithOptions (matchString : Str → Str → Option Bool) (create : Str → Bool)
    (rules : List URLRule) (url versionExtractKey : Str) (checkTestVersion : Int) :
    Option Selection :=
  selectOnSorted matchString create (updateURLRules rules) url versionExtractKey checkTestVersion

/-- The arguments of the check that `CheckWithConfig` runs. -/
structure CheckCall where
  checker : Str
  url : Str
  versionExtractKey : Str
  checkTestVersion : Int
deriving DecidableEq

/-- `ConfigCheckerSelector.CheckWithConfig`, as the call it makes on the
selected checker (`CheckWithVersionRef` or `CheckWithOption`): the arguments
are the parameters of `CheckWithConfig` itself. -/
def CheckWithConfig (matchString : Str → Str → Option Bool) (create : Str → Bool)
    (rules : List URLRule) (url versionExtractKey : Str) (checkTestVersion : Int) :
    Option CheckCall :=
  match SelectCheckerWithOptions matchString create rules url versionExtractKey checkTestVersion with
  | some sel =>
      some { checker := sel.checker, url := url, versionExtractKey := versionExtractKey,
             checkTestVersion := checkTestVersion }
  | none => none

/-- The body of `SelectCheckerWithVersionKey` on the sorted rules: the name
of the checker created and the key offered to `SetVersionExtractKey`; `none`
is the error of `registry.Create`. -/
def selectOnSortedWithKey (matchString : Str → Str → Option Bool) (create : Str → Bool)
    (urlRules : List URLRule) (url versionExtractKey : Str) : Option (Str × Str) :=
  match firstMatch matchString urlRules url with
  | some rule =>
      let versionExtractKey :=
        if rule.VersionExtractKey ≠ [] then rule.VersionExtractKey else versionExtractKey
      if create rule.Checker then some (rule.Checker, versionExtractKey) else none
  | none =>
      if create "github".toList then some ("github".toList, versionExtractKey) else none

/-- `ConfigCheckerSelector.SelectCheckerWithVersionKey`. -/
def SelectCheckerWithVersionKey (matchString : Str → Str → Option Bool) (create : Str → Bool)
    (rules : List URLRule) (url versionExtractKey : Str) : Option (Str × Str) :=
  selectOnSortedWithKey matchString create (updateURLRules rules) url versionExtractKey

/-- The rule `r` of `rules` matches the URL and no matching rule of `rules`
has a higher priority. -/
def URLRule.topMatch (matchString : Str → Str → Option Bool) (rules : List URLRule) (url : Str)
    (r : URLRule) : Prop :=
  r ∈ rules ∧ matchString r.Pattern url = some true ∧
    ∀ x ∈ rules, matchString x.Pattern url = some true → x.Priority ≤ r.Priority

/-- The rule `r1` of `rules` matches the URL and every other matching rule of
`rules` has a strictly lower priority. -/
def URLRule.strictTop (matchString : Str → Str → Option Bool) (rules : List URLRule) (url : Str)
    (r1 : URLRule) : Prop :=
  r1 ∈ rules ∧ matchString r1.Pattern url = some true ∧
    ∀ x ∈ rules, matchString x.Pattern url = some true → x ≠ r1 → x.Priority < r1.Priority

/-! ## The Git-forge checker (`checkers/upstream_git_platform_checker.go`) -/

/-- The answer to one API request: `failed` when `client.Do` returns an
error, else the status code and the decoded body (`none` when the JSON
decoder returns an error). -/
inductive ApiReply (α : Type) where
  | failed : ApiReply α
  | status : Nat → Option α → ApiReply α

/-- The API endpoints of a forge. -/
inductive Endpoint where
  | latestRelease
  | tags
deriving DecidableEq

/-- `getLatestReleaseWithOption`; the body is the `tag_name` of the decoded
release, `extract` is `BaseChecker.ExtractVersionFromContent`, `none` is a
returned error. -/
def getLatestReleaseWithOption (extract : Str → Str → Option Str) (reply : ApiReply Str)
    (versionExtractKey : Str) (checkTestVersion : Int) : Option Str :=
  match reply with
  | .failed => none
  | .status code body =>
      if code ≠ 200 then none
      else
        match body with
        | none => none
        | some tagName =>
            if versionExtractKey = [] then some (NormalizeVersionWithOption tagName checkTestVersion)
            else
              match extract tagName versionExtractKey with
              | none => none
              | some version => some (NormalizeVersionWithOption version checkTestVersion)

/-- `getLatestTagWithOption`; the body is the list of the `name` fields of the
decoded tags. -/
def getLatestTagWithOption (extract : Str → Str → Option Str) (reply : ApiReply (List Str))
    (versionExtractKey : Str) (checkTestVersion : Int) : Option Str :=
  match reply with
  | .failed => none
  | .status code body =>
      if code ≠ 200 then none
      else
        match body with
        | none => none
        | some [] => none
        | some (latestTag :: _) =>
            if versionExtractKey = [] then
              some (NormalizeVersionWithOption latestTag checkTestVersion)
            else
              match extract latestTag versionExtractKey with
              | none => none
              | some version => some (NormalizeVersionWithOption version checkTestVersion)

/-- `BaseGitPlatformChecker.CheckWithOption`: the version returned (`none` for
an error) and the endpoints requested, in order. `parsed` says whether
`ParsePlatformURL` succeeded; `release` and `tags` are the answers the two
endpoints give when asked. -/
def CheckWithOption (extract : Str → Str → Option Str) (parsed : Bool) (release : ApiReply Str)
    (tags : ApiReply (List Str)) (versionExtractKey : Str) (checkTestVersion : Int) :
    Option Str × List Endpoint :=
  if !parsed then (none, [])
  else
    match getLatestReleaseWithOption extract release versionExtractKey checkTestVersion with
    | some version =>
        if version ≠ [] then (some version, [.latestRelease])
        else
          match getLatestTagWithOption extract tags versionExtractKey checkTestVersion with
          | some version2 =>
              if version2 ≠ [] then (some version2, [.latestRelease, .tags])
              else (none, [.latestRelease, .tags])
          | none => (none, [.latestRelease, .tags])
    | none =>
        match getLatestTagWithOption extract tags versionExtractKey checkTestVersion with
        | some version2 =>
            if version2 ≠ [] then (some version2, [.latestRelease, .tags])
            else (none, [.latestRelease, .tags])
        | none => (none, [.latestRelease, .tags])

/-- The body of an answer with status 200 that decodes. -/
def okBody {α : Type} : ApiReply α → Option α
  | .failed => none
  | .status code body => if code = 200 then body else none

/-- The standardized first tag of the tags answer, when there is one and it is not empty. -/
def tagVersion (tags : ApiReply (List Str)) : Option Str :=
  match okBody tags with
  | some (name :: _) => if StandardizeVersion name ≠ [] then some (StandardizeVersion name) else none
  | _ => none

/-- The standardized tag of the release answer, when there is one and it is not empty. -/
def releaseVersion (release : ApiReply Str) : Option Str :=
  match okBody release with
  | some tagName =>
      if StandardizeVersion tagName ≠ [] then some (StandardizeVersion tagName) else none
  | none => none

/-! ## The asynchronous orchestrator: types (`checkers/common/async_types.go`) -/

/-- A non-nil Go `error`: its message and what the type assertions of
`isNetworkError` see. `netError` is an error whose type has the methods of
`net.Error`; a `*url.Error` has them too. -/
inductive GoError where
  | plain : Str → GoError
  | netError : Str → GoError
  | urlError : Str → GoError → GoError
deriving DecidableEq

/-- The method `Error()`. -/
def GoError.Error : GoError → Str
  | .plain msg => msg
  | .netError msg => msg
  | .urlError msg _ => msg

/-- The values of the field `Status`. -/
inductive Status where
  | pending
  | processing
  | completed
  | failed
  | cancelled
deriving DecidableEq

/-- `common.AsyncCheckResult` (without its time stamps). -/
structure AsyncCheckResult where
  ID : Str
  URL : Str
  Version : Str
  Error : Option GoError
  Status : Status
deriving DecidableEq

/-- `common.AsyncCheckRequest` (without its time stamps); `Callback` says
whether the callback is non-nil. -/
structure AsyncCheckRequest where
  ID : Str
  URL : Str
  VersionExtractKey : Str
  CheckTestVersion : Int
  Status : Status
  Result : Str
  Error : Option GoError
  Callback : Bool
deriving DecidableEq

/-- `common.AsyncCheckerStats` (without the average time). -/
structure AsyncCheckerStats where
  TotalRequests : Int
  CompletedRequests : Int
  FailedRequests : Int
deriving DecidableEq

/-- The request objects allocated so far; a pointer is an index into this list. -/
abbrev Heap := List AsyncCheckRequest

/-- Write through a pointer. -/
def Heap.update (h : Heap) (p : Nat) (f : AsyncCheckRequest → AsyncCheckRequest) : Heap :=
  h.modify f p

/-- The status of the object behind a pointer. -/
def Heap.status (h : Heap) (p : Nat) : Option Status :=
  (h.get? p).map (fun r => r.Status)

/-- A Go map with string keys: the list order stands for the order in which
`range` meets the keys, which Go leaves open. The lookup `m[key]`. -/
def mapLookup {α : Type} : List (Str × α) → Str → Option α
  | [], _ => none
  | (k, v) :: rest, key => if k = key then some v else mapLookup rest key

/-- The map update `m[key] = v`. -/
def mapStore {α : Type} : List (Str × α) → Str → α → List (Str × α)
  | [], key, v => [(key, v)]
  | (k, w) :: rest, key, v => if k = key then (k, v) :: rest else (k, w) :: mapStore rest key v

/-- The map update `delete(m, key)`. -/
def mapDelete {α : Type} (m : List (Str × α)) (key : Str) : List (Str × α) :=
  m.filter (fun e => e.1 ≠ key)

/-! ## `common.AsyncCheckerImpl` (`checkers/common/async_checker_factory.go`) -/

/-- The state of an `AsyncCheckerImpl`: the request objects, the map
`requests`, the statistics, the content of `resultChan`, and the calls of
request callbacks made so far (pointer of the request and argument). -/
structure AsyncCheckerImpl where
  heap : Heap
  requests : List (Str × Nat)
  maxPending : Int
  stats : AsyncCheckerStats
  resultChan : List AsyncCheckResult
  called : List (Nat × AsyncCheckResult)
deriving DecidableEq

/-- `common.NewAsyncCheckerWithSettings`. -/
def AsyncCheckerImpl.new (maxPending : Int) : AsyncCheckerImpl :=
  { heap := [], requests := [], maxPending := maxPending,
    stats := { TotalRequests := 0, CompletedRequests := 0, FailedRequests := 0 },
    resultChan := [], called := [] }

/-- `AsyncCheckerImpl.CheckWithCheckerName` for the fresh request object
that `AsyncCheckerImpl.Submit` builds: `now` is the clock reading
`time.Now().UnixNano()` that goes into the identifier. `none` stands for the
error "too many pending requests". -/
def AsyncCheckerImpl.CheckWithCheckerName (c : AsyncCheckerImpl) (url versionExtractKey : Str)
    (checkTestVersion : Int) (callback : Bool) (checkerName : Str) (now : Int) :
    AsyncCheckerImpl × Option Str :=
  let requestID := checkerName ++ '-' :: fmtInt now
  if (c.requests.length : Int) ≥ c.maxPending then (c, none)
  else
    ({ c with
        heap := c.heap ++ [{ ID := requestID, URL := url, VersionExtractKey := versionExtractKey,
                             CheckTestVersion := checkTestVersion, Status := .pending,
                             Result := [], Error := none, Callback := callback }],
        requests := mapStore c.requests requestID c.heap.length,
        stats := { c.stats with TotalRequests := c.stats.TotalRequests + 1 } }, some requestID)

/-- `AsyncCheckerImpl.Submit`. -/
def AsyncCheckerImpl.Submit (c : AsyncCheckerImpl) (url versionExtractKey : Str)
    (checkTestVersion : Int) (callback : Bool) (now : Int) : AsyncCheckerImpl × Option Str :=
  c.CheckWithCheckerName url versionExtractKey checkTestVersion callback "http".toList now

/-- `AsyncCheckerImpl.SetMaxPending`. -/
def AsyncCheckerImpl.SetMaxPending (c : AsyncCheckerImpl) (max : Int) : AsyncCheckerImpl :=
  { c with maxPending := max }

/-- The locked section of `AsyncCheckerImpl.worker` that takes a request:
`p` is the first pending request that the iteration over the map meets; the
result is nil when `p` is not a stored pending request. -/
def AsyncCheckerImpl.pickUp (c : AsyncCheckerImpl) (p : Nat) : AsyncCheckerImpl × Option Nat :=
  if c.requests.any (fun e => e.2 = p) ∧ c.heap.status p = some .pending then
    ({ c with heap := c.heap.update p (fun r => { r with Status := .processing }) }, some p)
  else (c, none)

/-- The rest of a round of `AsyncCheckerImpl.worker` for the request `p` it
took: `getChecker` is the error of `factory.GetChecker`, if any, and `check`
what `checker.Check` returns. The result is sent on `resultChan`. -/
def AsyncCheckerImpl.workerSend (c : AsyncCheckerImpl) (p : Nat)
    (getChecker : Str → Option GoError) (check : Str → Str → Str × Option GoError) :
    AsyncCheckerImpl :=
  match c.heap.get? p with
  | some request =>
      match Split '-' request.ID with
      | checkerName :: _ :: _ =>
          match getChecker checkerName with
          | some err =>
              { c with resultChan := c.resultChan ++
                  [{ ID := request.ID, URL := [], Version := [], Error := some err,
                     Status := .failed }] }
          | none =>
              let r := check request.URL request.VersionExtractKey
              { c with resultChan := c.resultChan ++
                  [{ ID := request.ID, URL := [], Version := r.1, Error := r.2,
                     Status := if r.2.isSome then .failed else .completed }] }
      | _ =>
          { c with resultChan := c.resultChan ++
              [{ ID := request.ID, URL := [], Version := [],
                 Error := some (.plain "invalid request ID format".toList), Status := .failed }] }
  | none => c

/-- One round of `AsyncCheckerImpl.resultProcessor`: receive a result and
update the request stored under its identifier. -/
def AsyncCheckerImpl.resultProcessor (c : AsyncCheckerImpl) : AsyncCheckerImpl :=
  match c.resultChan with
  | [] => c
  | result :: rest =>
      match mapLookup c.requests result.ID with
      | some p =>
          { c with
              resultChan := rest,
              heap := c.heap.update p (fun r =>
                { r with Status := result.Status, Result := result.Version, Error := result.Error }),
              stats :=
                if result.Status = .completed then
                  { c.stats with CompletedRequests := c.stats.CompletedRequests + 1 }
                else { c.stats with FailedRequests := c.stats.FailedRequests + 1 } }
      | none => { c with resultChan := rest }

/-- The cancellation that `Remove` and `Clear` of `AsyncCheckerImpl` apply
to a stored request: a pending one becomes cancelled and its callback, if
any, is called. -/
def AsyncCheckerImpl.cancelIfPending (c : AsyncCheckerImpl) (id : Str) (p : Nat) :
    AsyncCheckerImpl :=
  match c.heap.get? p with
  | some request =>
      if request.Status = .pending then
        { c with
            heap := c.heap.update p (fun r => { r with Status := .cancelled }),
            stats := { c.stats with FailedRequests := c.stats.FailedRequests + 1 },
            called :=
              if request.Callback then
                c.called ++ [(p, { ID := id, URL := [], Version := [],
                                   Error := some (.plain "request cancelled".toList),
                                   Status := .cancelled })]
              else c.called }
      else c
  | none => c

/-- `AsyncCheckerImpl.Remove`; `false` stands for the error "request not found". -/
def AsyncCheckerImpl.Remove (c : AsyncCheckerImpl) (id : Str) : AsyncCheckerImpl × Bool :=
  match mapLookup c.requests id with
  | some p =>
      let c1 := c.cancelIfPending id p
      ({ c1 with requests := mapDelete c1.requests id }, true)
  | none => (c, false)

/-- `AsyncCheckerImpl.Clear`. -/
def AsyncCheckerImpl.Clear (c : AsyncCheckerImpl) : AsyncCheckerImpl :=
  let c1 := c.requests.foldl (fun acc e => acc.cancelIfPending e.1 e.2) c
  { c1 with requests := [] }

/-- The locked section of `AsyncCheckerImpl.resultProcessor` assigns
`request.Status`, `request.Result` and `request.Error` one after the other
(lines 400 to 402): the heap after the first, after the second and after the
third assignment. A goroutine that reads the request without the lock can
see each of them. -/
def AsyncCheckerImpl.resultProcessorWrites (c : AsyncCheckerImpl) : List Heap :=
  match c.resultChan with
  | [] => []
  | result :: _ =>
      match mapLookup c.requests result.ID with
      | some p =>
          let h1 := c.heap.update p (fun r => { r with Status := result.Status })
          let h2 := h1.update p (fun r => { r with Result := result.Version })
          let h3 := h2.update p (fun r => { r with Error := result.Error })
          [h1, h2, h3]
      | none => []

/-- `AsyncCheckerImpl.GetResult`. The map lookup is made under the read lock,
in the state `c`; the lock is released before the request is read, so the
reads of `request.Status` (lines 138 and 147), of `request.Result` (148) and
of `request.Error` (149) are made while other goroutines may write the
request: `atCheck`, `atStatus`, `atResult` and `atError` are the heaps at
these four reads. `none` stands for the error "request not found". -/
def AsyncCheckerImpl.GetResult (c : AsyncCheckerImpl) (requestID : Str)
    (atCheck atStatus atResult atError : Heap) : Option AsyncCheckResult :=
  match mapLookup c.requests requestID with
  | some p =>
      match atCheck.get? p, atStatus.get? p, atResult.get? p, atError.get? p with
      | some r1, some r2, some r3, some r4 =>
          if r1.Status = .pending then
            some { ID := requestID, URL := [], Version := [], Error := none, Status := .pending }
          else
            some { ID := requestID, URL := [], Version := r3.Result, Error := r4.Error,
                   Status := r2.Status }
      | _, _, _, _ => none
  | none => none

/-! ## `isCriticalError` (`checkers/async/async_check_utils.go`) -/

/-- The list `criticalErrors`. -/
def criticalErrors : List Str :=
  ["invalid URL", "unsupported protocol scheme", "no such host", "context canceled",
   "timeout"].map String.toList

/-- The list `networkErrors`. -/
def networkErrors : List Str :=
  ["connection refused", "connection reset", "connection timeout", "network is unreachable",
   "no route to host", "temporary failure", "deadline exceeded", "operation timed out",
   "request canceled", "client timeout", "TLS handshake"].map String.toList

/-- The type assertion `err.(net.Error)`. -/
def GoError.isNetError : GoError → Bool
  | .plain _ => false
  | .netError _ => true
  | .urlError _ _ => true

/-- `isNetworkError` on a non-nil error. -/
def GoError.isNetworkError : GoError → Bool
  | .plain msg => networkErrors.any (fun ne => Contains (ToLower msg) (ToLower ne))
  | .netError _ => true
  | .urlError msg inner =>
      networkErrors.any (fun ne => Contains (ToLower msg) (ToLower ne))
        || (GoError.urlError msg inner).isNetError || inner.isNetworkError

/-- `isNetworkError`. -/
def isNetworkError : Option GoError → Bool
  | none => false
  | some err => err.isNetworkError

/-- `isCriticalError`. -/
def isCriticalError : Option GoError → Bool
  | none => false
  | some err =>
      if isNetworkError (some err) then false
      else criticalErrors.any (fun ce => Contains (ToLower err.Error) (ToLower ce))

/-! ## `async.AsyncChecker` (`checkers/async/async_checker.go`) -/

/-- The state of an `AsyncChecker`: the request objects, the map `requests`,
the statistics, the buffered channel `resultChan` with its capacity, and the
callbacks started so far (pointer of the request and argument). -/
structure AsyncChecker where
  heap : Heap
  requests : List (Str × Nat)
  maxPending : Int
  resultChanSize : Nat
  stats : AsyncCheckerStats
  resultChan : List AsyncCheckResult
  called : List (Nat × AsyncCheckResult)
deriving DecidableEq

/-- `async.NewAsyncCheckerWithSettings`. -/
def NewAsyncCheckerWithSettings (maxPending : Int) (resultChanSize : Nat) : AsyncChecker :=
  { heap := [], requests := [], maxPending := maxPending, resultChanSize := resultChanSize,
    stats := { TotalRequests := 0, CompletedRequests := 0, FailedRequests := 0 },
    resultChan := [], called := [] }

/-- `AsyncChecker.Submit`: `id` is the value of `generateAsyncCheckID`, a
hash of the three arguments and the clock. `none` stands for the error of a
full map. -/
def AsyncChecker.Submit (a : AsyncChecker) (id url versionExtractKey : Str)
    (checkTestVersion : Int) (callback : Bool) : AsyncChecker × Option Str :=
  if (mapLookup a.requests id).isSome then (a, some id)
  else if (a.requests.length : Int) ≥ a.maxPending then (a, none)
  else
    ({ a with
        heap := a.heap ++ [{ ID := id, URL := url, VersionExtractKey := versionExtractKey,
                             CheckTestVersion := checkTestVersion, Status := .pending,
                             Result := [], Error := none, Callback := callback }],
        requests := mapStore a.requests id a.heap.length,
        stats := { a.stats with TotalRequests := a.stats.TotalRequests + 1 } }, some id)

/-- `AsyncChecker.getNextPendingRequest`: `p` is the first pending request
that the iteration over the map meets; the result is nil when `p` is not a
stored pending request. -/
def AsyncChecker.getNextPendingRequest (a : AsyncChecker) (p : Nat) : AsyncChecker × Option Nat :=
  if a.requests.any (fun e => e.2 = p) ∧ a.heap.status p = some .pending then
    ({ a with heap := a.heap.update p (fun r => { r with Status := .processing }) }, some p)
  else (a, none)

/-- What the retry loop of `processRequest` did: the number of calls of
`CheckSingle`, the seconds slept before the retries, and the version or
`lastErr`. -/
structure Attempts where
  calls : Nat
  sleeps : List Nat
  outcome : Except (Option GoError) Str

/-- The loop `for retry := 0; retry <= maxRetries; retry++` of
`processRequest` from the round `retry` on, with `rounds` rounds left:
`checkSingle k` is what the call of `CheckSingle` in round `k` returns. -/
def retryFrom (checkSingle : Nat → Except GoError Str) (retry : Nat) (lastErr : Option GoError)
    (sleeps : List Nat) : Nat → Attempts
  | 0 => { calls := retry, sleeps := sleeps, outcome := .error lastErr }
  | rounds + 1 =>
      let sleeps1 := if retry > 0 then sleeps ++ [retry * retry] else sleeps
      match checkSingle retry with
      | .ok version => { calls := retry + 1, sleeps := sleeps1, outcome := .ok version }
      | .error err =>
          if isCriticalError (some err) then
            { calls := retry + 1, sleeps := sleeps1, outcome := .error (some err) }
          else retryFrom checkSingle (retry + 1) (some err) sleeps1 rounds

/-- The constant `maxRetries` of `processRequest`. -/
def maxRetries : Nat := 3

/-- The retry loop of `processRequest`. -/
def retryLoop (checkSingle : Nat → Except GoError Str) : Attempts :=
  retryFrom checkSingle 0 none [] (maxRetries + 1)

/-- `AsyncChecker.sendResult`: the result goes to `resultChan` unless the
channel is full, and the callback, if any, is started with it. -/
def AsyncChecker.sendResult (a : AsyncChecker) (p : Nat) (err : Option GoError) (version : Str) :
    AsyncChecker :=
  match a.heap.get? p with
  | some request =>
      let result : AsyncCheckResult :=
        { ID := request.ID, URL := request.URL, Version := version, Error := err,
          Status := request.Status }
      { a with
          resultChan :=
            if a.resultChan.length < a.resultChanSize then a.resultChan ++ [result]
            else a.resultChan,
          called := if request.Callback then a.called ++ [(p, result)] else a.called }
  | none => a

/-- `AsyncChecker.processRequest` for the request behind `p`. -/
def AsyncChecker.processRequest (a : AsyncChecker) (p : Nat)
    (checkSingle : Nat → Except GoError Str) : AsyncChecker :=
  match (retryLoop checkSingle).outcome with
  | .ok version =>
      let a1 : AsyncChecker :=
        { a with
            heap := a.heap.update p (fun r => { r with Status := .completed, Result := version }),
            stats := { a.stats with CompletedRequests := a.stats.CompletedRequests + 1 } }
      a1.sendResult p none version
  | .error lastErr =>
      let a1 : AsyncChecker :=
        { a with
            heap := a.heap.update p (fun r => { r with Status := .failed, Error := lastErr }),
            stats := { a.stats with FailedRequests := a.stats.FailedRequests + 1 } }
      a1.sendResult p lastErr []

/-- One round of `AsyncChecker.processResults`: a result is taken from the channel. -/
def AsyncChecker.processResults (a : AsyncChecker) : AsyncChecker :=
  { a with resultChan := a.resultChan.tail }

/-- `AsyncChecker.Remove`; `false` stands for the error of an unknown identifier. -/
def AsyncChecker.Remove (a : AsyncChecker) (id : Str) : AsyncChecker × Bool :=
  if (mapLookup a.requests id).isSome then ({ a with requests := mapDelete a.requests id }, true)
  else (a, false)

/-- `AsyncChecker.Clear`. -/
def AsyncChecker.Clear (a : AsyncChecker) : AsyncChecker :=
  { a with requests := [] }

/-- `AsyncChecker.GetResult`; `none` stands for either error. -/
def AsyncChecker.GetResult (a : AsyncChecker) (id : Str) : Option AsyncCheckResult :=
  match mapLookup a.requests id with
  | some p =>
      match a.heap.get? p with
      | some request =>
          if request.Status ≠ .completed ∧ request.Status ≠ .failed then none
          else
            some { ID := request.ID, URL := request.URL, Version := request.Result,
                   Error := request.Error, Status := request.Status }
      | none => none
  | none => none

/-! ## The orchestrators with their workers -/

/-- An `AsyncChecker` together with the request objects that its workers
hold: those that `getNextPendingRequest` handed to a worker whose
`processRequest` has not yet run. -/
structure AsyncSystem where
  checker : AsyncChecker
  held : List Nat

/-- The operations on an `AsyncChecker`: the calls of its methods by clients
and the steps of its goroutines. -/
inductive AsyncOp where
  | submit (id url versionExtractKey : Str) (checkTestVersion : Int) (callback : Bool)
  | pick (p : Nat)
  | process (p : Nat) (checkSingle : Nat → Except GoError Str)
  | results
  | remove (id : Str)
  | clear

/-- One operation: a worker calls `processRequest` only for a request it holds. -/
def AsyncSystem.step (s : AsyncSystem) : AsyncOp → AsyncSystem
  | .submit id url key flag callback =>
      { s with checker := (s.checker.Submit id url key flag callback).1 }
  | .pick p =>
      match s.checker.getNextPendingRequest p with
      | (a, some q) => { checker := a, held := q :: s.held }
      | (a, none) => { s with checker := a }
  | .process p checkSingle =>
      if p ∈ s.held then
        { checker := s.checker.processRequest p checkSingle, held := s.held.erase p }
      else s
  | .results => { s with checker := s.checker.processResults }
  | .remove id => { s with checker := (s.checker.Remove id).1 }
  | .clear => { s with checker := s.checker.Clear }

/-- A sequence of operations. -/
def AsyncSystem.run (s : AsyncSystem) (ops : List AsyncOp) : AsyncSystem :=
  ops.foldl AsyncSystem.step s

/-- A started `AsyncChecker`. -/
def AsyncSystem.new (maxPending : Int) (resultChanSize : Nat) : AsyncSystem :=
  { checker := NewAsyncCheckerWithSettings maxPending resultChanSize, held := [] }

/-- An `AsyncCheckerImpl` together with the request objects that its workers
hold: those a worker took and has not yet sent a result for. -/
structure ImplSystem where
  checker : AsyncCheckerImpl
  held : List Nat

/-- The operations on an `AsyncCheckerImpl`. -/
inductive ImplOp where
  | submit (url versionExtractKey : Str) (checkTestVersion : Int) (callback : Bool) (now : Int)
  | pick (p : Nat)
  | send (p : Nat) (getChecker : Str → Option GoError) (check : Str → Str → Str × Option GoError)
  | results
  | remove (id : Str)
  | clear
  | setMaxPending (max : Int)

/-- One operation: a worker sends a result only for a request it holds. -/
def ImplSystem.step (s : ImplSystem) : ImplOp → ImplSystem
  | .submit url key flag callback now =>
      { s with checker := (s.checker.Submit url key flag callback now).1 }
  | .pick p =>
      match s.checker.pickUp p with
      | (c, some q) => { checker := c, held := q :: s.held }
      | (c, none) => { s with checker := c }
  | .send p getChecker check =>
      if p ∈ s.held then
        { checker := s.checker.workerSend p getChecker check, held := s.held.erase p }
      else s
  | .results => { s with checker := s.checker.resultProcessor }
  | .remove id => { s with checker := (s.checker.Remove id).1 }
  | .clear => { s with checker := s.checker.Clear }
  | .setMaxPending max => { s with checker := s.checker.SetMaxPending max }

/-- A sequence of operations. -/
def ImplSystem.run (s : ImplSystem) (ops : List ImplOp) : ImplSystem :=
  ops.foldl ImplSystem.step s

/-- A started `AsyncCheckerImpl`. -/
def ImplSystem.new (maxPending : Int) : ImplSystem :=
  { checker := AsyncCheckerImpl.new maxPending, held := [] }

/-- Whether the operation leaves the limit `maxPending` as it is: every
operation but `SetMaxPending`. -/
def ImplOp.keepsLimit : ImplOp → Bool
  | .setMaxPending _ => false
  | _ => true

/-- The edges of the state machine of a request's status: pending to
processing, processing to completed or failed, pending to cancelled. -/
def Status.edge : Status → Status → Bool
  | .pending, .processing => true
  | .processing, .completed => true
  | .processing, .failed => true
  | .pending, .cancelled => true
  | _, _ => false

/-- The terminal statuses. -/
def Status.terminal : Status → Bool
  | .completed => true
  | .failed => true
  | .cancelled => true
  | _ => false

/-- What holds in every state of an `AsyncSystem` reached from a new one: the
held requests are distinct and in status processing, and a request object
has an error exactly in status failed. -/
def AsyncSystem.Inv (s : AsyncSystem) : Prop :=
  s.held.Nodup ∧ (∀ p ∈ s.held, s.checker.heap.status p = some .processing) ∧
  (∀ p r, s.checker.heap.get? p = some r →
    (r.Status = .failed → r.Error ≠ none) ∧ (r.Status ≠ .failed → r.Error = none))

/-- The identifier of the object behind a pointer. -/
def Heap.id (h : Heap) (p : Nat) : Option Str :=
  (h.get? p).map (fun r => r.ID)

/-- What holds in every state of an `AsyncCheckerImpl` with the held requests
`held`, when no identifier was given out twice: the request objects have
distinct identifiers, a stored pointer is an object with the identifier it is
stored under, the held requests are distinct and in status processing, and
the results in `resultChan` have distinct identifiers, a status completed or
failed, and belong to objects in status processing that no worker holds. -/
def ImplInv (c : AsyncCheckerImpl) (held : List Nat) : Prop :=
  (c.heap.map (fun r => r.ID)).Nodup ∧
  (∀ e ∈ c.requests, c.heap.id e.2 = some e.1) ∧
  held.Nodup ∧
  (∀ p ∈ held, c.heap.status p = some .processing) ∧
  (c.resultChan.map (fun r => r.ID)).Nodup ∧
  (∀ r ∈ c.resultChan, (r.Status = .completed ∨ r.Status = .failed) ∧
    ∃ p, p ∉ held ∧ c.heap.id p = some r.ID ∧ c.heap.status p = some .processing)

/-- The invariant of an `ImplSystem`. -/
def ImplSystem.Inv (s : ImplSystem) : Prop := ImplInv s.checker s.held

/-- Whether the operation, if it is a `Submit`, reads a clock value whose
identifier no request object has yet. -/
def ImplSystem.fresh (s : ImplSystem) : ImplOp → Bool
  | .submit _ _ _ _ now =>
      !(s.checker.heap.any (fun r => r.ID = "http".toList ++ '-' :: fmtInt now))
  | _ => true

/-- Whether every `Submit` of the sequence gets an identifier of its own. -/
def ImplSystem.freshRun : ImplSystem → List ImplOp → Bool
  | _, [] => true
  | s, op :: ops => s.fresh op && ImplSystem.freshRun (s.step op) ops

/-! ## `EnhancedConcurrentChecker` (`checkers/async/enhanced_concurrent_checker.go`) -/

/-- `EnhancedConcurrentChecker.processRequest`: the result that the callback
of the request is called with, if it has one. `cacheGet` is what
`cache.Get(cacheKey)` finds and `autoCheck` gives the version and the error of
`factory.AutoCheck`. -/
def EnhancedConcurrentChecker.processRequest (cacheGet : Option Str)
    (autoCheck : Str → Str → Str × Option GoError) (req : AsyncCheckRequest) :
    Option AsyncCheckResult :=
  match cacheGet with
  | some cachedVersion =>
      if req.Callback then
        some { ID := req.ID, URL := req.URL, Version := cachedVersion, Error := none,
               Status := .completed }
      else none
  | none =>
      let r := autoCheck req.URL req.VersionExtractKey
      let req1 : AsyncCheckRequest :=
        match r.2 with
        | some err => { req with Error := some err, Status := .failed }
        | none => { req with Result := r.1, Status := .completed }
      if req1.Callback then
        some { ID := req1.ID, URL := req1.URL, Version := req1.Result, Error := req1.Error,
               Status := if req1.Error.isSome then .failed else .completed }
      else none

/-- `EnhancedConcurrentChecker.CheckMultipleWithDynamicConcurrency`:
`cancelled idx` says whether the context is done when the goroutine of the
request `idx` looks at it, and `ctxErr` is `ctx.Err()` then. -/
def EnhancedConcurrentChecker.CheckMultipleWithDynamicConcurrency (cancelled : Nat → Bool)
    (ctxErr : GoError) (autoCheck : Str → Str → Str × Option GoError)
    (requests : List AsyncCheckRequest) : List AsyncCheckResult :=
  requests.enum.map (fun ir =>
    if cancelled ir.1 then
      { ID := ir.2.ID, URL := ir.2.URL, Version := [], Error := some ctxErr, Status := .failed }
    else
      { ID := ir.2.ID, URL := ir.2.URL, Version := (autoCheck ir.2.URL ir.2.VersionExtractKey).1,
        Error := (autoCheck ir.2.URL ir.2.VersionExtractKey).2, Status := .completed })

/-- The invariant of the results: a terminal status, and no error exactly in
status completed. -/
def AsyncCheckResult.wellFormed (r : AsyncCheckResult) : Prop :=
  r.Status.terminal = true ∧ (r.Error = none ↔ r.Status = .completed)

instance (r : AsyncCheckResult) : Decidable r.wellFormed := by
  unfold AsyncCheckResult.wellFormed
  infer_instance

/-- What holds of the results of an `AsyncCheckerImpl` in every state: a
result in the channel is completed without error or failed with one, a
request object has an error exactly in status failed, and the callbacks were
called with cancelled results that carry an error. -/
def ImplResultsInv (c : AsyncCheckerImpl) : Prop :=
  (∀ r ∈ c.resultChan, (r.Status = .completed ∨ r.Status = .failed) ∧
    (r.Error = none ↔ r.Status = .completed)) ∧
  (∀ p r, c.heap.get? p = some r → (r.Error = none ↔ r.Status ≠ .failed)) ∧
  (∀ x ∈ c.called, x.2.Status = .cancelled ∧ x.2.Error ≠ none)

/-! ## The cache of the concurrent checker (`checkers/async/upstream_concurrent_checker.go`) -/

/-- `CacheEntry`; a time is a number of nanoseconds. -/
structure CacheEntry where
  Version : Str
  ExpiryTime : Int
  LastAccess : Int
deriving DecidableEq

/-- `CheckCache`. -/
structure CheckCache where
  cache : List (Str × CacheEntry)
  ttl : Int
  maxSize : Int
  evictionPolicy : Str
  keyQueue : List Str
deriving DecidableEq

/-- `NewCheckCache`. -/
def NewCheckCache (ttl : Int) (maxSize : Int) (evictionPolicy : Str) : CheckCache :=
  { cache := [], ttl := ttl, maxSize := maxSize,
    evictionPolicy :=
      if evictionPolicy ≠ "lru".toList ∧ evictionPolicy ≠ "fifo".toList then "lru".toList
      else evictionPolicy,
    keyQueue := [] }

/-- `CheckCache.removeKey`: the key leaves the map, and its first occurrence
leaves the queue. -/
def CheckCache.removeKey (c : CheckCache) (key : Str) : CheckCache :=
  { c with cache := mapDelete c.cache key, keyQueue := c.keyQueue.erase key }

/-- `CheckCache.Get` at the time `now`. -/
def CheckCache.Get (c : CheckCache) (key : Str) (now : Int) : CheckCache × Option Str :=
  match mapLookup c.cache key with
  | none => (c, none)
  | some entry =>
      if now > entry.ExpiryTime then (c.removeKey key, none)
      else if c.evictionPolicy = "lru".toList then
        ({ c with cache := mapStore c.cache key { entry with LastAccess := now } },
         some entry.Version)
      else (c, some entry.Version)

/-- The loop of `evict` over the map under the lru policy: the key and the
time of the entry to remove, after the entries `entries`. `none` stands for
`first = true`. -/
def oldestEntry : List (Str × CacheEntry) → Option (Str × Int) → Option (Str × Int)
  | [], acc => acc
  | (key, entry) :: rest, none => oldestEntry rest (some (key, entry.LastAccess))
  | (key, entry) :: rest, some (oldestKey, oldestTime) =>
      if entry.LastAccess < oldestTime then oldestEntry rest (some (key, entry.LastAccess))
      else oldestEntry rest (some (oldestKey, oldestTime))

/-- `CheckCache.evict`. -/
def CheckCache.evict (c : CheckCache) : CheckCache :=
  if c.cache.length = 0 then c
  else if c.evictionPolicy = "lru".toList then
    match oldestEntry c.cache none with
    | some (oldestKey, _) => if oldestKey ≠ [] then c.removeKey oldestKey else c
    | none => c
  else
    match c.keyQueue with
    | oldestKey :: rest => { c with keyQueue := rest, cache := mapDelete c.cache oldestKey }
    | [] => c

/-- `CheckCache.Set` at the time `now`. -/
def CheckCache.Set (c : CheckCache) (key version : Str) (now : Int) : CheckCache :=
  let c1 := if (c.cache.length : Int) ≥ c.maxSize then c.evict else c
  { c1 with
      cache := mapStore c1.cache key
        { Version := version, ExpiryTime := now + c1.ttl, LastAccess := now },
      keyQueue := c1.keyQueue ++ [key] }

/-- `CheckCache.ClearExpired` at the time `now`. -/
def CheckCache.ClearExpired (c : CheckCache) (now : Int) : CheckCache :=
  ((c.cache.filter (fun e => now > e.2.ExpiryTime)).map (fun e => e.1)).foldl
    CheckCache.removeKey c

/-- `CheckCache.GetSize`. -/
def CheckCache.GetSize (c : CheckCache) : Int := c.cache.length

/-- `ConcurrentChecker.ClearCache`, on the cache of the checker. -/
def ClearCache (c : CheckCache) : CheckCache :=
  { c with cache := [] }

/-- The calls of the factory that `CheckSingle` makes. -/
inductive FactoryCall where
  | AutoCheck (url versionExtractKey : Str)
  | CheckWithVersionRef (checkerName url versionExtractKey versionRef : Str)
      (checkTestVersion : Int)
deriving DecidableEq

/-- The factory of a `ConcurrentChecker`: `AutoCheck` gives the version and
the checker name, or an error. -/
structure CheckerFactory where
  AutoCheck : Str → Str → Except GoError (Str × Str)
  CheckWithVersionRef : Str → Str → Str → Str → Int → Except GoError Str

/-- `ConcurrentChecker.CheckSingle`: `generateCacheKey` is the hash of the
three arguments, `nowGet` and `nowSet` are the times of the cache lookup and
of the cache write. The result is the cache afterwards, what is returned, and
the calls of the factory. -/
def CheckSingle (generateCacheKey : Str → Str → Int → Str) (factory : CheckerFactory)
    (c : CheckCache) (url versionExtractKey : Str) (checkTestVersion : Int)
    (nowGet nowSet : Int) : CheckCache × Except GoError Str × List FactoryCall :=
  let cacheKey := generateCacheKey url versionExtractKey checkTestVersion
  match c.Get cacheKey nowGet with
  | (c1, some version) => (c1, .ok version, [])
  | (c1, none) =>
      match factory.AutoCheck url versionExtractKey with
      | .error err => (c1, .error err, [.AutoCheck url versionExtractKey])
      | .ok (_, checkerName) =>
          match factory.CheckWithVersionRef checkerName url versionExtractKey [] checkTestVersion with
          | .error err =>
              (c1, .error err,
                [.AutoCheck url versionExtractKey,
                 .CheckWithVersionRef checkerName url versionExtractKey [] checkTestVersion])
          | .ok version =>
              (c1.Set cacheKey version nowSet, .ok version,
                [.AutoCheck url versionExtractKey,
                 .CheckWithVersionRef checkerName url versionExtractKey [] checkTestVersion])

/-- The operations on a cache. -/
inductive CacheOp where
  | set (key version : Str) (now : Int)
  | get (key : Str) (now : Int)
  | clearExpired (now : Int)
  | clearCache

/-- One operation. -/
def CheckCache.step (c : CheckCache) : CacheOp → CheckCache
  | .set key version now => c.Set key version now
  | .get key now => (c.Get key now).1
  | .clearExpired now => c.ClearExpired now
  | .clearCache => ClearCache c

/-- A sequence of operations. -/
def CheckCache.run (c : CheckCache) (ops : List CacheOp) : CheckCache :=
  ops.foldl CheckCache.step c

/-- A factory that finds the version "3.1" with the checker "http". -/
def sampleFactory : CheckerFactory :=
  { AutoCheck := fun _ _ => .ok ("3.1".toList, "http".toList),
    CheckWithVersionRef := fun _ _ _ _ _ => .ok "3.1".toList }

/-- A factory that fails. -/
def failingFactory : CheckerFactory :=
  { AutoCheck := fun _ _ => .error (.plain "HTTP 500".toList),
    CheckWithVersionRef := fun _ _ _ _ _ => .error (.plain "HTTP 500".toList) }

/-- A standardized version carries no weight in `CompareVersionStrings` when,
after `NormalizeVersionString`, all its numbers are zero and it has no letter run. -/
def weightless (t : Str) : Bool :=
  (ExtractVersionComponentsFromString (NormalizeVersionString t)).1.all (fun n => n == 0)
    && (ExtractVersionComponentsFromString (NormalizeVersionString t)).2.isEmpty

/-! ## The cache between two calls of `CheckSingle` -/

/-- Whether the clock reading of the operation, if it has one, lies between
`lo` and `hi`. -/
def CacheOp.within (lo hi : Int) : CacheOp → Bool
  | .set _ _ now => decide (lo ≤ now) && decide (now ≤ hi)
  | .get _ now => decide (lo ≤ now) && decide (now ≤ hi)
  | .clearExpired now => decide (lo ≤ now) && decide (now ≤ hi)
  | .clearCache => true

/-- Whether the operation on the cache `c` evicts the entry of `key`: a `Set`
that finds the cache full and whose `evict` removes the key, or `ClearCache`. -/
def CheckCache.evictsKey (c : CheckCache) (key : Str) : CacheOp → Bool
  | .set _ _ _ =>
      decide ((c.cache.length : Int) ≥ c.maxSize) && (mapLookup c.cache key).isSome
        && (mapLookup c.evict.cache key).isNone
  | .get _ _ => false
  | .clearExpired _ => false
  | .clearCache => true

/-- Whether no operation of the sequence evicts the entry of `key`. -/
def CheckCache.keepsKey (key : Str) : CheckCache → List CacheOp → Bool
  | _, [] => true
  | c, op :: ops => !(c.evictsKey key op) && CheckCache.keepsKey key (c.step op) ops

/-- The version last stored under `key`: `v`, or what the last `Set` of the
key among the operations wrote. -/
def lastStored (key : Str) : Str → List CacheOp → Str
  | v, [] => v
  | v, .set k w _ :: ops => lastStored key (if k = key then w else v) ops
  | v, .get _ _ :: ops => lastStored key v ops
  | v, .clearExpired _ :: ops => lastStored key v ops
  | v, .clearCache :: ops => lastStored key v ops

/-! ## The version texts that `cleanVersionWithOption` leaves as they are -/

/-- Whether the text begins with a letter, with "32" or with "64". -/
def startsToken : Str → Bool
  | '3' :: '2' :: _ => true
  | '6' :: '4' :: _ => true
  | d :: _ => d.isAlpha
  | [] => false

/-- Whether no dot and no hyphen of the text is followed by a letter, by
"32" or by "64". -/
def noTokenAfterSep : Str → Bool
  | [] => true
  | c :: rest => !((c == '.' || c == '-') && startsToken rest) && noTokenAfterSep rest

/-- A plain version text: ASCII letters, digits, dots and hyphens only, no
"V" at the start, no hyphen at the end, and no dot or hyphen followed by a
letter, by "32" or by "64". The empty text is plain. -/
def plainVersion (w : Str) : Bool :=
  w.all (fun c => c.isAlphanum || c == '.' || c == '-')
    && !(w.head? == some 'V') && !(w.getLast? == some '-') && noTokenAfterSep w

/-- The platform, test and suffix patterns that `cleanVersionWithOption`
searches for. -/
def cleaningPatterns : List Regex :=
  platformRegexes false ++ testRegexes false ++ platformSuffixes

/-- A settled version text: ASCII letters, digits, dots and hyphens only, no
"V" at the start, no hyphen at the end, and no match of a platform, test or
suffix pattern in it. The empty text is settled. -/
def settledVersion (w : Str) : Bool :=
  w.all (fun c => c.isAlphanum || c == '.' || c == '-')
    && !(w.head? == some 'V') && !(w.getLast? == some '-')
    && cleaningPatterns.all (fun p => !p.MatchString w)

/-! ## Definitions used in the proofs -/

/-- The shape shared by the two loops of `CompareVersionStrings`: compare
position by position, a missing entry read as `d`. -/
def padLoop {α : Type} (lt : α → α → Bool) (d : α) (v1 v2 : List α) : Nat → Nat → Option Int
  | 0, _ => none
  | k + 1, i =>
      if lt (v2.getD i d) (v1.getD i d) then some 1
      else if lt (v1.getD i d) (v2.getD i d) then some (-1)
      else padLoop lt d v1 v2 k (i + 1)

/-- A strict total order given as a boolean test. -/
structure StrictTotal {α : Type} (lt : α → α → Bool) : Prop where
  irrefl : ∀ a, lt a a = false
  trans : ∀ a b c, lt a b = true → lt b c = true → lt a c = true
  tri : ∀ a b, lt a b = false → lt b a = false → a = b

/-- The verdict of two loops run one after the other. -/
def verdictOf (a b : Option Int) : Int :=
  match a with
  | some r => r
  | none =>
      match b with
      | some r => r
      | none => 0

/-! ## Character classes -/

/-- The declarative reading of `Re.run`: `Parses r w cs cs2` says that `r`
matches exactly the text `w` and turns the captures `cs` into `cs2`. -/
inductive Parses : Re → Str → Caps → Caps → Prop
  | cls (p : Char → Bool) (c : Char) (cs : Caps) : p c = true → Parses (.cls p) [c] cs cs
  | eps (cs : Caps) : Parses .eps [] cs cs
  | seq (a b : Re) (w1 w2 : Str) (cs cs1 cs2 : Caps) :
      Parses a w1 cs cs1 → Parses b w2 cs1 cs2 → Parses (.seq a b) (w1 ++ w2) cs cs2
  | altL (a b : Re) (w : Str) (cs cs1 : Caps) : Parses a w cs cs1 → Parses (.alt a b) w cs cs1
  | altR (a b : Re) (w : Str) (cs cs1 : Caps) : Parses b w cs cs1 → Parses (.alt a b) w cs cs1
  | starNil (a : Re) (cs : Caps) : Parses (.star a) [] cs cs
  | starCons (a : Re) (w1 w2 : Str) (cs cs1 cs2 : Caps) :
      Parses a w1 cs cs1 → Parses (.star a) w2 cs1 cs2 → Parses (.star a) (w1 ++ w2) cs cs2
  | grp (i : Nat) (a : Re) (w : Str) (cs cs1 : Caps) :
      Parses a w cs cs1 → Parses (.grp i a) w cs ((i, w) :: cs1)

/-- The relation between the statuses before and after a cancellation. -/
def cancelOrSame (st st2 : Status) : Prop := st2 = st ∨ (st = .pending ∧ st2 = .cancelled)

/-- Whether the expression matches the empty text. -/
def Re.nullable : Re → Bool
  | .cls _ => false
  | .eps => true
  | .seq a b => a.nullable && b.nullable
  | .alt a b => a.nullable || b.nullable
  | .star _ => true
  | .grp _ a => a.nullable

/-- Whether every starred subexpression consumes text in each round. -/
def Re.starsConsume : Re → Bool
  | .cls _ => true
  | .eps => true
  | .seq a b => a.starsConsume && b.starsConsume
  | .alt a b => a.starsConsume && b.starsConsume
  | .star a => !a.nullable && a.starsConsume
  | .grp _ a => a.starsConsume

/-- Whether the expression has no capture group. -/
def Re.groupFree : Re → Bool
  | .cls _ => true
  | .eps => true
  | .seq a b => a.groupFree && b.groupFree
  | .alt a b => a.groupFree && b.groupFree
  | .star a => a.groupFree
  | .grp _ _ => false

/-- The pattern `^\d+(\.\d+)*$`: a dotted decimal number. -/
def dottedNumber : Regex := ⟨true, reDotted, true⟩

/-! ## Decimal numerals -/

/-- A decimal numeral without a superfluous leading zero. -/
def canonicalNumeral (s : Str) : Prop :=
  s = ['0'] ∨ ∃ c t, s = c :: t ∧ c ≠ '0'

/-- The rank of a pre-release identifier in `comparePrePart`: a missing
identifier, then the numbers by value, then the other texts. -/
inductive PreKey where
  | absent : PreKey
  | num : Nat → PreKey
  | text : Str → PreKey
deriving DecidableEq

/-- The rank of the identifier `s`. -/
def preKey (s : Str) : PreKey :=
  if s = [] then .absent
  else
    match ParseUint s with
    | some n => .num n
    | none => .text s

/-- The order of the ranks. -/
def PreKey.lt : PreKey → PreKey → Bool
  | .absent, .absent => false
  | .absent, _ => true
  | .num _, .absent => false
  | .num a, .num b => decide (a < b)
  | .num _, .text _ => true
  | .text _, .absent => false
  | .text _, .num _ => false
  | .text a, .text b => strLt a b

/-- An identifier that, when it is a decimal numeral, has no superfluous
leading zero. -/
def canonicalId (s : Str) : Prop :=
  s ≠ [] → s.all isDigitC = true → canonicalNumeral s

/-- The comparison of the three numbers of two versions, as a padded loop. -/
def segLoop (a b : Version) : Option Int :=
  padLoop (fun x y : Int => decide (x < y)) 0 [a.major, a.minor, a.patch]
    [b.major, b.minor, b.patch] 3 0

/-- The comparison of two pre-release texts in `Version.Compare`, as a
verdict: a version without pre-release is above one with. -/
def preVerdict (k : Nat) (p q : Str) : Option Int :=
  if p.isEmpty && q.isEmpty then none
  else if p.isEmpty then some 1
  else if q.isEmpty then some (-1)
  else padLoop PreKey.lt .absent ((Split '.' p).map preKey) ((Split '.' q).map preKey) k 0

/-- A pre-release text whose identifiers are canonical. -/
def canonicalPre (p : Str) : Prop := ∀ x ∈ Split '.' p, canonicalId x

/-- Whether some character class of the expression accepts the character. -/
def Re.accepts : Re → Char → Bool
  | .cls p, c => p c
  | .eps, _ => false
  | .seq a b, c => a.accepts c || b.accepts c
  | .alt a b, c => a.accepts c || b.accepts c
  | .star a, c => a.accepts c
  | .grp _ a, c => a.accepts c

/-- Whether the expression has a group numbered `i`. -/
def Re.hasGroup : Re → Nat → Bool
  | .cls _, _ => false
  | .eps, _ => false
  | .seq a b, i => a.hasGroup i || b.hasGroup i
  | .alt a b, i => a.hasGroup i || b.hasGroup i
  | .star a, i => a.hasGroup i
  | .grp j a, i => j == i || a.hasGroup i

/-- The pre-release part of a version text: what stands after a "-" that
comes before any "+", up to the next "+". -/
def preOf (s : Str) : Str :=
  match s.dropWhile (fun c => c != '-' && c != '+') with
  | '-' :: r => r.takeWhile (fun c => c != '+')
  | _ => []

/-- The invariant of the cache between the two calls: the keys of the map are
distinct, the ttl is `ttl`, and the key holds an entry with the version `w`
that does not expire before `expiry`. -/
def CheckCache.holds (c : CheckCache) (key w : Str) (ttl expiry : Int) : Prop :=
  (c.cache.map (fun e => e.1)).Nodup ∧ c.ttl = ttl ∧
    ∃ entry, mapLookup c.cache key = some entry ∧ entry.Version = w ∧ expiry ≤ entry.ExpiryTime

/-- The ASCII characters. -/
def asciiChars : List Char := (List.range 128).map Char.ofNat

/-- The pattern matches no part of the text. -/
def Regex.nowhere (p : Regex) (w : Str) : Prop :=
  ∀ pre x post cs, w = pre ++ x ++ post → ¬ Parses p.re x [] cs

/-- Every text that the expression matches begins with a separator followed
by the start of a token. -/
def Re.tokenLike (r : Re) : Prop :=
  ∀ w cs cs2, Parses r w cs cs2 → ∃ c rest, w = c :: rest ∧ isSepC c = true ∧
    ((∀ x ∈ rest, x ∈ asciiChars) → startsToken rest = true ∨ rest.head? = some '_')

/-- Whether every ASCII text that matches the token under `(?i)` begins as
`startsToken` says, or with an underscore. -/
def tokOk (tok : List Char) : Bool :=
  match tok with
  | [] => false
  | [t0] => asciiChars.all (fun d => !foldEq t0 d || d == '_' || d.isAlpha)
  | t0 :: t1 :: _ =>
      asciiChars.all (fun d => !foldEq t0 d || d == '_'
        || asciiChars.all (fun e => !foldEq t1 e || startsToken [d, e]))

/-- Whether the literal text is a separator followed by the start of a token. -/
def litOk (l : List Char) : Bool :=
  match l with
  | c :: rest => isSepC c && startsToken rest
  | [] => false

/-! ## The loops of `CompareVersionStrings` -/

theorem compareNumsLoop_eq (v1 v2 : List Int) (k i : Nat) :
    compareNumsLoop v1 v2 k i = padLoop (fun a b => decide (a < b)) 0 v1 v2 k i := by
  induction k generalizing i with
  | zero => rfl
  | succ k ih => simp only [compareNumsLoop, padLoop, ih, gt_iff_lt, decide_eq_true_eq]

theorem compareStrsLoop_eq (v1 v2 : List Str) (k i : Nat) :
    compareStrsLoop v1 v2 k i = padLoop strLt [] v1 v2 k i := by
  induction k generalizing i with
  | zero => rfl
  | succ k ih => simp only [compareStrsLoop, padLoop, ih]

theorem StrictTotal.asymm {α : Type} {lt : α → α → Bool} (h : StrictTotal lt) (a b : α)
    (hab : lt a b = true) : lt b a = false := by
  by_contra hba
  have := h.trans a b a hab (by simpa using hba)
  rw [h.irrefl] at this
  exact Bool.noConfusion this

theorem padLoop_values {α : Type} (lt : α → α → Bool) (d : α) (v1 v2 : List α) (k i : Nat) :
    padLoop lt d v1 v2 k i = none ∨ padLoop lt d v1 v2 k i = some 1
      ∨ padLoop lt d v1 v2 k i = some (-1) := by
  induction k generalizing i with
  | zero => exact Or.inl rfl
  | succ k ih =>
      unfold padLoop
      split
      · exact Or.inr (Or.inl rfl)
      · split
        · exact Or.inr (Or.inr rfl)
        · exact ih (i + 1)

/-- Swapping the operands negates the verdict of the loop. -/
theorem padLoop_swap {α : Type} {lt : α → α → Bool} (h : StrictTotal lt) (d : α)
    (v1 v2 : List α) (k i : Nat) :
    padLoop lt d v2 v1 k i = (padLoop lt d v1 v2 k i).map (fun r => -r) := by
  induction k generalizing i with
  | zero => rfl
  | succ k ih =>
      unfold padLoop
      generalize v1.getD i d = x
      generalize v2.getD i d = y
      cases h1 : lt y x
      · cases h2 : lt x y
        · simp [ih]
        · simp
      · have h2 := h.asymm _ _ h1
        simp [h2]

/-- Rounds past the end of both lists decide nothing. -/
theorem padLoop_past {α : Type} {lt : α → α → Bool} (h : StrictTotal lt) (d : α)
    (v1 v2 : List α) (k i : Nat) (h1 : v1.length ≤ i) (h2 : v2.length ≤ i) :
    padLoop lt d v1 v2 k i = none := by
  induction k generalizing i with
  | zero => rfl
  | succ k ih =>
      unfold padLoop
      rw [List.getD_eq_default _ _ h1, List.getD_eq_default _ _ h2]
      simp [h.irrefl, ih (i + 1) (by omega) (by omega)]

/-- The verdict does not depend on the number of rounds once both lists are covered. -/
theorem padLoop_enough {α : Type} {lt : α → α → Bool} (h : StrictTotal lt) (d : α)
    (v1 v2 : List α) (k k2 i : Nat) (h1 : v1.length ≤ i + k) (h2 : v2.length ≤ i + k)
    (h3 : v1.length ≤ i + k2) (h4 : v2.length ≤ i + k2) :
    padLoop lt d v1 v2 k i = padLoop lt d v1 v2 k2 i := by
  induction k generalizing i k2 with
  | zero =>
      rw [padLoop_past h d v1 v2 k2 i (by omega) (by omega)]
      rfl
  | succ k ih =>
      cases k2 with
      | zero =>
          rw [padLoop_past h d v1 v2 (k + 1) i (by omega) (by omega)]
          rfl
      | succ k2 =>
          unfold padLoop
          rw [ih k2 (i + 1) (by omega) (by omega) (by omega) (by omega)]

/-- Transitivity of the verdicts of one loop run for the same number of rounds. -/
theorem padLoop_trans {α : Type} {lt : α → α → Bool} (h : StrictTotal lt) (d : α)
    (a b c : List α) (k i : Nat)
    (hab : padLoop lt d a b k i ≠ some 1) (hbc : padLoop lt d b c k i ≠ some 1) :
    padLoop lt d a c k i ≠ some 1
      ∧ (padLoop lt d a c k i = none →
          padLoop lt d a b k i = none ∧ padLoop lt d b c k i = none) := by
  induction k generalizing i with
  | zero => exact ⟨by simp [padLoop], fun _ => ⟨rfl, rfl⟩⟩
  | succ k ih =>
      unfold padLoop at hab hbc ⊢
      generalize a.getD i d = x at hab hbc ⊢
      generalize b.getD i d = y at hab hbc ⊢
      generalize c.getD i d = z at hab hbc ⊢
      cases hyx : lt y x
      swap
      · simp [hyx] at hab
      cases hzy : lt z y
      swap
      · simp [hzy] at hbc
      simp only [hyx, hzy, Bool.false_eq_true, if_false] at hab hbc ⊢
      cases hxy : lt x y
      · have exy : x = y := h.tri x y hxy hyx
        subst exy
        cases hxz : lt x z
        · have exz : x = z := h.tri x z hxz hzy
          subst exz
          simp only [hxy, Bool.false_eq_true, if_false] at hab hbc ⊢
          exact ih (i + 1) hab hbc
        · simp [hzy]
      · cases hzx : lt z x
        · cases hxz : lt x z
          · have exz : x = z := h.tri x z hxz hzx
            subst exz
            rw [hxy] at hzy
            exact Bool.noConfusion hzy
          · simp
        · have := h.trans z x y hzx hxy
          rw [hzy] at this
          exact Bool.noConfusion this

theorem intLt_strictTotal : StrictTotal (fun a b : Int => decide (a < b)) where
  irrefl := by intro a; simp
  trans := by
    intro a b c h1 h2
    simp only [decide_eq_true_eq] at *
    omega
  tri := by
    intro a b h1 h2
    simp only [decide_eq_false_iff_not] at *
    omega

theorem strLt_irrefl (a : Str) : strLt a a = false := by
  induction a with
  | nil => rfl
  | cons c s ih => simp [strLt, ih]

theorem strLt_trans (a b c : Str) (h1 : strLt a b = true) (h2 : strLt b c = true) :
    strLt a c = true := by
  induction a generalizing b c with
  | nil =>
      cases b with
      | nil => simp [strLt] at h1
      | cons y b => cases c with
        | nil => simp [strLt] at h2
        | cons z c => rfl
  | cons x a ih =>
      cases b with
      | nil => simp [strLt] at h1
      | cons y b => cases c with
        | nil => simp [strLt] at h2
        | cons z c =>
            simp only [strLt, Bool.or_eq_true, decide_eq_true_eq, Bool.and_eq_true,
              beq_iff_eq] at h1 h2 ⊢
            rcases h1 with h1 | ⟨e1, h1⟩
            · rcases h2 with h2 | ⟨e2, h2⟩
              · left; omega
              · left; omega
            · rcases h2 with h2 | ⟨e2, h2⟩
              · left; omega
              · right; exact ⟨by omega, ih b c h1 h2⟩

theorem strLt_tri (a b : Str) (h1 : strLt a b = false) (h2 : strLt b a = false) : a = b := by
  induction a generalizing b with
  | nil =>
      cases b with
      | nil => rfl
      | cons y b => simp [strLt] at h1
  | cons x a ih =>
      cases b with
      | nil => simp [strLt] at h2
      | cons y b =>
          simp only [strLt, Bool.or_eq_false_iff, decide_eq_false_iff_not, Bool.and_eq_false_iff,
            beq_eq_false_iff_ne, ne_eq] at h1 h2
          have e : x.toNat = y.toNat := by omega
          have exy : x = y := by
            apply Char.ext
            apply UInt32.ext
            exact e
          subst exy
          have ha : strLt a b = false := by
            rcases h1.2 with h | h
            · exact absurd rfl h
            · exact h
          have hb : strLt b a = false := by
            rcases h2.2 with h | h
            · exact absurd rfl h
            · exact h
          rw [ih b ha hb]

theorem strLt_strictTotal : StrictTotal strLt :=
  ⟨strLt_irrefl, strLt_trans, strLt_tri⟩

theorem compareComponents_rounds (n1 n2 : List Int) (s1 s2 : List Str) (k : Nat)
    (h1 : n1.length ≤ k) (h2 : n2.length ≤ k) (h3 : s1.length ≤ k) (h4 : s2.length ≤ k) :
    compareComponents n1 n2 s1 s2
      = verdictOf (padLoop (fun a b => decide (a < b)) 0 n1 n2 k 0) (padLoop strLt [] s1 s2 k 0) := by
  unfold compareComponents verdictOf
  rw [compareNumsLoop_eq, compareStrsLoop_eq,
    padLoop_enough intLt_strictTotal 0 n1 n2 (max n1.length n2.length) k 0
      (by simp) (by simp) (by omega) (by omega),
    padLoop_enough strLt_strictTotal [] s1 s2 (max s1.length s2.length) k 0
      (by simp) (by simp) (by omega) (by omega)]
  try rfl

theorem compareComponents_values (n1 n2 : List Int) (s1 s2 : List Str) :
    compareComponents n1 n2 s1 s2 = 0 ∨ compareComponents n1 n2 s1 s2 = 1
      ∨ compareComponents n1 n2 s1 s2 = -1 := by
  rw [compareComponents_rounds n1 n2 s1 s2 _ (le_max_left _ (max n2.length (max s1.length s2.length)))
    (by simp) (by simp) (by simp)]
  unfold verdictOf
  rcases padLoop_values (fun a b => decide (a < b)) 0 n1 n2
    (max n1.length (max n2.length (max s1.length s2.length))) 0 with h | h | h <;> rw [h]
  · rcases padLoop_values strLt [] s1 s2
      (max n1.length (max n2.length (max s1.length s2.length))) 0 with h2 | h2 | h2 <;> rw [h2] <;> simp
  · simp
  · simp

/-- Swapping the operands negates `compareComponents`. -/
theorem compareComponents_swap (n1 n2 : List Int) (s1 s2 : List Str) :
    compareComponents n2 n1 s2 s1 = -compareComponents n1 n2 s1 s2 := by
  rw [compareComponents_rounds n1 n2 s1 s2 (max n1.length (max n2.length (max s1.length s2.length)))
    (by simp) (by simp) (by simp) (by simp),
    compareComponents_rounds n2 n1 s2 s1 (max n1.length (max n2.length (max s1.length s2.length)))
    (by simp) (by simp) (by simp) (by simp),
    padLoop_swap intLt_strictTotal 0 n1 n2, padLoop_swap strLt_strictTotal [] s1 s2]
  unfold verdictOf
  cases padLoop (fun a b => decide (a < b)) 0 n1 n2 _ 0 with
  | some r => simp
  | none =>
      cases padLoop strLt [] s1 s2 _ 0 with
      | some r => simp
      | none => simp

/-- The relation `compareComponents ≤ 0` is transitive. -/
theorem compareComponents_trans (n1 n2 n3 : List Int) (s1 s2 s3 : List Str)
    (h12 : compareComponents n1 n2 s1 s2 ≤ 0) (h23 : compareComponents n2 n3 s2 s3 ≤ 0) :
    compareComponents n1 n3 s1 s3 ≤ 0 := by
  let k := n1.length + n2.length + n3.length + s1.length + s2.length + s3.length
  have hk : k = n1.length + n2.length + n3.length + s1.length + s2.length + s3.length := rfl
  rw [compareComponents_rounds n1 n2 s1 s2 k (by omega) (by omega) (by omega) (by omega)] at h12
  rw [compareComponents_rounds n2 n3 s2 s3 k (by omega) (by omega) (by omega) (by omega)] at h23
  rw [compareComponents_rounds n1 n3 s1 s3 k (by omega) (by omega) (by omega) (by omega)]
  unfold verdictOf at h12 h23 ⊢
  have v13 := padLoop_values (fun a b => decide (a < b)) 0 n1 n3 k 0
  have w13 := padLoop_values strLt [] s1 s3 k 0
  have a12 : padLoop (fun a b => decide (a < b)) 0 n1 n2 k 0 ≠ some 1 := by
    intro e; rw [e] at h12; simp at h12
  have a23 : padLoop (fun a b => decide (a < b)) 0 n2 n3 k 0 ≠ some 1 := by
    intro e; rw [e] at h23; simp at h23
  have tn := padLoop_trans intLt_strictTotal 0 n1 n2 n3 k 0 a12 a23
  rcases v13 with e13 | e13 | e13
  · obtain ⟨e12, e23⟩ := tn.2 e13
    rw [e12] at h12
    rw [e23] at h23
    rw [e13]
    have b12 : padLoop strLt [] s1 s2 k 0 ≠ some 1 := by
      intro e; rw [e] at h12; simp at h12
    have b23 : padLoop strLt [] s2 s3 k 0 ≠ some 1 := by
      intro e; rw [e] at h23; simp at h23
    have ts := padLoop_trans strLt_strictTotal [] s1 s2 s3 k 0 b12 b23
    rcases w13 with f | f | f
    · simp [f]
    · exact absurd f ts.1
    · simp [f]
  · exact absurd e13 tn.1
  · simp [e13]

theorem char_eq_iff_toNat (c d : Char) : c = d ↔ c.toNat = d.toNat := by
  constructor
  · intro h; rw [h]
  · intro h
    apply Char.ext
    apply UInt32.ext
    exact h

theorem isDigitC_iff (c : Char) : isDigitC c = true ↔ 48 ≤ c.toNat ∧ c.toNat ≤ 57 := by
  simp only [isDigitC, Char.isDigit, Bool.and_eq_true, decide_eq_true_eq, Char.toNat,
    ge_iff_le, UInt32.le_def, Fin.le_def]
  rfl

theorem isLetterC_iff (c : Char) :
    isLetterC c = true ↔ (65 ≤ c.toNat ∧ c.toNat ≤ 90) ∨ (97 ≤ c.toNat ∧ c.toNat ≤ 122) := by
  simp only [isLetterC, Char.isAlpha, Char.isUpper, Char.isLower, Bool.or_eq_true,
    Bool.and_eq_true, decide_eq_true_eq, Char.toNat, ge_iff_le, UInt32.le_def, Fin.le_def]
  rfl

theorem beq_char_iff (c d : Char) : (c == d) = true ↔ c.toNat = d.toNat := by
  rw [beq_iff_eq, char_eq_iff_toNat]

theorem starRun_sound (a : Re)
    (ha : ∀ cs s r, r ∈ a.run cs s → ∃ w, s = w ++ r.2 ∧ Parses a w cs r.1)
    (n : Nat) (cs : Caps) (s : Str) (r : Caps × Str)
    (h : r ∈ starRun (fun cs1 s1 => a.run cs1 s1) n cs s) :
    ∃ w, s = w ++ r.2 ∧ Parses (.star a) w cs r.1 := by
  induction n generalizing cs s with
  | zero =>
      simp only [starRun, List.mem_singleton] at h
      subst h
      exact ⟨[], rfl, Parses.starNil a cs⟩
  | succ n ih =>
      simp only [starRun, List.mem_append, List.mem_flatMap, List.mem_singleton] at h
      rcases h with ⟨r1, hr1, hr⟩ | h
      · obtain ⟨w1, e1, p1⟩ := ha cs s r1 hr1
        obtain ⟨w2, e2, p2⟩ := ih r1.1 r1.2 hr
        refine ⟨w1 ++ w2, ?_, Parses.starCons a w1 w2 cs r1.1 r.1 p1 p2⟩
        rw [e1, e2, List.append_assoc]
      · subst h
        exact ⟨[], rfl, Parses.starNil a cs⟩

/-- Every result of the matcher is a parse of the text it consumed. -/
theorem run_sound (r : Re) (cs : Caps) (s : Str) (x : Caps × Str) (h : x ∈ r.run cs s) :
    ∃ w, s = w ++ x.2 ∧ Parses r w cs x.1 := by
  induction r generalizing cs s x with
  | cls p =>
      cases s with
      | nil => simp [Re.run] at h
      | cons c t =>
          simp only [Re.run] at h
          split at h
          · rename_i hp
            simp only [List.mem_singleton] at h
            subst h
            exact ⟨[c], rfl, Parses.cls p c cs hp⟩
          · simp at h
  | eps =>
      simp only [Re.run, List.mem_singleton] at h
      subst h
      exact ⟨[], rfl, Parses.eps cs⟩
  | seq a b iha ihb =>
      simp only [Re.run, List.mem_flatMap] at h
      obtain ⟨r1, hr1, hx⟩ := h
      obtain ⟨w1, e1, p1⟩ := iha cs s r1 hr1
      obtain ⟨w2, e2, p2⟩ := ihb r1.1 r1.2 x hx
      refine ⟨w1 ++ w2, ?_, Parses.seq a b w1 w2 cs r1.1 x.1 p1 p2⟩
      rw [e1, e2, List.append_assoc]
  | alt a b iha ihb =>
      simp only [Re.run, List.mem_append] at h
      rcases h with h | h
      · obtain ⟨w, e, p⟩ := iha cs s x h
        exact ⟨w, e, Parses.altL a b w cs x.1 p⟩
      · obtain ⟨w, e, p⟩ := ihb cs s x h
        exact ⟨w, e, Parses.altR a b w cs x.1 p⟩
  | star a iha =>
      simp only [Re.run] at h
      exact starRun_sound a iha s.length cs s x h
  | grp i a iha =>
      simp only [Re.run, List.mem_map] at h
      obtain ⟨r1, hr1, hx⟩ := h
      obtain ⟨w, e, p⟩ := iha cs s r1 hr1
      subst hx
      refine ⟨w, e, ?_⟩
      have : List.take (s.length - r1.2.length) s = w := by
        rw [e]
        simp
      simp only [this]
      exact Parses.grp i a w cs r1.1 p

theorem parses_cls_iff (p : Char → Bool) (w : Str) (cs cs2 : Caps) :
    Parses (.cls p) w cs cs2 ↔ ∃ c, w = [c] ∧ p c = true ∧ cs2 = cs := by
  constructor
  · intro h
    cases h with
    | cls _ c _ hp => exact ⟨c, rfl, hp, rfl⟩
  · rintro ⟨c, rfl, hp, rfl⟩
    exact Parses.cls p c _ hp

theorem parses_eps_iff (w : Str) (cs cs2 : Caps) :
    Parses .eps w cs cs2 ↔ w = [] ∧ cs2 = cs := by
  constructor
  · intro h
    cases h
    exact ⟨rfl, rfl⟩
  · rintro ⟨rfl, rfl⟩
    exact Parses.eps _

theorem parses_seq_iff (a b : Re) (w : Str) (cs cs2 : Caps) :
    Parses (.seq a b) w cs cs2
      ↔ ∃ w1 w2 cs1, w = w1 ++ w2 ∧ Parses a w1 cs cs1 ∧ Parses b w2 cs1 cs2 := by
  constructor
  · intro h
    cases h with
    | seq _ _ w1 w2 _ cs1 _ h1 h2 => exact ⟨w1, w2, cs1, rfl, h1, h2⟩
  · rintro ⟨w1, w2, cs1, rfl, h1, h2⟩
    exact Parses.seq a b w1 w2 cs cs1 cs2 h1 h2

theorem parses_alt_iff (a b : Re) (w : Str) (cs cs2 : Caps) :
    Parses (.alt a b) w cs cs2 ↔ Parses a w cs cs2 ∨ Parses b w cs cs2 := by
  constructor
  · intro h
    cases h with
    | altL _ _ _ _ _ h => exact Or.inl h
    | altR _ _ _ _ _ h => exact Or.inr h
  · rintro (h | h)
    · exact Parses.altL a b w cs cs2 h
    · exact Parses.altR a b w cs cs2 h

theorem parses_grp_iff (i : Nat) (a : Re) (w : Str) (cs cs2 : Caps) :
    Parses (.grp i a) w cs cs2 ↔ ∃ cs1, Parses a w cs cs1 ∧ cs2 = (i, w) :: cs1 := by
  constructor
  · intro h
    cases h with
    | grp _ _ _ _ cs1 h => exact ⟨cs1, h, rfl⟩
  · rintro ⟨cs1, h, rfl⟩
    exact Parses.grp i a w cs cs1 h

theorem parses_star_iff (a : Re) (w : Str) (cs cs2 : Caps) :
    Parses (.star a) w cs cs2
      ↔ (w = [] ∧ cs2 = cs)
        ∨ ∃ w1 w2 cs1, w = w1 ++ w2 ∧ Parses a w1 cs cs1 ∧ Parses (.star a) w2 cs1 cs2 := by
  constructor
  · intro h
    cases h with
    | starNil => exact Or.inl ⟨rfl, rfl⟩
    | starCons _ w1 w2 _ cs1 _ h1 h2 => exact Or.inr ⟨w1, w2, cs1, rfl, h1, h2⟩
  · rintro (⟨rfl, rfl⟩ | ⟨w1, w2, cs1, rfl, h1, h2⟩)
    · exact Parses.starNil a _
    · exact Parses.starCons a w1 w2 cs cs1 cs2 h1 h2

/-- A starred class matches only texts of that class and records nothing. -/
theorem parses_star_cls (p : Char → Bool) (w : Str) (cs cs2 : Caps)
    (h : Parses (.star (.cls p)) w cs cs2) : w.all p = true ∧ cs2 = cs := by
  generalize hr : Re.star (.cls p) = r at h
  induction h with
  | cls => cases hr
  | eps => cases hr
  | seq => cases hr
  | altL => cases hr
  | altR => cases hr
  | grp => cases hr
  | starNil => exact ⟨rfl, rfl⟩
  | starCons a w1 w2 cs cs1 cs2 h1 h2 _ ih2 =>
      cases hr
      obtain ⟨c, rfl, hp, rfl⟩ := (parses_cls_iff p w1 cs cs1).1 h1
      obtain ⟨hall, rfl⟩ := ih2 rfl
      exact ⟨by simp [hp, hall], rfl⟩

theorem parses_plus_cls (p : Char → Bool) (w : Str) (cs cs2 : Caps)
    (h : Parses (Re.plus (.cls p)) w cs cs2) : w ≠ [] ∧ w.all p = true ∧ cs2 = cs := by
  obtain ⟨w1, w2, cs1, rfl, h1, h2⟩ := (parses_seq_iff _ _ _ _ _).1 h
  obtain ⟨c, rfl, hp, rfl⟩ := (parses_cls_iff p w1 cs cs1).1 h1
  obtain ⟨hall, rfl⟩ := parses_star_cls p w2 _ _ h2
  exact ⟨by simp, by simp [hp, hall], rfl⟩

theorem matchAt_sound (p : Regex) (b : Bool) (s : Str) (r : Caps × Str)
    (h : p.matchAt b s = some r) :
    (∃ w, s = w ++ r.2 ∧ Parses p.re w [] r.1) ∧ (p.eol = true → r.2 = [])
      ∧ (p.bol = true → b = true) := by
  unfold Regex.matchAt at h
  split at h
  · exact Option.noConfusion h
  · rename_i hb
    have hm := List.mem_of_find?_eq_some h
    have hp := List.find?_some h
    refine ⟨run_sound p.re [] s r hm, ?_, ?_⟩
    · intro he
      simpa [he] using hp
    · intro hbol
      cases b with
      | true => rfl
      | false => simp [hbol] at hb

theorem findFrom_sound (p : Regex) (b : Bool) (s pre rest : Str) (cs : Caps)
    (h : p.findFrom b s = some (pre, cs, rest)) :
    (∃ w, s = pre ++ w ++ rest ∧ Parses p.re w [] cs) ∧ (p.eol = true → rest = [])
      ∧ (p.bol = true → b = true ∧ pre = []) := by
  induction s generalizing b pre with
  | nil =>
      simp only [Regex.findFrom] at h
      split at h
      · rename_i r hr
        simp only [Option.some.injEq, Prod.mk.injEq] at h
        obtain ⟨rfl, rfl, rfl⟩ := h
        obtain ⟨⟨w, e, hw⟩, h2, h3⟩ := matchAt_sound p b [] r hr
        exact ⟨⟨w, by simpa using e, hw⟩, h2, fun hb => ⟨h3 hb, rfl⟩⟩
      · exact Option.noConfusion h
  | cons c t ih =>
      simp only [Regex.findFrom] at h
      split at h
      · rename_i r hr
        simp only [Option.some.injEq, Prod.mk.injEq] at h
        obtain ⟨rfl, rfl, rfl⟩ := h
        obtain ⟨⟨w, e, hw⟩, h2, h3⟩ := matchAt_sound p b (c :: t) r hr
        exact ⟨⟨w, by simpa using e, hw⟩, h2, fun hb => ⟨h3 hb, rfl⟩⟩
      · split at h
        · rename_i pre2 cs2 rest2 hf
          simp only [Option.some.injEq, Prod.mk.injEq] at h
          obtain ⟨rfl, rfl, rfl⟩ := h
          obtain ⟨⟨w, e, hw⟩, h2, h3⟩ := ih false pre2 hf
          refine ⟨⟨w, by simp [e], hw⟩, h2, ?_⟩
          intro hb
          exact absurd (h3 hb).1 (by simp)
        · exact Option.noConfusion h

/-- A fully anchored pattern that matches parses the whole input. -/
theorem MatchString_sound (p : Regex) (s : Str) (hb : p.bol = true) (he : p.eol = true)
    (h : p.MatchString s = true) : ∃ cs, Parses p.re s [] cs := by
  unfold Regex.MatchString at h
  cases hf : p.findFrom true s with
  | none => simp [hf] at h
  | some x =>
      obtain ⟨pre, cs, rest⟩ := x
      obtain ⟨⟨w, e, hw⟩, h2, h3⟩ := findFrom_sound p true s pre rest cs hf
      have e1 := h2 he
      have e2 := (h3 hb).2
      subst e1 e2
      simp only [List.nil_append, List.append_nil] at e
      subst e
      exact ⟨cs, hw⟩

theorem FindStringSubmatch_sound (p : Regex) (s m : Str) (cs : Caps) (hb : p.bol = true)
    (he : p.eol = true) (h : p.FindStringSubmatch s = some (m, cs)) :
    m = s ∧ Parses p.re s [] cs := by
  unfold Regex.FindStringSubmatch at h
  split at h
  · rename_i pre cs2 rest hf
    simp only [Option.some.injEq, Prod.mk.injEq] at h
    obtain ⟨rfl, rfl⟩ := h
    obtain ⟨⟨w, e, hw⟩, h2, h3⟩ := findFrom_sound p true s pre rest cs2 hf
    have e1 := h2 he
    have e2 := (h3 hb).2
    subst e1 e2
    simp only [List.nil_append, List.append_nil] at e
    subst e
    exact ⟨by simp, hw⟩
  · exact Option.noConfusion h

theorem findAllFrom_sound (p : Regex) (n : Nat) (b : Bool) (s : Str) (m : Caps)
    (h : m ∈ p.findAllFrom n b s) : ∃ w, Parses p.re w [] m := by
  induction n generalizing b s with
  | zero => simp [Regex.findAllFrom] at h
  | succ n ih =>
      cases s with
      | nil =>
          simp only [Regex.findAllFrom] at h
          split at h
          · rename_i r hr
            simp only [List.mem_singleton] at h
            subst h
            obtain ⟨⟨w, _, hw⟩, _, _⟩ := matchAt_sound p b [] r hr
            exact ⟨w, hw⟩
          · simp at h
      | cons c t =>
          simp only [Regex.findAllFrom] at h
          split at h
          · rename_i r hr
            obtain ⟨⟨w, _, hw⟩, _, _⟩ := matchAt_sound p b (c :: t) r hr
            split at h
            · simp only [List.mem_cons] at h
              rcases h with h | h
              · subst h; exact ⟨w, hw⟩
              · exact ih false r.2 h
            · simp only [List.mem_cons] at h
              rcases h with h | h
              · subst h; exact ⟨w, hw⟩
              · exact ih false t h
          · exact ih false t h

/-- The retry loop from round `retry` on: bounds on the calls, the sleeps
added, the short circuit and the recorded error. -/
theorem retryFrom_spec (checkSingle : Nat → Except GoError Str) (rounds : Nat) :
    ∀ (retry : Nat) (lastErr : Option GoError) (sleeps : List Nat),
      let r := retryFrom checkSingle retry lastErr sleeps rounds
      retry ≤ r.calls ∧ r.calls ≤ retry + rounds ∧
      (0 < rounds → retry < r.calls) ∧
      r.sleeps = sleeps ++ ((List.range' retry (r.calls - retry)).filter (fun k => 0 < k)).map
        (fun k => k * k) ∧
      (∀ k e, retry ≤ k → k < r.calls → checkSingle k = .error e →
        isCriticalError (some e) = true → r.calls = k + 1 ∧ r.outcome = .error (some e)) ∧
      (∀ l, r.outcome = .error l →
        (r.calls = retry ∧ l = lastErr) ∨
        (retry < r.calls ∧ ∃ e, l = some e ∧ checkSingle (r.calls - 1) = .error e)) ∧
      (∀ v, r.outcome = .ok v → retry < r.calls ∧ checkSingle (r.calls - 1) = .ok v) := by
  induction rounds with
  | zero =>
      intro retry lastErr sleeps
      simp [retryFrom]
      intro k e h1 h2
      omega
  | succ n ih =>
      intro retry lastErr sleeps
      have hsl : ∀ m, (if retry > 0 then sleeps ++ [retry * retry] else sleeps) ++
          ((List.range' (retry + 1) m).filter (fun k => 0 < k)).map (fun k => k * k)
          = sleeps ++ ((List.range' retry (m + 1)).filter (fun k => 0 < k)).map
            (fun k => k * k) := by
        intro m
        rw [List.range'_succ]
        by_cases h0 : retry > 0
        · simp [h0, List.filter_cons]
        · have : retry = 0 := by omega
          subst this
          simp [List.filter_cons]
      unfold retryFrom
      cases hc : checkSingle retry with
      | ok version =>
          simp only []
          refine ⟨by omega, by omega, by omega, ?_, ?_, ?_, ?_⟩
          · have := hsl 0
            simpa using this
          · intro k e h1 h2 h3
            have : k = retry := by omega
            subst this
            rw [hc] at h3
            cases h3
          · intro l h
            cases h
          · intro v h
            simp at h
            subst h
            simpa using hc
      | error err =>
          simp only []
          by_cases hcrit : isCriticalError (some err) = true
          · rw [if_pos hcrit]
            dsimp only
            refine ⟨by omega, by omega, by omega, ?_, ?_, ?_, ?_⟩
            · have := hsl 0
              simpa using this
            · intro k e h1 h2 h3 _
              have : k = retry := by omega
              subst this
              rw [hc] at h3
              cases h3
              exact ⟨rfl, rfl⟩
            · intro l h
              right
              refine ⟨by omega, err, ?_, by simpa using hc⟩
              cases h
              rfl
            · intro v h
              cases h
          · rw [if_neg hcrit]
            have ih1 := ih (retry + 1) (some err)
              (if retry > 0 then sleeps ++ [retry * retry] else sleeps)
            simp only [] at ih1
            generalize retryFrom checkSingle (retry + 1) (some err)
              (if retry > 0 then sleeps ++ [retry * retry] else sleeps) n = r at ih1
            obtain ⟨h1, h2, _, h4, h5, h6, h7⟩ := ih1
            refine ⟨by omega, by omega, by omega, ?_, ?_, ?_, ?_⟩
            · rw [h4, hsl]
              congr 4
              omega
            · intro k e hk1 hk2 hk3 hk4
              by_cases hkr : k = retry
              · subst hkr
                rw [hc] at hk3
                cases hk3
                exact absurd hk4 hcrit
              · exact h5 k e (by omega) hk2 hk3 hk4
            · intro l hl
              right
              rcases h6 l hl with ⟨hcalls, hl2⟩ | ⟨hlt, e, he1, he2⟩
              · refine ⟨by omega, err, hl2, ?_⟩
                rw [hcalls]
                simpa using hc
              · exact ⟨by omega, e, he1, he2⟩
            · intro v hv
              have := h7 v hv
              exact ⟨by omega, this.2⟩

theorem mapStore_of_lookup_none {α : Type} (m : List (Str × α)) (key : Str) (v : α)
    (h : mapLookup m key = none) : mapStore m key v = m ++ [(key, v)] := by
  induction m with
  | nil => rfl
  | cons e m ih =>
      obtain ⟨k, w⟩ := e
      unfold mapLookup at h
      unfold mapStore
      by_cases hk : k = key
      · simp [hk] at h
      · simp only [hk, if_false] at h ⊢
        rw [ih h]
        rfl

theorem mapStore_length_le {α : Type} (m : List (Str × α)) (key : Str) (v : α) :
    (mapStore m key v).length ≤ m.length + 1 := by
  induction m with
  | nil => simp [mapStore]
  | cons e m ih =>
      obtain ⟨k, w⟩ := e
      unfold mapStore
      split
      · simp
      · simp only [List.length_cons]
        omega

theorem mapDelete_length_le {α : Type} (m : List (Str × α)) (key : Str) :
    (mapDelete m key).length ≤ m.length := by
  unfold mapDelete
  exact List.length_filter_le _ _

theorem sendResult_requests (a : AsyncChecker) (p : Nat) (err : Option GoError) (version : Str) :
    (a.sendResult p err version).requests = a.requests ∧
    (a.sendResult p err version).maxPending = a.maxPending ∧
    (a.sendResult p err version).heap = a.heap ∧
    (a.sendResult p err version).resultChanSize = a.resultChanSize := by
  unfold AsyncChecker.sendResult
  split <;> simp

theorem processRequest_requests (a : AsyncChecker) (p : Nat)
    (checkSingle : Nat → Except GoError Str) :
    (a.processRequest p checkSingle).requests = a.requests ∧
    (a.processRequest p checkSingle).maxPending = a.maxPending ∧
    (a.processRequest p checkSingle).resultChanSize = a.resultChanSize := by
  unfold AsyncChecker.processRequest
  split
  · refine ⟨?_, ?_, ?_⟩
    · rw [(sendResult_requests _ _ _ _).1]
    · rw [(sendResult_requests _ _ _ _).2.1]
    · rw [(sendResult_requests _ _ _ _).2.2.2]
  · refine ⟨?_, ?_, ?_⟩
    · rw [(sendResult_requests _ _ _ _).1]
    · rw [(sendResult_requests _ _ _ _).2.1]
    · rw [(sendResult_requests _ _ _ _).2.2.2]

theorem getNextPendingRequest_requests (a : AsyncChecker) (p : Nat) :
    (a.getNextPendingRequest p).1.requests = a.requests ∧
    (a.getNextPendingRequest p).1.maxPending = a.maxPending ∧
    (a.getNextPendingRequest p).1.resultChanSize = a.resultChanSize := by
  unfold AsyncChecker.getNextPendingRequest
  split <;> simp

theorem submit_length_le (a : AsyncChecker) (id url key : Str) (flag : Int) (cb : Bool)
    (h : (a.requests.length : Int) ≤ a.maxPending) :
    ((a.Submit id url key flag cb).1.requests.length : Int) ≤ (a.Submit id url key flag cb).1.maxPending ∧
    (a.Submit id url key flag cb).1.maxPending = a.maxPending := by
  unfold AsyncChecker.Submit
  split
  · exact ⟨h, rfl⟩
  · split
    · exact ⟨h, rfl⟩
    · rename_i h2
      have := mapStore_length_le a.requests id a.heap.length
      simp only [and_true]
      omega

theorem asyncStep_length_le (s : AsyncSystem) (op : AsyncOp)
    (h : (s.checker.requests.length : Int) ≤ s.checker.maxPending) :
    (((s.step op).checker.requests.length : Int) ≤ (s.step op).checker.maxPending) ∧
    (s.step op).checker.maxPending = s.checker.maxPending := by
  cases op with
  | submit id url key flag cb => exact submit_length_le _ _ _ _ _ _ h
  | pick p =>
      have := getNextPendingRequest_requests s.checker p
      simp only [AsyncSystem.step]
      split
      · rename_i a q heq
        rw [heq] at this
        simp only at this ⊢
        rw [this.1, this.2.1]
        exact ⟨h, rfl⟩
      · rename_i a heq
        rw [heq] at this
        simp only at this ⊢
        rw [this.1, this.2.1]
        exact ⟨h, rfl⟩
  | process p cs =>
      simp only [AsyncSystem.step]
      split
      · have := processRequest_requests s.checker p cs
        simp only
        rw [this.1, this.2.1]
        exact ⟨h, rfl⟩
      · exact ⟨h, rfl⟩
  | results => exact ⟨h, rfl⟩
  | remove id =>
      simp only [AsyncSystem.step, AsyncChecker.Remove]
      split
      · have := mapDelete_length_le s.checker.requests id
        simp only [and_true]
        omega
      · exact ⟨h, rfl⟩
  | clear =>
      simp only [AsyncSystem.step, AsyncChecker.Clear, List.length_nil, and_true]
      have : (0 : Int) ≤ (s.checker.requests.length : Int) := Int.natCast_nonneg _
      simp only [Nat.cast_zero]
      omega

theorem asyncRun_length_le (ops : List AsyncOp) :
    ∀ (s : AsyncSystem), (s.checker.requests.length : Int) ≤ s.checker.maxPending →
      (((s.run ops).checker.requests.length : Int) ≤ s.checker.maxPending) := by
  induction ops with
  | nil => intro s h; exact h
  | cons op ops ih =>
      intro s h
      have h1 := asyncStep_length_le s op h
      have := ih (s.step op) h1.1
      rw [h1.2] at this
      exact this

theorem heap_get_update (h : Heap) (p q : Nat) (f : AsyncCheckRequest → AsyncCheckRequest) :
    (h.update p f).get? q = (h.get? q).map (fun a => if p = q then f a else a) := by
  simp [Heap.update, List.getElem?_modify]

theorem heap_status_update_ne (h : Heap) (p q : Nat) (f : AsyncCheckRequest → AsyncCheckRequest)
    (hne : p ≠ q) : (h.update p f).status q = h.status q := by
  unfold Heap.status
  rw [heap_get_update]
  cases h.get? q <;> simp [hne]

theorem heap_status_update_same (h : Heap) (p : Nat) (f : AsyncCheckRequest → AsyncCheckRequest)
    (st st2 : Status) (hst : h.status p = some st) (hf : ∀ r, (f r).Status = st2) :
    (h.update p f).status p = some st2 := by
  unfold Heap.status at *
  rw [heap_get_update]
  cases hg : h.get? p with
  | none => rw [hg] at hst; cases hst
  | some r => simp [hf]

theorem heap_status_append (h : Heap) (r : AsyncCheckRequest) (p : Nat) (st : Status)
    (hst : h.status p = some st) : (h ++ [r]).status p = some st := by
  unfold Heap.status at *
  have hp : p < h.length := by
    by_contra hc
    have : h.get? p = none := List.get?_eq_none.mpr (by omega)
    rw [this] at hst
    cases hst
  simp only [List.get?_eq_getElem?] at *
  rw [List.getElem?_append_left hp]
  exact hst

theorem heap_get_append (h : Heap) (r x : AsyncCheckRequest) (p : Nat)
    (hg : (h ++ [r]).get? p = some x) : h.get? p = some x ∨ x = r := by
  simp only [List.get?_eq_getElem?] at *
  rw [List.getElem?_append] at hg
  split at hg
  · exact Or.inl hg
  · right
    cases hq : p - h.length with
    | zero => simp [hq] at hg; exact hg.symm
    | succ n => simp [hq] at hg

theorem sendResult_heap (a : AsyncChecker) (p : Nat) (err : Option GoError) (version : Str) :
    (a.sendResult p err version).heap = a.heap := (sendResult_requests a p err version).2.2.1

theorem retryLoop_error_some (checkSingle : Nat → Except GoError Str) (l : Option GoError)
    (h : (retryLoop checkSingle).outcome = .error l) : l ≠ none := by
  have hs := retryFrom_spec checkSingle (maxRetries + 1) 0 none []
  simp only [] at hs
  obtain ⟨_, _, h3, _, _, h6, _⟩ := hs
  have h3 := h3 (by simp)
  rcases h6 l h with ⟨hc, _⟩ | ⟨_, e, he, _⟩
  · omega
  · simp [he]

/-- What `processRequest` does to the request objects. -/
theorem processRequest_heap (a : AsyncChecker) (p : Nat) (checkSingle : Nat → Except GoError Str) :
    (∃ version, (a.processRequest p checkSingle).heap
        = a.heap.update p (fun r => { r with Status := .completed, Result := version })) ∨
    (∃ e, (a.processRequest p checkSingle).heap
        = a.heap.update p (fun r => { r with Status := .failed, Error := some e })) := by
  unfold AsyncChecker.processRequest
  cases h : (retryLoop checkSingle).outcome with
  | ok version =>
      left
      exact ⟨version, by simp only [sendResult_heap]⟩
  | error l =>
      right
      have := retryLoop_error_some checkSingle l h
      cases l with
      | none => exact absurd rfl this
      | some e => exact ⟨e, by simp only [sendResult_heap]⟩

/-- One operation on an `AsyncSystem` keeps the invariant and moves the
status of every request object along an edge or not at all. -/
theorem asyncStep_edge (s : AsyncSystem) (hinv : s.Inv) (op : AsyncOp) :
    (s.step op).Inv ∧
    ∀ p st, s.checker.heap.status p = some st →
      ∃ st2, (s.step op).checker.heap.status p = some st2 ∧ (st2 = st ∨ st.edge st2 = true) := by
  obtain ⟨hnd, hheld, herr⟩ := hinv
  unfold AsyncSystem.Inv
  cases op with
  | submit id url key flag cb =>
      simp only [AsyncSystem.step, AsyncChecker.Submit]
      split
      · exact ⟨⟨hnd, hheld, herr⟩, fun p st h => ⟨st, h, Or.inl rfl⟩⟩
      · split
        · exact ⟨⟨hnd, hheld, herr⟩, fun p st h => ⟨st, h, Or.inl rfl⟩⟩
        · refine ⟨⟨hnd, fun p hp => heap_status_append _ _ _ _ (hheld p hp), ?_⟩,
            fun p st h => ⟨st, heap_status_append _ _ _ _ h, Or.inl rfl⟩⟩
          intro p r hg
          rcases heap_get_append _ _ _ _ hg with h | h
          · exact herr p r h
          · subst h
            simp
  | pick p =>
      simp only [AsyncSystem.step, AsyncChecker.getNextPendingRequest]
      by_cases hc : (s.checker.requests.any (fun e => decide (e.2 = p)) = true
          ∧ s.checker.heap.status p = some .pending)
      · rw [if_pos hc]
        dsimp only
        have hpn : p ∉ s.held := by
          intro hp
          have := hheld p hp
          rw [hc.2] at this
          cases this
        refine ⟨⟨List.nodup_cons.mpr ⟨hpn, hnd⟩, ?_, ?_⟩, ?_⟩
        · intro q hq
          rcases List.mem_cons.mp hq with h | h
          · subst h
            exact heap_status_update_same _ _ _ _ _ hc.2 (fun _ => rfl)
          · have hne : p ≠ q := fun e => hpn (e ▸ h)
            rw [heap_status_update_ne _ _ _ _ hne]
            exact hheld q h
        · intro q r hg
          rw [heap_get_update] at hg
          cases hq : s.checker.heap.get? q with
          | none => rw [hq] at hg; cases hg
          | some r0 =>
              rw [hq] at hg; simp only [Option.map_some', Option.some.injEq] at hg
              have h0 := herr q r0 hq
              by_cases hpq : p = q
              · subst hpq
                simp only [if_true] at hg
                subst hg
                have hpend : r0.Status = .pending := by
                  have := hc.2
                  simp only [Heap.status, hq, Option.map_some', Option.some.injEq] at this
                  exact this
                have := h0.2 (by rw [hpend]; decide)
                simp [this]
              · simp only [hpq, if_false] at hg
                subst hg
                exact h0
        · intro q st hst
          by_cases hpq : p = q
          · subst hpq
            refine ⟨.processing, heap_status_update_same _ _ _ _ _ hc.2 (fun _ => rfl), Or.inr ?_⟩
            rw [hc.2] at hst
            cases hst
            rfl
          · exact ⟨st, by rw [heap_status_update_ne _ _ _ _ hpq]; exact hst, Or.inl rfl⟩
      · rw [if_neg hc]
        exact ⟨⟨hnd, hheld, herr⟩, fun p st h => ⟨st, h, Or.inl rfl⟩⟩
  | process p cs =>
      simp only [AsyncSystem.step]
      by_cases hp : p ∈ s.held
      · rw [if_pos hp]
        dsimp only
        have hproc := hheld p hp
        have hnd2 : (s.held.erase p).Nodup := hnd.erase p
        have hmem : ∀ q, q ∈ s.held.erase p → q ≠ p ∧ q ∈ s.held := fun q hq =>
          (hnd.mem_erase_iff).mp hq
        rcases processRequest_heap s.checker p cs with ⟨version, hh⟩ | ⟨e, hh⟩
        · rw [hh]
          refine ⟨⟨hnd2, ?_, ?_⟩, ?_⟩
          · intro q hq
            have := hmem q hq
            rw [heap_status_update_ne _ _ _ _ (Ne.symm this.1)]
            exact hheld q this.2
          · intro q r hg
            rw [heap_get_update] at hg
            cases hq : s.checker.heap.get? q with
            | none => rw [hq] at hg; cases hg
            | some r0 =>
                rw [hq] at hg; simp only [Option.map_some', Option.some.injEq] at hg
                have h0 := herr q r0 hq
                by_cases hpq : p = q
                · subst hpq
                  simp only [if_true] at hg
                  subst hg
                  have hst : r0.Status = .processing := by
                    simp only [Heap.status, hq, Option.map_some', Option.some.injEq] at hproc
                    exact hproc
                  have := h0.2 (by rw [hst]; decide)
                  simp [this]
                · simp only [hpq, if_false] at hg
                  subst hg
                  exact h0
          · intro q st hst
            by_cases hpq : p = q
            · subst hpq
              refine ⟨.completed, heap_status_update_same _ _ _ _ _ hproc (fun _ => rfl), Or.inr ?_⟩
              rw [hproc] at hst
              cases hst
              rfl
            · exact ⟨st, by rw [heap_status_update_ne _ _ _ _ hpq]; exact hst, Or.inl rfl⟩
        · rw [hh]
          refine ⟨⟨hnd2, ?_, ?_⟩, ?_⟩
          · intro q hq
            have := hmem q hq
            rw [heap_status_update_ne _ _ _ _ (Ne.symm this.1)]
            exact hheld q this.2
          · intro q r hg
            rw [heap_get_update] at hg
            cases hq : s.checker.heap.get? q with
            | none => rw [hq] at hg; cases hg
            | some r0 =>
                rw [hq] at hg; simp only [Option.map_some', Option.some.injEq] at hg
                have h0 := herr q r0 hq
                by_cases hpq : p = q
                · subst hpq
                  simp only [if_true] at hg
                  subst hg
                  simp
                · simp only [hpq, if_false] at hg
                  subst hg
                  exact h0
          · intro q st hst
            by_cases hpq : p = q
            · subst hpq
              refine ⟨.failed, heap_status_update_same _ _ _ _ _ hproc (fun _ => rfl), Or.inr ?_⟩
              rw [hproc] at hst
              cases hst
              rfl
            · exact ⟨st, by rw [heap_status_update_ne _ _ _ _ hpq]; exact hst, Or.inl rfl⟩
      · rw [if_neg hp]
        exact ⟨⟨hnd, hheld, herr⟩, fun p st h => ⟨st, h, Or.inl rfl⟩⟩
  | results =>
      exact ⟨⟨hnd, hheld, herr⟩, fun p st h => ⟨st, h, Or.inl rfl⟩⟩
  | remove id =>
      simp only [AsyncSystem.step, AsyncChecker.Remove]
      split
      · exact ⟨⟨hnd, hheld, herr⟩, fun p st h => ⟨st, h, Or.inl rfl⟩⟩
      · exact ⟨⟨hnd, hheld, herr⟩, fun p st h => ⟨st, h, Or.inl rfl⟩⟩
  | clear =>
      exact ⟨⟨hnd, hheld, herr⟩, fun p st h => ⟨st, h, Or.inl rfl⟩⟩

theorem asyncNew_inv (maxPending : Int) (resultChanSize : Nat) :
    (AsyncSystem.new maxPending resultChanSize).Inv := by
  refine ⟨List.nodup_nil, ?_, ?_⟩
  · intro p hp
    cases hp
  · intro p r h
    simp [AsyncSystem.new, NewAsyncCheckerWithSettings] at h

theorem asyncRun_inv (ops : List AsyncOp) : ∀ (s : AsyncSystem), s.Inv → (s.run ops).Inv := by
  induction ops with
  | nil => intro s h; exact h
  | cons op ops ih =>
      intro s h
      exact ih (s.step op) (asyncStep_edge s h op).1

theorem asyncRun_append (s : AsyncSystem) (ops : List AsyncOp) (op : AsyncOp) :
    s.run (ops ++ [op]) = (s.run ops).step op := by
  simp [AsyncSystem.run, List.foldl_append]

theorem heap_id_update (h : Heap) (p q : Nat) (f : AsyncCheckRequest → AsyncCheckRequest)
    (hf : ∀ r, (f r).ID = r.ID) : (h.update p f).id q = h.id q := by
  unfold Heap.id
  rw [heap_get_update]
  cases h.get? q with
  | none => rfl
  | some r =>
      simp only [Option.map_some', Option.some.injEq]
      split
      · exact hf r
      · rfl

theorem heap_map_id_update (h : Heap) (p : Nat) (f : AsyncCheckRequest → AsyncCheckRequest)
    (hf : ∀ r, (f r).ID = r.ID) :
    (h.update p f).map (fun r => r.ID) = h.map (fun r => r.ID) := by
  apply List.ext_getElem?
  intro n
  have := heap_id_update h p n f hf
  simp only [Heap.id, List.get?_eq_getElem?] at this
  simp only [List.getElem?_map]
  exact this

theorem heap_id_inj (h : Heap) (p q : Nat) (x : Str) (hnd : (h.map (fun r => r.ID)).Nodup)
    (hp : h.id p = some x) (hq : h.id q = some x) : p = q := by
  simp only [Heap.id, List.get?_eq_getElem?, ← List.getElem?_map] at hp hq
  have hi : p < (h.map (fun r => r.ID)).length := by
    by_contra hc
    rw [List.getElem?_eq_none (by omega)] at hp
    cases hp
  exact List.getElem?_inj hi hnd (hp.trans hq.symm)

theorem heap_id_append (h : Heap) (r : AsyncCheckRequest) (p : Nat) (x : Str)
    (hid : h.id p = some x) : (h ++ [r]).id p = some x := by
  unfold Heap.id at *
  have hp : p < h.length := by
    by_contra hc
    have : h.get? p = none := List.get?_eq_none.mpr (by omega)
    rw [this] at hid
    cases hid
  simp only [List.get?_eq_getElem?] at *
  rw [List.getElem?_append_left hp]
  exact hid

theorem heap_id_mem (h : Heap) (p : Nat) (x : Str) (hid : h.id p = some x) :
    x ∈ h.map (fun r => r.ID) := by
  simp only [Heap.id, List.get?_eq_getElem?, ← List.getElem?_map] at hid
  obtain ⟨hlt, heq⟩ := List.getElem?_eq_some.mp hid
  exact heq ▸ List.getElem_mem hlt

theorem mapLookup_mem {α : Type} (m : List (Str × α)) (key : Str) (v : α)
    (h : mapLookup m key = some v) : (key, v) ∈ m := by
  induction m with
  | nil => cases h
  | cons e m ih =>
      obtain ⟨k, w⟩ := e
      unfold mapLookup at h
      by_cases hk : k = key
      · simp only [hk, if_true, Option.some.injEq] at h
        subst h
        subst hk
        exact List.mem_cons_self _ _
      · simp only [hk, if_false] at h
        exact List.mem_cons_of_mem _ (ih h)

theorem mem_mapStore {α : Type} (m : List (Str × α)) (key : Str) (v : α) (e : Str × α)
    (h : e ∈ mapStore m key v) : e ∈ m ∨ e = (key, v) := by
  induction m with
  | nil =>
      simp only [mapStore, List.mem_singleton] at h
      exact Or.inr h
  | cons e0 m ih =>
      obtain ⟨k, w⟩ := e0
      unfold mapStore at h
      by_cases hk : k = key
      · simp only [hk, if_true, List.mem_cons] at h
        rcases h with h | h
        · exact Or.inr h
        · exact Or.inl (List.mem_cons_of_mem _ h)
      · simp only [hk, if_false, List.mem_cons] at h
        rcases h with h | h
        · exact Or.inl (h ▸ List.mem_cons_self _ _)
        · rcases ih h with h2 | h2
          · exact Or.inl (List.mem_cons_of_mem _ h2)
          · exact Or.inr h2

theorem mem_mapDelete {α : Type} (m : List (Str × α)) (key : Str) (e : Str × α)
    (h : e ∈ mapDelete m key) : e ∈ m := by
  unfold mapDelete at h
  exact List.mem_of_mem_filter h

/-- The invariant only looks at the request objects, the map and the channel. -/
theorem implInv_congr (c c2 : AsyncCheckerImpl) (held : List Nat) (hinv : ImplInv c held)
    (hh : c2.heap = c.heap) (hc : c2.resultChan = c.resultChan)
    (hr : ∀ e ∈ c2.requests, e ∈ c.requests) : ImplInv c2 held := by
  obtain ⟨h1, h2, h3, h4, h5, h6⟩ := hinv
  unfold ImplInv
  rw [hh, hc]
  exact ⟨h1, fun e he => h2 e (hr e he), h3, h4, h5, h6⟩

theorem cancelOrSame_trans (a b c : Status) (h1 : cancelOrSame a b) (h2 : cancelOrSame b c) :
    cancelOrSame a c := by
  unfold cancelOrSame at *
  rcases h1 with h1 | ⟨h1, h1b⟩
  · subst h1
    exact h2
  · rcases h2 with h2 | ⟨h2, _⟩
    · subst h2
      exact Or.inr ⟨h1, h1b⟩
    · rw [h1b] at h2
      cases h2

/-- A write to a pending request object that keeps its identifier keeps the
invariant, whatever status it sets. -/
theorem implInv_update_pending (c c2 : AsyncCheckerImpl) (held : List Nat) (p : Nat)
    (f : AsyncCheckRequest → AsyncCheckRequest) (hinv : ImplInv c held)
    (hp : c.heap.status p = some .pending) (hf : ∀ r, (f r).ID = r.ID)
    (hh : c2.heap = c.heap.update p f) (hc : c2.resultChan = c.resultChan)
    (hr : ∀ e ∈ c2.requests, e ∈ c.requests) :
    (c2.heap.map (fun r => r.ID)).Nodup ∧
    (∀ e ∈ c2.requests, c2.heap.id e.2 = some e.1) ∧
    (∀ q ∈ held, c2.heap.status q = some .processing) ∧
    (c2.resultChan.map (fun r => r.ID)).Nodup ∧
    (∀ r ∈ c2.resultChan, (r.Status = .completed ∨ r.Status = .failed) ∧
      ∃ q, q ≠ p ∧ q ∉ held ∧ c2.heap.id q = some r.ID ∧ c2.heap.status q = some .processing) ∧
    p ∉ held ∧
    (∀ q, q ≠ p → c2.heap.status q = c.heap.status q) := by
  obtain ⟨h1, h2, h3, h4, h5, h6⟩ := hinv
  have hne : ∀ q, c.heap.status q = some .processing → p ≠ q := by
    intro q hq e
    subst e
    rw [hp] at hq
    cases hq
  rw [hh, hc]
  refine ⟨?_, ?_, ?_, h5, ?_, ?_, ?_⟩
  · rw [heap_map_id_update _ _ _ hf]
    exact h1
  · intro e he
    rw [heap_id_update _ _ _ _ hf]
    exact h2 e (hr e he)
  · intro q hq
    rw [heap_status_update_ne _ _ _ _ (hne q (h4 q hq))]
    exact h4 q hq
  · intro r hr2
    obtain ⟨ha, q, hq1, hq2, hq3⟩ := h6 r hr2
    refine ⟨ha, q, Ne.symm (hne q hq3), hq1, ?_, ?_⟩
    · rw [heap_id_update _ _ _ _ hf]
      exact hq2
    · rw [heap_status_update_ne _ _ _ _ (hne q hq3)]
      exact hq3
  · intro hmem
    exact hne p (h4 p hmem) rfl
  · intro q hq
    exact heap_status_update_ne _ _ _ _ (Ne.symm hq)

/-- The cancellation of a request keeps the invariant and the map, and
changes a status only from pending to cancelled. -/
theorem cancelIfPending_spec (c : AsyncCheckerImpl) (held : List Nat) (id : Str) (p : Nat)
    (hinv : ImplInv c held) :
    ImplInv (c.cancelIfPending id p) held ∧
    (c.cancelIfPending id p).requests = c.requests ∧
    ∀ q st, c.heap.status q = some st →
      ∃ st2, (c.cancelIfPending id p).heap.status q = some st2 ∧ cancelOrSame st st2 := by
  unfold AsyncCheckerImpl.cancelIfPending
  cases hg : c.heap.get? p with
  | none => exact ⟨hinv, rfl, fun q st h => ⟨st, h, Or.inl rfl⟩⟩
  | some request =>
      dsimp only
      by_cases hpend : request.Status = .pending
      · rw [if_pos hpend]
        have hp : c.heap.status p = some .pending := by
          simp only [Heap.status, hg, Option.map_some', hpend]
        have hu := implInv_update_pending c
          { c with
              heap := c.heap.update p (fun r => { r with Status := .cancelled }),
              stats := { c.stats with FailedRequests := c.stats.FailedRequests + 1 },
              called :=
                if request.Callback then
                  c.called ++ [(p, { ID := id, URL := [], Version := [],
                                     Error := some (.plain "request cancelled".toList),
                                     Status := .cancelled })]
                else c.called } held p (fun r => { r with Status := .cancelled }) hinv hp
          (fun _ => rfl) rfl rfl (fun e he => he)
        obtain ⟨u1, u2, u3, u4, u5, u6, u7⟩ := hu
        refine ⟨⟨u1, u2, hinv.2.2.1, u3, u4, ?_⟩, rfl, ?_⟩
        · intro r hr
          obtain ⟨ha, q, _, hq⟩ := u5 r hr
          exact ⟨ha, q, hq⟩
        · intro q st hst
          by_cases hqp : q = p
          · subst hqp
            rw [hp] at hst
            cases hst
            exact ⟨.cancelled, heap_status_update_same _ _ _ _ _ hp (fun _ => rfl),
              Or.inr ⟨rfl, rfl⟩⟩
          · exact ⟨st, by rw [u7 q hqp]; exact hst, Or.inl rfl⟩
      · rw [if_neg hpend]
        exact ⟨hinv, rfl, fun q st h => ⟨st, h, Or.inl rfl⟩⟩

theorem cancelAll_spec (l : List (Str × Nat)) (held : List Nat) :
    ∀ (c : AsyncCheckerImpl), ImplInv c held →
      ImplInv (l.foldl (fun acc e => acc.cancelIfPending e.1 e.2) c) held ∧
      ∀ q st, c.heap.status q = some st →
        ∃ st2, (l.foldl (fun acc e => acc.cancelIfPending e.1 e.2) c).heap.status q = some st2 ∧
          cancelOrSame st st2 := by
  induction l with
  | nil => intro c h; exact ⟨h, fun q st hq => ⟨st, hq, Or.inl rfl⟩⟩
  | cons e l ih =>
      intro c h
      have h1 := cancelIfPending_spec c held e.1 e.2 h
      have h2 := ih (c.cancelIfPending e.1 e.2) h1.1
      refine ⟨h2.1, ?_⟩
      intro q st hq
      obtain ⟨st1, hs1, hr1⟩ := h1.2.2 q st hq
      obtain ⟨st2, hs2, hr2⟩ := h2.2 q st1 hs1
      exact ⟨st2, hs2, cancelOrSame_trans _ _ _ hr1 hr2⟩

theorem cancelOrSame_edge (st st2 : Status) (h : cancelOrSame st st2) :
    st2 = st ∨ st.edge st2 = true := by
  rcases h with h | ⟨h1, h2⟩
  · exact Or.inl h
  · subst h1
    subst h2
    exact Or.inr rfl

/-- What a round of the worker adds to the channel. -/
theorem workerSend_spec (c : AsyncCheckerImpl) (p : Nat) (request : AsyncCheckRequest)
    (getChecker : Str → Option GoError) (check : Str → Str → Str × Option GoError)
    (hg : c.heap.get? p = some request) :
    ∃ res : AsyncCheckResult,
      c.workerSend p getChecker check = { c with resultChan := c.resultChan ++ [res] } ∧
      res.ID = request.ID ∧ (res.Status = .completed ∨ res.Status = .failed) ∧
      (res.Error = none ↔ res.Status = .completed) := by
  unfold AsyncCheckerImpl.workerSend
  rw [hg]
  dsimp only
  split
  · split
    · exact ⟨_, rfl, rfl, Or.inr rfl, by simp⟩
    · refine ⟨_, rfl, rfl, ?_, ?_⟩
      · dsimp only
        split
        · exact Or.inr rfl
        · exact Or.inl rfl
      · dsimp only
        cases (check request.URL request.VersionExtractKey).2 <;> simp
  · exact ⟨_, rfl, rfl, Or.inr rfl, by simp⟩

/-- One operation on an `ImplSystem` that gives no identifier out twice keeps
the invariant and moves the status of every request object along an edge or
not at all. -/
theorem implStep_edge (s : ImplSystem) (hinv : s.Inv) (op : ImplOp) (hfresh : s.fresh op = true) :
    (s.step op).Inv ∧
    ∀ p st, s.checker.heap.status p = some st →
      ∃ st2, (s.step op).checker.heap.status p = some st2 ∧ (st2 = st ∨ st.edge st2 = true) := by
  have hinv0 := hinv
  unfold ImplSystem.Inv at hinv0 ⊢
  obtain ⟨h1, h2, h3, h4, h5, h6⟩ := hinv
  cases op with
  | submit url key flag cb now =>
      simp only [ImplSystem.step, AsyncCheckerImpl.Submit, AsyncCheckerImpl.CheckWithCheckerName]
      split
      · exact ⟨hinv0, fun p st h => ⟨st, h, Or.inl rfl⟩⟩
      · have hf : ("http".toList ++ '-' :: fmtInt now) ∉ s.checker.heap.map (fun r => r.ID) := by
          simp only [ImplSystem.fresh, Bool.not_eq_true', List.any_eq_false, decide_eq_true_eq] at hfresh
          intro hmem
          obtain ⟨r, hr, hrid⟩ := List.mem_map.mp hmem
          exact hfresh r hr hrid
        refine ⟨⟨?_, ?_, h3, ?_, h5, ?_⟩, ?_⟩
        · simp only [List.map_append, List.map_cons, List.map_nil]
          refine List.Nodup.append h1 (List.nodup_singleton _) ?_
          intro x hx hx2
          rw [List.mem_singleton] at hx2
          subst hx2
          exact hf hx
        · intro e he
          rcases mem_mapStore _ _ _ _ he with h | h
          · exact heap_id_append _ _ _ _ (h2 e h)
          · subst h
            simp [Heap.id]
        · intro p hp
          exact heap_status_append _ _ _ _ (h4 p hp)
        · intro r hr
          obtain ⟨ha, q, hq1, hq2, hq3⟩ := h6 r hr
          exact ⟨ha, q, hq1, heap_id_append _ _ _ _ hq2, heap_status_append _ _ _ _ hq3⟩
        · intro p st hst
          exact ⟨st, heap_status_append _ _ _ _ hst, Or.inl rfl⟩
  | pick p =>
      simp only [ImplSystem.step, AsyncCheckerImpl.pickUp]
      by_cases hc : (s.checker.requests.any (fun e => decide (e.2 = p)) = true
          ∧ s.checker.heap.status p = some .pending)
      · rw [if_pos hc]
        dsimp only
        have hu := implInv_update_pending s.checker
          { s.checker with
              heap := s.checker.heap.update p (fun r => { r with Status := .processing }) }
          s.held p (fun r => { r with Status := .processing }) hinv0 hc.2
          (fun _ => rfl) rfl rfl (fun e he => he)
        obtain ⟨u1, u2, u3, u4, u5, u6, u7⟩ := hu
        refine ⟨⟨u1, u2, List.nodup_cons.mpr ⟨u6, h3⟩, ?_, u4, ?_⟩, ?_⟩
        · intro q hq
          rcases List.mem_cons.mp hq with h | h
          · subst h
            exact heap_status_update_same _ _ _ _ _ hc.2 (fun _ => rfl)
          · exact u3 q h
        · intro r hr
          obtain ⟨ha, q, hq0, hq1, hq2, hq3⟩ := u5 r hr
          refine ⟨ha, q, ?_, hq2, hq3⟩
          intro hmem
          rcases List.mem_cons.mp hmem with h | h
          · exact hq0 h
          · exact hq1 h
        · intro q st hst
          by_cases hqp : q = p
          · subst hqp
            rw [hc.2] at hst
            cases hst
            exact ⟨.processing, heap_status_update_same _ _ _ _ _ hc.2 (fun _ => rfl), Or.inr rfl⟩
          · exact ⟨st, by rw [u7 q hqp]; exact hst, Or.inl rfl⟩
      · rw [if_neg hc]
        exact ⟨hinv0, fun p st h => ⟨st, h, Or.inl rfl⟩⟩
  | send p getChecker check =>
      simp only [ImplSystem.step]
      by_cases hp : p ∈ s.held
      · rw [if_pos hp]
        dsimp only
        have hproc := h4 p hp
        cases hg : s.checker.heap.get? p with
        | none =>
            simp only [Heap.status, hg] at hproc
            cases hproc
        | some request =>
            obtain ⟨res, heq, hid, hst, _⟩ := workerSend_spec s.checker p request getChecker check hg
            rw [heq]
            have hidp : s.checker.heap.id p = some res.ID := by
              simp only [Heap.id, hg, Option.map_some', hid]
            refine ⟨⟨h1, h2, h3.erase p, ?_, ?_, ?_⟩, fun q st h => ⟨st, h, Or.inl rfl⟩⟩
            · intro q hq
              exact h4 q (List.mem_of_mem_erase hq)
            · simp only [List.map_append, List.map_cons, List.map_nil]
              refine List.Nodup.append h5 (List.nodup_singleton _) ?_
              intro x hx hx2
              rw [List.mem_singleton] at hx2
              subst hx2
              obtain ⟨r, hr, hrid⟩ := List.mem_map.mp hx
              obtain ⟨_, q, hq1, hq2, _⟩ := h6 r hr
              rw [hrid] at hq2
              have := heap_id_inj _ _ _ _ h1 hq2 hidp
              exact hq1 (this ▸ hp)
            · intro r hr
              rcases List.mem_append.mp hr with h | h
              · obtain ⟨ha, q, hq1, hq2, hq3⟩ := h6 r h
                exact ⟨ha, q, fun hm => hq1 (List.mem_of_mem_erase hm), hq2, hq3⟩
              · rw [List.mem_singleton] at h
                subst h
                refine ⟨hst, p, ?_, hidp, hproc⟩
                intro hm
                exact ((h3.mem_erase_iff).mp hm).1 rfl
      · rw [if_neg hp]
        exact ⟨hinv0, fun p st h => ⟨st, h, Or.inl rfl⟩⟩
  | results =>
      simp only [ImplSystem.step, AsyncCheckerImpl.resultProcessor]
      cases hch : s.checker.resultChan with
      | nil => exact ⟨hinv0, fun p st h => ⟨st, h, Or.inl rfl⟩⟩
      | cons result rest =>
          rw [hch] at h5 h6
          simp only [List.map_cons, List.nodup_cons] at h5
          have hrest : ∀ r ∈ rest, r.ID ≠ result.ID := by
            intro r hr e
            exact h5.1 (e ▸ List.mem_map_of_mem _ hr)
          obtain ⟨hres, q0, hq01, hq02, hq03⟩ := h6 result (List.mem_cons_self _ _)
          dsimp only
          cases hl : mapLookup s.checker.requests result.ID with
          | none =>
              dsimp only
              refine ⟨⟨h1, h2, h3, h4, h5.2, fun r hr => h6 r (List.mem_cons_of_mem _ hr)⟩,
                fun p st h => ⟨st, h, Or.inl rfl⟩⟩
          | some q =>
              dsimp only
              have hq : q = q0 :=
                heap_id_inj _ _ _ _ h1 (h2 _ (mapLookup_mem _ _ _ hl)) hq02
              subst hq
              have hf : ∀ r : AsyncCheckRequest,
                  ({ r with Status := result.Status, Result := result.Version,
                            Error := result.Error } : AsyncCheckRequest).ID = r.ID := fun _ => rfl
              refine ⟨⟨?_, ?_, h3, ?_, h5.2, ?_⟩, ?_⟩
              · rw [heap_map_id_update _ _ _ hf]
                exact h1
              · intro e he
                rw [heap_id_update _ _ _ _ hf]
                exact h2 e he
              · intro p hp
                have hne : q ≠ p := fun e => hq01 (e ▸ hp)
                rw [heap_status_update_ne _ _ _ _ hne]
                exact h4 p hp
              · intro r hr
                obtain ⟨ha, p, hp1, hp2, hp3⟩ := h6 r (List.mem_cons_of_mem _ hr)
                have hne : q ≠ p := by
                  intro e
                  subst e
                  rw [hq02] at hp2
                  exact hrest r hr (Option.some.inj hp2).symm
                refine ⟨ha, p, hp1, ?_, ?_⟩
                · rw [heap_id_update _ _ _ _ hf]
                  exact hp2
                · rw [heap_status_update_ne _ _ _ _ hne]
                  exact hp3
              · intro p st hst
                by_cases hpq : q = p
                · subst hpq
                  rw [hq03] at hst
                  cases hst
                  refine ⟨result.Status,
                    heap_status_update_same _ _ _ _ _ hq03 (fun _ => rfl), Or.inr ?_⟩
                  rcases hres with h | h <;> rw [h] <;> rfl
                · exact ⟨st, by rw [heap_status_update_ne _ _ _ _ hpq]; exact hst, Or.inl rfl⟩
  | remove id =>
      simp only [ImplSystem.step, AsyncCheckerImpl.Remove]
      cases hl : mapLookup s.checker.requests id with
      | none => exact ⟨hinv0, fun p st h => ⟨st, h, Or.inl rfl⟩⟩
      | some p =>
          dsimp only
          have hc := cancelIfPending_spec s.checker s.held id p hinv0
          refine ⟨implInv_congr _ _ _ hc.1 rfl rfl (fun e he => mem_mapDelete _ _ _ he), ?_⟩
          intro q st hst
          obtain ⟨st2, hs2, hr⟩ := hc.2.2 q st hst
          exact ⟨st2, hs2, cancelOrSame_edge _ _ hr⟩
  | clear =>
      simp only [ImplSystem.step, AsyncCheckerImpl.Clear]
      have hc := cancelAll_spec s.checker.requests s.held s.checker hinv0
      refine ⟨implInv_congr _ _ _ hc.1 rfl rfl (fun e he => by cases he), ?_⟩
      intro q st hst
      obtain ⟨st2, hs2, hr⟩ := hc.2 q st hst
      exact ⟨st2, hs2, cancelOrSame_edge _ _ hr⟩
  | setMaxPending max =>
      exact ⟨implInv_congr _ _ _ hinv0 rfl rfl (fun e he => he), fun p st h => ⟨st, h, Or.inl rfl⟩⟩

theorem implNew_inv (maxPending : Int) : (ImplSystem.new maxPending).Inv := by
  refine ⟨List.nodup_nil, ?_, List.nodup_nil, ?_, List.nodup_nil, ?_⟩
  · intro e he
    cases he
  · intro p hp
    cases hp
  · intro r hr
    cases hr

theorem implRun_inv (ops : List ImplOp) :
    ∀ (s : ImplSystem), s.Inv → s.freshRun ops = true → (s.run ops).Inv := by
  induction ops with
  | nil => intro s h _; exact h
  | cons op ops ih =>
      intro s h hf
      simp only [ImplSystem.freshRun, Bool.and_eq_true] at hf
      exact ih (s.step op) (implStep_edge s h op hf.1).1 hf.2

theorem implRun_append (s : ImplSystem) (ops : List ImplOp) (op : ImplOp) :
    s.run (ops ++ [op]) = (s.run ops).step op := by
  simp [ImplSystem.run, List.foldl_append]

theorem implFreshRun_append (ops : List ImplOp) (ops2 : List ImplOp) :
    ∀ (s : ImplSystem), s.freshRun (ops ++ ops2) = true →
      s.freshRun ops = true ∧ (s.run ops).freshRun ops2 = true := by
  induction ops with
  | nil => intro s h; exact ⟨rfl, h⟩
  | cons o ops ih =>
      intro s h
      simp only [List.cons_append, ImplSystem.freshRun, Bool.and_eq_true] at h ⊢
      have := ih (s.step o) h.2
      exact ⟨⟨h.1, this.1⟩, this.2⟩

/-- What `processRequest` adds to the channel and to the started callbacks. -/
theorem processRequest_results (a : AsyncChecker) (p : Nat)
    (checkSingle : Nat → Except GoError Str) :
    (∀ r ∈ (a.processRequest p checkSingle).resultChan, r ∈ a.resultChan ∨ r.wellFormed) ∧
    (∀ x ∈ (a.processRequest p checkSingle).called, x ∈ a.called ∨ x.2.wellFormed) := by
  unfold AsyncChecker.processRequest
  cases h : (retryLoop checkSingle).outcome with
  | ok version =>
      dsimp only
      unfold AsyncChecker.sendResult
      dsimp only
      rw [heap_get_update]
      cases a.heap.get? p with
      | none => exact ⟨fun r hr => Or.inl hr, fun x hx => Or.inl hx⟩
      | some request =>
          simp only [Option.map_some', if_true]
          constructor
          · intro r hr
            split at hr
            · rcases List.mem_append.mp hr with h1 | h1
              · exact Or.inl h1
              · rw [List.mem_singleton] at h1
                subst h1
                exact Or.inr ⟨rfl, by simp⟩
            · exact Or.inl hr
          · intro x hx
            split at hx
            · rcases List.mem_append.mp hx with h1 | h1
              · exact Or.inl h1
              · rw [List.mem_singleton] at h1
                subst h1
                exact Or.inr ⟨rfl, by simp⟩
            · exact Or.inl hx
  | error l =>
      have hl := retryLoop_error_some checkSingle l h
      dsimp only
      unfold AsyncChecker.sendResult
      dsimp only
      rw [heap_get_update]
      cases a.heap.get? p with
      | none => exact ⟨fun r hr => Or.inl hr, fun x hx => Or.inl hx⟩
      | some request =>
          simp only [Option.map_some', if_true]
          constructor
          · intro r hr
            split at hr
            · rcases List.mem_append.mp hr with h1 | h1
              · exact Or.inl h1
              · rw [List.mem_singleton] at h1
                subst h1
                exact Or.inr ⟨rfl, by simp [hl]⟩
            · exact Or.inl hr
          · intro x hx
            split at hx
            · rcases List.mem_append.mp hx with h1 | h1
              · exact Or.inl h1
              · rw [List.mem_singleton] at h1
                subst h1
                exact Or.inr ⟨rfl, by simp [hl]⟩
            · exact Or.inl hx

theorem getNextPendingRequest_results (a : AsyncChecker) (p : Nat) :
    (a.getNextPendingRequest p).1.resultChan = a.resultChan ∧
    (a.getNextPendingRequest p).1.called = a.called := by
  unfold AsyncChecker.getNextPendingRequest
  split <;> simp

theorem submit_results (a : AsyncChecker) (id url key : Str) (flag : Int) (cb : Bool) :
    (a.Submit id url key flag cb).1.resultChan = a.resultChan ∧
    (a.Submit id url key flag cb).1.called = a.called := by
  unfold AsyncChecker.Submit
  split
  · simp
  · split <;> simp

/-- Every result that an `AsyncChecker` has in its channel or started a
callback with is well formed. -/
theorem asyncRun_results (ops : List AsyncOp) :
    ∀ (s : AsyncSystem),
      ((∀ r ∈ s.checker.resultChan, r.wellFormed) ∧ (∀ x ∈ s.checker.called, x.2.wellFormed)) →
      ((∀ r ∈ (s.run ops).checker.resultChan, r.wellFormed) ∧
        (∀ x ∈ (s.run ops).checker.called, x.2.wellFormed)) := by
  induction ops with
  | nil => intro s h; exact h
  | cons op ops ih =>
      intro s h
      apply ih (s.step op)
      cases op with
      | submit id url key flag cb =>
          simp only [AsyncSystem.step]
          rw [(submit_results _ _ _ _ _ _).1, (submit_results _ _ _ _ _ _).2]
          exact h
      | pick p =>
          have := getNextPendingRequest_results s.checker p
          simp only [AsyncSystem.step]
          split
          · rename_i a q heq
            rw [heq] at this
            dsimp only at this ⊢
            rw [this.1, this.2]
            exact h
          · rename_i a heq
            rw [heq] at this
            dsimp only at this ⊢
            rw [this.1, this.2]
            exact h
      | process p cs =>
          simp only [AsyncSystem.step]
          split
          · dsimp only
            have := processRequest_results s.checker p cs
            constructor
            · intro r hr
              rcases this.1 r hr with h1 | h1
              · exact h.1 r h1
              · exact h1
            · intro x hx
              rcases this.2 x hx with h1 | h1
              · exact h.2 x h1
              · exact h1
          · exact h
      | results =>
          simp only [AsyncSystem.step, AsyncChecker.processResults]
          exact ⟨fun r hr => h.1 r (List.mem_of_mem_tail hr), h.2⟩
      | remove id =>
          simp only [AsyncSystem.step, AsyncChecker.Remove]
          split <;> exact h
      | clear => exact h

/-- A result that `AsyncChecker.GetResult` returns is well formed, by the invariant. -/
theorem asyncGetResult_wellFormed (s : AsyncSystem) (hinv : s.Inv) (id : Str)
    (r : AsyncCheckResult) (h : s.checker.GetResult id = some r) : r.wellFormed := by
  unfold AsyncChecker.GetResult at h
  cases hl : mapLookup s.checker.requests id with
  | none => rw [hl] at h; cases h
  | some p =>
      rw [hl] at h
      dsimp only at h
      cases hg : s.checker.heap.get? p with
      | none => rw [hg] at h; cases h
      | some request =>
          rw [hg] at h
          dsimp only at h
          have herr := hinv.2.2 p request hg
          split at h
          · cases h
          · rename_i hst
            cases h
            unfold AsyncCheckResult.wellFormed
            dsimp only
            cases hs : request.Status <;> simp_all [Status.terminal]

theorem cancelIfPending_results (c : AsyncCheckerImpl) (id : Str) (p : Nat)
    (h : ImplResultsInv c) : ImplResultsInv (c.cancelIfPending id p) := by
  obtain ⟨h1, h2, h3⟩ := h
  unfold AsyncCheckerImpl.cancelIfPending
  cases hg : c.heap.get? p with
  | none => exact ⟨h1, h2, h3⟩
  | some request =>
      dsimp only
      split
      · rename_i hpend
        refine ⟨h1, ?_, ?_⟩
        · intro q r hq
          dsimp only at hq
          rw [heap_get_update] at hq
          cases hq0 : c.heap.get? q with
          | none => rw [hq0] at hq; cases hq
          | some r0 =>
              rw [hq0] at hq
              simp only [Option.map_some', Option.some.injEq] at hq
              have := h2 q r0 hq0
              by_cases hpq : p = q
              · subst hpq
                rw [hg] at hq0
                cases hq0
                simp only [if_true] at hq
                subst hq
                simp only [hpend, ne_eq, not_false_eq_true, reduceCtorEq, iff_true] at this
                simp [this]
              · simp only [hpq, if_false] at hq
                subst hq
                exact this
        · intro x hx
          dsimp only at hx
          split at hx
          · rcases List.mem_append.mp hx with h4 | h4
            · exact h3 x h4
            · rw [List.mem_singleton] at h4
              subst h4
              exact ⟨rfl, by simp⟩
          · exact h3 x hx
      · exact ⟨h1, h2, h3⟩

theorem cancelAll_results (l : List (Str × Nat)) :
    ∀ (c : AsyncCheckerImpl), ImplResultsInv c →
      ImplResultsInv (l.foldl (fun acc e => acc.cancelIfPending e.1 e.2) c) := by
  induction l with
  | nil => intro c h; exact h
  | cons e l ih =>
      intro c h
      exact ih _ (cancelIfPending_results c e.1 e.2 h)

/-- Every operation of an `AsyncCheckerImpl` keeps the invariant of the results. -/
theorem implStep_results (s : ImplSystem) (op : ImplOp) (h : ImplResultsInv s.checker) :
    ImplResultsInv (s.step op).checker := by
  have h0 := h
  obtain ⟨h1, h2, h3⟩ := h
  cases op with
  | submit url key flag cb now =>
      simp only [ImplSystem.step, AsyncCheckerImpl.Submit, AsyncCheckerImpl.CheckWithCheckerName]
      split
      · exact h0
      · refine ⟨h1, ?_, h3⟩
        intro q r hq
        rcases heap_get_append _ _ _ _ hq with h4 | h4
        · exact h2 q r h4
        · subst h4
          simp
  | pick p =>
      simp only [ImplSystem.step, AsyncCheckerImpl.pickUp]
      by_cases hc : (s.checker.requests.any (fun e => decide (e.2 = p)) = true
          ∧ s.checker.heap.status p = some .pending)
      · rw [if_pos hc]
        refine ⟨h1, ?_, h3⟩
        intro q r hq
        dsimp only at hq
        rw [heap_get_update] at hq
        cases hq0 : s.checker.heap.get? q with
        | none => rw [hq0] at hq; cases hq
        | some r0 =>
            rw [hq0] at hq
            simp only [Option.map_some', Option.some.injEq] at hq
            have := h2 q r0 hq0
            by_cases hpq : p = q
            · subst hpq
              have hpend : r0.Status = .pending := by
                have := hc.2
                simp only [Heap.status, hq0, Option.map_some', Option.some.injEq] at this
                exact this
              simp only [if_true] at hq
              subst hq
              simp only [hpend, ne_eq, not_false_eq_true, reduceCtorEq, iff_true] at this
              simp [this]
            · simp only [hpq, if_false] at hq
              subst hq
              exact this
      · rw [if_neg hc]
        exact h0
  | send p getChecker check =>
      simp only [ImplSystem.step]
      split
      · dsimp only
        cases hg : s.checker.heap.get? p with
        | none =>
            have : s.checker.workerSend p getChecker check = s.checker := by
              unfold AsyncCheckerImpl.workerSend
              rw [hg]
            rw [this]
            exact h0
        | some request =>
            obtain ⟨res, heq, _, hst, herr⟩ :=
              workerSend_spec s.checker p request getChecker check hg
            rw [heq]
            refine ⟨?_, h2, h3⟩
            intro r hr
            rcases List.mem_append.mp hr with h4 | h4
            · exact h1 r h4
            · rw [List.mem_singleton] at h4
              subst h4
              exact ⟨hst, herr⟩
      · exact h0
  | results =>
      simp only [ImplSystem.step, AsyncCheckerImpl.resultProcessor]
      cases hch : s.checker.resultChan with
      | nil => exact h0
      | cons result rest =>
          rw [hch] at h1
          obtain ⟨hres, herr⟩ := h1 result (List.mem_cons_self _ _)
          dsimp only
          cases hl : mapLookup s.checker.requests result.ID with
          | none =>
              exact ⟨fun r hr => h1 r (List.mem_cons_of_mem _ hr), h2, h3⟩
          | some q =>
              refine ⟨fun r hr => h1 r (List.mem_cons_of_mem _ hr), ?_, h3⟩
              intro q2 r hq
              dsimp only at hq
              rw [heap_get_update] at hq
              cases hq0 : s.checker.heap.get? q2 with
              | none => rw [hq0] at hq; cases hq
              | some r0 =>
                  rw [hq0] at hq
                  simp only [Option.map_some', Option.some.injEq] at hq
                  by_cases hpq : q = q2
                  · simp only [hpq, if_true] at hq
                    subst hq
                    dsimp only
                    rcases hres with h5 | h5 <;> simp [h5, herr]
                  · simp only [hpq, if_false] at hq
                    subst hq
                    exact h2 q2 _ hq0
  | remove id =>
      simp only [ImplSystem.step, AsyncCheckerImpl.Remove]
      cases hl : mapLookup s.checker.requests id with
      | none => exact h0
      | some p => exact cancelIfPending_results s.checker id p h0
  | clear =>
      simp only [ImplSystem.step, AsyncCheckerImpl.Clear]
      exact cancelAll_results s.checker.requests s.checker h0
  | setMaxPending max => exact h0

theorem implRun_results (ops : List ImplOp) :
    ∀ (s : ImplSystem), ImplResultsInv s.checker → ImplResultsInv (s.run ops).checker := by
  induction ops with
  | nil => intro s h; exact h
  | cons op ops ih =>
      intro s h
      exact ih (s.step op) (implStep_results s op h)

theorem implNew_results (maxPending : Int) : ImplResultsInv (ImplSystem.new maxPending).checker := by
  refine ⟨?_, ?_, ?_⟩
  · intro r hr; cases hr
  · intro p r h
    simp [ImplSystem.new, AsyncCheckerImpl.new] at h
  · intro x hx; cases hx

theorem mapLookup_mapStore_same {α : Type} (m : List (Str × α)) (key : Str) (v : α) :
    mapLookup (mapStore m key v) key = some v := by
  induction m with
  | nil => simp [mapStore, mapLookup]
  | cons e m ih =>
      obtain ⟨k, w⟩ := e
      unfold mapStore
      by_cases hk : k = key
      · simp [hk, mapLookup]
      · simp only [hk, if_false]
        unfold mapLookup
        simp only [hk, if_false]
        exact ih

theorem mapDelete_length_of_mem {α : Type} (m : List (Str × α)) (key : Str) (v : α)
    (hnd : (m.map (fun e => e.1)).Nodup) (hmem : (key, v) ∈ m) :
    (mapDelete m key).length + 1 = m.length := by
  induction m with
  | nil => cases hmem
  | cons e m ih =>
      obtain ⟨k, w⟩ := e
      simp only [List.map_cons, List.nodup_cons] at hnd
      unfold mapDelete at ih ⊢
      by_cases hk : k = key
      · subst hk
        have : m.filter (fun e => decide (e.1 ≠ k)) = m := by
          apply List.filter_eq_self.mpr
          intro a ha
          have : a.1 ≠ k := by
            intro e
            apply hnd.1
            rw [← e]
            exact List.mem_map_of_mem (fun e => e.1) ha
          simpa using this
        rw [List.filter_cons_of_neg (by simp), this]
        rfl
      · have hm : (key, v) ∈ m := by
          rcases List.mem_cons.mp hmem with h | h
          · cases h
            exact absurd rfl hk
          · exact h
        simp only [List.filter_cons, ne_eq, hk, not_false_eq_true, decide_True, if_true,
          List.length_cons]
        have := ih hnd.2 hm
        simp only [ne_eq] at this
        omega

/-- The entry that the loop of `evict` settles on: it is the entry carried
in or an entry of the list, and no entry of the list was used earlier. -/
theorem oldestEntry_spec (l : List (Str × CacheEntry)) :
    ∀ (acc : Option (Str × Int)) (k : Str) (t : Int), oldestEntry l acc = some (k, t) →
      (acc = some (k, t) ∨ ∃ e, (k, e) ∈ l ∧ e.LastAccess = t) ∧
      (∀ x ∈ l, t ≤ x.2.LastAccess) ∧ (∀ k0 t0, acc = some (k0, t0) → t ≤ t0) := by
  induction l with
  | nil =>
      intro acc k t h
      simp only [oldestEntry] at h
      subst h
      refine ⟨Or.inl rfl, fun x hx => (by cases hx), ?_⟩
      intro k0 t0 h0
      cases h0
      exact le_refl _
  | cons e l ih =>
      obtain ⟨key, entry⟩ := e
      intro acc k t h
      cases acc with
      | none =>
          simp only [oldestEntry] at h
          obtain ⟨h1, h2, h3⟩ := ih _ k t h
          refine ⟨Or.inr ?_, ?_, fun k0 t0 h0 => (by cases h0)⟩
          · rcases h1 with h1 | ⟨e, he, het⟩
            · cases h1
              exact ⟨entry, List.mem_cons_self _ _, rfl⟩
            · exact ⟨e, List.mem_cons_of_mem _ he, het⟩
          · intro x hx
            rcases List.mem_cons.mp hx with hx | hx
            · subst hx
              exact h3 _ _ rfl
            · exact h2 x hx
      | some a =>
          obtain ⟨k0, t0⟩ := a
          simp only [oldestEntry] at h
          by_cases hlt : entry.LastAccess < t0
          · simp only [hlt, if_true] at h
            obtain ⟨h1, h2, h3⟩ := ih _ k t h
            refine ⟨Or.inr ?_, ?_, ?_⟩
            · rcases h1 with h1 | ⟨e, he, het⟩
              · cases h1
                exact ⟨entry, List.mem_cons_self _ _, rfl⟩
              · exact ⟨e, List.mem_cons_of_mem _ he, het⟩
            · intro x hx
              rcases List.mem_cons.mp hx with hx | hx
              · subst hx
                exact h3 _ _ rfl
              · exact h2 x hx
            · intro k1 t1 h0
              cases h0
              have := h3 _ _ rfl
              omega
          · simp only [hlt, if_false] at h
            obtain ⟨h1, h2, h3⟩ := ih _ k t h
            refine ⟨?_, ?_, ?_⟩
            · rcases h1 with h1 | ⟨e, he, het⟩
              · exact Or.inl h1
              · exact Or.inr ⟨e, List.mem_cons_of_mem _ he, het⟩
            · intro x hx
              rcases List.mem_cons.mp hx with hx | hx
              · subst hx
                have := h3 _ _ rfl
                dsimp only
                omega
              · exact h2 x hx
            · intro k1 t1 h0
              cases h0
              exact h3 _ _ rfl

theorem oldestEntry_isSome (l : List (Str × CacheEntry)) :
    ∀ (acc : Option (Str × Int)), (l ≠ [] ∨ acc.isSome = true) →
      (oldestEntry l acc).isSome = true := by
  induction l with
  | nil =>
      intro acc h
      rcases h with h | h
      · exact absurd rfl h
      · simpa [oldestEntry] using h
  | cons e l ih =>
      obtain ⟨key, entry⟩ := e
      intro acc _
      cases acc with
      | none =>
          simp only [oldestEntry]
          exact ih _ (Or.inr rfl)
      | some a =>
          obtain ⟨k0, t0⟩ := a
          simp only [oldestEntry]
          split
          · exact ih _ (Or.inr rfl)
          · exact ih _ (Or.inr rfl)

theorem get_hit (c : CheckCache) (key : Str) (now : Int) (entry : CacheEntry)
    (hl : mapLookup c.cache key = some entry) (hnow : now ≤ entry.ExpiryTime) :
    (c.Get key now).2 = some entry.Version ∧
    ∃ entry2, mapLookup (c.Get key now).1.cache key = some entry2 ∧
      entry2.Version = entry.Version ∧ entry2.ExpiryTime = entry.ExpiryTime := by
  unfold CheckCache.Get
  rw [hl]
  dsimp only
  have : ¬ now > entry.ExpiryTime := by omega
  rw [if_neg this]
  split
  · exact ⟨rfl, _, mapLookup_mapStore_same _ _ _, rfl, rfl⟩
  · exact ⟨rfl, entry, hl, rfl, rfl⟩

theorem get_found (c : CheckCache) (key : Str) (now : Int) (v : Str)
    (h : (c.Get key now).2 = some v) :
    ∃ entry, mapLookup c.cache key = some entry ∧ entry.Version = v ∧ now ≤ entry.ExpiryTime := by
  unfold CheckCache.Get at h
  cases hl : mapLookup c.cache key with
  | none => rw [hl] at h; cases h
  | some entry =>
      rw [hl] at h
      dsimp only at h
      by_cases hexp : now > entry.ExpiryTime
      · rw [if_pos hexp] at h
        cases h
      · rw [if_neg hexp] at h
        refine ⟨entry, rfl, ?_, by omega⟩
        split at h
        · exact Option.some.inj h
        · exact Option.some.inj h

/-- A lookup that misses stores nothing: what is in the cache afterwards was
there before, and the settings stay. -/
theorem get_miss (c : CheckCache) (key : Str) (now : Int) (h : (c.Get key now).2 = none) :
    (∀ e ∈ (c.Get key now).1.cache, e ∈ c.cache) ∧ (c.Get key now).1.ttl = c.ttl := by
  unfold CheckCache.Get at h ⊢
  cases hl : mapLookup c.cache key with
  | none => exact ⟨fun e he => he, rfl⟩
  | some entry =>
      rw [hl] at h
      dsimp only at h ⊢
      by_cases hexp : now > entry.ExpiryTime
      · rw [if_pos hexp]
        exact ⟨fun e he => List.mem_of_mem_filter he, rfl⟩
      · rw [if_neg hexp] at h
        split at h <;> cases h

theorem evict_ttl (c : CheckCache) : c.evict.ttl = c.ttl := by
  unfold CheckCache.evict
  split
  · rfl
  · split
    · split
      · split <;> rfl
      · rfl
    · split <;> rfl

theorem set_lookup (c : CheckCache) (key version : Str) (now : Int) :
    mapLookup (c.Set key version now).cache key
      = some { Version := version, ExpiryTime := now + c.ttl, LastAccess := now } := by
  unfold CheckCache.Set
  dsimp only
  rw [mapLookup_mapStore_same]
  split
  · rw [evict_ttl]
  · rfl

/-- A five-part version begins with a digit, so it has no prefix "V". -/
theorem fivePart_no_V (r : Str) (h : fivePartVersionFormat.MatchString r = true) :
    TrimPrefix r ['V'] = r := by
  obtain ⟨cs, hp⟩ := MatchString_sound fivePartVersionFormat r rfl rfl h
  have hp2 : Parses (.seq reNum (Re.seqs [reDotNum, reDotNum, reDotNum, reDotNum])) r [] cs := hp
  obtain ⟨w1, w2, cs1, rfl, h1, _⟩ := (parses_seq_iff _ _ _ _ _).1 hp2
  obtain ⟨hne, hall, _⟩ := parses_plus_cls _ _ _ _ h1
  cases w1 with
  | nil => exact absurd rfl hne
  | cons c w =>
      have hd : isDigitC c = true := by
        simp only [List.all_cons, Bool.and_eq_true] at hall
        exact hall.1
      have hc : c ≠ 'V' := by
        intro e
        subst e
        revert hd
        decide
      simp [TrimPrefix, List.isPrefixOf, Ne.symm hc]

theorem ParseInt_digits_nonneg (w : Str) (hne : w ≠ []) (hd : w.all isDigitC = true) (n : Int)
    (h : ParseInt w = some n) : 0 ≤ n := by
  cases w with
  | nil => exact absurd rfl hne
  | cons c t =>
      have hc : isDigitC c = true := by
        simp only [List.all_cons, Bool.and_eq_true] at hd
        exact hd.1
      rw [isDigitC_iff] at hc
      unfold ParseInt at h
      split at h
      · rename_i d e
        simp only [List.cons.injEq] at e
        have := (char_eq_iff_toNat c '-').1 e.1
        simp at this
        omega
      · rename_i d e
        simp only [List.cons.injEq] at e
        have := (char_eq_iff_toNat c '+').1 e.1
        simp at this
        omega
      · split at h
        · exact Option.noConfusion h
        · split at h
          · simp only [Option.some.injEq] at h
            rw [← h]
            exact Int.natCast_nonneg _
          · exact Option.noConfusion h

theorem collectComponents_spec (ms : List Caps)
    (h : ∀ m ∈ ms, ∃ w, Parses componentRegex.re w [] m) :
    (∀ n ∈ (collectComponents ms).1, (0 : Int) ≤ n) ∧ (∀ s ∈ (collectComponents ms).2, s ≠ []) := by
  induction ms with
  | nil => simp [collectComponents]
  | cons m rest ih =>
      have ih2 := ih (fun m2 hm2 => h m2 (List.mem_cons_of_mem _ hm2))
      obtain ⟨w, hw⟩ := h m (List.mem_cons_self _ _)
      simp only [collectComponents]
      split
      · rename_i h1
        split
        · rename_i num hnum
          refine ⟨?_, ih2.2⟩
          intro n hn
          simp only [List.mem_cons] at hn
          rcases hn with rfl | hn
          · simp only [componentRegex, parses_alt_iff, parses_grp_iff] at hw
            rcases hw with ⟨cs1, hp, rfl⟩ | ⟨cs1, hp, rfl⟩
            · obtain ⟨hne, hd, rfl⟩ := parses_plus_cls _ _ _ _ hp
              have e : capOf [(1, w)] 1 = w := by simp [capOf]
              rw [e] at hnum
              exact ParseInt_digits_nonneg w hne hd n hnum
            · exfalso
              obtain ⟨_, _, rfl⟩ := parses_plus_cls _ _ _ _ hp
              simp [capOf] at h1
          · exact ih2.1 n hn
        · exact ih2
      · split
        · rename_i h2
          refine ⟨ih2.1, ?_⟩
          intro s hs
          simp only [List.mem_cons] at hs
          rcases hs with rfl | hs
          · simp only [ToLower, ne_eq, List.map_eq_nil_iff]
            simpa using h2
          · exact ih2.2 s hs
        · exact ih2

theorem extract_spec (t : Str) :
    (∀ n ∈ (ExtractVersionComponentsFromString t).1, (0 : Int) ≤ n)
      ∧ (∀ s ∈ (ExtractVersionComponentsFromString t).2, s ≠ []) := by
  unfold ExtractVersionComponentsFromString
  apply collectComponents_spec
  intro m hm
  exact findAllFrom_sound componentRegex _ true t m hm

/-- A loop of `CompareVersionStrings` with nothing on the left and nothing
below the default on the right. -/
theorem padLoop_nil_left {α : Type} [DecidableEq α] {lt : α → α → Bool} (h : StrictTotal lt)
    (d : α) (v : List α) (hv : ∀ x ∈ v, lt x d = false) (k : Nat) :
    ∀ i, v.length ≤ i + k →
      padLoop lt d [] v k i
        = if (v.drop i).all (fun x => decide (x = d)) = true then none else some (-1) := by
  induction k with
  | zero =>
      intro i hk
      have : v.drop i = [] := List.drop_eq_nil_of_le (by omega)
      rw [this]
      rfl
  | succ k ih =>
      intro i hk
      unfold padLoop
      have hnil : ([] : List α).getD i d = d := rfl
      rw [hnil]
      by_cases hi : i < v.length
      · have e : v.drop i = v[i] :: v.drop (i + 1) := List.drop_eq_getElem_cons hi
        have e2 : v.getD i d = v[i] := by
          rw [List.getD_eq_getElem?_getD, List.getElem?_eq_getElem hi]
          rfl
        rw [e2, e, hv v[i] (List.getElem_mem hi), ih (i + 1) (by omega)]
        by_cases hx : v[i] = d
        · rw [hx, h.irrefl]
          simp only [List.all_cons, decide_True, Bool.true_and, Bool.false_eq_true, if_false]
        · have hlt : lt d v[i] = true := by
            cases hc : lt d v[i] with
            | true => rfl
            | false => exact absurd (h.tri _ _ (hv v[i] (List.getElem_mem hi)) hc) hx
          rw [hlt]
          simp only [List.all_cons, hx, decide_False, Bool.false_and, Bool.false_eq_true,
            if_false, if_true]
      · have e : v.drop i = [] := List.drop_eq_nil_of_le (by omega)
        have e1 : v.drop (i + 1) = [] := List.drop_eq_nil_of_le (by omega)
        have e2 : v.getD i d = d := List.getD_eq_default _ _ (by omega)
        rw [e2, h.irrefl, ih (i + 1) (by omega), e, e1]
        simp

set_option maxRecDepth 1000000 in
theorem standardize_empty : StandardizeVersion [] = [] := by decide

set_option maxRecDepth 1000000 in
theorem parseToSemver_empty : parseToSemver [] = none := by decide

set_option maxRecDepth 1000000 in
theorem extract_empty :
    ExtractVersionComponentsFromString (NormalizeVersionString []) = ([], []) := by decide

/-- The fallback comparison of nothing with the components `nums`, `strs`. -/
theorem compareComponents_nil_left (nums : List Int) (strs : List Str)
    (hn : ∀ n ∈ nums, (0 : Int) ≤ n) (hs : ∀ s ∈ strs, s ≠ []) :
    compareComponents [] nums [] strs
      = if (nums.all (fun n => n == 0) && strs.isEmpty) = true then 0 else -1 := by
  rw [compareComponents_rounds [] nums [] strs (max nums.length strs.length)
    (by simp) (by simp) (by simp) (by simp)]
  rw [padLoop_nil_left intLt_strictTotal 0 nums
      (fun x hx => by simpa using hn x hx) _ 0 (by simp),
    padLoop_nil_left strLt_strictTotal [] strs
      (fun x _ => by cases x <;> rfl) _ 0 (by simp)]
  simp only [List.drop_zero]
  have h1 : nums.all (fun x => decide (x = 0)) = nums.all (fun n => n == 0) := by
    congr 1
  have h2 : strs.all (fun x => decide (x = [])) = strs.isEmpty := by
    cases strs with
    | nil => rfl
    | cons a t =>
        have := hs a (List.mem_cons_self _ _)
        simp [this]
  simp only [h1, h2]
  unfold verdictOf
  cases hA : nums.all (fun n => n == 0) <;> cases hB : strs.isEmpty <;> simp

theorem parses_nonnull {r : Re} {w : Str} {cs cs2 : Caps} (h : Parses r w cs cs2)
    (hn : r.nullable = false) : w ≠ [] := by
  induction h with
  | cls p c cs hp => simp
  | eps cs => simp [Re.nullable] at hn
  | seq a b w1 w2 cs cs1 cs2 h1 h2 ih1 ih2 =>
      simp only [Re.nullable, Bool.and_eq_false_iff] at hn
      rcases hn with hn | hn
      · have := ih1 hn
        intro e
        exact this (List.append_eq_nil.mp e).1
      · have := ih2 hn
        intro e
        exact this (List.append_eq_nil.mp e).2
  | altL a b w cs cs1 h ih =>
      simp only [Re.nullable, Bool.or_eq_false_iff] at hn
      exact ih hn.1
  | altR a b w cs cs1 h ih =>
      simp only [Re.nullable, Bool.or_eq_false_iff] at hn
      exact ih hn.2
  | starNil a cs => simp [Re.nullable] at hn
  | starCons a w1 w2 cs cs1 cs2 h1 h2 ih1 ih2 => simp [Re.nullable] at hn
  | grp i a w cs cs1 h ih =>
      simp only [Re.nullable] at hn
      exact ih hn

theorem parses_groupFree {r : Re} {w : Str} {cs cs2 : Caps} (h : Parses r w cs cs2)
    (hg : r.groupFree = true) : cs2 = cs := by
  induction h with
  | cls p c cs hp => rfl
  | eps cs => rfl
  | seq a b w1 w2 cs cs1 cs2 h1 h2 ih1 ih2 =>
      simp only [Re.groupFree, Bool.and_eq_true] at hg
      rw [ih2 hg.2, ih1 hg.1]
  | altL a b w cs cs1 h ih =>
      simp only [Re.groupFree, Bool.and_eq_true] at hg
      exact ih hg.1
  | altR a b w cs cs1 h ih =>
      simp only [Re.groupFree, Bool.and_eq_true] at hg
      exact ih hg.2
  | starNil a cs => rfl
  | starCons a w1 w2 cs cs1 cs2 h1 h2 ih1 ih2 =>
      simp only [Re.groupFree] at hg
      have e2 := ih2 (by simpa [Re.groupFree] using hg)
      rw [e2, ih1 hg]
  | grp i a w cs cs1 h ih => simp [Re.groupFree] at hg

theorem starRun_self (step : Caps → Str → List (Caps × Str)) (n : Nat) (cs : Caps) (s : Str) :
    (cs, s) ∈ starRun step n cs s := by
  cases n with
  | zero => simp [starRun]
  | succ n => simp [starRun]

/-- The matcher finds every parse: completeness of `Re.run` for
expressions whose starred parts consume text. -/
theorem run_complete {r : Re} {w : Str} {cs cs2 : Caps} (h : Parses r w cs cs2) :
    r.starsConsume = true →
      (∀ rest, (cs2, rest) ∈ r.run cs (w ++ rest)) ∧
      (∀ a, r = .star a → ∀ n, w.length ≤ n → ∀ rest,
        (cs2, rest) ∈ starRun (fun cs1 s1 => a.run cs1 s1) n cs (w ++ rest)) := by
  induction h with
  | cls p c cs hp =>
      intro _
      refine ⟨fun rest => ?_, fun a e => by cases e⟩
      simp [Re.run, hp]
  | eps cs =>
      intro _
      refine ⟨fun rest => ?_, fun a e => by cases e⟩
      simp [Re.run]
  | seq a b w1 w2 cs cs1 cs2 h1 h2 ih1 ih2 =>
      intro hs
      simp only [Re.starsConsume, Bool.and_eq_true] at hs
      refine ⟨fun rest => ?_, fun a e => by cases e⟩
      simp only [Re.run, List.mem_flatMap]
      refine ⟨(cs1, w2 ++ rest), ?_, (ih2 hs.2).1 rest⟩
      rw [List.append_assoc]
      exact (ih1 hs.1).1 (w2 ++ rest)
  | altL a b w cs cs1 h ih =>
      intro hs
      simp only [Re.starsConsume, Bool.and_eq_true] at hs
      refine ⟨fun rest => ?_, fun a e => by cases e⟩
      simp only [Re.run, List.mem_append]
      exact Or.inl ((ih hs.1).1 rest)
  | altR a b w cs cs1 h ih =>
      intro hs
      simp only [Re.starsConsume, Bool.and_eq_true] at hs
      refine ⟨fun rest => ?_, fun a e => by cases e⟩
      simp only [Re.run, List.mem_append]
      exact Or.inr ((ih hs.2).1 rest)
  | starNil a cs =>
      intro _
      refine ⟨fun rest => ?_, fun a2 e n _ rest => ?_⟩
      · simp only [Re.run, List.nil_append]
        exact starRun_self _ _ _ _
      · exact starRun_self _ _ _ _
  | starCons a w1 w2 cs cs1 cs2 h1 h2 ih1 ih2 =>
      intro hs
      have hs2 := hs
      simp only [Re.starsConsume, Bool.and_eq_true, Bool.not_eq_true'] at hs2
      have hw1 : w1 ≠ [] := parses_nonnull h1 hs2.1
      have key : ∀ n, (w1 ++ w2).length ≤ n → ∀ rest,
          (cs2, rest) ∈ starRun (fun cs1 s1 => a.run cs1 s1) n cs (w1 ++ w2 ++ rest) := by
        intro n hn rest
        have hlen : 0 < w1.length := List.length_pos.mpr hw1
        simp only [List.length_append] at hn
        cases n with
        | zero => omega
        | succ m =>
            simp only [starRun, List.mem_append, List.mem_flatMap]
            left
            refine ⟨(cs1, w2 ++ rest), ?_, (ih2 hs).2 a rfl m (by omega) rest⟩
            rw [List.append_assoc]
            exact (ih1 hs2.2).1 (w2 ++ rest)
      refine ⟨fun rest => ?_, fun a2 e n hn rest => ?_⟩
      · simp only [Re.run]
        exact key _ (by simp) rest
      · cases e
        exact key n hn rest
  | grp i a w cs cs1 h ih =>
      intro hs
      simp only [Re.starsConsume] at hs
      refine ⟨fun rest => ?_, fun a e => by cases e⟩
      simp only [Re.run, List.mem_map]
      refine ⟨(cs1, rest), (ih hs).1 rest, ?_⟩
      simp

/-- A pattern anchored at both ends matches a text that its body parses,
and the captures returned belong to a parse of the whole text. -/
theorem FindStringSubmatch_complete (p : Regex) (s : Str) (cs : Caps)
    (hb : p.bol = true) (he : p.eol = true) (hs : p.re.starsConsume = true)
    (h : Parses p.re s [] cs) :
    p.MatchString s = true ∧ ∃ m, p.FindStringSubmatch s = some (s, m) ∧ Parses p.re s [] m := by
  have hmem := (run_complete h hs).1 []
  rw [List.append_nil] at hmem
  have hm : (p.matchAt true s).isSome = true := by
    unfold Regex.matchAt
    simp only [hb, Bool.not_true, Bool.and_false, Bool.false_eq_true, if_false]
    rw [List.find?_isSome]
    exact ⟨(cs, []), hmem, by simp⟩
  have hf : (p.findFrom true s).isSome = true := by
    cases s with
    | nil =>
        unfold Regex.findFrom
        cases hx : p.matchAt true [] with
        | none => rw [hx] at hm; cases hm
        | some r => rfl
    | cons c t =>
        unfold Regex.findFrom
        cases hx : p.matchAt true (c :: t) with
        | none => rw [hx] at hm; cases hm
        | some r => rfl
  refine ⟨hf, ?_⟩
  cases hx : p.FindStringSubmatch s with
  | none =>
      unfold Regex.FindStringSubmatch at hx
      cases hy : p.findFrom true s with
      | none => rw [hy] at hf; cases hf
      | some y =>
          rw [hy] at hx
          cases hx
  | some y =>
      obtain ⟨m0, m⟩ := y
      obtain ⟨e, hp⟩ := FindStringSubmatch_sound p s m0 m hb he hx
      subst e
      exact ⟨m, rfl, hp⟩

theorem parses_star_cls_intro (p : Char → Bool) (w : Str) (cs : Caps) (h : w.all p = true) :
    Parses (.star (.cls p)) w cs cs := by
  induction w with
  | nil => exact Parses.starNil _ _
  | cons c t ih =>
      simp only [List.all_cons, Bool.and_eq_true] at h
      exact Parses.starCons (.cls p) [c] t cs cs cs (Parses.cls p c cs h.1) (ih h.2)

theorem parses_plus_cls_intro (p : Char → Bool) (w : Str) (cs : Caps) (hne : w ≠ [])
    (h : w.all p = true) : Parses (Re.plus (.cls p)) w cs cs := by
  cases w with
  | nil => exact absurd rfl hne
  | cons c t =>
      simp only [List.all_cons, Bool.and_eq_true] at h
      exact Parses.seq (.cls p) (.star (.cls p)) [c] t cs cs cs (Parses.cls p c cs h.1)
        (parses_star_cls_intro p t cs h.2)

/-- Two ways to cut a text into a run of `p` characters and a rest that does
not go on with a `p` character are the same. -/
theorem span_unique (p : Char → Bool) :
    ∀ (l1 l2 r1 r2 : Str), l1 ++ r1 = l2 ++ r2 → l1.all p = true → l2.all p = true →
      (∀ c t, r1 = c :: t → p c = false) → (∀ c t, r2 = c :: t → p c = false) →
      l1 = l2 ∧ r1 = r2 := by
  intro l1
  induction l1 with
  | nil =>
      intro l2 r1 r2 e _ h2 n1 _
      cases l2 with
      | nil => exact ⟨rfl, by simpa using e⟩
      | cons c t =>
          simp only [List.nil_append, List.cons_append] at e
          simp only [List.all_cons, Bool.and_eq_true] at h2
          have := n1 c (t ++ r2) e
          rw [this] at h2
          exact absurd h2.1 (by simp)
  | cons a l1 ih =>
      intro l2 r1 r2 e h1 h2 n1 n2
      cases l2 with
      | nil =>
          simp only [List.nil_append, List.cons_append] at e
          simp only [List.all_cons, Bool.and_eq_true] at h1
          have := n2 a (l1 ++ r1) e.symm
          rw [this] at h1
          exact absurd h1.1 (by simp)
      | cons c t =>
          simp only [List.cons_append, List.cons.injEq] at e
          simp only [List.all_cons, Bool.and_eq_true] at h1 h2
          obtain ⟨e1, e2⟩ := ih t r1 r2 e.2 h1.2 h2.2 n1 n2
          exact ⟨by rw [e.1, e1], e2⟩

theorem digit_not_letter (c : Char) (h : isDigitC c = true) : isLetterC c = false := by
  rw [isDigitC_iff] at h
  cases hl : isLetterC c with
  | false => rfl
  | true =>
      rw [isLetterC_iff] at hl
      omega

/-- A text parsed by `\d+(?:\.\d+)*` begins with a digit. -/
theorem parses_reDotted_head (w : Str) (cs cs2 : Caps) (h : Parses reDotted w cs cs2) :
    ∃ c t, w = c :: t ∧ isDigitC c = true := by
  obtain ⟨w1, w2, cs1, rfl, h1, _⟩ := (parses_seq_iff _ _ _ _ _).1 h
  obtain ⟨hne, hall, _⟩ := parses_plus_cls _ _ _ _ h1
  cases w1 with
  | nil => exact absurd rfl hne
  | cons c t =>
      simp only [List.all_cons, Bool.and_eq_true] at hall
      exact ⟨c, t ++ w2, rfl, hall.1⟩

/-- A parse of an expression without groups does not depend on the captures. -/
theorem parses_groupFree_any {r : Re} {w : Str} {cs cs2 : Caps} (h : Parses r w cs cs2)
    (hg : r.groupFree = true) : ∀ cs3, Parses r w cs3 cs3 := by
  induction h with
  | cls p c cs hp => exact fun cs3 => Parses.cls p c cs3 hp
  | eps cs => exact fun cs3 => Parses.eps cs3
  | seq a b w1 w2 cs cs1 cs2 h1 h2 ih1 ih2 =>
      simp only [Re.groupFree, Bool.and_eq_true] at hg
      exact fun cs3 => Parses.seq a b w1 w2 cs3 cs3 cs3 (ih1 hg.1 cs3) (ih2 hg.2 cs3)
  | altL a b w cs cs1 h ih =>
      simp only [Re.groupFree, Bool.and_eq_true] at hg
      exact fun cs3 => Parses.altL a b w cs3 cs3 (ih hg.1 cs3)
  | altR a b w cs cs1 h ih =>
      simp only [Re.groupFree, Bool.and_eq_true] at hg
      exact fun cs3 => Parses.altR a b w cs3 cs3 (ih hg.2 cs3)
  | starNil a cs => exact fun cs3 => Parses.starNil a cs3
  | starCons a w1 w2 cs cs1 cs2 h1 h2 ih1 ih2 =>
      have hg1 : a.groupFree = true := by simpa [Re.groupFree] using hg
      exact fun cs3 => Parses.starCons a w1 w2 cs3 cs3 cs3 (ih1 hg1 cs3) (ih2 hg cs3)
  | grp i a w cs cs1 h ih => simp [Re.groupFree] at hg

/-- The captures of `alphaPrefix` on letters followed by a dotted number. -/
theorem alphaPrefix_captures (letters number : Str) (hl : letters ≠ [])
    (hall : letters.all isLetterC = true) (hnum : dottedNumber.MatchString number = true) :
    ∃ m, alphaPrefix.FindStringSubmatch (letters ++ number) = some (letters ++ number, m) ∧
      capOf m 1 = letters ∧ capOf m 2 = number := by
  obtain ⟨csn, hpn⟩ := MatchString_sound dottedNumber number rfl rfl hnum
  have hcsn : csn = [] := parses_groupFree hpn rfl
  subst hcsn
  have hp : Parses alphaPrefix.re (letters ++ number) [] [(2, number), (1, letters)] := by
    refine Parses.seq _ _ letters number [] [(1, letters)] _
      (Parses.grp 1 _ letters [] [] (parses_plus_cls_intro _ _ _ hl hall)) ?_
    refine Parses.grp 2 _ number [(1, letters)] [(1, letters)] ?_
    exact parses_groupFree_any hpn rfl _
  obtain ⟨_, m, hm, hpm⟩ := FindStringSubmatch_complete alphaPrefix (letters ++ number) _
    rfl rfl rfl hp
  refine ⟨m, hm, ?_⟩
  have hpm2 : Parses (.seq (.grp 1 (Re.plus (.cls isLetterC))) (.grp 2 reDotted))
      (letters ++ number) [] m := hpm
  obtain ⟨w1, w2, cs1, e, h1, h2⟩ := (parses_seq_iff _ _ _ _ _).1 hpm2
  obtain ⟨cs1a, h1a, e1⟩ := (parses_grp_iff _ _ _ _ _).1 h1
  obtain ⟨cs2a, h2a, e2⟩ := (parses_grp_iff _ _ _ _ _).1 h2
  obtain ⟨_, hall1, e1b⟩ := parses_plus_cls _ _ _ _ h1a
  have e2b : cs2a = cs1 := parses_groupFree h2a rfl
  obtain ⟨c2, t2, ew2, hd2⟩ := parses_reDotted_head _ _ _ h2a
  obtain ⟨c0, t0, en, hd0⟩ := parses_reDotted_head _ _ _ hpn
  have hu := span_unique isLetterC w1 letters w2 number e.symm hall1 hall
    (fun c t ec => by
      rw [ew2] at ec
      cases ec
      exact digit_not_letter _ hd2)
    (fun c t ec => by
      rw [en] at ec
      cases ec
      exact digit_not_letter _ hd0)
  subst e1 e2 e1b e2b
  rw [hu.1, hu.2]
  exact ⟨rfl, rfl⟩

theorem decFold_eq (s : Str) : ∀ n : Nat,
    s.foldl (fun n c => 10 * n + (c.toNat - 48)) n = n * 10 ^ s.length + decValue s := by
  induction s with
  | nil => intro n; simp [decValue]
  | cons c t ih =>
      intro n
      unfold decValue
      simp only [List.foldl_cons, List.length_cons]
      rw [ih (10 * n + (c.toNat - 48)), ih (10 * 0 + (c.toNat - 48))]
      ring

theorem decValue_cons (c : Char) (t : Str) :
    decValue (c :: t) = (c.toNat - 48) * 10 ^ t.length + decValue t := by
  unfold decValue
  simp only [List.foldl_cons]
  rw [decFold_eq t (10 * 0 + (c.toNat - 48))]
  simp [decValue]

theorem decValue_lt (s : Str) (h : s.all isDigitC = true) : decValue s < 10 ^ s.length := by
  induction s with
  | nil => simp [decValue]
  | cons c t ih =>
      simp only [List.all_cons, Bool.and_eq_true] at h
      have hc := (isDigitC_iff c).1 h.1
      have := ih h.2
      rw [decValue_cons, List.length_cons, pow_succ]
      have h9 : c.toNat - 48 ≤ 9 := by omega
      nlinarith

theorem decValue_inj_len (s : Str) : ∀ t : Str, s.length = t.length → s.all isDigitC = true →
    t.all isDigitC = true → decValue s = decValue t → s = t := by
  induction s with
  | nil =>
      intro t hl _ _ _
      cases t with
      | nil => rfl
      | cons _ _ => simp at hl
  | cons c s ih =>
      intro t hl hs ht hv
      cases t with
      | nil => simp at hl
      | cons d t =>
          simp only [List.length_cons, Nat.add_right_cancel_iff] at hl
          simp only [List.all_cons, Bool.and_eq_true] at hs ht
          rw [decValue_cons, decValue_cons, hl] at hv
          have h1 := decValue_lt s hs.2
          have h2 := decValue_lt t ht.2
          rw [hl] at h1
          have hc := (isDigitC_iff c).1 hs.1
          have hd := (isDigitC_iff d).1 ht.1
          have hX : 0 < 10 ^ t.length := by positivity
          have hcd : c.toNat - 48 = d.toNat - 48 := by
            by_contra hne
            rcases Nat.lt_or_gt_of_ne hne with hlt | hgt
            · have : (c.toNat - 48 + 1) * 10 ^ t.length ≤ (d.toNat - 48) * 10 ^ t.length :=
                Nat.mul_le_mul_right _ hlt
              nlinarith
            · have : (d.toNat - 48 + 1) * 10 ^ t.length ≤ (c.toNat - 48) * 10 ^ t.length :=
                Nat.mul_le_mul_right _ hgt
              nlinarith
          have hce : c = d := (char_eq_iff_toNat c d).2 (by omega)
          rw [hcd] at hv
          have hv2 : decValue s = decValue t := by omega
          rw [hce, ih t hl hs.2 ht.2 hv2]

theorem decValue_ge (c : Char) (t : Str) (hc : isDigitC c = true) (h0 : c ≠ '0') :
    10 ^ t.length ≤ decValue (c :: t) := by
  rw [decValue_cons]
  have h1 := (isDigitC_iff c).1 hc
  have h2 : c.toNat ≠ 48 := by
    intro e
    exact h0 ((char_eq_iff_toNat c '0').2 (by simpa using e))
  have : 1 ≤ c.toNat - 48 := by omega
  nlinarith [Nat.mul_le_mul_right (10 ^ t.length) this]

/-- Two canonical numerals with the same value are the same text. -/
theorem canonical_inj (s t : Str) (hs : s.all isDigitC = true) (ht : t.all isDigitC = true)
    (cs : canonicalNumeral s) (ct : canonicalNumeral t) (hv : decValue s = decValue t) :
    s = t := by
  have key : ∀ (a b : Str), a.all isDigitC = true → b.all isDigitC = true →
      canonicalNumeral a → canonicalNumeral b → decValue a = decValue b →
      a.length ≤ b.length → a = b := by
    intro a b ha hb ca cb hv hle
    by_cases hlen : a.length = b.length
    · exact decValue_inj_len a b hlen ha hb hv
    · exfalso
      have hlt : a.length < b.length := by omega
      have hal := decValue_lt a ha
      rcases cb with rfl | ⟨c, t, rfl, hc0⟩
      · simp only [List.length_cons, List.length_nil] at hlt
        have : a = [] := List.length_eq_zero.mp (by omega)
        subst this
        rcases ca with h | ⟨_, _, h, _⟩ <;> cases h
      · simp only [List.all_cons, Bool.and_eq_true] at hb
        have hge := decValue_ge c t hb.1 hc0
        simp only [List.length_cons] at hlt
        have : 10 ^ a.length ≤ 10 ^ t.length := Nat.pow_le_pow_right (by omega) (by omega)
        omega
  rcases Nat.le_total s.length t.length with h | h
  · exact key s t hs ht cs ct hv h
  · exact (key t s ht hs ct cs hv.symm h).symm

theorem preKeyLt_strictTotal : StrictTotal PreKey.lt where
  irrefl := by
    intro a
    cases a with
    | absent => rfl
    | num n => simp [PreKey.lt]
    | text s => exact strLt_irrefl s
  trans := by
    intro a b c h1 h2
    cases a <;> cases b <;> cases c <;> simp_all [PreKey.lt]
    · omega
    · rename_i x y z
      exact strLt_trans x y z h1 h2
  tri := by
    intro a b h1 h2
    cases a <;> cases b <;> simp_all [PreKey.lt]
    · omega
    · rename_i x y
      exact strLt_tri x y h1 h2

theorem ParseUint_some (s : Str) (n : Nat) (h : ParseUint s = some n) :
    s ≠ [] ∧ s.all isDigitC = true ∧ n = decValue s := by
  unfold ParseUint at h
  split at h
  · cases h
  · rename_i hc
    split at h
    · simp only [Bool.or_eq_true, Bool.not_eq_true', not_or, Bool.not_eq_false,
        List.isEmpty_iff] at hc
      cases h
      exact ⟨hc.1, hc.2, rfl⟩
    · cases h

/-- The verdict of `comparePrePart` on two identifiers, by their ranks. -/
theorem comparePrePart_eq (s o : Str) (hs : canonicalId s) (ho : canonicalId o) :
    comparePrePart s o
      = if PreKey.lt (preKey o) (preKey s) = true then 1
        else if PreKey.lt (preKey s) (preKey o) = true then -1 else 0 := by
  unfold comparePrePart
  by_cases heq : s = o
  · subst heq
    simp [preKeyLt_strictTotal.irrefl]
  · rw [if_neg heq]
    by_cases hse : s = []
    · subst hse
      have hoe : o ≠ [] := fun e => heq e.symm
      have hk : preKey o ≠ .absent := by
        unfold preKey
        rw [if_neg hoe]
        split <;> simp
      cases hko : preKey o with
      | absent => exact absurd hko hk
      | num n => simp [preKey, PreKey.lt, hoe]
      | text t => simp [preKey, PreKey.lt, hoe]
    · by_cases hoe : o = []
      · subst hoe
        have hk : preKey s ≠ .absent := by
          unfold preKey
          rw [if_neg hse]
          split <;> simp
        cases hks : preKey s with
        | absent => exact absurd hks hk
        | num n => simp [preKey, PreKey.lt, hse]
        | text t => simp [preKey, PreKey.lt, hse]
      · have e1 : s.isEmpty = false := by
          cases s with
          | nil => exact absurd rfl hse
          | cons _ _ => rfl
        have e2 : o.isEmpty = false := by
          cases o with
          | nil => exact absurd rfl hoe
          | cons _ _ => rfl
        simp only [e1, e2, Bool.false_eq_true, if_false]
        unfold preKey
        rw [if_neg hse, if_neg hoe]
        cases hpo : ParseUint o with
        | none =>
            cases hps : ParseUint s with
            | none =>
                simp only [PreKey.lt]
                by_cases hlt : strLt o s = true
                · simp [hlt]
                · have hlt2 : strLt o s = false := by simpa using hlt
                  have : strLt s o = true := by
                    cases hc : strLt s o with
                    | true => rfl
                    | false => exact absurd (strLt_tri s o hc hlt2) heq
                  simp [hlt2, this]
            | some si => simp [PreKey.lt]
        | some oi =>
            cases hps : ParseUint s with
            | none => simp [PreKey.lt]
            | some si =>
                obtain ⟨_, hso, eo⟩ := ParseUint_some o oi hpo
                obtain ⟨_, hss, es⟩ := ParseUint_some s si hps
                have hne : si ≠ oi := by
                  intro e
                  apply heq
                  exact canonical_inj s o hss hso (hs hse hss) (ho hoe hso)
                    (by rw [← es, ← eo, e])
                simp only [PreKey.lt, gt_iff_lt, decide_eq_true_eq]
                by_cases hgt : oi < si
                · simp [hgt]
                · have : si < oi := by omega
                  simp [hgt, this]

/-- The loop of `comparePrerelease` is the padded loop over the ranks. -/
theorem comparePreLoop_eq (sparts oparts : List Str) (hs : ∀ x ∈ sparts, canonicalId x)
    (ho : ∀ x ∈ oparts, canonicalId x) (k : Nat) :
    ∀ i, comparePreLoop sparts oparts k i
      = (padLoop PreKey.lt .absent (sparts.map preKey) (oparts.map preKey) k i).getD 0 := by
  have hnil : canonicalId [] := fun h => absurd rfl h
  have hget : ∀ (l : List Str) (i : Nat), (∀ x ∈ l, canonicalId x) → canonicalId (l.getD i []) := by
    intro l i hl
    by_cases hi : i < l.length
    · rw [List.getD_eq_getElem _ _ hi]
      exact hl _ (List.getElem_mem hi)
    · rw [List.getD_eq_default _ _ (by omega)]
      exact hnil
  have hmap : ∀ (l : List Str) (i : Nat),
      (l.map preKey).getD i .absent = preKey (l.getD i []) := by
    intro l i
    by_cases hi : i < l.length
    · have e1 : (l.map preKey).getD i .absent = preKey l[i] := by
        rw [List.getD_eq_getElem?_getD, List.getElem?_map, List.getElem?_eq_getElem hi]
        rfl
      have e2 : l.getD i [] = l[i] := List.getD_eq_getElem _ _ hi
      rw [e1, e2]
    · have e1 : (l.map preKey).getD i .absent = .absent :=
        List.getD_eq_default _ _ (by rw [List.length_map]; omega)
      have e2 : l.getD i [] = [] := List.getD_eq_default _ _ (by omega)
      rw [e1, e2]
      rfl
  induction k with
  | zero => intro i; rfl
  | succ k ih =>
      intro i
      unfold comparePreLoop padLoop
      rw [hmap, hmap, comparePrePart_eq _ _ (hget sparts i hs) (hget oparts i ho), ih (i + 1)]
      generalize preKey (sparts.getD i []) = a
      generalize preKey (oparts.getD i []) = b
      cases h1 : PreKey.lt b a <;> cases h2 : PreKey.lt a b <;> simp

/-- Transitivity of a verdict made of two loops, from the transitivity of each. -/
theorem verdictOf_trans (x12 x23 x13 y12 y23 y13 : Option Int)
    (hx : x12 ≠ some 1 → x23 ≠ some 1 → x13 ≠ some 1 ∧ (x13 = none → x12 = none ∧ x23 = none))
    (hy : y12 ≠ some 1 → y23 ≠ some 1 → y13 ≠ some 1)
    (vx : x13 = none ∨ x13 = some 1 ∨ x13 = some (-1))
    (vy : y13 = none ∨ y13 = some 1 ∨ y13 = some (-1))
    (h12 : verdictOf x12 y12 ≤ 0) (h23 : verdictOf x23 y23 ≤ 0) : verdictOf x13 y13 ≤ 0 := by
  unfold verdictOf at h12 h23 ⊢
  have a12 : x12 ≠ some 1 := by
    intro e; rw [e] at h12; simp at h12
  have a23 : x23 ≠ some 1 := by
    intro e; rw [e] at h23; simp at h23
  have tx := hx a12 a23
  rcases vx with e13 | e13 | e13
  · obtain ⟨e12, e23⟩ := tx.2 e13
    rw [e12] at h12
    rw [e23] at h23
    rw [e13]
    have b12 : y12 ≠ some 1 := by
      intro e; rw [e] at h12; simp at h12
    have b23 : y23 ≠ some 1 := by
      intro e; rw [e] at h23; simp at h23
    have ty := hy b12 b23
    rcases vy with f | f | f
    · simp [f]
    · exact absurd f ty
    · simp [f]
  · exact absurd e13 tx.1
  · simp [e13]

theorem preVerdict_values (k : Nat) (p q : Str) :
    preVerdict k p q = none ∨ preVerdict k p q = some 1 ∨ preVerdict k p q = some (-1) := by
  unfold preVerdict
  split
  · exact Or.inl rfl
  · split
    · exact Or.inr (Or.inl rfl)
    · split
      · exact Or.inr (Or.inr rfl)
      · exact padLoop_values _ _ _ _ _ _

theorem preVerdict_swap (k : Nat) (p q : Str) :
    preVerdict k q p = (preVerdict k p q).map (fun r => -r) := by
  unfold preVerdict
  cases hp : p.isEmpty <;> cases hq : q.isEmpty <;>
    simp [padLoop_swap preKeyLt_strictTotal .absent ((Split '.' p).map preKey)]

theorem preVerdict_trans (k : Nat) (p q r : Str) (h12 : preVerdict k p q ≠ some 1)
    (h23 : preVerdict k q r ≠ some 1) : preVerdict k p r ≠ some 1 := by
  unfold preVerdict at *
  cases hp : p.isEmpty <;> cases hq : q.isEmpty <;> cases hr : r.isEmpty <;>
    simp_all
  exact (padLoop_trans preKeyLt_strictTotal .absent _ _ _ k 0 h12 h23).1

theorem segLoop_values (a b : Version) :
    segLoop a b = none ∨ segLoop a b = some 1 ∨ segLoop a b = some (-1) :=
  padLoop_values _ _ _ _ _ _

theorem segLoop_swap (a b : Version) : segLoop b a = (segLoop a b).map (fun r => -r) :=
  padLoop_swap intLt_strictTotal 0 _ _ 3 0

theorem segLoop_trans (a b c : Version) (h12 : segLoop a b ≠ some 1) (h23 : segLoop b c ≠ some 1) :
    segLoop a c ≠ some 1 ∧ (segLoop a c = none → segLoop a b = none ∧ segLoop b c = none) :=
  padLoop_trans intLt_strictTotal 0 _ _ _ 3 0 h12 h23

/-- `Version.Compare` as the verdict of the two loops, for versions whose
pre-release identifiers are canonical and any number of rounds that covers
both pre-release texts. -/
theorem versionCompare_eq (a b : Version) (ha : canonicalPre a.pre) (hb : canonicalPre b.pre)
    (k : Nat) (hka : (Split '.' a.pre).length ≤ k) (hkb : (Split '.' b.pre).length ≤ k) :
    a.Compare b = verdictOf (segLoop a b) (preVerdict k a.pre b.pre) := by
  have hpre : comparePrerelease a.pre b.pre
      = (padLoop PreKey.lt .absent ((Split '.' a.pre).map preKey)
          ((Split '.' b.pre).map preKey) k 0).getD 0 := by
    unfold comparePrerelease
    rw [comparePreLoop_eq _ _ ha hb]
    rw [padLoop_enough preKeyLt_strictTotal .absent _ _
      (max (Split '.' a.pre).length (Split '.' b.pre).length) k 0
      (by simp) (by simp) (by simpa using hka) (by simpa using hkb)]
  unfold Version.Compare segLoop preVerdict verdictOf
  rw [hpre]
  simp only [padLoop, List.getD_cons_zero, List.getD_cons_succ, compareSegment]
  by_cases h1 : a.major < b.major
  · have : ¬ b.major < a.major := by omega
    simp [h1, this]
  · by_cases h1b : b.major < a.major
    · simp [h1, h1b]
    · by_cases h2 : a.minor < b.minor
      · have : ¬ b.minor < a.minor := by omega
        simp [h1, h1b, h2, this]
      · by_cases h2b : b.minor < a.minor
        · simp [h1, h1b, h2, h2b]
        · by_cases h3 : a.patch < b.patch
          · have : ¬ b.patch < a.patch := by omega
            simp [h1, h1b, h2, h2b, h3, this]
          · by_cases h3b : b.patch < a.patch
            · simp [h1, h1b, h2, h2b, h3, h3b]
            · simp only [h1, h1b, h2, h2b, h3, h3b, gt_iff_lt, if_false, decide_False,
                Bool.false_eq_true, ne_eq, not_true_eq_false]
              cases hp : a.pre.isEmpty <;> cases hq : b.pre.isEmpty <;> simp
              cases padLoop PreKey.lt .absent ((Split '.' a.pre).map preKey)
                ((Split '.' b.pre).map preKey) k 0 <;> rfl

theorem versionCompare_values (a b : Version) (ha : canonicalPre a.pre) (hb : canonicalPre b.pre) :
    a.Compare b = 0 ∨ a.Compare b = 1 ∨ a.Compare b = -1 := by
  rw [versionCompare_eq a b ha hb (max (Split '.' a.pre).length (Split '.' b.pre).length)
    (by simp) (by simp)]
  unfold verdictOf
  rcases segLoop_values a b with h | h | h <;> rw [h]
  · rcases preVerdict_values (max (Split '.' a.pre).length (Split '.' b.pre).length)
      a.pre b.pre with h2 | h2 | h2 <;> rw [h2] <;> simp
  · simp
  · simp

theorem versionCompare_swap (a b : Version) (ha : canonicalPre a.pre) (hb : canonicalPre b.pre) :
    b.Compare a = -a.Compare b := by
  rw [versionCompare_eq a b ha hb (max (Split '.' a.pre).length (Split '.' b.pre).length)
    (by simp) (by simp),
    versionCompare_eq b a hb ha (max (Split '.' a.pre).length (Split '.' b.pre).length)
    (by simp) (by simp), segLoop_swap a b, preVerdict_swap _ a.pre b.pre]
  unfold verdictOf
  cases segLoop a b with
  | some r => simp
  | none =>
      cases preVerdict _ a.pre b.pre with
      | some r => simp
      | none => simp

theorem versionCompare_trans (a b c : Version) (ha : canonicalPre a.pre)
    (hb : canonicalPre b.pre) (hc : canonicalPre c.pre)
    (h12 : a.Compare b ≤ 0) (h23 : b.Compare c ≤ 0) : a.Compare c ≤ 0 := by
  have hk1 : (Split '.' a.pre).length ≤
      (Split '.' a.pre).length + (Split '.' b.pre).length + (Split '.' c.pre).length := by omega
  have hk2 : (Split '.' b.pre).length ≤
      (Split '.' a.pre).length + (Split '.' b.pre).length + (Split '.' c.pre).length := by omega
  have hk3 : (Split '.' c.pre).length ≤
      (Split '.' a.pre).length + (Split '.' b.pre).length + (Split '.' c.pre).length := by omega
  rw [versionCompare_eq a b ha hb _ hk1 hk2] at h12
  rw [versionCompare_eq b c hb hc _ hk2 hk3] at h23
  rw [versionCompare_eq a c ha hc _ hk1 hk3]
  exact verdictOf_trans _ _ _ _ _ _ (segLoop_trans a b c) (preVerdict_trans _ _ _ _)
    (segLoop_values a c) (preVerdict_values _ _ _) h12 h23

theorem parses_chars {r : Re} {w : Str} {cs cs2 : Caps} (h : Parses r w cs cs2) :
    ∀ c ∈ w, r.accepts c = true := by
  induction h with
  | cls p c cs hp =>
      intro x hx
      rw [List.mem_singleton] at hx
      subst hx
      exact hp
  | eps cs => intro x hx; cases hx
  | seq a b w1 w2 cs cs1 cs2 h1 h2 ih1 ih2 =>
      intro x hx
      simp only [Re.accepts, Bool.or_eq_true]
      rcases List.mem_append.mp hx with h | h
      · exact Or.inl (ih1 x h)
      · exact Or.inr (ih2 x h)
  | altL a b w cs cs1 h ih =>
      intro x hx
      simp only [Re.accepts, Bool.or_eq_true]
      exact Or.inl (ih x hx)
  | altR a b w cs cs1 h ih =>
      intro x hx
      simp only [Re.accepts, Bool.or_eq_true]
      exact Or.inr (ih x hx)
  | starNil a cs => intro x hx; cases hx
  | starCons a w1 w2 cs cs1 cs2 h1 h2 ih1 ih2 =>
      intro x hx
      rcases List.mem_append.mp hx with h | h
      · exact ih1 x h
      · exact ih2 x h
  | grp i a w cs cs1 h ih =>
      intro x hx
      exact ih x hx

/-- The captures that a parse adds belong to groups of the expression. -/
theorem parses_caps {r : Re} {w : Str} {cs cs2 : Caps} (h : Parses r w cs cs2) :
    ∃ new, cs2 = new ++ cs ∧ ∀ e ∈ new, r.hasGroup e.1 = true := by
  induction h with
  | cls p c cs hp => exact ⟨[], rfl, fun e he => by cases he⟩
  | eps cs => exact ⟨[], rfl, fun e he => by cases he⟩
  | seq a b w1 w2 cs cs1 cs2 h1 h2 ih1 ih2 =>
      obtain ⟨n1, e1, g1⟩ := ih1
      obtain ⟨n2, e2, g2⟩ := ih2
      refine ⟨n2 ++ n1, by rw [e2, e1, List.append_assoc], ?_⟩
      intro e he
      simp only [Re.hasGroup, Bool.or_eq_true]
      rcases List.mem_append.mp he with h | h
      · exact Or.inr (g2 e h)
      · exact Or.inl (g1 e h)
  | altL a b w cs cs1 h ih =>
      obtain ⟨n, e, g⟩ := ih
      exact ⟨n, e, fun x hx => by simp only [Re.hasGroup, Bool.or_eq_true]; exact Or.inl (g x hx)⟩
  | altR a b w cs cs1 h ih =>
      obtain ⟨n, e, g⟩ := ih
      exact ⟨n, e, fun x hx => by simp only [Re.hasGroup, Bool.or_eq_true]; exact Or.inr (g x hx)⟩
  | starNil a cs => exact ⟨[], rfl, fun e he => by cases he⟩
  | starCons a w1 w2 cs cs1 cs2 h1 h2 ih1 ih2 =>
      obtain ⟨n1, e1, g1⟩ := ih1
      obtain ⟨n2, e2, g2⟩ := ih2
      refine ⟨n2 ++ n1, by rw [e2, e1, List.append_assoc], ?_⟩
      intro e he
      rcases List.mem_append.mp he with h | h
      · exact g2 e h
      · exact g1 e h
  | grp i a w cs cs1 h ih =>
      obtain ⟨n, e, g⟩ := ih
      refine ⟨(i, w) :: n, by rw [e]; rfl, ?_⟩
      intro x hx
      simp only [Re.hasGroup, Bool.or_eq_true]
      rcases List.mem_cons.mp hx with h | h
      · subst h
        exact Or.inl (by simp)
      · exact Or.inr (g x h)

theorem capOf_append (new cs : Caps) (i : Nat) (h : ∀ e ∈ new, e.1 ≠ i) :
    capOf (new ++ cs) i = capOf cs i := by
  induction new with
  | nil => rfl
  | cons e new ih =>
      have he : e.1 ≠ i := h e (List.mem_cons_self _ _)
      have ih2 := ih (fun x hx => h x (List.mem_cons_of_mem _ hx))
      unfold capOf at ih2 ⊢
      simp only [List.cons_append, List.find?_cons]
      have : (e.1 == i) = false := by simpa using he
      rw [this]
      exact ih2

theorem capOf_cons_ne (e : Nat × Str) (cs : Caps) (i : Nat) (h : e.1 ≠ i) :
    capOf (e :: cs) i = capOf cs i :=
  capOf_append [e] cs i (fun x hx => by rw [List.mem_singleton] at hx; rw [hx]; exact h)

theorem capOf_cons_eq (w : Str) (cs : Caps) (i : Nat) : capOf ((i, w) :: cs) i = w := by
  simp [capOf]

/-- The pre-release part, when the text is a head without "-" and "+", then
"-" and a text without "+", then nothing or something that begins with "+". -/
theorem preOf_some (hd p tl : Str) (hh : ∀ c ∈ hd, c ≠ '-' ∧ c ≠ '+') (hp : ∀ c ∈ p, c ≠ '+')
    (ht : tl = [] ∨ ∃ t, tl = '+' :: t) : preOf (hd ++ '-' :: p ++ tl) = p := by
  unfold preOf
  have h1 : (hd ++ '-' :: p ++ tl).dropWhile (fun c => c != '-' && c != '+') = '-' :: p ++ tl := by
    rw [List.append_assoc]
    induction hd with
    | nil => simp [List.dropWhile]
    | cons c t ih =>
        have hc := hh c (List.mem_cons_self _ _)
        simp only [List.cons_append, List.dropWhile_cons]
        have : (c != '-' && c != '+') = true := by simp [hc.1, hc.2]
        rw [this]
        exact ih (fun x hx => hh x (List.mem_cons_of_mem _ hx))
  rw [h1]
  clear h1
  simp only [List.cons_append]
  induction p with
  | nil =>
      rcases ht with rfl | ⟨t, rfl⟩
      · rfl
      · simp [List.takeWhile]
  | cons c t ih =>
      have hc := hp c (List.mem_cons_self _ _)
      simp only [List.cons_append, List.takeWhile_cons]
      have : (c != '+') = true := by simp [hc]
      rw [this]
      simp only [if_true, List.cons.injEq, true_and]
      exact ih (fun x hx => hp x (List.mem_cons_of_mem _ hx))

theorem preOf_none (hd tl : Str) (hh : ∀ c ∈ hd, c ≠ '-' ∧ c ≠ '+')
    (ht : tl = [] ∨ ∃ t, tl = '+' :: t) : preOf (hd ++ tl) = [] := by
  unfold preOf
  have h1 : (hd ++ tl).dropWhile (fun c => c != '-' && c != '+') = tl := by
    induction hd with
    | nil =>
        rcases ht with rfl | ⟨t, rfl⟩
        · rfl
        · simp [List.dropWhile]
    | cons c t ih =>
        have hc := hh c (List.mem_cons_self _ _)
        simp only [List.cons_append, List.dropWhile_cons]
        have : (c != '-' && c != '+') = true := by simp [hc.1, hc.2]
        rw [this]
        exact ih (fun x hx => hh x (List.mem_cons_of_mem _ hx))
  rw [h1]
  rcases ht with rfl | ⟨t, rfl⟩ <;> rfl

theorem parses_opt_iff (a : Re) (w : Str) (cs cs2 : Caps) :
    Parses (Re.opt a) w cs cs2 ↔ Parses a w cs cs2 ∨ (w = [] ∧ cs2 = cs) := by
  unfold Re.opt
  rw [parses_alt_iff, parses_eps_iff]

theorem parses_chr_iff (d : Char) (w : Str) (cs cs2 : Caps) :
    Parses (Re.chr d) w cs cs2 ↔ w = [d] ∧ cs2 = cs := by
  unfold Re.chr
  rw [parses_cls_iff]
  constructor
  · rintro ⟨c, rfl, hc, rfl⟩
    have : c = d := by simpa using hc
    subst this
    exact ⟨rfl, rfl⟩
  · rintro ⟨rfl, rfl⟩
    exact ⟨d, rfl, by simp, rfl⟩

set_option maxRecDepth 100000 in
/-- The pre-release text of a version that `semver.NewVersion` returns is the
pre-release part of the text. -/
theorem newVersion_pre (s : Str) (v : Version) (h : NewVersion s = some v) :
    v.pre = preOf s := by
  unfold NewVersion at h
  cases hf : versionRegex.FindStringSubmatch s with
  | none => rw [hf] at h; cases h
  | some x =>
      obtain ⟨m0, m⟩ := x
      rw [hf] at h
      dsimp only at h
      have hpre : v.pre = capOf m 5 := by
        split at h
        · cases h
          rfl
        · cases h
      rw [hpre]
      obtain ⟨_, hp⟩ := FindStringSubmatch_sound versionRegex s m0 m rfl rfl hf
      have hp2 : Parses (.seq (Re.opt (.chr 'v')) (.seq (.grp 1 reNum)
          (.seq (Re.opt (.grp 2 reDotNum)) (.seq (Re.opt (.grp 3 reDotNum))
          (.seq (Re.opt (.grp 4 (.seq (.chr '-') (.grp 5 (reIdents 6)))))
            (Re.opt (.grp 7 (.seq (.chr '+') (.grp 8 (reIdents 9)))))))))) s [] m := hp
      obtain ⟨w0, r0, c0, e0, h0, hr0⟩ := (parses_seq_iff _ _ _ _ _).1 hp2
      obtain ⟨w1, r1, c1, e1, h1, hr1⟩ := (parses_seq_iff _ _ _ _ _).1 hr0
      obtain ⟨w2, r2, c2, e2, h2, hr2⟩ := (parses_seq_iff _ _ _ _ _).1 hr1
      obtain ⟨w3, r3, c3, e3, h3, hr3⟩ := (parses_seq_iff _ _ _ _ _).1 hr2
      obtain ⟨w4, w7, c4, e4, h4, h7⟩ := (parses_seq_iff _ _ _ _ _).1 hr3
      -- the characters of the head
      have hhead : ∀ c ∈ w0 ++ w1 ++ w2 ++ w3, c ≠ '-' ∧ c ≠ '+' := by
        intro c hc
        simp only [List.mem_append] at hc
        rcases hc with ((hc | hc) | hc) | hc
        · have := parses_chars h0 c hc
          constructor <;> (intro e; subst e; revert this; decide)
        · have := parses_chars h1 c hc
          constructor <;> (intro e; subst e; revert this; decide)
        · have := parses_chars h2 c hc
          constructor <;> (intro e; subst e; revert this; decide)
        · have := parses_chars h3 c hc
          constructor <;> (intro e; subst e; revert this; decide)
      -- the captures of the head
      obtain ⟨n0, ec0, g0⟩ := parses_caps h0
      obtain ⟨n1, ec1, g1⟩ := parses_caps h1
      obtain ⟨n2, ec2, g2⟩ := parses_caps h2
      obtain ⟨n3, ec3, g3⟩ := parses_caps h3
      obtain ⟨n7, ec7, g7⟩ := parses_caps h7
      have hc3 : capOf c3 5 = [] := by
        rw [ec3, ec2, ec1, ec0]
        rw [capOf_append n3 _ 5 (fun e he => by
            have := g3 e he
            intro e5
            rw [e5] at this
            revert this
            decide),
          capOf_append n2 _ 5 (fun e he => by
            have := g2 e he
            intro e5
            rw [e5] at this
            revert this
            decide),
          capOf_append n1 _ 5 (fun e he => by
            have := g1 e he
            intro e5
            rw [e5] at this
            revert this
            decide),
          capOf_append n0 _ 5 (fun e he => by
            have := g0 e he
            intro e5
            rw [e5] at this
            revert this
            decide)]
        rfl
      have hm : capOf m 5 = capOf c4 5 := by
        rw [ec7]
        exact capOf_append n7 _ 5 (fun e he => by
          have := g7 e he
          intro e5
          rw [e5] at this
          revert this
          decide)
      have ht : w7 = [] ∨ ∃ t, w7 = '+' :: t := by
        rcases (parses_opt_iff _ _ _ _).1 h7 with h | ⟨h, _⟩
        · right
          obtain ⟨csa, ha, _⟩ := (parses_grp_iff _ _ _ _ _).1 h
          obtain ⟨wa, wb, csb, ea, hwa, _⟩ := (parses_seq_iff _ _ _ _ _).1 ha
          obtain ⟨ewa, _⟩ := (parses_chr_iff _ _ _ _).1 hwa
          exact ⟨wb, by rw [ea, ewa]; rfl⟩
        · exact Or.inl h
      have es : s = w0 ++ w1 ++ w2 ++ w3 ++ (w4 ++ w7) := by
        rw [e0, e1, e2, e3, e4]
        simp only [List.append_assoc]
      rw [hm]
      rcases (parses_opt_iff _ _ _ _).1 h4 with h | ⟨h, hcs⟩
      · obtain ⟨csa, ha, eca⟩ := (parses_grp_iff _ _ _ _ _).1 h
        obtain ⟨wa, wb, csb, ea, hwa, hwb⟩ := (parses_seq_iff _ _ _ _ _).1 ha
        obtain ⟨ewa, ecb⟩ := (parses_chr_iff _ _ _ _).1 hwa
        obtain ⟨csc, hc, ecc⟩ := (parses_grp_iff _ _ _ _ _).1 hwb
        have hpchars : ∀ c ∈ wb, c ≠ '+' := by
          intro c hc2
          have := parses_chars hc c hc2
          intro e
          subst e
          revert this
          decide
        rw [eca, ecc, capOf_cons_ne _ _ 5 (show (4, w4).1 ≠ 5 from by simp), capOf_cons_eq]
        rw [es, ea, ewa]
        have : w0 ++ w1 ++ w2 ++ w3 ++ (['-'] ++ wb ++ w7)
            = (w0 ++ w1 ++ w2 ++ w3) ++ '-' :: wb ++ w7 := by
          simp only [List.append_assoc, List.cons_append, List.nil_append]
        rw [this]
        exact (preOf_some _ wb w7 hhead hpchars ht).symm
      · rw [hcs, hc3, es, h, List.nil_append]
        exact (preOf_none _ w7 hhead ht).symm

theorem Split_noDot (w : Str) (h : ∀ c ∈ w, c ≠ '.') : Split '.' w = [w] := by
  induction w with
  | nil => rfl
  | cons c t ih =>
      have hc := h c (List.mem_cons_self _ _)
      have ih2 := ih (fun x hx => h x (List.mem_cons_of_mem _ hx))
      unfold Split
      have : (c == '.') = false := by simpa using hc
      rw [this, ih2]
      rfl

theorem Split_append_dot (w t : Str) (h : ∀ c ∈ w, c ≠ '.') :
    Split '.' (w ++ '.' :: t) = w :: Split '.' t := by
  induction w with
  | nil =>
      simp only [List.nil_append]
      rw [Split]
      simp
  | cons c w ih =>
      have hc := h c (List.mem_cons_self _ _)
      have ih2 := ih (fun x hx => h x (List.mem_cons_of_mem _ hx))
      simp only [List.cons_append]
      rw [Split]
      have : (c == '.') = false := by simpa using hc
      rw [this, ih2]
      rfl

theorem letterDash_not_digit (c : Char) (h : isLetterDashC c = true) : isDigitC c = false := by
  cases hd : isDigitC c with
  | false => rfl
  | true =>
      rw [isDigitC_iff] at hd
      unfold isLetterDashC at h
      simp only [Bool.or_eq_true] at h
      rcases h with h | h
      · have := (isLetterC_iff c).1 h
        omega
      · have := (beq_char_iff c '-').1 h
        simp at this
        omega

set_option maxRecDepth 100000 in
/-- An identifier that the pattern of pre-release identifiers accepts has no
dot and is canonical. -/
theorem parses_rePreId (w : Str) (cs cs2 : Caps) (h : Parses rePreId w cs cs2) :
    (∀ c ∈ w, c ≠ '.') ∧ canonicalId w := by
  constructor
  · intro c hc
    have := parses_chars h c hc
    intro e
    subst e
    revert this
    decide
  · have h2 : Parses (.alt (.chr '0') (.alt (.seq (.cls isPosDigitC) (.star (.cls isDigitC)))
        (.seq (.star (.cls isDigitC)) (.seq (.cls isLetterDashC) (.star (.cls isIdentC))))))
        w cs cs2 := h
    rcases (parses_alt_iff _ _ _ _ _).1 h2 with h3 | h3
    · obtain ⟨e, _⟩ := (parses_chr_iff _ _ _ _).1 h3
      intro _ _
      exact Or.inl e
    · rcases (parses_alt_iff _ _ _ _ _).1 h3 with h4 | h4
      · obtain ⟨w1, w2, cs1, e, ha, _⟩ := (parses_seq_iff _ _ _ _ _).1 h4
        obtain ⟨c, ec, hc, _⟩ := (parses_cls_iff _ _ _ _).1 ha
        intro _ _
        right
        refine ⟨c, w2, by rw [e, ec]; rfl, ?_⟩
        intro e0
        subst e0
        revert hc
        decide
      · obtain ⟨w1, w2, cs1, e, _, hb⟩ := (parses_seq_iff _ _ _ _ _).1 h4
        obtain ⟨w3, w4, cs3, e3, hc, _⟩ := (parses_seq_iff _ _ _ _ _).1 hb
        obtain ⟨c, ec, hcl, _⟩ := (parses_cls_iff _ _ _ _).1 hc
        intro _ hall
        exfalso
        have hmem : c ∈ w := by
          rw [e, e3, ec]
          simp
        have hd : isDigitC c = true := by
          rw [List.all_eq_true] at hall
          exact hall c hmem
        rw [letterDash_not_digit c hcl] at hd
        cases hd

/-- The parts of a dotted list of pre-release identifiers. -/
theorem parses_preIds (r : Str) (cs cs2 : Caps)
    (h : Parses (.star (.seq (Re.chr '.') rePreId)) r cs cs2) :
    ∀ w0 : Str, (∀ c ∈ w0, c ≠ '.') →
      ∀ x ∈ Split '.' (w0 ++ r), x = w0 ∨ ∃ cs3 cs4, Parses rePreId x cs3 cs4 := by
  generalize hr : Re.star (.seq (Re.chr '.') rePreId) = re at h
  induction h with
  | cls => cases hr
  | eps => cases hr
  | seq => cases hr
  | altL => cases hr
  | altR => cases hr
  | grp => cases hr
  | starNil a cs =>
      intro w0 hw0 x hx
      rw [List.append_nil, Split_noDot w0 hw0, List.mem_singleton] at hx
      exact Or.inl hx
  | starCons a w1 w2 cs cs1 cs2 h1 h2 _ ih2 =>
      cases hr
      intro w0 hw0 x hx
      obtain ⟨wa, wb, csb, e, hwa, hwb⟩ := (parses_seq_iff _ _ _ _ _).1 h1
      obtain ⟨ewa, _⟩ := (parses_chr_iff _ _ _ _).1 hwa
      have hnd := (parses_rePreId wb _ _ hwb).1
      have e2 : w0 ++ (w1 ++ w2) = w0 ++ '.' :: (wb ++ w2) := by
        rw [e, ewa]
        simp
      rw [e2, Split_append_dot w0 _ hw0] at hx
      rcases List.mem_cons.mp hx with hx | hx
      · exact Or.inl hx
      · rcases ih2 rfl wb hnd x hx with h | h
        · right
          rw [h]
          exact ⟨_, _, hwb⟩
        · exact Or.inr h

set_option maxRecDepth 100000 in
/-- The pre-release part of a text that the processor's semantic-version
pattern matches has canonical identifiers. -/
theorem semverRegex_canonicalPre (s : Str) (h : semverRegex.MatchString s = true) :
    canonicalPre (preOf s) := by
  obtain ⟨m, hp⟩ := MatchString_sound semverRegex s rfl rfl h
  have hp2 : Parses (.seq (Re.opt (.chr 'v')) (.seq (.grp 1 reNumId) (.seq (.chr '.')
      (.seq (.grp 2 reNumId) (.seq (.chr '.') (.seq (.grp 3 reNumId)
      (.seq (Re.opt (.seq (.chr '-') (.grp 4 (.seq rePreId (.star (.seq (.chr '.') rePreId))))))
        (Re.opt (.seq (.chr '+') (.grp 5 (.seq (Re.plus (.cls isIdentC))
          (.star (.seq (.chr '.') (Re.plus (.cls isIdentC)))))))))))))))
      s [] m := hp
  obtain ⟨w0, r0, c0, e0, h0, hr0⟩ := (parses_seq_iff _ _ _ _ _).1 hp2
  obtain ⟨w1, r1, c1, e1, h1, hr1⟩ := (parses_seq_iff _ _ _ _ _).1 hr0
  obtain ⟨w2, r2, c2, e2, h2, hr2⟩ := (parses_seq_iff _ _ _ _ _).1 hr1
  obtain ⟨w3, r3, c3, e3, h3, hr3⟩ := (parses_seq_iff _ _ _ _ _).1 hr2
  obtain ⟨w4, r4, c4, e4, h4, hr4⟩ := (parses_seq_iff _ _ _ _ _).1 hr3
  obtain ⟨w5, r5, c5, e5, h5, hr5⟩ := (parses_seq_iff _ _ _ _ _).1 hr4
  obtain ⟨wp, wb, c6, e6, h6, h7⟩ := (parses_seq_iff _ _ _ _ _).1 hr5
  have hhead : ∀ c ∈ w0 ++ w1 ++ w2 ++ w3 ++ w4 ++ w5, c ≠ '-' ∧ c ≠ '+' := by
    intro c hc
    simp only [List.mem_append] at hc
    rcases hc with ((((hc | hc) | hc) | hc) | hc) | hc
    · have := parses_chars h0 c hc
      constructor <;> (intro e; subst e; revert this; decide)
    · have := parses_chars h1 c hc
      constructor <;> (intro e; subst e; revert this; decide)
    · have := parses_chars h2 c hc
      constructor <;> (intro e; subst e; revert this; decide)
    · have := parses_chars h3 c hc
      constructor <;> (intro e; subst e; revert this; decide)
    · have := parses_chars h4 c hc
      constructor <;> (intro e; subst e; revert this; decide)
    · have := parses_chars h5 c hc
      constructor <;> (intro e; subst e; revert this; decide)
  have ht : wb = [] ∨ ∃ t, wb = '+' :: t := by
    rcases (parses_opt_iff _ _ _ _).1 h7 with h | ⟨h, _⟩
    · right
      obtain ⟨wa, wc, csb, ea, hwa, _⟩ := (parses_seq_iff _ _ _ _ _).1 h
      obtain ⟨ewa, _⟩ := (parses_chr_iff _ _ _ _).1 hwa
      exact ⟨wc, by rw [ea, ewa]; rfl⟩
    · exact Or.inl h
  have es : s = w0 ++ w1 ++ w2 ++ w3 ++ w4 ++ w5 ++ (wp ++ wb) := by
    rw [e0, e1, e2, e3, e4, e5, e6]
    simp only [List.append_assoc]
  have hnil : canonicalPre [] := by
    intro x hx
    have : x = [] := by simpa [Split] using hx
    subst this
    exact fun h => absurd rfl h
  rcases (parses_opt_iff _ _ _ _).1 h6 with h | ⟨h, _⟩
  · obtain ⟨wa, p, csb, ea, hwa, hwb⟩ := (parses_seq_iff _ _ _ _ _).1 h
    obtain ⟨ewa, _⟩ := (parses_chr_iff _ _ _ _).1 hwa
    obtain ⟨csc, hc, _⟩ := (parses_grp_iff _ _ _ _ _).1 hwb
    have hpchars : ∀ c ∈ p, c ≠ '+' := by
      intro c hc2
      have := parses_chars hc c hc2
      intro e
      subst e
      revert this
      decide
    have : w0 ++ w1 ++ w2 ++ w3 ++ w4 ++ w5 ++ (wp ++ wb)
        = (w0 ++ w1 ++ w2 ++ w3 ++ w4 ++ w5) ++ '-' :: p ++ wb := by
      rw [ea, ewa]
      simp only [List.append_assoc, List.cons_append, List.nil_append]
    rw [es, this, preOf_some _ p wb hhead hpchars ht]
    obtain ⟨id1, rest, csd, ep, hid, hrest⟩ := (parses_seq_iff _ _ _ _ _).1 hc
    have hid1 := parses_rePreId id1 _ _ hid
    intro x hx
    rw [ep] at hx
    rcases parses_preIds rest _ _ hrest id1 hid1.1 x hx with hx2 | ⟨cs3, cs4, hx2⟩
    · rw [hx2]
      exact hid1.2
    · exact (parses_rePreId x _ _ hx2).2
  · rw [es, h, List.nil_append, preOf_none _ wb hhead ht]
    exact hnil

/-- A version that `parseToSemver` returns has canonical pre-release identifiers. -/
theorem parseToSemver_canonical (s : Str) (v : Version) (h : parseToSemver s = some v) :
    canonicalPre v.pre := by
  unfold parseToSemver at h
  split at h
  · cases h
  · rename_i hm
    rw [newVersion_pre s v h]
    exact semverRegex_canonicalPre s (by simpa using hm)

theorem compareComponents_self (n : List Int) (s : List Str) : compareComponents n n s s = 0 := by
  have := compareComponents_swap n n s s
  omega

theorem versionCompare_self (a : Version) (ha : canonicalPre a.pre) : a.Compare a = 0 := by
  have := versionCompare_swap a a ha ha
  omega

/-- `CompareVersions` when both standardized operands are semantic versions. -/
theorem compareVersions_semver (a b : Str) (va vb : Version)
    (ha : parseToSemver (StandardizeVersion a) = some va)
    (hb : parseToSemver (StandardizeVersion b) = some vb) :
    CompareVersions a b = va.Compare vb := by
  have ca := parseToSemver_canonical _ _ ha
  have cb := parseToSemver_canonical _ _ hb
  unfold CompareVersions
  dsimp only
  by_cases he : StandardizeVersion a = StandardizeVersion b
  · rw [if_pos he]
    have hv : vb = va := by
      rw [he, hb] at ha
      exact Option.some.inj ha
    rw [hv]
    exact (versionCompare_self va ca).symm
  · rw [if_neg he, ha, hb]
    dsimp only
    unfold Version.GreaterThan Version.LessThan
    rcases versionCompare_values va vb ca cb with h | h | h <;> rw [h] <;> simp

/-- `CompareVersions` when one of the standardized operands is no semantic version. -/
theorem compareVersions_fallback (a b : Str)
    (h : parseToSemver (StandardizeVersion a) = none ∨ parseToSemver (StandardizeVersion b) = none) :
    CompareVersions a b = CompareVersionStrings (StandardizeVersion a) (StandardizeVersion b) := by
  unfold CompareVersions
  dsimp only
  by_cases he : StandardizeVersion a = StandardizeVersion b
  · rw [if_pos he, he]
    unfold CompareVersionStrings
    exact (compareComponents_self _ _).symm
  · rw [if_neg he]
    rcases h with h | h
    · rw [h]
    · rw [h]
      cases parseToSemver (StandardizeVersion a) <;> rfl

theorem compareVersionStrings_swap (x y : Str) :
    CompareVersionStrings y x = -CompareVersionStrings x y := by
  unfold CompareVersionStrings
  exact compareComponents_swap _ _ _ _

theorem compareVersionStrings_values (x y : Str) :
    CompareVersionStrings x y = 0 ∨ CompareVersionStrings x y = 1
      ∨ CompareVersionStrings x y = -1 := by
  unfold CompareVersionStrings
  exact compareComponents_values _ _ _ _

theorem compareVersionStrings_trans (x y z : Str) (h12 : CompareVersionStrings x y ≤ 0)
    (h23 : CompareVersionStrings y z ≤ 0) : CompareVersionStrings x z ≤ 0 := by
  unfold CompareVersionStrings at *
  exact compareComponents_trans _ _ _ _ _ _ h12 h23

theorem cancelIfPending_requests (c : AsyncCheckerImpl) (id : Str) (p : Nat) :
    (c.cancelIfPending id p).requests = c.requests ∧
    (c.cancelIfPending id p).maxPending = c.maxPending := by
  unfold AsyncCheckerImpl.cancelIfPending
  split
  · split <;> exact ⟨rfl, rfl⟩
  · exact ⟨rfl, rfl⟩

theorem cancelAll_requests (l : List (Str × Nat)) : ∀ (c : AsyncCheckerImpl),
    (l.foldl (fun acc e => acc.cancelIfPending e.1 e.2) c).maxPending = c.maxPending := by
  induction l with
  | nil => intro c; rfl
  | cons e l ih =>
      intro c
      simp only [List.foldl_cons]
      rw [ih, (cancelIfPending_requests c e.1 e.2).2]

theorem implStep_length_le (s : ImplSystem) (op : ImplOp) (hop : op.keepsLimit = true)
    (h : (s.checker.requests.length : Int) ≤ s.checker.maxPending) :
    (((s.step op).checker.requests.length : Int) ≤ (s.step op).checker.maxPending) ∧
    (s.step op).checker.maxPending = s.checker.maxPending := by
  cases op with
  | submit url key flag cb now =>
      simp only [ImplSystem.step, AsyncCheckerImpl.Submit, AsyncCheckerImpl.CheckWithCheckerName]
      split
      · exact ⟨h, rfl⟩
      · rename_i h2
        have := mapStore_length_le s.checker.requests
          ("http".toList ++ '-' :: fmtInt now) s.checker.heap.length
        simp only [and_true]
        omega
  | pick p =>
      simp only [ImplSystem.step, AsyncCheckerImpl.pickUp]
      split
      · rename_i c q heq
        split at heq
        · cases heq
          exact ⟨h, rfl⟩
        · cases heq
      · rename_i c heq
        split at heq
        · cases heq
        · cases heq
          exact ⟨h, rfl⟩
  | send p getChecker check =>
      simp only [ImplSystem.step]
      split
      · have hw : (s.checker.workerSend p getChecker check).requests = s.checker.requests ∧
            (s.checker.workerSend p getChecker check).maxPending = s.checker.maxPending := by
          unfold AsyncCheckerImpl.workerSend
          split
          · split
            · split <;> exact ⟨rfl, rfl⟩
            · exact ⟨rfl, rfl⟩
          · exact ⟨rfl, rfl⟩
        simp only
        rw [hw.1, hw.2]
        exact ⟨h, rfl⟩
      · exact ⟨h, rfl⟩
  | results =>
      simp only [ImplSystem.step, AsyncCheckerImpl.resultProcessor]
      split
      · exact ⟨h, rfl⟩
      · split <;> exact ⟨h, rfl⟩
  | remove id =>
      simp only [ImplSystem.step, AsyncCheckerImpl.Remove]
      split
      · have h1 := cancelIfPending_requests s.checker id
        rename_i p _
        have := mapDelete_length_le (s.checker.cancelIfPending id p).requests id
        simp only
        rw [(h1 p).1] at this ⊢
        rw [(h1 p).2]
        simp only [and_true]
        omega
      · exact ⟨h, rfl⟩
  | clear =>
      simp only [ImplSystem.step, AsyncCheckerImpl.Clear, List.length_nil]
      rw [cancelAll_requests]
      have : (0 : Int) ≤ (s.checker.requests.length : Int) := Int.natCast_nonneg _
      simp only [Nat.cast_zero, and_true]
      omega
  | setMaxPending m => cases hop

theorem implRun_length_le (ops : List ImplOp) :
    ∀ (s : ImplSystem), ops.all ImplOp.keepsLimit = true →
      (s.checker.requests.length : Int) ≤ s.checker.maxPending →
      (((s.run ops).checker.requests.length : Int) ≤ s.checker.maxPending) ∧
      (s.run ops).checker.maxPending = s.checker.maxPending := by
  induction ops with
  | nil => intro s _ h; exact ⟨h, rfl⟩
  | cons op ops ih =>
      intro s hall h
      simp only [List.all_cons, Bool.and_eq_true] at hall
      have h1 := implStep_length_le s op hall.1 h
      have := ih (s.step op) hall.2 h1.1
      rw [h1.2] at this
      exact this

theorem Split_ne_nil (d : Char) (s : Str) : Split d s ≠ [] := by
  induction s with
  | nil => simp [Split]
  | cons c s ih =>
      unfold Split
      split
      · simp
      · split <;> simp

theorem heap_update_update (h : Heap) (p : Nat) (f g : AsyncCheckRequest → AsyncCheckRequest) :
    (h.update p f).update p g = h.update p (fun r => g (f r)) := by
  unfold Heap.update
  induction h generalizing p with
  | nil => cases p <;> rfl
  | cons a t ih =>
      cases p with
      | zero => rfl
      | succ n =>
          simp only [List.modify_succ_cons]
          rw [ih]

/-- The last of the three assignments of `resultProcessor` leaves the heap
of the whole locked section. -/
theorem resultProcessorWrites_last (c : AsyncCheckerImpl) :
    c.resultProcessorWrites = [] ∨
      c.resultProcessorWrites.getLast? = some c.resultProcessor.heap := by
  unfold AsyncCheckerImpl.resultProcessorWrites AsyncCheckerImpl.resultProcessor
  cases c.resultChan with
  | nil => left; rfl
  | cons result rest =>
      dsimp only
      cases mapLookup c.requests result.ID with
      | none => left; rfl
      | some p =>
          right
          dsimp only
          rw [heap_update_update, heap_update_update]
          rfl

theorem mapLookup_mapStore_ne {α : Type} (m : List (Str × α)) (k key : Str) (v : α)
    (h : k ≠ key) : mapLookup (mapStore m k v) key = mapLookup m key := by
  induction m with
  | nil => simp [mapStore, mapLookup, h]
  | cons e m ih =>
      obtain ⟨k2, w⟩ := e
      unfold mapStore
      by_cases hk : k2 = k
      · subst hk
        simp [mapLookup, h]
      · simp only [hk, if_false]
        unfold mapLookup
        rw [ih]

theorem mapLookup_mapDelete_ne {α : Type} (m : List (Str × α)) (k key : Str)
    (h : k ≠ key) : mapLookup (mapDelete m k) key = mapLookup m key := by
  induction m with
  | nil => rfl
  | cons e m ih =>
      obtain ⟨k2, w⟩ := e
      unfold mapDelete at ih ⊢
      by_cases hk : k2 = k
      · subst hk
        rw [List.filter_cons_of_neg (by simp)]
        rw [ih]
        simp [mapLookup, h]
      · rw [List.filter_cons_of_pos (by simpa using hk)]
        unfold mapLookup
        rw [ih]

theorem mapLookup_mapDelete_same {α : Type} (m : List (Str × α)) (key : Str) :
    mapLookup (mapDelete m key) key = none := by
  induction m with
  | nil => rfl
  | cons e m ih =>
      obtain ⟨k2, w⟩ := e
      unfold mapDelete at ih ⊢
      by_cases hk : k2 = key
      · subst hk
        rw [List.filter_cons_of_neg (by simp)]
        exact ih
      · rw [List.filter_cons_of_pos (by simpa using hk)]
        unfold mapLookup
        simp only [hk, if_false]
        exact ih

theorem mapLookup_mapDelete_some {α : Type} (m : List (Str × α)) (k key : Str) (e : α)
    (h : mapLookup (mapDelete m k) key = some e) : mapLookup m key = some e := by
  by_cases hk : k = key
  · subst hk
    rw [mapLookup_mapDelete_same] at h
    cases h
  · rw [mapLookup_mapDelete_ne _ _ _ hk] at h
    exact h

theorem mapStore_nodup {α : Type} (m : List (Str × α)) (k : Str) (v : α)
    (h : (m.map (fun e => e.1)).Nodup) : ((mapStore m k v).map (fun e => e.1)).Nodup := by
  induction m with
  | nil => exact List.nodup_singleton k
  | cons e m ih =>
      obtain ⟨k2, w⟩ := e
      rw [List.map_cons, List.nodup_cons] at h
      unfold mapStore
      by_cases hk : k2 = k
      · rw [if_pos hk, List.map_cons, List.nodup_cons]
        exact h
      · rw [if_neg hk, List.map_cons, List.nodup_cons]
        refine ⟨?_, ih h.2⟩
        intro hmem
        obtain ⟨x, hx, hxk⟩ := List.mem_map.1 hmem
        rcases mem_mapStore m k v x hx with hx1 | hx2
        · apply h.1
          rw [← hxk]
          exact List.mem_map_of_mem (fun e => e.1) hx1
        · rw [hx2] at hxk
          exact hk hxk.symm

theorem mapDelete_nodup {α : Type} (m : List (Str × α)) (k : Str)
    (h : (m.map (fun e => e.1)).Nodup) : ((mapDelete m k).map (fun e => e.1)).Nodup := by
  unfold mapDelete
  exact h.sublist ((List.filter_sublist m).map _)

theorem mapLookup_of_mem {α : Type} (m : List (Str × α)) (key : Str) (v : α)
    (hnd : (m.map (fun e => e.1)).Nodup) (hmem : (key, v) ∈ m) : mapLookup m key = some v := by
  induction m with
  | nil => cases hmem
  | cons e m ih =>
      obtain ⟨k, w⟩ := e
      simp only [List.map_cons, List.nodup_cons] at hnd
      unfold mapLookup
      rcases List.mem_cons.mp hmem with h | h
      · cases h
        simp
      · have : k ≠ key := by
          intro e
          apply hnd.1
          rw [e]
          exact List.mem_map_of_mem (fun e => e.1) h
        simp only [this, if_false]
        exact ih hnd.2 h

/-- What `evict` does to the map: nothing, or the deletion of one key. -/
theorem evict_cache (c : CheckCache) :
    c.evict.cache = c.cache ∨ ∃ k, c.evict.cache = mapDelete c.cache k := by
  unfold CheckCache.evict
  split
  · left; rfl
  · split
    · split
      · split
        · right; exact ⟨_, rfl⟩
        · left; rfl
      · left; rfl
    · split
      · right; exact ⟨_, rfl⟩
      · left; rfl

theorem removeKeys_lookup (keys : List Str) (key : Str) (hk : key ∉ keys) :
    ∀ c : CheckCache, (c.cache.map (fun e => e.1)).Nodup →
      mapLookup (keys.foldl CheckCache.removeKey c).cache key = mapLookup c.cache key ∧
      ((keys.foldl CheckCache.removeKey c).cache.map (fun e => e.1)).Nodup ∧
      (keys.foldl CheckCache.removeKey c).ttl = c.ttl := by
  induction keys with
  | nil => intro c h; exact ⟨rfl, h, rfl⟩
  | cons k keys ih =>
      intro c h
      simp only [List.mem_cons, not_or] at hk
      simp only [List.foldl_cons]
      obtain ⟨h1, h2, h3⟩ := ih hk.2 (c.removeKey k) (mapDelete_nodup _ _ h)
      refine ⟨?_, h2, ?_⟩
      · rw [h1]
        exact mapLookup_mapDelete_ne _ _ _ (fun e => hk.1 e.symm)
      · rw [h3]
        rfl

theorem removeKeys_ttl (keys : List Str) :
    ∀ c : CheckCache, (keys.foldl CheckCache.removeKey c).ttl = c.ttl := by
  induction keys with
  | nil => intro c; rfl
  | cons k keys ih =>
      intro c
      simp only [List.foldl_cons]
      rw [ih]
      rfl

theorem removeKeys_nodup (keys : List Str) :
    ∀ c : CheckCache, (c.cache.map (fun e => e.1)).Nodup →
      ((keys.foldl CheckCache.removeKey c).cache.map (fun e => e.1)).Nodup := by
  induction keys with
  | nil => intro c h; exact h
  | cons k keys ih =>
      intro c h
      simp only [List.foldl_cons]
      exact ih (c.removeKey k) (mapDelete_nodup _ _ h)

theorem evict_nodup (c : CheckCache) (h : (c.cache.map (fun e => e.1)).Nodup) :
    (c.evict.cache.map (fun e => e.1)).Nodup := by
  rcases evict_cache c with e | ⟨k, e⟩
  · rw [e]; exact h
  · rw [e]; exact mapDelete_nodup _ _ h

theorem step_nodup (c : CheckCache) (op : CacheOp) (h : (c.cache.map (fun e => e.1)).Nodup) :
    ((c.step op).cache.map (fun e => e.1)).Nodup := by
  cases op with
  | set k ver now =>
      simp only [CheckCache.step, CheckCache.Set]
      apply mapStore_nodup
      split
      · exact evict_nodup c h
      · exact h
  | get k now =>
      simp only [CheckCache.step, CheckCache.Get]
      split
      · exact h
      · split
        · exact mapDelete_nodup _ _ h
        · split
          · exact mapStore_nodup _ _ _ h
          · exact h
  | clearExpired now =>
      simp only [CheckCache.step, CheckCache.ClearExpired]
      exact removeKeys_nodup _ c h
  | clearCache =>
      simp only [CheckCache.step, ClearCache]
      exact List.nodup_nil

theorem run_nodup (ops : List CacheOp) : ∀ c : CheckCache,
    (c.cache.map (fun e => e.1)).Nodup → (((c.run ops).cache).map (fun e => e.1)).Nodup := by
  induction ops with
  | nil => intro c h; exact h
  | cons op ops ih =>
      intro c h
      exact ih (c.step op) (step_nodup c op h)

theorem step_holds (c : CheckCache) (key w : Str) (ttl expiry : Int) (op : CacheOp)
    (h : c.holds key w ttl expiry) (hw : op.within (expiry - ttl) expiry = true)
    (hk : c.evictsKey key op = false) :
    (c.step op).holds key (lastStored key w [op]) ttl expiry := by
  obtain ⟨hnd, httl, entry, hl, hv, he⟩ := h
  refine ⟨step_nodup c op hnd, ?_, ?_⟩
  · cases op with
    | set k ver now =>
        simp only [CheckCache.step, CheckCache.Set]
        split
        · rw [evict_ttl]; exact httl
        · exact httl
    | get k now =>
        simp only [CheckCache.step, CheckCache.Get]
        split
        · exact httl
        · split
          · exact httl
          · split <;> exact httl
    | clearExpired now =>
        simp only [CheckCache.step, CheckCache.ClearExpired]
        rw [removeKeys_ttl]
        exact httl
    | clearCache => simp [CheckCache.evictsKey] at hk
  · cases op with
    | set k ver now =>
        simp only [CacheOp.within, Bool.and_eq_true, decide_eq_true_eq] at hw
        simp only [CheckCache.step, lastStored]
        by_cases hkk : k = key
        · subst hkk
          rw [if_pos rfl, set_lookup]
          exact ⟨_, rfl, rfl, by dsimp only; omega⟩
        · rw [if_neg hkk]
          unfold CheckCache.Set
          dsimp only
          rw [mapLookup_mapStore_ne _ _ _ _ hkk]
          split
          · rename_i hfull
            simp only [CheckCache.evictsKey, hfull, decide_True, hl, Option.isSome_some,
              Bool.and_self, Bool.true_and, Option.isNone_iff_eq_none] at hk
            cases hev : mapLookup c.evict.cache key with
            | none => rw [hev] at hk; cases hk
            | some e2 =>
                have : mapLookup c.cache key = some e2 := by
                  rcases evict_cache c with e | ⟨k2, e⟩
                  · rw [e] at hev; exact hev
                  · rw [e] at hev; exact mapLookup_mapDelete_some _ _ _ _ hev
                rw [hl] at this
                cases this
                exact ⟨entry, rfl, hv, he⟩
          · exact ⟨entry, hl, hv, he⟩
    | get k now =>
        simp only [CacheOp.within, Bool.and_eq_true, decide_eq_true_eq] at hw
        simp only [CheckCache.step, lastStored]
        by_cases hkk : k = key
        · subst hkk
          obtain ⟨_, entry2, hl2, hv2, he2⟩ := get_hit c k now entry hl (by omega)
          exact ⟨entry2, hl2, by rw [hv2, hv], by rw [he2]; exact he⟩
        · unfold CheckCache.Get
          split
          · exact ⟨entry, hl, hv, he⟩
          · split
            · refine ⟨entry, ?_, hv, he⟩
              show mapLookup (mapDelete c.cache k) key = some entry
              rw [mapLookup_mapDelete_ne _ _ _ hkk]
              exact hl
            · split
              · refine ⟨entry, ?_, hv, he⟩
                dsimp only
                rw [mapLookup_mapStore_ne _ _ _ _ hkk]
                exact hl
              · exact ⟨entry, hl, hv, he⟩
    | clearExpired now =>
        simp only [CacheOp.within, Bool.and_eq_true, decide_eq_true_eq] at hw
        simp only [CheckCache.step, lastStored, CheckCache.ClearExpired]
        have hnot : key ∉ (c.cache.filter (fun e => now > e.2.ExpiryTime)).map (fun e => e.1) := by
          intro hmem
          obtain ⟨x, hx, hxk⟩ := List.mem_map.1 hmem
          obtain ⟨hx1, hx2⟩ := List.mem_filter.1 hx
          obtain ⟨k2, e2⟩ := x
          dsimp only at hxk hx2
          subst hxk
          have := mapLookup_of_mem c.cache k2 e2 hnd hx1
          rw [hl] at this
          cases this
          simp only [gt_iff_lt, decide_eq_true_eq] at hx2
          omega
        rw [(removeKeys_lookup _ key hnot c hnd).1]
        exact ⟨entry, hl, hv, he⟩
    | clearCache => simp [CheckCache.evictsKey] at hk

theorem lastStored_append (key : Str) (ops : List CacheOp) :
    ∀ (w : Str) (ops2 : List CacheOp),
      lastStored key w (ops ++ ops2) = lastStored key (lastStored key w ops) ops2 := by
  induction ops with
  | nil => intro w ops2; rfl
  | cons op ops ih =>
      intro w ops2
      cases op <;> simp only [List.cons_append, lastStored] <;> exact ih _ _

theorem run_holds (key : Str) (ttl expiry : Int) (ops : List CacheOp) :
    ∀ (c : CheckCache) (w : Str), c.holds key w ttl expiry →
      ops.all (CacheOp.within (expiry - ttl) expiry) = true →
      c.keepsKey key ops = true →
      (c.run ops).holds key (lastStored key w ops) ttl expiry := by
  induction ops with
  | nil => intro c w h _ _; exact h
  | cons op ops ih =>
      intro c w h hw hk
      simp only [List.all_cons, Bool.and_eq_true] at hw
      simp only [CheckCache.keepsKey, Bool.and_eq_true, Bool.not_eq_true'] at hk
      have h1 := step_holds c key w ttl expiry op h hw.1 hk.1
      have h2 := ih (c.step op) _ h1 hw.2 hk.2
      have : lastStored key w (op :: ops) = lastStored key (lastStored key w [op]) ops :=
        lastStored_append key [op] w ops
      rw [this]
      exact h2

/-- Operations without a `Set` of the key leave the version last stored under
it as it was. -/
theorem lastStored_untouched (key v : Str) (ops : List CacheOp)
    (h : ∀ w now, CacheOp.set key w now ∉ ops) : lastStored key v ops = v := by
  induction ops generalizing v with
  | nil => rfl
  | cons op ops ih =>
      have h2 : ∀ w now, CacheOp.set key w now ∉ ops :=
        fun w now hm => h w now (List.mem_cons_of_mem _ hm)
      cases op with
      | set k w now =>
          simp only [lastStored]
          have hk : k ≠ key := by
            intro e
            subst e
            exact h w now (List.mem_cons_self _ _)
          rw [if_neg hk]
          exact ih v h2
      | get k now => exact ih v h2
      | clearExpired now => exact ih v h2
      | clearCache => exact ih v h2

theorem plainChar_ascii (c : Char) (h : (c.isAlphanum || c == '.' || c == '-') = true) :
    c ∈ asciiChars := by
  have hlt : c.toNat < 128 := by
    simp only [Bool.or_eq_true, beq_iff_eq] at h
    rcases h with (h | h) | h
    · simp only [Char.isAlphanum, Bool.or_eq_true] at h
      rcases h with h | h
      · have := (isLetterC_iff c).1 h
        omega
      · have := (isDigitC_iff c).1 h
        omega
    · subst h; decide
    · subst h; decide
  unfold asciiChars
  rw [List.mem_map]
  exact ⟨c.toNat, List.mem_range.2 hlt, Char.ofNat_toNat c⟩

theorem nowhere_MatchString (p : Regex) (w : Str) (h : p.nowhere w) : p.MatchString w = false := by
  unfold Regex.MatchString
  cases hf : p.findFrom true w with
  | none => rfl
  | some r =>
      obtain ⟨pre, cs, rest⟩ := r
      obtain ⟨⟨x, e, hx⟩, _, _⟩ := findFrom_sound p true w pre rest cs hf
      exact absurd hx (h pre x rest cs e)

theorem nowhere_removeAllFrom (p : Regex) (w : Str) (h : p.nowhere w) :
    ∀ (n : Nat) (b : Bool) (pre s : Str), w = pre ++ s → p.removeAllFrom n b s = s := by
  intro n
  induction n with
  | zero => intro b pre s _; rfl
  | succ n ih =>
      intro b pre s e
      cases s with
      | nil => rfl
      | cons c s =>
          simp only [Regex.removeAllFrom]
          cases hm : p.matchAt b (c :: s) with
          | some r =>
              obtain ⟨⟨x, ex, hx⟩, _, _⟩ := matchAt_sound p b (c :: s) r hm
              exact absurd hx (h pre x r.2 r.1 (by rw [e, ex, List.append_assoc]))
          | none =>
              dsimp only
              rw [ih false (pre ++ [c]) s (by rw [e]; simp)]

theorem nowhere_ReplaceAllString (p : Regex) (w : Str) (h : p.nowhere w) :
    p.ReplaceAllString w = w :=
  nowhere_removeAllFrom p w h _ true [] w rfl

theorem nowhere_removeEach (l : List Regex) (w : Str) (h : ∀ p ∈ l, p.nowhere w) :
    removeEach l w = w := by
  unfold removeEach
  induction l with
  | nil => rfl
  | cons p l ih =>
      simp only [List.foldl_cons]
      rw [nowhere_ReplaceAllString p w (h p (List.mem_cons_self _ _))]
      exact ih (fun q hq => h q (List.mem_cons_of_mem _ hq))

theorem nowhere_stripFirstSuffix (l : List Regex) (w : Str) (h : ∀ p ∈ l, p.nowhere w) :
    stripFirstSuffix l w = w := by
  induction l with
  | nil => rfl
  | cons p l ih =>
      unfold stripFirstSuffix
      rw [nowhere_MatchString p w (h p (List.mem_cons_self _ _))]
      simp only [Bool.false_eq_true, if_false]
      exact ih (fun q hq => h q (List.mem_cons_of_mem _ hq))

theorem nowhere_any (l : List Regex) (w : Str) (h : ∀ p ∈ l, p.nowhere w) :
    l.any (fun re => re.MatchString w) = false := by
  rw [List.any_eq_false]
  intro p hp
  rw [nowhere_MatchString p w (h p hp)]
  simp

theorem startsToken_append (x y : Str) (h : startsToken x = true) :
    startsToken (x ++ y) = true := by
  match x, h with
  | [], h => simp [startsToken] at h
  | [d], h =>
      have hd : d.isAlpha = true := by
        unfold startsToken at h
        split at h <;> simp_all
      cases y with
      | nil => simpa using h
      | cons e y =>
          show startsToken (d :: e :: y) = true
          unfold startsToken
          split
          · rfl
          · rfl
          · rename_i d2 _ _ _ heq
            cases heq
            exact hd
          · rename_i heq; cases heq
  | d :: e :: tl, h =>
      show startsToken (d :: e :: (tl ++ y)) = true
      unfold startsToken at h ⊢
      split at h
      · rename_i heq
        cases heq
        rfl
      · rename_i heq
        cases heq
        rfl
      · rename_i d2 _ h1 h2 heq
        cases heq
        split
        · rfl
        · rfl
        · rename_i heq2
          cases heq2
          exact h
        · rename_i heq2
          cases heq2
      · rename_i heq; cases heq

theorem plain_chars (w : Str) (h : plainVersion w = true) :
    ∀ c ∈ w, (c.isAlphanum || c == '.' || c == '-') = true := by
  unfold plainVersion at h
  simp only [Bool.and_eq_true] at h
  exact List.all_eq_true.1 h.1.1.1

theorem noTokenAfterSep_spec (w : Str) (h : noTokenAfterSep w = true) :
    ∀ pre c rest, w = pre ++ c :: rest → (c = '.' ∨ c = '-') → startsToken rest = false := by
  induction w with
  | nil => intro pre c rest e; simp at e
  | cons a t ih =>
      intro pre c rest e hc
      unfold noTokenAfterSep at h
      simp only [Bool.and_eq_true, Bool.not_eq_true'] at h
      cases pre with
      | nil =>
          simp only [List.nil_append, List.cons.injEq] at e
          obtain ⟨rfl, rfl⟩ := e
          have h1 := h.1
          have : (a == '.' || a == '-') = true := by
            rcases hc with rfl | rfl <;> decide
          rw [this] at h1
          simpa using h1
      | cons b pre =>
          simp only [List.cons_append, List.cons.injEq] at e
          exact ih h.2 pre c rest e.2 hc

theorem plain_noToken (w : Str) (h : plainVersion w = true) :
    ∀ pre c rest, w = pre ++ c :: rest → (c = '.' ∨ c = '-') → startsToken rest = false := by
  unfold plainVersion at h
  simp only [Bool.and_eq_true] at h
  exact noTokenAfterSep_spec w h.2

theorem nowhere_of_tokenLike (p : Regex) (w : Str) (h : plainVersion w = true)
    (hp : p.re.tokenLike) : p.nowhere w := by
  intro pre x post cs e hx
  obtain ⟨c, rest, rfl, hsep, hrest⟩ := hp x [] cs hx
  have hchars := plain_chars w h
  have hcw : c ∈ w := by rw [e]; simp
  have hc := hchars c hcw
  have hc2 : c = '.' ∨ c = '-' := by
    unfold isSepC at hsep
    simp only [Bool.or_eq_true, beq_iff_eq] at hsep
    rcases hsep with (rfl | rfl) | rfl
    · exact absurd hc (by decide)
    · exact Or.inr rfl
    · exact Or.inl rfl
  have hascii : ∀ x ∈ rest, x ∈ asciiChars := by
    intro x hx
    apply plainChar_ascii
    apply hchars
    rw [e]
    simp [hx]
  have hno := plain_noToken w h pre c (rest ++ post) (by rw [e]; simp) hc2
  rcases hrest hascii with h1 | h1
  · rw [startsToken_append rest post h1] at hno
    cases hno
  · cases rest with
    | nil => cases h1
    | cons d tl =>
        simp only [List.head?_cons, Option.some.injEq] at h1
        subst h1
        have := hchars '_' (by rw [e]; simp)
        exact absurd this (by decide)

theorem parses_litiL (l : List Char) : ∀ (w : Str) (cs cs2 : Caps),
    Parses (l.foldr (fun c r => Re.seq (.cls (foldEq c)) r) .eps) w cs cs2 →
      List.Forall₂ (fun t x => foldEq t x = true) l w := by
  induction l with
  | nil =>
      intro w cs cs2 h
      have := (parses_eps_iff w cs cs2).1 h
      rw [this.1]
      exact List.Forall₂.nil
  | cons t l ih =>
      intro w cs cs2 h
      simp only [List.foldr_cons] at h
      obtain ⟨w1, w2, cs1, rfl, h1, h2⟩ := (parses_seq_iff _ _ _ _ _).1 h
      obtain ⟨c, rfl, hc, _⟩ := (parses_cls_iff _ _ _ _).1 h1
      exact List.Forall₂.cons hc (ih w2 cs1 cs2 h2)

theorem parses_litL (l : List Char) : ∀ (w : Str) (cs cs2 : Caps),
    Parses (l.foldr (fun c r => Re.seq (Re.chr c) r) .eps) w cs cs2 → w = l := by
  induction l with
  | nil =>
      intro w cs cs2 h
      exact ((parses_eps_iff w cs cs2).1 h).1
  | cons t l ih =>
      intro w cs cs2 h
      simp only [List.foldr_cons] at h
      obtain ⟨w1, w2, cs1, rfl, h1, h2⟩ := (parses_seq_iff _ _ _ _ _).1 h
      obtain ⟨rfl, _⟩ := (parses_chr_iff _ _ _ _).1 h1
      rw [ih w2 cs1 cs2 h2]
      rfl

theorem parses_alts (l : List Re) : ∀ (w : Str) (cs cs2 : Caps),
    Parses (Re.alts l) w cs cs2 → ∃ r ∈ l, Parses r w cs cs2 := by
  induction l with
  | nil =>
      intro w cs cs2 h
      obtain ⟨c, _, hc, _⟩ := (parses_cls_iff _ _ _ _).1 h
      cases hc
  | cons a l ih =>
      intro w cs cs2 h
      cases l with
      | nil => exact ⟨a, List.mem_cons_self _ _, h⟩
      | cons b l =>
          rcases (parses_alt_iff _ _ _ _ _).1 h with h1 | h1
          · exact ⟨a, List.mem_cons_self _ _, h1⟩
          · obtain ⟨r, hr, hp⟩ := ih w cs cs2 h1
            exact ⟨r, List.mem_cons_of_mem _ hr, hp⟩

theorem tokOk_spec (tok w : Str) (hok : tokOk tok = true)
    (hf : List.Forall₂ (fun t x => foldEq t x = true) tok w) (ha : ∀ x ∈ w, x ∈ asciiChars) :
    startsToken w = true ∨ w.head? = some '_' := by
  cases hf with
  | nil => cases hok
  | @cons t0 d ttl tl h0 hrest =>
      have hd : d ∈ asciiChars := ha d (List.mem_cons_self _ _)
      cases hrest with
      | nil =>
          simp only [tokOk, List.all_eq_true, Bool.or_eq_true, Bool.not_eq_true',
            beq_iff_eq] at hok
          rcases hok d hd with (h | h) | h
          · rw [h0] at h; cases h
          · right; rw [h]; rfl
          · left
            unfold startsToken
            split
            · rfl
            · rfl
            · rename_i heq
              cases heq
              exact h
            · rename_i heq
              cases heq
      | @cons t1 e ttl2 tl2 h1 hrest2 =>
          have he : e ∈ asciiChars := ha e (by simp)
          simp only [tokOk, List.all_eq_true, Bool.or_eq_true, Bool.not_eq_true',
            beq_iff_eq] at hok
          rcases hok d hd with (h | h) | h
          · rw [h0] at h; cases h
          · right; rw [h]; rfl
          · rcases h e he with h2 | h2
            · rw [h1] at h2; cases h2
            · left
              exact startsToken_append [d, e] tl2 h2

theorem tokenLike_tokenRegex (sep : Char → Bool) (toks : List String) (eol : Bool)
    (hsep : ∀ c, sep c = true → isSepC c = true)
    (htoks : toks.all (fun t => tokOk t.toList) = true) :
    (tokenRegex sep toks eol).re.tokenLike := by
  intro w cs cs2 h
  have h' : Parses (.seq (.cls sep) (.grp 1 (Re.alts (toks.map Re.liti)))) w cs cs2 := h
  obtain ⟨w1, w2, cs1, rfl, h1, h2⟩ := (parses_seq_iff _ _ _ _ _).1 h'
  obtain ⟨c, rfl, hc, _⟩ := (parses_cls_iff _ _ _ _).1 h1
  obtain ⟨cs3, h3, _⟩ := (parses_grp_iff _ _ _ _ _).1 h2
  obtain ⟨r, hr, hp⟩ := parses_alts _ _ _ _ h3
  obtain ⟨tok, htok, rfl⟩ := List.mem_map.1 hr
  have hf := parses_litiL tok.toList w2 _ _ hp
  refine ⟨c, w2, rfl, hsep c hc, ?_⟩
  intro ha
  exact tokOk_spec tok.toList w2 (List.all_eq_true.1 htoks tok htok) hf ha

theorem tokenLike_lit (s : String) (h : litOk s.toList = true) : (Re.lit s).tokenLike := by
  intro w cs cs2 hp
  have := parses_litL s.toList w cs cs2 hp
  rw [this]
  cases hl : s.toList with
  | nil => rw [hl] at h; cases h
  | cons c rest =>
      rw [hl] at h
      simp only [litOk, Bool.and_eq_true] at h
      exact ⟨c, rest, rfl, h.1, fun _ => Or.inl h.2⟩

theorem tokenLike_seq (a b : Re) (ha : a.tokenLike) : (Re.seq a b).tokenLike := by
  intro w cs cs2 hp
  obtain ⟨w1, w2, cs1, rfl, h1, h2⟩ := (parses_seq_iff _ _ _ _ _).1 hp
  obtain ⟨c, rest, rfl, hsep, hr⟩ := ha w1 cs cs1 h1
  refine ⟨c, rest ++ w2, rfl, hsep, ?_⟩
  intro hascii
  rcases hr (fun x hx => hascii x (List.mem_append_left _ hx)) with h | h
  · exact Or.inl (startsToken_append rest w2 h)
  · right
    cases rest with
    | nil => cases h
    | cons d tl => exact h

set_option maxRecDepth 1000000 in
theorem platformPatterns_ok :
    platformPatterns.all (fun e => e.2.all (fun t => tokOk t.toList)) = true := by
  decide

set_option maxRecDepth 1000000 in
theorem testPatterns_ok :
    testPatterns.all (fun e => e.2.all (fun t => tokOk t.toList)) = true := by
  decide

theorem isSep2C_isSepC (c : Char) (h : isSep2C c = true) : isSepC c = true := by
  unfold isSep2C at h
  unfold isSepC
  simp only [Bool.or_eq_true] at h ⊢
  exact Or.inl h

theorem platformRegexes_nowhere (eol : Bool) (w : Str) (h : plainVersion w = true) :
    ∀ p ∈ platformRegexes eol, p.nowhere w := by
  intro p hp
  unfold platformRegexes at hp
  obtain ⟨e, he, rfl⟩ := List.mem_map.1 hp
  apply nowhere_of_tokenLike _ w h
  have hok := List.all_eq_true.1 platformPatterns_ok e he
  apply tokenLike_tokenRegex _ _ _ _ hok
  unfold platformPatterns at he
  simp only [List.mem_cons, List.mem_singleton, List.not_mem_nil, or_false] at he
  rcases he with rfl | rfl | rfl | rfl | rfl | rfl <;> exact fun c hc => hc

theorem testRegexes_nowhere (eol : Bool) (w : Str) (h : plainVersion w = true) :
    ∀ p ∈ testRegexes eol, p.nowhere w := by
  intro p hp
  unfold testRegexes at hp
  obtain ⟨e, he, rfl⟩ := List.mem_map.1 hp
  apply nowhere_of_tokenLike _ w h
  have hok := List.all_eq_true.1 testPatterns_ok e he
  apply tokenLike_tokenRegex _ _ _ _ hok
  unfold testPatterns at he
  simp only [List.mem_cons, List.mem_singleton, List.not_mem_nil, or_false] at he
  rcases he with rfl | rfl | rfl
  · exact isSep2C_isSepC
  · exact fun c hc => hc
  · exact isSep2C_isSepC

set_option maxRecDepth 1000000 in
theorem platformSuffixes_nowhere (w : Str) (h : plainVersion w = true) :
    ∀ p ∈ platformSuffixes, p.nowhere w := by
  intro p hp
  unfold platformSuffixes at hp
  dsimp only at hp
  obtain ⟨r, hr, rfl⟩ := List.mem_map.1 hp
  apply nowhere_of_tokenLike _ w h
  show r.tokenLike
  simp only [List.mem_cons, List.mem_singleton, List.not_mem_nil, or_false] at hr
  rcases hr with rfl | rfl | rfl | rfl | rfl | rfl | rfl | rfl | rfl | rfl | rfl | rfl | rfl
    | rfl | rfl | rfl | rfl | rfl | rfl | rfl | rfl | rfl | rfl | rfl | rfl | rfl | rfl | rfl
    | rfl | rfl | rfl | rfl | rfl | rfl
  all_goals first
    | exact tokenLike_lit _ (by decide)
    | exact tokenLike_seq _ _ (tokenLike_lit _ (by decide))

theorem dropWhile_none (p : Char → Bool) (l : Str) (h : ∀ c ∈ l, p c = false) :
    l.dropWhile p = l := by
  cases l with
  | nil => rfl
  | cons c t =>
      rw [List.dropWhile_cons, h c (List.mem_cons_self _ _)]
      rfl

set_option maxRecDepth 1000000 in
theorem ascii_plain_not_space :
    asciiChars.all (fun c => !(c.isAlphanum || c == '.' || c == '-') || !isSpaceC c) = true := by
  decide

theorem plain_not_space (c : Char) (h : (c.isAlphanum || c == '.' || c == '-') = true) :
    isSpaceC c = false := by
  have := List.all_eq_true.1 ascii_plain_not_space c (plainChar_ascii c h)
  rw [h] at this
  simpa using this

theorem plain_TrimSpace (w : Str) (h : ∀ c ∈ w, (c.isAlphanum || c == '.' || c == '-') = true) :
    TrimSpace w = w := by
  unfold TrimSpace
  rw [dropWhile_none isSpaceC w (fun c hc => plain_not_space c (h c hc))]
  rw [dropWhile_none isSpaceC w.reverse
    (fun c hc => plain_not_space c (h c (List.mem_reverse.1 hc)))]
  exact List.reverse_reverse w

theorem plain_TrimRightUnderscore (w : Str)
    (h : ∀ c ∈ w, (c.isAlphanum || c == '.' || c == '-') = true) :
    TrimRightUnderscore w = w := by
  unfold TrimRightUnderscore
  rw [dropWhile_none _ w.reverse]
  · exact List.reverse_reverse w
  · intro c hc
    have := h c (List.mem_reverse.1 hc)
    cases hu : (c == '_') with
    | false => rfl
    | true =>
        rw [beq_iff_eq] at hu
        subst hu
        exact absurd this (by decide)

theorem plain_TrimPrefix (w : Str) (h : plainVersion w = true) : TrimPrefix w ['V'] = w := by
  unfold plainVersion at h
  simp only [Bool.and_eq_true, Bool.not_eq_true', beq_eq_false_iff_ne, ne_eq] at h
  unfold TrimPrefix
  cases w with
  | nil => rfl
  | cons c t =>
      have hc : c ≠ 'V' := by
        intro e
        apply h.1.1.2
        rw [e]
        rfl
      have : (['V'].isPrefixOf (c :: t)) = false := by
        simp only [List.isPrefixOf, Bool.and_true]
        simpa using fun e => hc e.symm
      rw [this]
      rfl

theorem plain_TrimSuffix (w : Str) (h : plainVersion w = true) : TrimSuffix w ['-'] = w := by
  unfold plainVersion at h
  simp only [Bool.and_eq_true, Bool.not_eq_true', beq_eq_false_iff_ne, ne_eq] at h
  have hl := h.1.2
  unfold TrimSuffix
  cases hr : w.reverse with
  | nil => rfl
  | cons c t =>
      have hc : c ≠ '-' := by
        intro e
        apply hl
        have : w = (c :: t).reverse := by rw [← hr, List.reverse_reverse]
        rw [this, e]
        simp
      have : (['-'].reverse.isPrefixOf (c :: t)) = false := by
        simp only [List.reverse_cons, List.reverse_nil, List.nil_append, List.isPrefixOf,
          Bool.and_true]
        simpa using fun e => hc e.symm
      rw [this]
      rfl

theorem cutAt_spec (d : Char) (w : Str) :
    (cutAt d w = none → d ∉ w) ∧
    (∀ a b, cutAt d w = some (a, b) → w = a ++ d :: b ∧ d ∉ a) := by
  induction w with
  | nil => exact ⟨fun _ => by simp, fun a b h => by cases h⟩
  | cons c t ih =>
      unfold cutAt
      by_cases hc : c = d
      · subst hc
        simp only [beq_self_eq_true, if_true]
        constructor
        · intro h; cases h
        · intro a b h
          cases h
          exact ⟨rfl, by simp⟩
      · have hb : (c == d) = false := by simpa using hc
        simp only [hb, Bool.false_eq_true, if_false]
        cases hcut : cutAt d t with
        | none =>
            dsimp only
            constructor
            · intro _
              simp only [List.mem_cons, not_or]
              exact ⟨fun e => hc e.symm, ih.1 hcut⟩
            · intro a b h; cases h
        | some x =>
            obtain ⟨a1, b1⟩ := x
            dsimp only
            constructor
            · intro h; cases h
            · intro a b h
              cases h
              obtain ⟨e, hn⟩ := ih.2 a1 b1 hcut
              refine ⟨by rw [e]; rfl, ?_⟩
              simp only [List.mem_cons, not_or]
              exact ⟨fun e => hc e.symm, hn⟩

theorem Contains_of_mem (d : Char) (w : Str) (h : d ∈ w) : Contains w [d] = true := by
  induction w with
  | nil => cases h
  | cons c t ih =>
      unfold Contains
      by_cases hc : c = d
      · subst hc
        simp [List.isPrefixOf]
      · have : d ∈ t := by
          rcases List.mem_cons.1 h with e | e
          · exact absurd e.symm hc
          · exact e
        rw [ih this]
        simp

theorem Join_Split (d : Char) (w : Str) : Join d (Split d w) = w := by
  induction w with
  | nil => rfl
  | cons c t ih =>
      unfold Split
      by_cases hc : c = d
      · subst hc
        simp only [beq_self_eq_true, if_true]
        cases hs : Split c t with
        | nil => exact absurd hs (Split_ne_nil c t)
        | cons p ps =>
            rw [hs] at ih
            show [] ++ c :: Join c (p :: ps) = c :: t
            rw [ih]
            rfl
      · have hb : (c == d) = false := by simpa using hc
        simp only [hb, Bool.false_eq_true, if_false]
        cases hs : Split d t with
        | nil => exact absurd hs (Split_ne_nil d t)
        | cons p ps =>
            rw [hs] at ih
            dsimp only
            cases ps with
            | nil =>
                show c :: p = c :: t
                rw [← ih]
                rfl
            | cons q qs =>
                show (c :: p) ++ d :: Join d (q :: qs) = c :: t
                rw [← ih]
                rfl

theorem mem_Split (d : Char) (w : Str) : ∀ p ∈ Split d w, ∀ c ∈ p, c ∈ w := by
  induction w with
  | nil =>
      intro p hp c hc
      simp only [Split, List.mem_singleton] at hp
      subst hp
      cases hc
  | cons a t ih =>
      intro p hp c hc
      unfold Split at hp
      by_cases ha : a = d
      · subst ha
        simp only [beq_self_eq_true, if_true, List.mem_cons] at hp
        rcases hp with rfl | hp
        · cases hc
        · exact List.mem_cons_of_mem _ (ih p hp c hc)
      · have hb : (a == d) = false := by simpa using ha
        simp only [hb, Bool.false_eq_true, if_false] at hp
        cases hs : Split d t with
        | nil => exact absurd hs (Split_ne_nil d t)
        | cons q qs =>
            rw [hs] at hp ih
            dsimp only at hp
            rcases List.mem_cons.1 hp with rfl | hp
            · rcases List.mem_cons.1 hc with rfl | hc
              · exact List.mem_cons_self _ _
              · exact List.mem_cons_of_mem _ (ih q (List.mem_cons_self _ _) c hc)
            · exact List.mem_cons_of_mem _ (ih p (List.mem_cons_of_mem _ hp) c hc)

theorem not_mem_Split (d : Char) (w : Str) : ∀ p ∈ Split d w, d ∉ p := by
  induction w with
  | nil =>
      intro p hp
      simp only [Split, List.mem_singleton] at hp
      subst hp
      simp
  | cons a t ih =>
      intro p hp
      unfold Split at hp
      by_cases ha : a = d
      · subst ha
        simp only [beq_self_eq_true, if_true, List.mem_cons] at hp
        rcases hp with rfl | hp
        · simp
        · exact ih p hp
      · have hb : (a == d) = false := by simpa using ha
        simp only [hb, Bool.false_eq_true, if_false] at hp
        cases hs : Split d t with
        | nil => exact absurd hs (Split_ne_nil d t)
        | cons q qs =>
            rw [hs] at hp ih
            dsimp only at hp
            rcases List.mem_cons.1 hp with rfl | hp
            · simp only [List.mem_cons, not_or]
              exact ⟨fun e => ha e.symm, ih q (List.mem_cons_self _ _)⟩
            · exact ih p (List.mem_cons_of_mem _ hp)

/-- The greedy iteration of a character class reads the longest run first. -/
theorem starRun_cls_head (p : Char → Bool) (cs : Caps) : ∀ (n : Nat) (s : Str), s.length ≤ n →
    (starRun (fun cs1 s1 => (Re.cls p).run cs1 s1) n cs s).head? = some (cs, s.dropWhile p) := by
  intro n
  induction n with
  | zero =>
      intro s hs
      have : s = [] := List.length_eq_zero.1 (Nat.le_zero.1 hs)
      subst this
      rfl
  | succ n ih =>
      intro s hs
      cases s with
      | nil => rfl
      | cons c t =>
          simp only [starRun, Re.run]
          by_cases hc : p c = true
          · simp only [hc, if_true, List.flatMap_cons, List.flatMap_nil, List.append_nil]
            rw [List.dropWhile_cons, hc]
            simp only [if_true]
            have := ih t (by simpa using hs)
            cases hrun : starRun (fun cs1 s1 => (Re.cls p).run cs1 s1) n cs t with
            | nil => rw [hrun] at this; cases this
            | cons x xs =>
                rw [hrun] at this
                simp only [List.head?_cons, Option.some.injEq] at this
                subst this
                rfl
          · have hc2 : p c = false := by simpa using hc
            simp only [hc2, Bool.false_eq_true, if_false, List.flatMap_nil, List.nil_append,
              List.head?_cons]
            rw [List.dropWhile_cons, hc2]
            rfl

theorem leadingDigits_FindString (part : Str) :
    leadingDigits.FindString part = part.takeWhile isDigitC := by
  unfold Regex.FindString Regex.FindStringSubmatch
  cases part with
  | nil => rfl
  | cons c t =>
      by_cases hc : isDigitC c = true
      · have hrun : (reNum.run [] (c :: t)).head? = some ([], t.dropWhile isDigitC) := by
          show ((Re.seq (.cls isDigitC) (.star (.cls isDigitC))).run [] (c :: t)).head? = _
          simp only [Re.run, hc, if_true, List.flatMap_cons, List.flatMap_nil, List.append_nil]
          exact starRun_cls_head isDigitC [] t.length t (le_refl _)
        have hm : leadingDigits.matchAt true (c :: t) = some ([], t.dropWhile isDigitC) := by
          unfold Regex.matchAt leadingDigits
          simp only [Bool.not_true, Bool.and_false, Bool.false_eq_true, if_false, Bool.not_false,
            Bool.true_or]
          cases hl : reNum.run [] (c :: t) with
          | nil => rw [hl] at hrun; cases hrun
          | cons x xs =>
              rw [hl] at hrun
              simp only [List.head?_cons, Option.some.injEq] at hrun
              subst hrun
              rfl
        simp only [Regex.findFrom, hm]
        rw [List.takeWhile_cons, hc]
        simp only [if_true, List.length_nil, List.drop_zero, Nat.sub_zero, List.length_cons]
        have hlen : (t.dropWhile isDigitC).length ≤ t.length :=
          (List.dropWhile_suffix isDigitC).length_le
        have e : t.length + 1 - (t.dropWhile isDigitC).length
            = (t.takeWhile isDigitC).length + 1 := by
          have := congrArg List.length (List.takeWhile_append_dropWhile isDigitC t)
          simp only [List.length_append] at this
          omega
        rw [e, List.take_succ_cons]
        congr 1
        have ht : List.take (t.takeWhile isDigitC).length
            (t.takeWhile isDigitC ++ t.dropWhile isDigitC) = t.takeWhile isDigitC :=
          List.take_left' rfl
        rw [List.takeWhile_append_dropWhile] at ht
        exact ht
      · have hc2 : isDigitC c = false := by simpa using hc
        have hm : ∀ (b : Bool) (s : Str), leadingDigits.findFrom false s = none := by
          intro b s
          induction s with
          | nil => simp [Regex.findFrom, Regex.matchAt, leadingDigits]
          | cons a s ih =>
              have hma : leadingDigits.matchAt false (a :: s) = none := by
                simp [Regex.matchAt, leadingDigits]
              simp only [Regex.findFrom, hma, ih]
        have hm0 : leadingDigits.matchAt true (c :: t) = none := by
          unfold Regex.matchAt leadingDigits
          simp only [Bool.not_true, Bool.and_false, Bool.false_eq_true, if_false]
          show ((Re.seq (.cls isDigitC) (.star (.cls isDigitC))).run [] (c :: t)).find? _ = none
          simp only [Re.run, hc2, Bool.false_eq_true, if_false, List.flatMap_nil, List.find?_nil]
        simp only [Regex.findFrom, hm0, hm true t]
        rw [List.takeWhile_cons, hc2]
        rfl

theorem digitsLetters_matches (ds rest : Str) (l : Char) (hne : ds ≠ [])
    (hd : ds.all isDigitC = true) (hl : isLetterC l = true) :
    digitsLetters.MatchString (ds ++ l :: rest) = true := by
  have hp : Parses (.seq reNum (Re.plus (.cls isLetterC))) (ds ++ [l]) [] [] :=
    Parses.seq _ _ ds [l] [] [] [] (parses_plus_cls_intro isDigitC ds [] hne hd)
      (parses_plus_cls_intro isLetterC [l] [] (by simp) (by simp [hl]))
  have hmem := (run_complete hp (by decide)).1 rest
  have e : ds ++ [l] ++ rest = ds ++ l :: rest := by simp
  rw [e] at hmem
  have hm : (digitsLetters.matchAt true (ds ++ l :: rest)).isSome = true := by
    unfold Regex.matchAt digitsLetters
    simp only [Bool.not_true, Bool.and_false, Bool.false_eq_true, if_false, Bool.not_false,
      Bool.true_or]
    rw [List.find?_isSome]
    exact ⟨_, hmem, rfl⟩
  unfold Regex.MatchString
  cases hds : ds ++ l :: rest with
  | nil => simp at hds
  | cons c t =>
      rw [hds] at hm
      simp only [Regex.findFrom]
      cases hma : digitsLetters.matchAt true (c :: t) with
      | none => rw [hma] at hm; cases hm
      | some r => rfl

theorem cleanPart_alnum (part : Str) (h : ∀ c ∈ part, c.isAlphanum = true) :
    cleanPart part = part := by
  unfold cleanPart
  by_cases hm : digitsLetters.MatchString part = true
  · rw [if_pos hm]
  · rw [if_neg hm, leadingDigits_FindString]
    by_cases hds : part.takeWhile isDigitC = []
    · rw [hds]
      rfl
    · have hne : (part.takeWhile isDigitC != []) = true := by simpa using hds
      rw [if_pos hne]
      cases hrest : part.dropWhile isDigitC with
      | nil =>
          have := List.takeWhile_append_dropWhile isDigitC part
          rw [hrest, List.append_nil] at this
          exact this
      | cons l rest =>
          exfalso
          apply hm
          have hsplit := List.takeWhile_append_dropWhile isDigitC part
          rw [hrest] at hsplit
          rw [← hsplit]
          have hl1 : isDigitC l = false := by
            have := List.head_dropWhile_not isDigitC part
              (by rw [hrest]; simp)
            simpa [hrest] using this
          have hl2 : l.isAlphanum = true := by
            apply h
            rw [← hsplit]
            simp
          have hl : isLetterC l = true := by
            unfold Char.isAlphanum at hl2
            unfold isDigitC at hl1
            unfold isLetterC
            rw [hl1] at hl2
            simpa using hl2
          apply digitsLetters_matches _ _ _ hds _ hl
          rw [List.all_eq_true]
          intro x hx
          exact List.mem_takeWhile_imp hx

theorem cleanParts_id (a w : Str) (hw : ∀ c ∈ w, (c.isAlphanum || c == '.' || c == '-') = true)
    (ha : ∀ c ∈ a, c ∈ w) (hh : '-' ∉ a) :
    (if (Split '.' a).length ≥ 2 then Join '.' ((Split '.' a).map cleanPart) else a) = a := by
  have hmap : (Split '.' a).map cleanPart = Split '.' a := by
    have : ∀ p ∈ Split '.' a, cleanPart p = id p := by
      intro p hp
      apply cleanPart_alnum
      intro c hc
      have hca := mem_Split '.' a p hp c hc
      have h1 := hw c (ha c hca)
      have h2 : c ≠ '.' := fun e => not_mem_Split '.' a p hp (e ▸ hc)
      have h3 : c ≠ '-' := fun e => hh (e ▸ hca)
      simp only [Bool.or_eq_true, beq_iff_eq] at h1
      rcases h1 with (h1 | h1) | h1
      · exact h1
      · exact absurd h1 h2
      · exact absurd h1 h3
    rw [List.map_congr_left this, List.map_id]
  rw [hmap, Join_Split]
  exact ite_self a

theorem findFrom_none_removeAllFrom (p : Regex) : ∀ (n : Nat) (b : Bool) (s : Str),
    p.findFrom b s = none → p.removeAllFrom n b s = s := by
  intro n
  induction n with
  | zero => intro b s _; rfl
  | succ n ih =>
      intro b s h
      cases s with
      | nil => rfl
      | cons c s =>
          simp only [Regex.findFrom] at h
          simp only [Regex.removeAllFrom]
          cases hm : p.matchAt b (c :: s) with
          | some r => rw [hm] at h; cases h
          | none =>
              rw [hm] at h
              dsimp only at h ⊢
              cases hf : p.findFrom false s with
              | some x =>
                  rw [hf] at h
                  obtain ⟨pre, cs, rest⟩ := x
                  cases h
              | none => rw [ih false s hf]

theorem unmatched_ReplaceAllString (p : Regex) (w : Str) (h : p.MatchString w = false) :
    p.ReplaceAllString w = w := by
  unfold Regex.MatchString at h
  cases hf : p.findFrom true w with
  | some x => rw [hf] at h; cases h
  | none => exact findFrom_none_removeAllFrom p _ true w hf

/-- A pattern that matches nowhere does not match with a `$` appended either. -/
theorem matchAt_none_eol (b e : Bool) (r : Re) (bo : Bool) (s : Str)
    (h : (⟨bo, r, false⟩ : Regex).matchAt b s = none) :
    (⟨bo, r, e⟩ : Regex).matchAt b s = none := by
  unfold Regex.matchAt at h ⊢
  dsimp only at h ⊢
  split
  · rfl
  · rename_i hb
    rw [if_neg hb] at h
    have hnil : r.run [] s = [] := by
      cases hr : r.run [] s with
      | nil => rfl
      | cons x xs =>
          rw [hr] at h
          simp at h
    rw [hnil]
    rfl

theorem findFrom_none_eol (e : Bool) (r : Re) (bo : Bool) : ∀ (b : Bool) (s : Str),
    (⟨bo, r, false⟩ : Regex).findFrom b s = none → (⟨bo, r, e⟩ : Regex).findFrom b s = none := by
  intro b s
  induction s generalizing b with
  | nil =>
      intro h
      simp only [Regex.findFrom] at h ⊢
      cases hm : (⟨bo, r, false⟩ : Regex).matchAt b [] with
      | some x => rw [hm] at h; cases h
      | none => rw [matchAt_none_eol b e r bo [] hm]
  | cons c s ih =>
      intro h
      simp only [Regex.findFrom] at h ⊢
      cases hm : (⟨bo, r, false⟩ : Regex).matchAt b (c :: s) with
      | some x => rw [hm] at h; cases h
      | none =>
          rw [hm] at h
          dsimp only at h
          rw [matchAt_none_eol b e r bo (c :: s) hm]
          dsimp only
          cases hf : (⟨bo, r, false⟩ : Regex).findFrom false s with
          | some x =>
              rw [hf] at h
              obtain ⟨pre, cs, rest⟩ := x
              cases h
          | none => rw [ih false hf]

theorem unmatched_eol (sep : Char → Bool) (toks : List String) (w : Str)
    (h : (tokenRegex sep toks false).MatchString w = false) :
    (tokenRegex sep toks true).MatchString w = false := by
  unfold Regex.MatchString at h ⊢
  cases hf : (tokenRegex sep toks false).findFrom true w with
  | some x => rw [hf] at h; cases h
  | none =>
      have := findFrom_none_eol true _ false true w hf
      show (Regex.findFrom ⟨false, _, true⟩ true w).isSome = false
      rw [this]
      rfl

theorem unmatched_removeEach (l : List Regex) (w : Str) (h : ∀ p ∈ l, p.MatchString w = false) :
    removeEach l w = w := by
  unfold removeEach
  induction l with
  | nil => rfl
  | cons p l ih =>
      simp only [List.foldl_cons]
      rw [unmatched_ReplaceAllString p w (h p (List.mem_cons_self _ _))]
      exact ih (fun q hq => h q (List.mem_cons_of_mem _ hq))

theorem unmatched_stripFirstSuffix (l : List Regex) (w : Str)
    (h : ∀ p ∈ l, p.MatchString w = false) : stripFirstSuffix l w = w := by
  induction l with
  | nil => rfl
  | cons p l ih =>
      unfold stripFirstSuffix
      rw [h p (List.mem_cons_self _ _)]
      simp only [Bool.false_eq_true, if_false]
      exact ih (fun q hq => h q (List.mem_cons_of_mem _ hq))

theorem unmatched_any (l : List Regex) (w : Str) (h : ∀ p ∈ l, p.MatchString w = false) :
    l.any (fun re => re.MatchString w) = false := by
  rw [List.any_eq_false]
  intro p hp
  rw [h p hp]
  simp

theorem settled_unmatched (w : Str) (h : settledVersion w = true) :
    (∀ p ∈ platformRegexes false, p.MatchString w = false) ∧
    (∀ p ∈ platformRegexes true, p.MatchString w = false) ∧
    (∀ p ∈ testRegexes false, p.MatchString w = false) ∧
    (∀ p ∈ platformSuffixes, p.MatchString w = false) := by
  unfold settledVersion at h
  simp only [Bool.and_eq_true, List.all_eq_true, Bool.not_eq_true'] at h
  have hall := h.2
  unfold cleaningPatterns at hall
  have h1 : ∀ p ∈ platformRegexes false, p.MatchString w = false :=
    fun p hp => hall p (by simp [hp])
  refine ⟨h1, ?_, fun p hp => hall p (by simp [hp]), fun p hp => hall p (by simp [hp])⟩
  intro p hp
  unfold platformRegexes at hp
  obtain ⟨e, he, rfl⟩ := List.mem_map.1 hp
  apply unmatched_eol
  apply h1
  unfold platformRegexes
  exact List.mem_map.2 ⟨e, he, rfl⟩

/-- A settled version text is left as it is by `cleanVersionWithOption` with
pre-releases disallowed. -/
theorem clean_settled (w : Str) (h : settledVersion w = true) :
    cleanVersionWithOption w 0 = w := by
  obtain ⟨hm1, hm2, hm3, hm4⟩ := settled_unmatched w h
  have hparts : (w.all (fun c => c.isAlphanum || c == '.' || c == '-')
      && !(w.head? == some 'V') && !(w.getLast? == some '-')) = true := by
    unfold settledVersion at h
    simp only [Bool.and_eq_true] at h ⊢
    exact h.1
  simp only [Bool.and_eq_true, Bool.not_eq_true', beq_eq_false_iff_ne, ne_eq] at hparts
  have hchars : ∀ c ∈ w, (c.isAlphanum || c == '.' || c == '-') = true :=
    List.all_eq_true.1 hparts.1.1
  have hT1 : TrimPrefix w ['V'] = w := by
    unfold TrimPrefix
    cases w with
    | nil => rfl
    | cons c t =>
        have hc : c ≠ 'V' := by
          intro e
          apply hparts.1.2
          rw [e]
          rfl
        have : (['V'].isPrefixOf (c :: t)) = false := by
          simp only [List.isPrefixOf, Bool.and_true]
          simpa using fun e => hc e.symm
        rw [this]
        rfl
  have hTS : TrimSuffix w ['-'] = w := by
    have hl := hparts.2
    unfold TrimSuffix
    cases hr : w.reverse with
    | nil => rfl
    | cons c t =>
        have hc : c ≠ '-' := by
          intro e
          apply hl
          have : w = (c :: t).reverse := by rw [← hr, List.reverse_reverse]
          rw [this, e]
          simp
        have : (['-'].reverse.isPrefixOf (c :: t)) = false := by
          simp only [List.reverse_cons, List.reverse_nil, List.nil_append, List.isPrefixOf,
            Bool.and_true]
          simpa using fun e => hc e.symm
        rw [this]
        rfl
  have hS := unmatched_stripFirstSuffix platformSuffixes w hm4
  have hR1 := unmatched_removeEach (platformRegexes true) w hm2
  have hR2 := unmatched_removeEach (platformRegexes false) w hm1
  have hR3 := unmatched_removeEach platformSuffixes w hm4
  have hT := unmatched_any (testRegexes false) w hm3
  have hU := plain_TrimRightUnderscore w hchars
  unfold cleanVersionWithOption
  simp only [hT1]
  split
  · rfl
  · split
    · rfl
    · simp only [hS, ite_self, hR1, hR2, hR3, hT, Bool.and_false, Bool.false_eq_true, if_false,
        beq_self_eq_true, if_true, hU]
      cases hcut : cutAt '-' w with
      | none =>
          have hno := (cutAt_spec '-' w).1 hcut
          simp only [bne_self_eq_false, Bool.and_false, Bool.false_eq_true, if_false]
          rw [cleanParts_id w w hchars (fun c hc => hc) hno, plain_TrimSpace w hchars, hTS]
      | some x =>
          obtain ⟨a, b⟩ := x
          obtain ⟨e, hno⟩ := (cutAt_spec '-' w).2 a b hcut
          have hcont : Contains w ['-'] = true := Contains_of_mem '-' w (by rw [e]; simp)
          have ha : ∀ c ∈ a, c ∈ w := by
            intro c hc
            rw [e]
            exact List.mem_append_left _ hc
          simp only [hcont, Bool.true_and]
          rw [cleanParts_id a w hchars ha hno]
          have : (('-' :: b) != []) = true := by simp
          rw [if_pos this, ← e, plain_TrimSpace w hchars, hTS]

/-- A plain version text is settled. -/
theorem plain_settled (w : Str) (h : plainVersion w = true) : settledVersion w = true := by
  have h0 := h
  unfold plainVersion at h0
  unfold settledVersion
  simp only [Bool.and_eq_true] at h0 ⊢
  refine ⟨h0.1, ?_⟩
  rw [List.all_eq_true]
  intro p hp
  unfold cleaningPatterns at hp
  simp only [List.mem_append] at hp
  rcases hp with (hp | hp) | hp
  · rw [nowhere_MatchString p w (platformRegexes_nowhere false w h p hp)]; rfl
  · rw [nowhere_MatchString p w (testRegexes_nowhere false w h p hp)]; rfl
  · rw [nowhere_MatchString p w (platformSuffixes_nowhere w h p hp)]; rfl

/-! ## Evaluations at concrete inputs -/

set_option maxRecDepth 1000000 in
/-- C1: `StandardizeVersion` is not idempotent at `"v1.32.0"`: the first pass
only strips the prefix (`"1.32.0"`), the second pass deletes the interior
component `.32` and returns `"1.0"`. -/
theorem standardize_twice_v1_32_0 :
    StandardizeVersion "v1.32.0".toList = "1.32.0".toList
      ∧ StandardizeVersion (StandardizeVersion "v1.32.0".toList) = "1.0".toList := by
  decide

set_option maxRecDepth 1000000 in
/-- C2: `CompareVersions("1.32.0", "1.5.0")` is `-1` although (1, 32, 0) is
above (1, 5, 0): the first operand is standardized to `"1.0"`. -/
theorem compare_1_32_0_with_1_5_0 :
    StandardizeVersion "1.32.0".toList = "1.0".toList
      ∧ CompareVersions "1.32.0".toList "1.5.0".toList = -1 := by
  decide

set_option maxRecDepth 1000000 in
/-- C3: `StandardizeVersion` deletes the interior components `.32` of
`"1.32.0"` and `.64` of `"2.64.1"`. -/
theorem standardize_interior_token :
    StandardizeVersion "1.32.0".toList = "1.0".toList
      ∧ StandardizeVersion "2.64.1".toList = "2.1".toList := by
  decide

set_option maxRecDepth 1000000 in
/-- C4: the short versions `"1.32"` and `"1.325"` are not preserved:
`StandardizeVersion` returns `"1"` and `"15"`. -/
theorem standardize_short_1_32 :
    StandardizeVersion "1.32".toList = "1".toList
      ∧ StandardizeVersion "1.325".toList = "15".toList := by
  decide

set_option maxRecDepth 1000000 in
/-- C5: with test versions disabled, `NormalizeVersionWithOption` returns
`"1.0.0-beta"` for `"1.0.0-beta"`, although `cleanVersionWithOption` rejects it. -/
theorem normalize_keeps_beta :
    NormalizeVersionWithOption "1.0.0-beta".toList 0 = "1.0.0-beta".toList
      ∧ cleanVersionWithOption "1.0.0-beta".toList 0 = [] := by
  decide

set_option maxRecDepth 1000000 in
/-- C6: `StandardizeVersion("Alpha1.2.3.4")` is `"1.2.3.4"`, not the input. -/
theorem standardize_Alpha_four_parts :
    StandardizeVersion "Alpha1.2.3.4".toList = "1.2.3.4".toList := by
  decide

set_option maxRecDepth 1000000 in
/-- C7: `CompareVersions` is not transitive on `"1.0.0-beta"`, `"1.0.0"`,
`"1.0.0.0"`: the first is below the second, the second equals the third,
and the first is above the third. -/
theorem compare_not_transitive :
    CompareVersions "1.0.0-beta".toList "1.0.0".toList = -1
      ∧ CompareVersions "1.0.0".toList "1.0.0.0".toList = 0
      ∧ CompareVersions "1.0.0-beta".toList "1.0.0.0".toList = 1 := by
  decide

set_option maxRecDepth 1000000 in
/-- C9: the empty string compares equal to `"0"`, `"0.0"` and `"IPv4"`. -/
theorem compare_empty_with_zero :
    CompareVersions [] "0".toList = 0 ∧ CompareVersions [] "0.0".toList = 0
      ∧ CompareVersions [] "IPv4".toList = 0 ∧ CompareVersions "0".toList [] = 0 := by
  decide

set_option maxRecDepth 1000000 in
/-- C10: `GenerateVersionRef` returns `"a.b"` for one component, `"a.b.c"` for
two and `"a.b.c.d"` for three. -/
theorem generateVersionRef_shifted :
    GenerateVersionRef "1".toList = "a.b".toList
      ∧ GenerateVersionRef "1.2".toList = "a.b.c".toList
      ∧ GenerateVersionRef "1.2.3".toList = "a.b.c.d".toList := by
  decide

/-! ## Claims C21 to C30 -/

/-- C30: the test-version flag does not reach the normalisation:
`NormalizeVersionWithOption` returns `StandardizeVersion` of the version
for every flag. -/
theorem normalize_ignores_flag (v : Str) (f1 f2 : Int) :
    NormalizeVersionWithOption v f1 = NormalizeVersionWithOption v f2
      ∧ NormalizeVersionWithOption v f1 = StandardizeVersion v := by
  unfold NormalizeVersionWithOption
  exact ⟨rfl, rfl⟩

set_option maxRecDepth 1000000 in
/-- C28: the shape filter built from the reference of a version rejects that
version when it has one, two or three components (the reference has one
letter too many), and accepts a version with one component more. -/
theorem reference_rejects_own_version :
    versionMatchesFormat "1".toList (analyzeVersionFormat (GenerateVersionRef "1".toList)) = false
      ∧ versionMatchesFormat "1.2".toList
          (analyzeVersionFormat (GenerateVersionRef "1.2".toList)) = false
      ∧ versionMatchesFormat "1.2.3".toList
          (analyzeVersionFormat (GenerateVersionRef "1.2.3".toList)) = false
      ∧ versionMatchesFormat "1.2.3.4".toList
          (analyzeVersionFormat (GenerateVersionRef "1.2.3".toList)) = true := by
  decide

/-- C29: with the empty key the loop of `FindAllKeyPositions` never breaks:
whatever the content, the index and the number of rounds allowed, the rounds
run out (`strings.Index` finds the empty key at offset 0 and the index does
not advance). -/
theorem findAllKeyPositions_empty_key_loops (content : List Nat) (fuel index : Nat)
    (positions : List Nat) :
    findAllKeyPositionsLoop content [] fuel index positions = none := by
  induction fuel generalizing index positions with
  | zero => rfl
  | succ n ih =>
      have h : indexOf [] (content.drop index) = some 0 := by
        cases content.drop index <;> simp [indexOf]
      simp only [findAllKeyPositionsLoop, h]
      exact ih _ _

/-- C27: the key-location step panics exactly when the extract key does not
compile as a regular expression (or, after an empty search, its quoted form
does not): a key that is not a valid pattern is never searched as a literal. -/
theorem locateKey_panics_iff {R : Type} (compile : Str → Option R)
    (findAll : R → Str → List (Nat × Nat)) (quoteMeta : Str → Str) (key content : Str) :
    locateKey compile findAll quoteMeta key content = Outcome.panic
      ↔ compile key = none
        ∨ ∃ re, compile key = some re ∧ findAll re content = []
            ∧ compile (quoteMeta key) = none := by
  unfold locateKey
  cases h : compile key with
  | none => simp
  | some re =>
      by_cases h2 : findAll re content = []
      · cases h3 : compile (quoteMeta key) with
        | none => simp [h2]
        | some q => simp [h2]
      · have : ((findAll re content).length == 0) = false := by
          simpa using h2
        simp [this, h2]

theorem timerInv_step (s : TimerService) (op : TimerOp) (h : TimerInv s) :
    TimerInv (timerStep s op) := by
  obtain ⟨h1, h2⟩ := h
  cases op with
  | start =>
      simp only [timerStep, StartTimerTask]
      split
      · exact ⟨h1, h2⟩
      · exact ⟨h1, h2⟩
  | stop =>
      simp only [timerStep, StopTimerTask]
      split
      · exact ⟨h1, h2⟩
      · refine ⟨by simp, ?_⟩
        intro c hc
        simp only [List.mem_cons] at hc
        rcases hc with rfl | hc
        · exact h1
        · exact Nat.lt_trans (h2 c hc) h1
  | passBegin =>
      simp only [timerStep, runTimerTaskBegin]
      split
      · exact ⟨h1, h2⟩
      · refine ⟨by simp, ?_⟩
        intro c hc
        exact Nat.lt_trans (h2 c hc) h1

theorem timerInv_run (s : TimerService) (ops : List TimerOp) (h : TimerInv s) :
    TimerInv (timerRun s ops) := by
  induction ops generalizing s with
  | nil => exact h
  | cons op rest ih => exact ih (timerStep s op) (timerInv_step s op h)

/-- C24: in every state the service reaches, a pass that has begun its AUR
phase and is then stopped by `StopTimerTask` still starts its upstream
phase: `StopTimerTask` closes the channel the pass has just installed, not
the `oldStopChan` the pass watches. -/
theorem stop_during_aur_phase_not_seen (ops : List TimerOp) (old : Nat) (s1 : TimerService) :
    runTimerTaskBegin (timerRun NewTimerService ops) = (s1, some old) →
      upstreamPhaseStarts (StopTimerTask s1) old = true := by
  intro h
  have inv : TimerInv (timerRun NewTimerService ops) :=
    timerInv_run _ ops ⟨by decide, by simp [NewTimerService]⟩
  obtain ⟨h1, h2⟩ := inv
  generalize timerRun NewTimerService ops = s at h h1 h2
  simp only [runTimerTaskBegin] at h
  split at h
  · simp at h
  · rename_i hr
    simp only [Prod.mk.injEq, Option.some.injEq] at h
    obtain ⟨rfl, rfl⟩ := h
    simp only [upstreamPhaseStarts, StopTimerTask]
    have hrun : s.isRunning = true := by simpa using hr
    simp only [hrun, Bool.not_true, Bool.false_eq_true, if_false, Bool.not_eq_true',
      List.contains_eq_any_beq, List.any_eq_false, beq_iff_eq, List.mem_cons]
    intro c hc
    rcases hc with rfl | hc
    · omega
    · have := h2 c hc
      omega

set_option maxRecDepth 100000 in
/-- The scenario of the specification: start, the timer fires and the pass
begins its AUR phase, `StopTimerTask` is called, the AUR phase returns; the
pass goes on to the upstream phase. -/
theorem stop_during_aur_phase_example :
    runTimerTaskBegin (timerRun NewTimerService [TimerOp.start])
        = ({ isRunning := true, stopChan := 1, closed := [], nextChan := 2, timerArmed := true },
           some 0)
      ∧ upstreamPhaseStarts
          (StopTimerTask { isRunning := true, stopChan := 1, closed := [], nextChan := 2,
                           timerArmed := true }) 0 = true :=
  ⟨by decide, stop_during_aur_phase_not_seen [TimerOp.start] 0 _ (by decide)⟩

set_option maxRecDepth 100000 in
/-- C25, as stated, fails: on `{"a": "1.0"}` the path `a.b` cannot be
followed (`"1.0"` is not an object), and `extractVersionFromJSON` returns
`"1.0"` without an error. -/
theorem extract_ignores_last_segment :
    followPath (.obj [("a".toList, .str "1.0".toList)]) ["a".toList, "b".toList] = none
      ∧ extractVersionFromJSON
          (fun v => match v with
            | .str s => s
            | _ => [])
          [("a".toList, .str "1.0".toList)] ["a".toList, "b".toList] = some "1.0".toList :=
  ⟨by rfl, by rfl⟩

theorem walkPath_not_obj (current : JValue) (h : current.isObj = false) (paths : List Str) :
    walkPath current paths = if paths.length ≤ 1 then some current else none := by
  cases paths with
  | nil => simp [walkPath]
  | cons p rest =>
      cases rest with
      | nil => cases current <;> simp_all [walkPath, JValue.isObj]
      | cons q rest2 => cases current <;> simp_all [walkPath, JValue.isObj]

theorem followPath_not_obj (current : JValue) (h : current.isObj = false) (paths : List Str) :
    followPath current paths = if paths = [] then some current else none := by
  cases paths with
  | nil => simp [followPath]
  | cons p rest => cases current <;> simp_all [followPath, JValue.isObj]

/-- The loop of `extractVersionFromJSON` against the traversal of the specification. -/
theorem walkPath_eq (current : JValue) (paths : List Str) :
    walkPath current paths
      = match followPath current paths with
        | some x => some x
        | none => lastSegmentIgnored current paths := by
  induction paths generalizing current with
  | nil => simp [walkPath, followPath]
  | cons p rest ih =>
      cases hobj : current.isObj with
      | false =>
          rw [walkPath_not_obj current hobj, followPath_not_obj current hobj]
          simp only [List.length_cons, reduceCtorEq, if_false, lastSegmentIgnored]
          cases rest with
          | nil => simp [followPath, hobj]
          | cons q rest2 =>
              simp only [List.length_cons, List.dropLast_cons₂]
              rw [followPath_not_obj current hobj]
              simp
      | true =>
          cases current with
          | obj v =>
              simp only [walkPath, followPath]
              cases hl : jsonLookup v p with
              | none =>
                  simp only [lastSegmentIgnored, reduceCtorEq, if_false]
                  cases rest with
                  | nil => simp [followPath, JValue.isObj]
                  | cons q rest2 => simp [followPath, hl]
              | some next =>
                  simp only
                  rw [ih next]
                  cases hf : followPath next rest with
                  | some x => rfl
                  | none =>
                      simp only [lastSegmentIgnored, reduceCtorEq, if_false]
                      cases rest with
                      | nil => simp [followPath] at hf
                      | cons q rest2 => simp [followPath, hl]
          | null => simp [JValue.isObj] at hobj
          | bool b => simp [JValue.isObj] at hobj
          | num n => simp [JValue.isObj] at hobj
          | str s => simp [JValue.isObj] at hobj
          | arr xs => simp [JValue.isObj] at hobj

/-- C25, amended: `extractVersionFromJSON` returns the value at the end of
the path when every segment names a key of the object reached so far; when
the value reached by all segments but the last is not an object, the last
segment is ignored and that value is returned; in every other case (a
missing key, or a non-object value with two or more segments left) it
returns an error. -/
theorem extractVersionFromJSON_eq (render : JValue → Str) (data : List (Str × JValue))
    (paths : List Str) :
    extractVersionFromJSON render data paths
      = match followPath (.obj data) paths with
        | some x => some (render x)
        | none => (lastSegmentIgnored (.obj data) paths).map render := by
  unfold extractVersionFromJSON
  rw [walkPath_eq]
  cases followPath (.obj data) paths <;> rfl

/-- C23: the check run by `CheckWithConfig` receives the key and the flag of
the caller, whatever the selected rule says: the values the rule overrides
stay inside `SelectCheckerWithOptions`. -/
theorem checkWithConfig_passes_caller_values (matchString : Str → Str → Option Bool)
    (create : Str → Bool) (rules : List URLRule) (url key : Str) (flag : Int) :
    (CheckWithConfig matchString create rules url key flag).map
        (fun c => (c.versionExtractKey, c.checkTestVersion))
      = (SelectCheckerWithOptions matchString create rules url key flag).map
          (fun _ => (key, flag)) := by
  unfold CheckWithConfig
  cases SelectCheckerWithOptions matchString create rules url key flag <;> rfl

set_option maxRecDepth 100000 in
/-- C23 at a concrete input: the one rule matches, names the key `K2` and
forces test versions; `SelectCheckerWithOptions` ends with key `K2` and flag
1, and `CheckWithConfig` runs the check with the key `K1` and the flag 0 of
its caller. -/
theorem checkWithConfig_rule_values_lost :
    SelectCheckerWithOptions (fun _ _ => some true) (fun _ => true)
        [{ Name := "r".toList, Pattern := ".*".toList, Checker := "http".toList,
           VersionExtractKey := "K2".toList, CheckTestVersion := true, Priority := 1 }]
        "U".toList "K1".toList 0
      = some { checker := "http".toList, versionExtractKey := "K2".toList, checkTestVersion := 1 }
    ∧ CheckWithConfig (fun _ _ => some true) (fun _ => true)
        [{ Name := "r".toList, Pattern := ".*".toList, Checker := "http".toList,
           VersionExtractKey := "K2".toList, CheckTestVersion := true, Priority := 1 }]
        "U".toList "K1".toList 0
      = some { checker := "http".toList, url := "U".toList, versionExtractKey := "K1".toList,
               checkTestVersion := 0 } := by
  decide

theorem firstMatch_some (matchString : Str → Str → Option Bool) (l : List URLRule) (url : Str)
    (r : URLRule) (h : firstMatch matchString l url = some r) :
    ∃ pre post, l = pre ++ r :: post ∧ matchString r.Pattern url = some true
      ∧ ∀ x ∈ pre, matchString x.Pattern url ≠ some true := by
  induction l with
  | nil => simp [firstMatch] at h
  | cons a rest ih =>
      simp only [firstMatch] at h
      split at h
      · rename_i hm
        simp only [Option.some.injEq] at h
        subst h
        exact ⟨[], rest, rfl, hm, by simp⟩
      · rename_i hm
        obtain ⟨pre, post, e, h1, h2⟩ := ih h
        refine ⟨a :: pre, post, by simp [e], h1, ?_⟩
        intro x hx
        simp only [List.mem_cons] at hx
        rcases hx with rfl | hx
        · intro hc
          exact hm hc
        · exact h2 x hx

theorem firstMatch_none (matchString : Str → Str → Option Bool) (l : List URLRule) (url : Str)
    (h : firstMatch matchString l url = none) :
    ∀ x ∈ l, matchString x.Pattern url ≠ some true := by
  induction l with
  | nil => simp
  | cons a rest ih =>
      simp only [firstMatch] at h
      split at h
      · simp at h
      · rename_i hm
        intro x hx
        simp only [List.mem_cons] at hx
        rcases hx with rfl | hx
        · intro hc
          exact hm hc
        · exact ih h x hx

/-- On the rules in any order that `sort.Slice` may leave them (a
permutation sorted by descending priority), the first matching rule matches
the URL and no matching rule has a higher priority; and a matching rule whose
priority is strictly above that of every other matching rule is that rule. -/
theorem firstMatch_highest_priority (matchString : Str → Str → Option Bool)
    (rules sorted : List URLRule) (url : Str) (hperm : sorted.Perm rules)
    (hsorted : sorted.Pairwise byPriority) :
    (∀ r, firstMatch matchString sorted url = some r →
        r ∈ rules ∧ matchString r.Pattern url = some true
          ∧ ∀ x ∈ rules, matchString x.Pattern url = some true → x.Priority ≤ r.Priority)
    ∧ (∀ r1 ∈ rules, matchString r1.Pattern url = some true →
        (∀ x ∈ rules, matchString x.Pattern url = some true → x ≠ r1 →
          x.Priority < r1.Priority) →
        firstMatch matchString sorted url = some r1) := by
  have key : ∀ r, firstMatch matchString sorted url = some r →
      r ∈ rules ∧ matchString r.Pattern url = some true
        ∧ ∀ x ∈ rules, matchString x.Pattern url = some true → x.Priority ≤ r.Priority := by
    intro r h
    obtain ⟨pre, post, e, h1, h2⟩ := firstMatch_some matchString sorted url r h
    have hr : r ∈ sorted := by rw [e]; simp
    refine ⟨hperm.mem_iff.1 hr, h1, ?_⟩
    intro x hx hxm
    have hxs : x ∈ sorted := hperm.mem_iff.2 hx
    rw [e] at hxs hsorted
    simp only [List.mem_append, List.mem_cons] at hxs
    rcases hxs with hx1 | rfl | hx3
    · exact absurd hxm (h2 x hx1)
    · exact le_refl _
    · have hp := (List.pairwise_append.1 hsorted).2.1
      exact (List.pairwise_cons.1 hp).1 x hx3
  refine ⟨key, ?_⟩
  intro r1 hr1 hm1 hstrict
  cases hf : firstMatch matchString sorted url with
  | none =>
      exact absurd hm1 (firstMatch_none matchString sorted url hf r1 (hperm.mem_iff.2 hr1))
  | some r =>
      obtain ⟨hr, hm, hmax⟩ := key r hf
      by_cases e : r = r1
      · rw [e]
      · have h1 := hstrict r hr hm e
        have h2 := hmax r1 hr1 hm1
        omega

theorem updateURLRules_sorted (rules : List URLRule) :
    (updateURLRules rules).Perm rules ∧ (updateURLRules rules).Pairwise byPriority := by
  haveI : IsTotal URLRule byPriority := ⟨fun a b => by unfold byPriority; omega⟩
  haveI : IsTrans URLRule byPriority := ⟨fun a b c h1 h2 => by unfold byPriority at *; omega⟩
  exact ⟨List.perm_insertionSort byPriority rules, List.sorted_insertionSort byPriority rules⟩

set_option maxRecDepth 100000 in
/-- C22, as stated, fails on a tie: `r3` and `r1` both match with priority 5
and `r2` matches with priority 1, so `r1` and `r2` both match,
`r1.priority > r2.priority` and no rule of higher priority matches; the
checker selected is `b`, the checker of `r3`, not the checker `a` of `r1`. -/
theorem select_tie_takes_other_rule :
    (SelectCheckerWithOptions (fun _ _ => some true) (fun _ => true)
        [{ Name := "r3".toList, Pattern := ".*".toList, Checker := "b".toList,
           VersionExtractKey := [], CheckTestVersion := false, Priority := 5 },
         { Name := "r1".toList, Pattern := ".*".toList, Checker := "a".toList,
           VersionExtractKey := [], CheckTestVersion := false, Priority := 5 },
         { Name := "r2".toList, Pattern := ".*".toList, Checker := "c".toList,
           VersionExtractKey := [], CheckTestVersion := false, Priority := 1 }]
        "U".toList [] 0).map (fun sel => sel.checker) = some "b".toList := by
  decide

theorem selectOnSorted_cases (matchString : Str → Str → Option Bool) (create : Str → Bool)
    (rules sorted : List URLRule) (url key : Str) (flag : Int) (hperm : sorted.Perm rules)
    (hsorted : sorted.Pairwise byPriority) :
    (∀ sel, selectOnSorted matchString create sorted url key flag = some sel →
      (∃ r : URLRule, r.topMatch matchString rules url ∧ create r.Checker = true ∧
        sel = { checker := r.Checker,
                versionExtractKey := if r.VersionExtractKey ≠ [] then r.VersionExtractKey else key,
                checkTestVersion := if r.CheckTestVersion then 1 else flag }) ∨
      ((∀ x ∈ rules, matchString x.Pattern url ≠ some true) ∧
        sel = { checker := "github".toList, versionExtractKey := key,
                checkTestVersion := flag })) ∧
    (∀ r1 : URLRule, r1.strictTop matchString rules url →
      selectOnSorted matchString create sorted url key flag =
        if create r1.Checker then
          some { checker := r1.Checker,
                 versionExtractKey :=
                   if r1.VersionExtractKey ≠ [] then r1.VersionExtractKey else key,
                 checkTestVersion := if r1.CheckTestVersion then 1 else flag }
        else none) := by
  have hfm := firstMatch_highest_priority matchString rules sorted url hperm hsorted
  constructor
  · intro sel h
    unfold selectOnSorted at h
    cases hf : firstMatch matchString sorted url with
    | some rule =>
        rw [hf] at h
        dsimp only at h
        left
        by_cases hc : create rule.Checker = true
        · rw [if_pos hc] at h
          exact ⟨rule, hfm.1 rule hf, hc, (Option.some.inj h).symm⟩
        · rw [if_neg hc] at h
          cases h
    | none =>
        rw [hf] at h
        dsimp only at h
        right
        refine ⟨fun x hx => firstMatch_none matchString sorted url hf x (hperm.mem_iff.2 hx), ?_⟩
        by_cases hc : create "github".toList = true
        · rw [if_pos hc] at h
          exact (Option.some.inj h).symm
        · rw [if_neg hc] at h
          cases h
  · intro r1 h1
    have hf := hfm.2 r1 h1.1 h1.2.1 h1.2.2
    unfold selectOnSorted
    rw [hf]

theorem selectOnSortedWithKey_cases (matchString : Str → Str → Option Bool) (create : Str → Bool)
    (rules sorted : List URLRule) (url key : Str) (hperm : sorted.Perm rules)
    (hsorted : sorted.Pairwise byPriority) :
    (∀ sel, selectOnSortedWithKey matchString create sorted url key = some sel →
      (∃ r : URLRule, r.topMatch matchString rules url ∧ create r.Checker = true ∧
        sel = (r.Checker, if r.VersionExtractKey ≠ [] then r.VersionExtractKey else key)) ∨
      ((∀ x ∈ rules, matchString x.Pattern url ≠ some true) ∧ sel = ("github".toList, key))) ∧
    (∀ r1 : URLRule, r1.strictTop matchString rules url →
      selectOnSortedWithKey matchString create sorted url key =
        if create r1.Checker then
          some (r1.Checker, if r1.VersionExtractKey ≠ [] then r1.VersionExtractKey else key)
        else none) := by
  have hfm := firstMatch_highest_priority matchString rules sorted url hperm hsorted
  constructor
  · intro sel h
    unfold selectOnSortedWithKey at h
    cases hf : firstMatch matchString sorted url with
    | some rule =>
        rw [hf] at h
        dsimp only at h
        left
        by_cases hc : create rule.Checker = true
        · rw [if_pos hc] at h
          exact ⟨rule, hfm.1 rule hf, hc, (Option.some.inj h).symm⟩
        · rw [if_neg hc] at h
          cases h
    | none =>
        rw [hf] at h
        dsimp only at h
        right
        refine ⟨fun x hx => firstMatch_none matchString sorted url hf x (hperm.mem_iff.2 hx), ?_⟩
        by_cases hc : create "github".toList = true
        · rw [if_pos hc] at h
          exact (Option.some.inj h).symm
        · rw [if_neg hc] at h
          cases h
  · intro r1 h1
    have hf := hfm.2 r1 h1.1 h1.2.1 h1.2.2
    unfold selectOnSortedWithKey
    rw [hf]

/-- C22 (amended): the checker that `SelectCheckerWithOptions` creates is the
checker of a rule that matches the URL and whose priority no matching rule
exceeds, or the default "github" when no rule matches; when a matching rule
`r1` has a priority strictly above that of every other matching rule, the
checker created is `r1.Checker`, with the key and the flag of `r1` where it
sets them (and the error of `registry.Create` if it fails). The same holds of
`SelectCheckerWithVersionKey`, and of the selection on the rules in any
other order that a sort by descending priority may leave them in. -/
theorem select_highest_priority (matchString : Str → Str → Option Bool) (create : Str → Bool)
    (rules : List URLRule) (url key : Str) (flag : Int) :
    (∀ sel, SelectCheckerWithOptions matchString create rules url key flag = some sel →
      (∃ r ∈ rules, matchString r.Pattern url = some true ∧
        (∀ x ∈ rules, matchString x.Pattern url = some true → x.Priority ≤ r.Priority) ∧
        create r.Checker = true ∧ sel.checker = r.Checker) ∨
      ((∀ x ∈ rules, matchString x.Pattern url ≠ some true) ∧ sel.checker = "github".toList)) ∧
    (∀ r1 ∈ rules, matchString r1.Pattern url = some true →
      (∀ x ∈ rules, matchString x.Pattern url = some true → x ≠ r1 → x.Priority < r1.Priority) →
      SelectCheckerWithOptions matchString create rules url key flag =
        if create r1.Checker then
          some { checker := r1.Checker,
                 versionExtractKey :=
                   if r1.VersionExtractKey ≠ [] then r1.VersionExtractKey else key,
                 checkTestVersion := if r1.CheckTestVersion then 1 else flag }
        else none) ∧
    (∀ sel, SelectCheckerWithVersionKey matchString create rules url key = some sel →
      (∃ r ∈ rules, matchString r.Pattern url = some true ∧
        (∀ x ∈ rules, matchString x.Pattern url = some true → x.Priority ≤ r.Priority) ∧
        create r.Checker = true ∧ sel.1 = r.Checker) ∨
      ((∀ x ∈ rules, matchString x.Pattern url ≠ some true) ∧ sel.1 = "github".toList)) ∧
    (∀ r1 ∈ rules, matchString r1.Pattern url = some true →
      (∀ x ∈ rules, matchString x.Pattern url = some true → x ≠ r1 → x.Priority < r1.Priority) →
      SelectCheckerWithVersionKey matchString create rules url key =
        if create r1.Checker then
          some (r1.Checker, if r1.VersionExtractKey ≠ [] then r1.VersionExtractKey else key)
        else none) ∧
    (∀ sorted : List URLRule, sorted.Perm rules → sorted.Pairwise byPriority →
      ∀ r1 ∈ rules, matchString r1.Pattern url = some true →
      (∀ x ∈ rules, matchString x.Pattern url = some true → x ≠ r1 → x.Priority < r1.Priority) →
      selectOnSorted matchString create sorted url key flag =
          SelectCheckerWithOptions matchString create rules url key flag ∧
        selectOnSortedWithKey matchString create sorted url key =
          SelectCheckerWithVersionKey matchString create rules url key) := by
  have hs := updateURLRules_sorted rules
  have h1 := selectOnSorted_cases matchString create rules (updateURLRules rules) url key flag
    hs.1 hs.2
  have h2 := selectOnSortedWithKey_cases matchString create rules (updateURLRules rules) url key
    hs.1 hs.2
  refine ⟨?_, ?_, ?_, ?_, ?_⟩
  · intro sel h
    rcases h1.1 sel h with ⟨r, ⟨hr, hm, hmax⟩, hc, e⟩ | ⟨hn, e⟩
    · exact Or.inl ⟨r, hr, hm, hmax, hc, by rw [e]⟩
    · exact Or.inr ⟨hn, by rw [e]⟩
  · intro r1 hr1 hm1 hst
    exact h1.2 r1 ⟨hr1, hm1, hst⟩
  · intro sel h
    rcases h2.1 sel h with ⟨r, ⟨hr, hm, hmax⟩, hc, e⟩ | ⟨hn, e⟩
    · exact Or.inl ⟨r, hr, hm, hmax, hc, by rw [e]⟩
    · exact Or.inr ⟨hn, by rw [e]⟩
  · intro r1 hr1 hm1 hst
    exact h2.2 r1 ⟨hr1, hm1, hst⟩
  · intro sorted hperm hsorted r1 hr1 hm1 hst
    have g1 := (selectOnSorted_cases matchString create rules sorted url key flag
      hperm hsorted).2 r1 ⟨hr1, hm1, hst⟩
    have g2 := (selectOnSortedWithKey_cases matchString create rules sorted url key
      hperm hsorted).2 r1 ⟨hr1, hm1, hst⟩
    unfold SelectCheckerWithOptions SelectCheckerWithVersionKey
    rw [g1, g2, h1.2 r1 ⟨hr1, hm1, hst⟩, h2.2 r1 ⟨hr1, hm1, hst⟩]
    exact ⟨rfl, rfl⟩

set_option maxRecDepth 100000 in
/-- C22 (example): of two matching rules the one of priority 9 is applied,
although the rule of priority 1 comes first in the configuration: the checker
created is "a", with the key "K9" of that rule. -/
theorem select_highest_priority_example :
    SelectCheckerWithOptions (fun _ _ => some true) (fun _ => true)
        [{ Name := "lo".toList, Pattern := ".*".toList, Checker := "c".toList,
           VersionExtractKey := [], CheckTestVersion := false, Priority := 1 },
         { Name := "hi".toList, Pattern := ".*".toList, Checker := "a".toList,
           VersionExtractKey := "K9".toList, CheckTestVersion := false, Priority := 9 }]
        "U".toList "K".toList 0
      = some { checker := "a".toList, versionExtractKey := "K9".toList, checkTestVersion := 0 } :=
  (select_highest_priority (fun _ _ => some true) (fun _ => true) _ "U".toList "K".toList 0).2.1
    { Name := "hi".toList, Pattern := ".*".toList, Checker := "a".toList,
      VersionExtractKey := "K9".toList, CheckTestVersion := false, Priority := 9 }
    (by decide) rfl (by decide)

theorem getLatestTag_empty_key (extract : Str → Str → Option Str) (tags : ApiReply (List Str))
    (flag : Int) :
    (match getLatestTagWithOption extract tags [] flag with
      | some version2 =>
          if version2 ≠ [] then (some version2, [Endpoint.latestRelease, Endpoint.tags])
          else (none, [Endpoint.latestRelease, Endpoint.tags])
      | none => ((none : Option Str), [Endpoint.latestRelease, Endpoint.tags]))
      = (tagVersion tags, [Endpoint.latestRelease, Endpoint.tags]) := by
  unfold getLatestTagWithOption tagVersion okBody NormalizeVersionWithOption
  cases tags with
  | failed => rfl
  | status code body =>
      by_cases hc : code = 200
      · subst hc
        cases body with
        | none => rfl
        | some l =>
            cases l with
            | nil => rfl
            | cons name rest =>
                by_cases hv : StandardizeVersion name = []
                · simp [hv]
                · simp [hv]
      · simp [hc]

/-- C26: with an empty extract key and a URL that parses,
`CheckWithOption` returns the standardized `tag_name` of the latest release
when that request answers 200 with a body that decodes and the standardized
tag is not empty, and then does not ask for the tags; otherwise it asks for
the tags and returns the standardized name of the first one when that is
there and not empty; otherwise it returns an error. -/
theorem checkWithOption_release_then_tags (extract : Str → Str → Option Str)
    (release : ApiReply Str) (tags : ApiReply (List Str)) (flag : Int) :
    CheckWithOption extract true release tags [] flag
      = match releaseVersion release with
        | some version => (some version, [Endpoint.latestRelease])
        | none => (tagVersion tags, [Endpoint.latestRelease, Endpoint.tags]) := by
  unfold CheckWithOption
  simp only [Bool.not_true, Bool.false_eq_true, if_false]
  rw [getLatestTag_empty_key]
  unfold getLatestReleaseWithOption releaseVersion okBody NormalizeVersionWithOption
  cases release with
  | failed => rfl
  | status code body =>
      by_cases hc : code = 200
      · subst hc
        cases body with
        | none => rfl
        | some tagName =>
            by_cases hv : StandardizeVersion tagName = []
            · simp [hv]
            · simp [hv]
      · simp [hc]

set_option maxRecDepth 1000000 in
/-- The example of the specification: the latest release answers 404 and the
tags are `v2.0.0`, `v1.9.0`; the result is `2.0.0`. -/
theorem checkWithOption_tag_fallback_example :
    CheckWithOption (fun _ _ => none) true (.status 404 none)
        (.status 200 (some ["v2.0.0".toList, "v1.9.0".toList])) [] 0
      = (some "2.0.0".toList, [Endpoint.latestRelease, Endpoint.tags]) := by
  decide

/-- C21 (code): a request submitted with a callback to an `AsyncCheckerImpl`
and completed by a worker ends in status completed without any call of the
callback; and `Clear` and `Remove` of an `AsyncChecker` drop a pending
request with a callback from the map without changing its status and without
calling the callback. -/
theorem callback_never_called (id url key version : Str) (flag now : Int) :
    (let c0 := ((AsyncCheckerImpl.new 1000).Submit url key flag true now).1
     let c1 := (c0.pickUp 0).1
     let c2 := c1.workerSend 0 (fun _ => none) (fun _ _ => (version, none))
     let c3 := c2.resultProcessor
     c0.heap.map (fun r => r.Callback) = [true] ∧
     c3.heap.status 0 = some .completed ∧ c3.called = []) ∧
    (let a0 := ((NewAsyncCheckerWithSettings 1000 100).Submit id url key flag true).1
     a0.heap.map (fun r => (r.Status, r.Callback)) = [(.pending, true)] ∧
     a0.Clear.requests = [] ∧ a0.Clear.heap.status 0 = some .pending ∧ a0.Clear.called = [] ∧
     (a0.Remove id).1.requests = [] ∧ (a0.Remove id).1.heap.status 0 = some .pending ∧
     (a0.Remove id).1.called = []) := by
  constructor
  · cases h : Split '-' (fmtInt now) with
    | nil => exact absurd h (Split_ne_nil _ _)
    | cons y ys =>
        have hs : Split '-' ('h' :: 't' :: 't' :: 'p' :: '-' :: fmtInt now)
            = ['h', 't', 't', 'p'] :: y :: ys := by
          simp [Split, h]
        simp [AsyncCheckerImpl.Submit, AsyncCheckerImpl.CheckWithCheckerName, AsyncCheckerImpl.new,
          AsyncCheckerImpl.pickUp, AsyncCheckerImpl.workerSend, AsyncCheckerImpl.resultProcessor,
          Heap.status, Heap.update, mapStore, mapLookup, hs]
  · simp [AsyncChecker.Submit, NewAsyncCheckerWithSettings, AsyncChecker.Clear, AsyncChecker.Remove,
      Heap.status, mapStore, mapLookup, mapDelete]

set_option maxRecDepth 100000 in
/-- C15 (counterexample): when every attempt fails with an error that is not
critical, `processRequest` calls `CheckSingle` four times and sleeps 1, 4 and
9 seconds. -/
theorem retry_four_attempts :
    (retryLoop (fun _ => .error (.plain "HTTP 500".toList))).calls = 4 ∧
    (retryLoop (fun _ => .error (.plain "HTTP 500".toList))).sleeps = [1, 4, 9] := by
  decide

/-- C15 (amended): for every behaviour of `CheckSingle`, the retry loop of
`processRequest` makes between one and four calls (a first attempt and at most
`maxRetries` = 3 retries), and before retry `k` it sleeps `k * k` seconds, so
the sleeps are the first `calls - 1` of 1, 4, 9. -/
theorem retryLoop_bound (checkSingle : Nat → Except GoError Str) :
    1 ≤ (retryLoop checkSingle).calls ∧ (retryLoop checkSingle).calls ≤ maxRetries + 1 ∧
    (retryLoop checkSingle).sleeps = ([1, 4, 9] : List Nat).take ((retryLoop checkSingle).calls - 1) := by
  have h := retryFrom_spec checkSingle (maxRetries + 1) 0 none []
  simp only [] at h
  unfold retryLoop
  generalize retryFrom checkSingle 0 none [] (maxRetries + 1) = r at h
  obtain ⟨_, h2, h3, h4, _⟩ := h
  have h3 := h3 (by simp)
  simp only [maxRetries] at *
  refine ⟨by omega, by omega, ?_⟩
  rw [h4]
  have : r.calls = 1 ∨ r.calls = 2 ∨ r.calls = 3 ∨ r.calls = 4 := by omega
  rcases this with h | h | h | h <;> rw [h] <;> decide

/-- C16: in `processRequest` for a request object `p`, an attempt that fails
with a critical error is the last attempt, and the request ends in status
failed with that error; and whenever the retry loop fails, the error recorded
in the request is the error of the last attempt made. -/
theorem critical_short_circuit (a : AsyncChecker) (p : Nat)
    (checkSingle : Nat → Except GoError Str) (hp : p < a.heap.length) :
    (∀ k e, k < (retryLoop checkSingle).calls → checkSingle k = .error e →
      isCriticalError (some e) = true →
      (retryLoop checkSingle).calls = k + 1 ∧
      ((a.processRequest p checkSingle).heap.get? p).map (fun r => (r.Status, r.Error))
        = some (.failed, some e)) ∧
    (∀ lastErr, (retryLoop checkSingle).outcome = .error lastErr →
      ∃ e, checkSingle ((retryLoop checkSingle).calls - 1) = .error e ∧
        ((a.processRequest p checkSingle).heap.get? p).map (fun r => (r.Status, r.Error))
          = some (.failed, some e)) := by
  have h := retryFrom_spec checkSingle (maxRetries + 1) 0 none []
  simp only [] at h
  obtain ⟨_, _, h3, _, h5, h6, _⟩ := h
  have h3 := h3 (by simp)
  have hfail : ∀ e, (retryLoop checkSingle).outcome = .error (some e) →
      ((a.processRequest p checkSingle).heap.get? p).map (fun r => (r.Status, r.Error))
        = some (.failed, some e) := by
    intro e he
    unfold AsyncChecker.processRequest
    rw [he]
    simp only [AsyncChecker.sendResult, Heap.update]
    have hp2 : (List.modify (fun r => { r with Status := Status.failed, Error := some e })
        p a.heap).get? p = some { (a.heap.get ⟨p, hp⟩) with Status := .failed, Error := some e } := by
      simp [List.getElem?_modify, hp]
    simp only [List.get?_eq_getElem?] at hp2 ⊢
    rw [hp2]
    simp [List.getElem?_modify, hp]
  constructor
  · intro k e hk hc hcrit
    have := h5 k e (Nat.zero_le _) hk hc hcrit
    exact ⟨this.1, hfail e this.2⟩
  · intro lastErr hl
    rcases h6 lastErr hl with ⟨hcalls, _⟩ | ⟨_, e, he1, he2⟩
    · exact absurd hcalls (by omega)
    · subst he1
      exact ⟨e, he2, hfail e hl⟩

/-- C16 (witness): a request whose first attempt fails with "invalid URL". -/
theorem critical_short_circuit_example :
    (retryLoop (fun _ => .error (.plain "invalid URL".toList))).calls = 1 ∧
    ((((NewAsyncCheckerWithSettings 10 10).Submit "id".toList "u".toList "k".toList 0 false).1.processRequest 0
        (fun _ => .error (.plain "invalid URL".toList))).heap.get? 0).map
      (fun r => (r.Status, r.Error)) = some (.failed, some (.plain "invalid URL".toList)) :=
  (critical_short_circuit
    ((NewAsyncCheckerWithSettings 10 10).Submit "id".toList "u".toList "k".toList 0 false).1 0
    (fun _ => .error (.plain "invalid URL".toList)) (by decide)).1 0 _ (by decide) rfl (by decide)

set_option maxRecDepth 100000 in
/-- C17 (counterexample): errors with the messages "connection timeout" and
"connection refused: no such host" are not critical, although the messages
contain "timeout" and "no such host". -/
theorem connection_timeout_not_critical :
    isCriticalError (some (.plain "connection timeout".toList)) = false ∧
    isCriticalError (some (.plain "connection refused: no such host".toList)) = false := by
  decide

/-- C17 (amended): `isCriticalError err` holds exactly when `err` is non-nil,
is not a network error (its type has not the methods of `net.Error`, which a
`*url.Error` has, and its message contains none of the phrases of
`networkErrors`) and its message contains one of the phrases of
`criticalErrors`, both compared in lower case. -/
theorem isCriticalError_iff (err : Option GoError) :
    isCriticalError err = true ↔
      ∃ e, err = some e ∧ e.isNetError = false ∧
        (∀ ne ∈ networkErrors, Contains (ToLower e.Error) (ToLower ne) = false) ∧
        ∃ ce ∈ criticalErrors, Contains (ToLower e.Error) (ToLower ce) = true := by
  cases err with
  | none => simp [isCriticalError]
  | some e =>
      have hnet : isNetworkError (some e) = false ↔
          (e.isNetError = false ∧
            ∀ ne ∈ networkErrors, Contains (ToLower e.Error) (ToLower ne) = false) := by
        cases e with
        | plain msg =>
            simp [isNetworkError, GoError.isNetworkError, GoError.isNetError, GoError.Error]
        | netError msg =>
            simp [isNetworkError, GoError.isNetworkError, GoError.isNetError]
        | urlError msg inner =>
            simp [isNetworkError, GoError.isNetworkError, GoError.isNetError]
      simp only [isCriticalError]
      by_cases h : isNetworkError (some e) = true
      · rw [if_pos h]
        have hn : ¬ (isNetworkError (some e) = false) := by simp [h]
        rw [hnet] at hn
        simp only [Bool.false_eq_true, false_iff]
        rintro ⟨e2, he, h1, h2, _⟩
        cases he
        exact hn ⟨h1, h2⟩
      · rw [if_neg h]
        have hn : isNetworkError (some e) = false := by simpa using h
        rw [hnet] at hn
        simp only [List.any_eq_true]
        constructor
        · rintro ⟨ce, hce, hc⟩
          exact ⟨e, rfl, hn.1, hn.2, ce, hce, hc⟩
        · rintro ⟨e2, he, _, _, ce, hce, hc⟩
          cases he
          exact ⟨ce, hce, hc⟩

/-- C18 (counterexample): the map of an `AsyncCheckerImpl` holds two
requests after `SetMaxPending(1)`, and the empty map of an `AsyncChecker`
built with `maxPending = -1` holds more than `maxPending` requests. -/
theorem map_holds_more_than_maxPending :
    (((ImplSystem.new 2).run
        [.submit "u".toList "k".toList 0 false 1, .submit "u".toList "k".toList 0 false 2,
         .setMaxPending 1]).checker.requests.length = 2 ∧
     ((ImplSystem.new 2).run
        [.submit "u".toList "k".toList 0 false 1, .submit "u".toList "k".toList 0 false 2,
         .setMaxPending 1]).checker.maxPending = 1) ∧
    ((NewAsyncCheckerWithSettings (-1) 100).requests.length : Int)
      > (NewAsyncCheckerWithSettings (-1) 100).maxPending := by
  decide

/-- C18 (amended): for an identifier that is not stored, `AsyncChecker.Submit`
fails exactly when the map already holds `maxPending` requests or more; a
rejected `Submit` changes nothing, an accepted one adds one pending request
under the identifier and adds one to `TotalRequests`; from a checker built
with a non-negative `maxPending`, no sequence of operations makes the map
hold more than `maxPending` requests; and `CheckWithCheckerName` of
`AsyncCheckerImpl` admits in the same way, and from a state of an
`AsyncCheckerImpl` whose map holds at most `maxPending` requests (a new
checker with a non-negative limit is one) no sequence of operations without
`SetMaxPending` makes the map hold more than `maxPending` requests. -/
theorem submit_admission :
    (∀ (a : AsyncChecker) (id url key : Str) (flag : Int) (cb : Bool),
      mapLookup a.requests id = none →
      ((a.Submit id url key flag cb).2 = none ↔ (a.requests.length : Int) ≥ a.maxPending) ∧
      ((a.Submit id url key flag cb).2 = none → (a.Submit id url key flag cb).1 = a) ∧
      ((a.Submit id url key flag cb).2 ≠ none →
        (a.Submit id url key flag cb).2 = some id ∧
        (a.Submit id url key flag cb).1.requests = a.requests ++ [(id, a.heap.length)] ∧
        (a.Submit id url key flag cb).1.heap = a.heap ++
          [{ ID := id, URL := url, VersionExtractKey := key, CheckTestVersion := flag,
             Status := .pending, Result := [], Error := none, Callback := cb }] ∧
        (a.Submit id url key flag cb).1.stats =
          { a.stats with TotalRequests := a.stats.TotalRequests + 1 })) ∧
    (∀ (maxPending : Int) (resultChanSize : Nat) (ops : List AsyncOp), 0 ≤ maxPending →
      (((AsyncSystem.new maxPending resultChanSize).run ops).checker.requests.length : Int)
        ≤ maxPending) ∧
    (∀ (c : AsyncCheckerImpl) (url key name : Str) (flag now : Int) (cb : Bool),
      mapLookup c.requests (name ++ '-' :: fmtInt now) = none →
      ((c.CheckWithCheckerName url key flag cb name now).2 = none ↔
        (c.requests.length : Int) ≥ c.maxPending) ∧
      ((c.CheckWithCheckerName url key flag cb name now).2 = none →
        (c.CheckWithCheckerName url key flag cb name now).1 = c) ∧
      ((c.CheckWithCheckerName url key flag cb name now).2 ≠ none →
        (c.CheckWithCheckerName url key flag cb name now).1.requests
          = c.requests ++ [(name ++ '-' :: fmtInt now, c.heap.length)] ∧
        (c.CheckWithCheckerName url key flag cb name now).1.heap = c.heap ++
          [{ ID := name ++ '-' :: fmtInt now, URL := url, VersionExtractKey := key,
             CheckTestVersion := flag, Status := .pending, Result := [], Error := none,
             Callback := cb }] ∧
        (c.CheckWithCheckerName url key flag cb name now).1.stats =
          { c.stats with TotalRequests := c.stats.TotalRequests + 1 })) ∧
    (∀ (s : ImplSystem) (ops : List ImplOp), ops.all ImplOp.keepsLimit = true →
      (s.checker.requests.length : Int) ≤ s.checker.maxPending →
      (((s.run ops).checker.requests.length : Int) ≤ s.checker.maxPending) ∧
      (s.run ops).checker.maxPending = s.checker.maxPending) ∧
    (∀ (maxPending : Int) (ops : List ImplOp), 0 ≤ maxPending →
      ops.all ImplOp.keepsLimit = true →
      (((ImplSystem.new maxPending).run ops).checker.requests.length : Int) ≤ maxPending) := by
  refine ⟨?_, ?_, ?_, ?_, ?_⟩
  · intro a id url key flag cb hid
    unfold AsyncChecker.Submit
    simp only [hid, Option.isSome_none, Bool.false_eq_true, if_false]
    by_cases h : (a.requests.length : Int) ≥ a.maxPending
    · simp [h]
    · simp only [h, if_false, mapStore_of_lookup_none _ _ _ hid]
      simp
  · intro maxPending resultChanSize ops h
    exact asyncRun_length_le ops (AsyncSystem.new maxPending resultChanSize) (by simpa [AsyncSystem.new, NewAsyncCheckerWithSettings] using h)
  · intro c url key name flag now cb hid
    unfold AsyncCheckerImpl.CheckWithCheckerName
    by_cases h : (c.requests.length : Int) ≥ c.maxPending
    · simp [h]
    · simp only [h, if_false, mapStore_of_lookup_none _ _ _ hid]
      simp
  · intro s ops hall h
    exact implRun_length_le ops s hall h
  · intro maxPending ops h hall
    exact (implRun_length_le ops (ImplSystem.new maxPending) hall
      (by simpa [ImplSystem.new, AsyncCheckerImpl.new] using h)).1

/-- C18 (witness): a second request is rejected by a checker with
`maxPending = 1`, and the maps of both checkers hold one request after two `Submit`s. -/
theorem submit_admission_example :
    (((NewAsyncCheckerWithSettings 1 100).Submit "a".toList "u".toList "k".toList 0 false).1.Submit
        "b".toList "u".toList "k".toList 0 false).2 = none ∧
    ((((AsyncSystem.new 1 100).run [.submit "a".toList "u".toList "k".toList 0 false,
        .submit "b".toList "u".toList "k".toList 0 false]).checker.requests.length : Int) ≤ 1) ∧
    ((((ImplSystem.new 1).run [.submit "u".toList "k".toList 0 false 1,
        .submit "u".toList "k".toList 0 false 2]).checker.requests.length : Int) ≤ 1) :=
  ⟨((submit_admission.1
      ((NewAsyncCheckerWithSettings 1 100).Submit "a".toList "u".toList "k".toList 0 false).1
      "b".toList "u".toList "k".toList 0 false (by decide)).1).2 (by decide),
   submit_admission.2.1 1 100 _ (by decide),
   submit_admission.2.2.2.2 1 _ (by decide) (by decide)⟩

theorem asyncRun_terminal (ops : List AsyncOp) (p : Nat) (st : Status) (ht : st.terminal = true) :
    ∀ (s : AsyncSystem), s.Inv → s.checker.heap.status p = some st →
      (s.run ops).checker.heap.status p = some st := by
  induction ops with
  | nil => intro s _ h; exact h
  | cons op ops ih =>
      intro s hinv h
      obtain ⟨hinv2, hedge⟩ := asyncStep_edge s hinv op
      obtain ⟨st2, hs2, hr⟩ := hedge p st h
      have : st2 = st := by
        rcases hr with hr | hr
        · exact hr
        · cases st <;> cases st2 <;> simp_all [Status.edge, Status.terminal]
      subst this
      exact ih (s.step op) hinv2 hs2

theorem implRun_terminal (ops : List ImplOp) (p : Nat) (st : Status) (ht : st.terminal = true) :
    ∀ (s : ImplSystem), s.Inv → s.freshRun ops = true → s.checker.heap.status p = some st →
      (s.run ops).checker.heap.status p = some st := by
  induction ops with
  | nil => intro s _ _ h; exact h
  | cons op ops ih =>
      intro s hinv hf h
      simp only [ImplSystem.freshRun, Bool.and_eq_true] at hf
      obtain ⟨hinv2, hedge⟩ := implStep_edge s hinv op hf.1
      obtain ⟨st2, hs2, hr⟩ := hedge p st h
      have : st2 = st := by
        rcases hr with hr | hr
        · exact hr
        · cases st <;> cases st2 <;> simp_all [Status.edge, Status.terminal]
      subst this
      exact ih (s.step op) hinv2 hf.2 hs2

/-- The state machine away from identifier collisions: from a new
`AsyncChecker`, and from a new `AsyncCheckerImpl` whose `Submit`s get
identifiers of their own, after every sequence of operations (`Submit`,
worker pick-up, `processRequest` or the sending of the result, result
processing, `Remove`, `Clear`) one more operation leaves the status of each
request object as it is or moves it along one of the edges pending to
processing, processing to completed, processing to failed, pending to
cancelled; and a status completed, failed or cancelled stays over every
further sequence of operations. -/
theorem status_state_machine :
    (∀ (maxPending : Int) (n : Nat) (ops : List AsyncOp) (p : Nat) (st : Status),
      ((AsyncSystem.new maxPending n).run ops).checker.heap.status p = some st →
      (∀ op, ∃ st2,
        ((AsyncSystem.new maxPending n).run (ops ++ [op])).checker.heap.status p = some st2 ∧
        (st2 = st ∨ st.edge st2 = true)) ∧
      (st.terminal = true → ∀ ops2,
        ((AsyncSystem.new maxPending n).run (ops ++ ops2)).checker.heap.status p = some st)) ∧
    (∀ (maxPending : Int) (ops : List ImplOp) (p : Nat) (st : Status),
      ((ImplSystem.new maxPending).run ops).checker.heap.status p = some st →
      (∀ op, (ImplSystem.new maxPending).freshRun (ops ++ [op]) = true → ∃ st2,
        ((ImplSystem.new maxPending).run (ops ++ [op])).checker.heap.status p = some st2 ∧
        (st2 = st ∨ st.edge st2 = true)) ∧
      (st.terminal = true → ∀ ops2, (ImplSystem.new maxPending).freshRun (ops ++ ops2) = true →
        ((ImplSystem.new maxPending).run (ops ++ ops2)).checker.heap.status p = some st)) := by
  constructor
  · intro maxPending n ops p st hst
    have hinv := asyncRun_inv ops _ (asyncNew_inv maxPending n)
    constructor
    · intro op
      rw [asyncRun_append]
      exact (asyncStep_edge _ hinv op).2 p st hst
    · intro ht ops2
      have : (AsyncSystem.new maxPending n).run (ops ++ ops2)
          = ((AsyncSystem.new maxPending n).run ops).run ops2 := by
        simp [AsyncSystem.run, List.foldl_append]
      rw [this]
      exact asyncRun_terminal ops2 p st ht _ hinv hst
  · intro maxPending ops p st hst
    constructor
    · intro op hf
      obtain ⟨hf1, hf2⟩ := implFreshRun_append ops [op] _ hf
      have hinv := implRun_inv ops _ (implNew_inv maxPending) hf1
      rw [implRun_append]
      simp only [ImplSystem.freshRun, Bool.and_true] at hf2
      exact (implStep_edge _ hinv op hf2).2 p st hst
    · intro ht ops2 hf
      obtain ⟨hf1, hf2⟩ := implFreshRun_append ops ops2 _ hf
      have hinv := implRun_inv ops _ (implNew_inv maxPending) hf1
      have : (ImplSystem.new maxPending).run (ops ++ ops2)
          = ((ImplSystem.new maxPending).run ops).run ops2 := by
        simp [ImplSystem.run, List.foldl_append]
      rw [this]
      exact implRun_terminal ops2 p st ht _ hinv hf2 hst

set_option maxRecDepth 100000 in
/-- An example of the state machine: a request of an `AsyncCheckerImpl`
that a worker has taken is moved by the result processing from processing to completed or
failed or is left as it is. -/
theorem status_state_machine_example :
    ∃ st2,
      ((ImplSystem.new 10).run
        ([.submit "u".toList "k".toList 0 false 7, .pick 0,
          .send 0 (fun _ => none) (fun _ _ => ("1.0".toList, none))] ++ [.results])
        ).checker.heap.status 0 = some st2 ∧
      (st2 = .processing ∨ Status.edge .processing st2 = true) :=
  ((status_state_machine.2 10
    [.submit "u".toList "k".toList 0 false 7, .pick 0,
     .send 0 (fun _ => none) (fun _ _ => ("1.0".toList, none))] 0 .processing (by decide)).1
      .results (by decide))

set_option maxRecDepth 1000000 in
/-- C20 (code): two `Submit`s of an `AsyncCheckerImpl` that read the same
clock value get the same identifier "http-7", and the second request takes
the place of the first in the map. When a worker has taken the first request
and sends its result, `resultProcessor` finds the second request under the
identifier: that request goes from pending to completed. And when a second
worker has taken the second request and fails, the request goes on from
completed to failed. -/
theorem colliding_identifiers_leave_state_machine :
    (((ImplSystem.new 10).run
        [.submit "u".toList "k".toList 0 false 7, .pick 0,
         .submit "u".toList "k".toList 0 false 7,
         .send 0 (fun _ => none) (fun _ _ => ("1.0".toList, none))]).checker.heap.status 1
      = some .pending ∧
     ((ImplSystem.new 10).run
        [.submit "u".toList "k".toList 0 false 7, .pick 0,
         .submit "u".toList "k".toList 0 false 7,
         .send 0 (fun _ => none) (fun _ _ => ("1.0".toList, none)),
         .results]).checker.heap.status 1
      = some .completed) ∧
    (((ImplSystem.new 10).run
        [.submit "u".toList "k".toList 0 false 7, .pick 0,
         .submit "u".toList "k".toList 0 false 7, .pick 1,
         .send 0 (fun _ => none) (fun _ _ => ("1.0".toList, none)), .results,
         .send 1 (fun _ => none) (fun _ _ => ([], some (.plain "HTTP 500".toList)))]
        ).checker.heap.status 1
      = some .completed ∧
     ((ImplSystem.new 10).run
        [.submit "u".toList "k".toList 0 false 7, .pick 0,
         .submit "u".toList "k".toList 0 false 7, .pick 1,
         .send 0 (fun _ => none) (fun _ _ => ("1.0".toList, none)), .results,
         .send 1 (fun _ => none) (fun _ _ => ([], some (.plain "HTTP 500".toList))),
         .results]).checker.heap.status 1
      = some .failed) ∧
    ((ImplSystem.new 10).run
        [.submit "u".toList "k".toList 0 false 7, .pick 0,
         .submit "u".toList "k".toList 0 false 7]).checker.heap.map (fun r => r.ID)
      = ["http-7".toList, "http-7".toList] := by
  decide

set_option maxRecDepth 100000 in
/-- C19 (counterexample): `AsyncCheckerImpl.GetResult` for a request that no
worker has taken yet returns a result in status pending, and for a request
that a worker has taken a result in status processing;
`CheckMultipleWithDynamicConcurrency` returns a result in status completed
that carries the error of `AutoCheck`; and a `GetResult` that reads the
request after `resultProcessor` has assigned the status failed and before it
has assigned the error returns a result in status failed without error. -/
theorem result_pending_or_completed_with_error :
    ((((ImplSystem.new 10).run [.submit "u".toList "k".toList 0 false 7]).checker.GetResult
        "http-7".toList
        ((ImplSystem.new 10).run [.submit "u".toList "k".toList 0 false 7]).checker.heap
        ((ImplSystem.new 10).run [.submit "u".toList "k".toList 0 false 7]).checker.heap
        ((ImplSystem.new 10).run [.submit "u".toList "k".toList 0 false 7]).checker.heap
        ((ImplSystem.new 10).run [.submit "u".toList "k".toList 0 false 7]).checker.heap).map
          (fun r => (r.Status, r.Error)) = some (.pending, none)) ∧
    ((((ImplSystem.new 10).run [.submit "u".toList "k".toList 0 false 7, .pick 0]).checker.GetResult
        "http-7".toList
        ((ImplSystem.new 10).run [.submit "u".toList "k".toList 0 false 7, .pick 0]).checker.heap
        ((ImplSystem.new 10).run [.submit "u".toList "k".toList 0 false 7, .pick 0]).checker.heap
        ((ImplSystem.new 10).run [.submit "u".toList "k".toList 0 false 7, .pick 0]).checker.heap
        ((ImplSystem.new 10).run [.submit "u".toList "k".toList 0 false 7, .pick 0]).checker.heap).map
          (fun r => (r.Status, r.Error)) = some (.processing, none)) ∧
    ((EnhancedConcurrentChecker.CheckMultipleWithDynamicConcurrency (fun _ => false)
        (.plain "context canceled".toList) (fun _ _ => ([], some (.plain "HTTP 500".toList)))
        [{ ID := "r1".toList, URL := "u".toList, VersionExtractKey := "k".toList,
           CheckTestVersion := 0, Status := .pending, Result := [], Error := none,
           Callback := false }]).map (fun r => (r.Status, r.Error))
      = [(.completed, some (.plain "HTTP 500".toList))]) ∧
    ((((ImplSystem.new 10).run [.submit "u".toList "k".toList 0 false 7, .pick 0,
        .send 0 (fun _ => none) (fun _ _ => ([], some (.plain "HTTP 500".toList)))]
        ).checker.resultProcessorWrites.head?).bind (fun torn =>
      ((ImplSystem.new 10).run [.submit "u".toList "k".toList 0 false 7, .pick 0,
        .send 0 (fun _ => none) (fun _ _ => ([], some (.plain "HTTP 500".toList)))]
        ).checker.GetResult "http-7".toList torn torn torn torn)).map
          (fun r => (r.Status, r.Error)) = some (.failed, none) := by
  decide

/-- C19 (amended): in every state of an `AsyncChecker`, the results in its
channel, the results its callbacks were started with and the results of
`GetResult` have a terminal status and no error exactly in status completed;
the callbacks of an `AsyncCheckerImpl` are called with cancelled results that
carry an error, and its `GetResult`, when its four reads of the request see
the heap of one state of the checker, returns a result without error exactly
when the status is not failed; and the callback of
`EnhancedConcurrentChecker.processRequest` gets a result with a terminal
status and no error exactly in status completed. -/
theorem results_well_formed :
    (∀ (maxPending : Int) (n : Nat) (ops : List AsyncOp),
      (∀ r ∈ ((AsyncSystem.new maxPending n).run ops).checker.resultChan, r.wellFormed) ∧
      (∀ x ∈ ((AsyncSystem.new maxPending n).run ops).checker.called, x.2.wellFormed) ∧
      (∀ id r, ((AsyncSystem.new maxPending n).run ops).checker.GetResult id = some r →
        r.wellFormed)) ∧
    (∀ (maxPending : Int) (ops : List ImplOp),
      (∀ x ∈ ((ImplSystem.new maxPending).run ops).checker.called,
        x.2.wellFormed ∧ x.2.Status = .cancelled) ∧
      (∀ id r, ((ImplSystem.new maxPending).run ops).checker.GetResult id
          ((ImplSystem.new maxPending).run ops).checker.heap
          ((ImplSystem.new maxPending).run ops).checker.heap
          ((ImplSystem.new maxPending).run ops).checker.heap
          ((ImplSystem.new maxPending).run ops).checker.heap = some r →
        (r.Error = none ↔ r.Status ≠ .failed))) ∧
    (∀ (cacheGet : Option Str) (autoCheck : Str → Str → Str × Option GoError)
      (req : AsyncCheckRequest) (r : AsyncCheckResult),
      EnhancedConcurrentChecker.processRequest cacheGet autoCheck req = some r → r.wellFormed) := by
  refine ⟨?_, ?_, ?_⟩
  · intro maxPending n ops
    have hres := asyncRun_results ops (AsyncSystem.new maxPending n)
      ⟨fun r hr => (by cases hr), fun x hx => (by cases hx)⟩
    have hinv := asyncRun_inv ops _ (asyncNew_inv maxPending n)
    exact ⟨hres.1, hres.2, fun id r h => asyncGetResult_wellFormed _ hinv id r h⟩
  · intro maxPending ops
    obtain ⟨_, h2, h3⟩ := implRun_results ops _ (implNew_results maxPending)
    constructor
    · intro x hx
      obtain ⟨hs, he⟩ := h3 x hx
      exact ⟨⟨by rw [hs]; rfl, by rw [hs]; simp [he]⟩, hs⟩
    · intro id r h
      unfold AsyncCheckerImpl.GetResult at h
      cases hl : mapLookup ((ImplSystem.new maxPending).run ops).checker.requests id with
      | none => rw [hl] at h; cases h
      | some p =>
          rw [hl] at h
          dsimp only at h
          cases hg : ((ImplSystem.new maxPending).run ops).checker.heap.get? p with
          | none => rw [hg] at h; cases h
          | some request =>
              rw [hg] at h
              dsimp only at h
              split at h
              · cases h
                simp
              · cases h
                exact h2 p request hg
  · intro cacheGet autoCheck req r h
    unfold EnhancedConcurrentChecker.processRequest at h
    cases cacheGet with
    | some v =>
        dsimp only at h
        split at h
        · cases h
          exact ⟨rfl, by simp⟩
        · cases h
    | none =>
        dsimp only at h
        split at h
        · cases h
          unfold AsyncCheckResult.wellFormed
          dsimp only
          cases (autoCheck req.URL req.VersionExtractKey).2 with
          | none =>
              dsimp only
              cases req.Error <;> simp [Status.terminal]
          | some e => simp [Status.terminal]
        · cases h

set_option maxRecDepth 100000 in
/-- C19 (witness): the result of `GetResult` after a failed `processRequest`. -/
theorem results_well_formed_example :
    AsyncCheckResult.wellFormed
      { ID := "id".toList, URL := "u".toList, Version := [],
        Error := some (.plain "invalid URL".toList), Status := .failed } :=
  (results_well_formed.1 10 10
    [.submit "id".toList "u".toList "k".toList 0 false, .pick 0,
     .process 0 (fun _ => .error (.plain "invalid URL".toList))]).2.2 "id".toList _ (by decide)

set_option maxRecDepth 100000 in
/-- C12 (code): under the fifo policy with `maxSize = 1`, `Set a`,
`ClearCache`, `Set b`, `Set c` leaves two entries; with `maxSize = 2`,
`Set a`, `Set a`, `Set b`, `Set c`, `Set d` leaves three; and under the lru
policy with `maxSize = 1`, a `Set` of the empty key followed by `Set b` leaves
two. -/
theorem cache_exceeds_maxSize :
    ((NewCheckCache 100 1 "fifo".toList).run
      [.set "a".toList "1".toList 0, .clearCache, .set "b".toList "1".toList 1,
       .set "c".toList "1".toList 2]).GetSize = 2 ∧
    ((NewCheckCache 100 2 "fifo".toList).run
      [.set "a".toList "1".toList 0, .set "a".toList "1".toList 1,
       .set "b".toList "1".toList 2, .set "c".toList "1".toList 3,
       .set "d".toList "1".toList 4]).GetSize = 3 ∧
    ((NewCheckCache 100 1 "lru".toList).run
      [.set [] "1".toList 0, .set "b".toList "1".toList 1]).GetSize = 2 := by
  decide

set_option maxRecDepth 100000 in
/-- C14 (counterexample): on a cache with `maxSize = 0`, which holds
`maxSize` entries when it is empty, `evict` removes nothing, and `Set` then
stores the entry. -/
theorem evict_removes_nothing :
    (NewCheckCache 100 0 "lru".toList).evict = NewCheckCache 100 0 "lru".toList ∧
    ((NewCheckCache 100 0 "lru".toList).Set "a".toList "1".toList 0).GetSize = 1 := by
  decide

/-- C14 (amended): under the lru policy, on a cache that holds `maxSize`
entries, with `maxSize` at least 1 and no entry under the empty key, `Set`
first evicts: `evict` removes exactly one stored entry, and the `LastAccess`
of that entry is less than or equal to the `LastAccess` of every entry that
remains; `Set` then stores the new entry in what is left. -/
theorem lru_evicts_oldest (c : CheckCache) (key version : Str) (now : Int)
    (hlru : c.evictionPolicy = "lru".toList) (hmax : 1 ≤ c.maxSize)
    (hfull : (c.cache.length : Int) = c.maxSize)
    (hkeys : (c.cache.map (fun e => e.1)).Nodup) (hne : ∀ e ∈ c.cache, e.1 ≠ []) :
    ∃ k entry, (k, entry) ∈ c.cache ∧
      c.evict.cache = c.cache.filter (fun e => e.1 ≠ k) ∧
      c.evict.cache.length + 1 = c.cache.length ∧
      (∀ e ∈ c.evict.cache, entry.LastAccess ≤ e.2.LastAccess) ∧
      (c.Set key version now).cache = mapStore c.evict.cache key
        { Version := version, ExpiryTime := now + c.ttl, LastAccess := now } := by
  have hlen : c.cache.length ≠ 0 := by omega
  have hnil : c.cache ≠ [] := fun e => hlen (by rw [e]; rfl)
  have hsome := oldestEntry_isSome c.cache none (Or.inl hnil)
  cases ho : oldestEntry c.cache none with
  | none => rw [ho] at hsome; cases hsome
  | some a =>
      obtain ⟨k, t⟩ := a
      obtain ⟨h1, h2, _⟩ := oldestEntry_spec c.cache none k t ho
      rcases h1 with h1 | ⟨entry, hmem, ht⟩
      · cases h1
      · have hk : k ≠ [] := hne _ hmem
        have hev : c.evict = c.removeKey k := by
          unfold CheckCache.evict
          simp only [hlen, if_false, hlru, if_true, ho, ne_eq, hk, not_false_eq_true]
        have hcache : c.evict.cache = c.cache.filter (fun e => e.1 ≠ k) := by
          rw [hev]
          rfl
        refine ⟨k, entry, hmem, hcache, ?_, ?_, ?_⟩
        · rw [hcache]
          exact mapDelete_length_of_mem c.cache k entry hkeys hmem
        · intro e he
          rw [hcache] at he
          rw [ht]
          exact h2 e (List.mem_of_mem_filter he)
        · unfold CheckCache.Set
          have : (c.cache.length : Int) ≥ c.maxSize := by omega
          simp only [this, if_true]
          rw [hev]
          rfl

set_option maxRecDepth 100000 in
/-- C14 (witness): a full cache of two entries loses the one used first. -/
theorem lru_evicts_oldest_example :
    ∃ k entry, (k, entry) ∈ ((NewCheckCache 100 2 "lru".toList).run
        [.set "a".toList "1".toList 5, .set "b".toList "2".toList 3]).cache ∧
      (((NewCheckCache 100 2 "lru".toList).run
        [.set "a".toList "1".toList 5, .set "b".toList "2".toList 3]).evict.cache.length + 1
        = ((NewCheckCache 100 2 "lru".toList).run
        [.set "a".toList "1".toList 5, .set "b".toList "2".toList 3]).cache.length) ∧
      (∀ e ∈ ((NewCheckCache 100 2 "lru".toList).run
        [.set "a".toList "1".toList 5, .set "b".toList "2".toList 3]).evict.cache,
        entry.LastAccess ≤ e.2.LastAccess) := by
  obtain ⟨k, entry, h1, _, h3, h4, _⟩ := lru_evicts_oldest
    ((NewCheckCache 100 2 "lru".toList).run
      [.set "a".toList "1".toList 5, .set "b".toList "2".toList 3])
    "c".toList "3".toList 9 (by decide) (by decide) (by decide) (by decide) (by decide)
  exact ⟨k, entry, h1, h3, h4⟩

theorem checkSingle_of_lookup (generateCacheKey : Str → Str → Int → Str)
    (factory2 : CheckerFactory) (c1 : CheckCache) (url versionExtractKey : Str)
    (checkTestVersion : Int) (entry : CacheEntry) (nowGet2 nowSet2 : Int)
    (hl : mapLookup c1.cache (generateCacheKey url versionExtractKey checkTestVersion) = some entry)
    (hnow : nowGet2 ≤ entry.ExpiryTime) :
    (CheckSingle generateCacheKey factory2 c1 url versionExtractKey checkTestVersion
      nowGet2 nowSet2).2 = (.ok entry.Version, []) := by
  have hh := (get_hit c1 _ nowGet2 entry hl hnow).1
  unfold CheckSingle
  dsimp only
  cases hg : c1.Get (generateCacheKey url versionExtractKey checkTestVersion) nowGet2 with
  | mk c2 res =>
      rw [hg] at hh
      dsimp only at hh
      subst hh
      rfl

theorem get_ttl (c : CheckCache) (key : Str) (now : Int) : (c.Get key now).1.ttl = c.ttl := by
  unfold CheckCache.Get
  split
  · rfl
  · split
    · rfl
    · split <;> rfl

theorem set_ttl (c : CheckCache) (key version : Str) (now : Int) :
    (c.Set key version now).ttl = c.ttl := by
  unfold CheckCache.Set
  dsimp only
  split
  · exact evict_ttl c
  · rfl

/-- C13 (amended): on a cache in a state reached from a new cache, when
`CheckSingle` returns a version `v`, the cache holds an entry with that
version under the key of the three arguments (written by this call with the
expiry time `nowSet + ttl` if the factory was called); and after every
sequence of cache operations (`Set`, `Get`, `ClearExpired` of any call) that
come between the writing of the entry and its expiry and do not evict the
key, a second `CheckSingle` with the same arguments, not after the expiry,
returns without error and without a call of `AutoCheck` or
`CheckWithVersionRef` the version last stored under the key: the version of
the last `Set` of the key among these operations, and `v` itself when no
`Set` of the key is among them. And when
`CheckSingle` returns an error, the cache afterwards holds nothing that it
did not hold before. -/
theorem cache_hit_last_stored (generateCacheKey : Str → Str → Int → Str)
    (factory : CheckerFactory) (c : CheckCache) (url versionExtractKey : Str)
    (checkTestVersion : Int) (nowGet nowSet : Int)
    (hreach : ∃ ttl maxSize policy ops0, c = (NewCheckCache ttl maxSize policy).run ops0) :
    (∀ v, (CheckSingle generateCacheKey factory c url versionExtractKey checkTestVersion
        nowGet nowSet).2.1 = .ok v →
      ∃ entry,
        mapLookup (CheckSingle generateCacheKey factory c url versionExtractKey checkTestVersion
          nowGet nowSet).1.cache (generateCacheKey url versionExtractKey checkTestVersion)
          = some entry ∧
        entry.Version = v ∧
        ((CheckSingle generateCacheKey factory c url versionExtractKey checkTestVersion
          nowGet nowSet).2.2 ≠ [] → entry.ExpiryTime = nowSet + c.ttl) ∧
        ∀ (ops : List CacheOp) (factory2 : CheckerFactory) (nowGet2 nowSet2 : Int),
          (CheckSingle generateCacheKey factory c url versionExtractKey checkTestVersion
            nowGet nowSet).1.keepsKey
              (generateCacheKey url versionExtractKey checkTestVersion) ops = true →
          ops.all (CacheOp.within (entry.ExpiryTime - c.ttl) entry.ExpiryTime) = true →
          nowGet2 ≤ entry.ExpiryTime →
          (CheckSingle generateCacheKey factory2
            ((CheckSingle generateCacheKey factory c url versionExtractKey checkTestVersion
              nowGet nowSet).1.run ops) url versionExtractKey checkTestVersion nowGet2 nowSet2).2
            = (.ok (lastStored (generateCacheKey url versionExtractKey checkTestVersion) v ops),
                []) ∧
          ((∀ w now, CacheOp.set (generateCacheKey url versionExtractKey checkTestVersion) w now
              ∉ ops) →
            (CheckSingle generateCacheKey factory2
              ((CheckSingle generateCacheKey factory c url versionExtractKey checkTestVersion
                nowGet nowSet).1.run ops) url versionExtractKey checkTestVersion
                nowGet2 nowSet2).2 = (.ok v, []))) ∧
    (∀ err, (CheckSingle generateCacheKey factory c url versionExtractKey checkTestVersion
        nowGet nowSet).2.1 = .error err →
      ∀ e ∈ (CheckSingle generateCacheKey factory c url versionExtractKey checkTestVersion
        nowGet nowSet).1.cache, e ∈ c.cache) := by
  have hnd : (c.cache.map (fun e => e.1)).Nodup := by
    obtain ⟨ttl, maxSize, policy, ops0, rfl⟩ := hreach
    exact run_nodup ops0 _ List.nodup_nil
  have hsecond : ∀ (c1 : CheckCache) (entry : CacheEntry) (v : Str),
      (c1.cache.map (fun e => e.1)).Nodup → c1.ttl = c.ttl →
      mapLookup c1.cache (generateCacheKey url versionExtractKey checkTestVersion) = some entry →
      entry.Version = v →
      ∀ (ops : List CacheOp) (factory2 : CheckerFactory) (nowGet2 nowSet2 : Int),
        c1.keepsKey (generateCacheKey url versionExtractKey checkTestVersion) ops = true →
        ops.all (CacheOp.within (entry.ExpiryTime - c.ttl) entry.ExpiryTime) = true →
        nowGet2 ≤ entry.ExpiryTime →
        (CheckSingle generateCacheKey factory2 (c1.run ops) url versionExtractKey
          checkTestVersion nowGet2 nowSet2).2
          = (.ok (lastStored (generateCacheKey url versionExtractKey checkTestVersion) v ops),
              []) ∧
        ((∀ w now, CacheOp.set (generateCacheKey url versionExtractKey checkTestVersion) w now
            ∉ ops) →
          (CheckSingle generateCacheKey factory2 (c1.run ops) url versionExtractKey
            checkTestVersion nowGet2 nowSet2).2 = (.ok v, [])) := by
    intro c1 entry v hnd1 httl hl hv ops factory2 nowGet2 nowSet2 hk hw hnow
    obtain ⟨_, _, entry2, hl2, hv2, he2⟩ :=
      run_holds (generateCacheKey url versionExtractKey checkTestVersion) c.ttl
        entry.ExpiryTime ops c1 v ⟨hnd1, httl, entry, hl, hv, le_refl _⟩ hw hk
    have := checkSingle_of_lookup generateCacheKey factory2 (c1.run ops) url versionExtractKey
      checkTestVersion entry2 nowGet2 nowSet2 hl2 (by omega)
    rw [hv2] at this
    refine ⟨this, fun hno => ?_⟩
    rw [this, lastStored_untouched _ v ops hno]
  have hget_nd : ((c.Get (generateCacheKey url versionExtractKey checkTestVersion)
      nowGet).1.cache.map (fun e => e.1)).Nodup :=
    step_nodup c (.get (generateCacheKey url versionExtractKey checkTestVersion) nowGet) hnd
  have hget_ttl := get_ttl c (generateCacheKey url versionExtractKey checkTestVersion) nowGet
  unfold CheckSingle
  dsimp only
  cases hg : c.Get (generateCacheKey url versionExtractKey checkTestVersion) nowGet with
  | mk c1 res =>
      rw [hg] at hget_nd hget_ttl
      dsimp only at hget_nd hget_ttl
      cases res with
      | some version =>
          dsimp only
          constructor
          · intro v hv
            cases hv
            have hres : (c.Get (generateCacheKey url versionExtractKey checkTestVersion) nowGet).2
                = some version := by rw [hg]
            obtain ⟨entry, hl, hver, hnow⟩ := get_found c _ nowGet version hres
            obtain ⟨_, entry2, hl2, hv2, he2⟩ := get_hit c _ nowGet entry hl hnow
            rw [hg] at hl2
            refine ⟨entry2, hl2, by rw [hv2, hver], fun h => absurd rfl h, ?_⟩
            exact hsecond c1 entry2 version hget_nd hget_ttl hl2 (by rw [hv2, hver])
          · intro err herr
            cases herr
      | none =>
          dsimp only
          have hmiss := get_miss c (generateCacheKey url versionExtractKey checkTestVersion) nowGet
            (by rw [hg])
          rw [hg] at hmiss
          dsimp only at hmiss
          cases ha : factory.AutoCheck url versionExtractKey with
          | error err =>
              dsimp only
              exact ⟨fun v hv => (by cases hv), fun _ _ => hmiss.1⟩
          | ok r =>
              obtain ⟨_, checkerName⟩ := r
              dsimp only
              cases hc : factory.CheckWithVersionRef checkerName url versionExtractKey []
                  checkTestVersion with
              | error err =>
                  dsimp only
                  exact ⟨fun v hv => (by cases hv), fun _ _ => hmiss.1⟩
              | ok version =>
                  dsimp only
                  constructor
                  · intro v hv
                    cases hv
                    have hl := set_lookup c1
                      (generateCacheKey url versionExtractKey checkTestVersion) version nowSet
                    refine ⟨_, hl, rfl, fun _ => (by rw [hmiss.2]), ?_⟩
                    exact hsecond _ _ version
                      (step_nodup c1 (.set _ version nowSet) hget_nd)
                      (by rw [set_ttl]; exact hget_ttl) hl rfl
                  · intro err herr
                    cases herr

set_option maxRecDepth 1000000 in
/-- C13 (counterexample): a call B of `CheckSingle("U", "K", 0)` misses the
new cache at the time 0; a call A with the same arguments then runs as a
whole, gets "3.1" from the factory and stores it at the time 2; B, whose
factory answers "3.2", stores that at the time 3. No entry was evicted, the
ttl of 100 has not elapsed, and the next `CheckSingle("U", "K", 0)`, at the
time 50, returns "3.2" and not the version "3.1" that A returned. -/
theorem overlapping_check_overwrites :
    ((NewCheckCache 100 10 "lru".toList).Get "UK".toList 0).2 = none ∧
    (CheckSingle (fun u k _ => u ++ k) sampleFactory (NewCheckCache 100 10 "lru".toList)
      "U".toList "K".toList 0 1 2).2.1 = .ok "3.1".toList ∧
    (CheckSingle (fun u k _ => u ++ k) sampleFactory (NewCheckCache 100 10 "lru".toList)
      "U".toList "K".toList 0 1 2).1.keepsKey "UK".toList [.set "UK".toList "3.2".toList 3]
      = true ∧
    (CheckSingle (fun u k _ => u ++ k) failingFactory
      ((CheckSingle (fun u k _ => u ++ k) sampleFactory (NewCheckCache 100 10 "lru".toList)
        "U".toList "K".toList 0 1 2).1.run [.set "UK".toList "3.2".toList 3])
      "U".toList "K".toList 0 50 51).2 = (.ok "3.2".toList, []) :=
  ⟨by decide, rfl, by decide, rfl⟩

set_option maxRecDepth 1000000 in
/-- C13 (witness): a first `CheckSingle` at the times 0 and 1 with a ttl of
100 writes "3.1"; after a lookup and a write of another key and a
`ClearExpired`, a second one at the time 50 returns it although the factory
would fail. -/
theorem cache_hit_last_stored_example :
    (CheckSingle (fun u k _ => u ++ k) failingFactory
      ((CheckSingle (fun u k _ => u ++ k) sampleFactory (NewCheckCache 100 10 "lru".toList)
        "U".toList "K".toList 0 0 1).1.run
          [.get "other".toList 10, .set "other".toList "9".toList 11, .clearExpired 20])
      "U".toList "K".toList 0 50 51).2
      = (.ok "3.1".toList, []) := by
  obtain ⟨entry, _, _, hexp, hsecond⟩ :=
    (cache_hit_last_stored (fun u k _ => u ++ k) sampleFactory
      (NewCheckCache 100 10 "lru".toList) "U".toList "K".toList 0 0 1
      ⟨100, 10, "lru".toList, [], rfl⟩).1 "3.1".toList rfl
  have he := hexp (by decide)
  exact (hsecond [.get "other".toList 10, .set "other".toList "9".toList 11, .clearExpired 20]
    failingFactory 50 51 (by decide) (by rw [he]; decide) (by rw [he]; decide)).2
    (fun w now hm => by simp at hm)

set_option maxRecDepth 1000000 in
/-- C11 (counterexample): cleaning "VV1.2.3" gives "V1.2.3", and cleaning
that gives "1.2.3"; cleaning "1.0--" gives "1.0-", and cleaning that gives
"1.0". -/
theorem clean_not_idempotent :
    cleanVersionWithOption "VV1.2.3".toList 0 = "V1.2.3".toList ∧
    cleanVersionWithOption "V1.2.3".toList 0 = "1.2.3".toList ∧
    cleanVersionWithOption "1.0--".toList 0 = "1.0-".toList ∧
    cleanVersionWithOption "1.0-".toList 0 = "1.0".toList := by
  decide

/-- The versions that `cleanVersionWithOption` returns unprocessed: when `v`
without one leading "V" is a five-part version that is not a semantic
version, or is a letter-prefixed version with a semantic number part that
does not begin with "V" itself, then `cleanVersionWithOption v 0` returns it
as it is, and cleaning the result again returns the same. -/
theorem clean_unprocessed_idempotent (v : Str)
    (h : (semverRegex.MatchString (TrimPrefix v ['V']) = false ∧
            fivePartVersionFormat.MatchString (TrimPrefix v ['V']) = true) ∨
         (alphaPrefix.MatchString (TrimPrefix v ['V']) = true ∧
            (match alphaPrefix.FindStringSubmatch (TrimPrefix v ['V']) with
              | some (_, m) => semverRegex.MatchString (capOf m 2)
              | none => false) = true ∧
            HasPrefix (TrimPrefix v ['V']) ['V'] = false)) :
    cleanVersionWithOption v 0 = TrimPrefix v ['V'] ∧
    cleanVersionWithOption (cleanVersionWithOption v 0) 0 = cleanVersionWithOption v 0 := by
  have hfix : TrimPrefix (TrimPrefix v ['V']) ['V'] = TrimPrefix v ['V'] := by
    rcases h with ⟨_, h5⟩ | ⟨_, _, hV⟩
    · exact fivePart_no_V _ h5
    · unfold HasPrefix at hV
      generalize TrimPrefix v ['V'] = r at hV
      simp [TrimPrefix, hV]
  have hret : ∀ x, TrimPrefix x ['V'] = TrimPrefix v ['V'] →
      cleanVersionWithOption x 0 = TrimPrefix v ['V'] := by
    intro x hx
    unfold cleanVersionWithOption
    simp only [hx]
    split
    · rfl
    · rename_i hneg
      split
      · rfl
      · rename_i hneg2
        exfalso
        rcases h with ⟨hs, h5⟩ | ⟨ha, hm, _⟩
        · apply hneg2
          rw [hs, h5]
          rfl
        · apply hneg
          rw [ha]
          simp only [Bool.true_and]
          exact hm
  have h1 := hret v rfl
  refine ⟨h1, ?_⟩
  rw [h1]
  exact hret _ hfix

set_option maxRecDepth 1000000 in
/-- C11 (amended): `cleanVersionWithOption` with pre-releases disallowed
returns a settled version text as it is (ASCII letters, digits, dots and
hyphens, no "V" at the start, no hyphen at the end, no match of a platform,
test or suffix pattern; the empty text is settled); so cleaning is idempotent
on every `v` whose cleaned form is settled. A plain version text, in which no
dot or hyphen is followed by a letter, by "32" or by "64", is settled. And
cleaning is idempotent on the versions returned unprocessed: `v` that,
without one leading "V", is a five-part version and no semantic version, or a
letter-prefixed version with a semantic number part that does not begin with
"V" itself. -/
theorem clean_idempotent_when_settled (v : Str) :
    (settledVersion v = true → cleanVersionWithOption v 0 = v) ∧
    (settledVersion (cleanVersionWithOption v 0) = true →
      cleanVersionWithOption (cleanVersionWithOption v 0) 0 = cleanVersionWithOption v 0) ∧
    (plainVersion v = true → settledVersion v = true) ∧
    ((semverRegex.MatchString (TrimPrefix v ['V']) = false ∧
          fivePartVersionFormat.MatchString (TrimPrefix v ['V']) = true) ∨
        (alphaPrefix.MatchString (TrimPrefix v ['V']) = true ∧
          (match alphaPrefix.FindStringSubmatch (TrimPrefix v ['V']) with
            | some (_, m) => semverRegex.MatchString (capOf m 2)
            | none => false) = true ∧
          HasPrefix (TrimPrefix v ['V']) ['V'] = false) →
      cleanVersionWithOption v 0 = TrimPrefix v ['V'] ∧
      cleanVersionWithOption (cleanVersionWithOption v 0) 0 = cleanVersionWithOption v 0) :=
  ⟨clean_settled v, clean_settled (cleanVersionWithOption v 0), plain_settled v,
    clean_unprocessed_idempotent v⟩

set_option maxRecDepth 1000000 in
/-- C11 (example): "1.2.3-linux-amd64" is cleaned to "1.2.3", "v2.0.0-beta"
to the empty text, "1.32.0" to "1.0" and "1.2.3-hotfix" to itself; these are
settled and a second cleaning returns them. -/
theorem clean_idempotent_when_settled_example :
    (cleanVersionWithOption "1.2.3-linux-amd64".toList 0 = "1.2.3".toList ∧
      cleanVersionWithOption (cleanVersionWithOption "1.2.3-linux-amd64".toList 0) 0
        = cleanVersionWithOption "1.2.3-linux-amd64".toList 0) ∧
    (cleanVersionWithOption "v2.0.0-beta".toList 0 = [] ∧
      cleanVersionWithOption (cleanVersionWithOption "v2.0.0-beta".toList 0) 0
        = cleanVersionWithOption "v2.0.0-beta".toList 0) ∧
    (cleanVersionWithOption "1.32.0".toList 0 = "1.0".toList ∧
      cleanVersionWithOption (cleanVersionWithOption "1.32.0".toList 0) 0
        = cleanVersionWithOption "1.32.0".toList 0) ∧
    (cleanVersionWithOption "1.2.3-hotfix".toList 0 = "1.2.3-hotfix".toList ∧
      cleanVersionWithOption (cleanVersionWithOption "1.2.3-hotfix".toList 0) 0
        = cleanVersionWithOption "1.2.3-hotfix".toList 0) :=
  ⟨⟨by decide, (clean_idempotent_when_settled "1.2.3-linux-amd64".toList).2.1 (by decide)⟩,
   ⟨by decide, (clean_idempotent_when_settled "v2.0.0-beta".toList).2.1 (by decide)⟩,
   ⟨by decide, (clean_idempotent_when_settled "1.32.0".toList).2.1 (by decide)⟩,
   ⟨by decide, (clean_idempotent_when_settled "1.2.3-hotfix".toList).2.1 (by decide)⟩⟩

set_option maxRecDepth 1000000 in
/-- C9 (amended): the empty string compares as -1 with `b` exactly when the
standardized `b` has, for `CompareVersionStrings`, a number that is not zero
or a run of letters, and as 0 otherwise; and `b` compares with the empty
string as 1 or 0 in the same cases. -/
theorem compare_with_empty (b : Str) :
    CompareVersions [] b = (if weightless (StandardizeVersion b) = true then 0 else -1) ∧
    CompareVersions b [] = (if weightless (StandardizeVersion b) = true then 0 else 1) := by
  have hspec := extract_spec (NormalizeVersionString (StandardizeVersion b))
  have hleft := compareComponents_nil_left _ _ hspec.1 hspec.2
  have hright : compareComponents
      (ExtractVersionComponentsFromString (NormalizeVersionString (StandardizeVersion b))).1 []
      (ExtractVersionComponentsFromString (NormalizeVersionString (StandardizeVersion b))).2 []
      = if weightless (StandardizeVersion b) = true then 0 else 1 := by
    rw [compareComponents_swap, hleft]
    unfold weightless
    split <;> rfl
  have hcvs1 : CompareVersionStrings [] (StandardizeVersion b)
      = if weightless (StandardizeVersion b) = true then 0 else -1 := by
    unfold CompareVersionStrings
    simp only [extract_empty]
    exact hleft
  have hcvs2 : CompareVersionStrings (StandardizeVersion b) []
      = if weightless (StandardizeVersion b) = true then 0 else 1 := by
    unfold CompareVersionStrings
    simp only [extract_empty]
    exact hright
  have hw : StandardizeVersion b = [] → weightless (StandardizeVersion b) = true := by
    intro e
    rw [e]
    decide
  constructor
  · unfold CompareVersions
    simp only [standardize_empty, parseToSemver_empty]
    split
    · rename_i e
      rw [hw e.symm]
      rfl
    · exact hcvs1
  · unfold CompareVersions
    simp only [standardize_empty, parseToSemver_empty]
    split
    · rename_i e
      rw [hw e]
      rfl
    · cases parseToSemver (StandardizeVersion b) <;> exact hcvs2

/-- C6 (amended): for letters that do not begin with "ipv" followed by a
dotted decimal number that `semver.NewVersion` accepts, `StandardizeVersion`
returns the input unchanged when there are two letters or more, and the
number alone when there is one letter. -/
theorem standardize_lettered_version (letters number : Str) (hl : letters ≠ [])
    (hall : letters.all isLetterC = true) (hnum : dottedNumber.MatchString number = true)
    (hipv : HasPrefix (ToLower letters) "ipv".toList = false)
    (hsem : (NewVersion number).isSome = true) :
    StandardizeVersion (letters ++ number)
      = if letters.length = 1 then number else letters ++ number := by
  obtain ⟨m, hm, c1, c2⟩ := alphaPrefix_captures letters number hl hall hnum
  unfold StandardizeVersion
  rw [hm]
  simp only [c1, c2, hipv, hsem, Bool.false_eq_true, if_false, if_true]
  by_cases h1 : letters.length = 1
  · simp [h1]
  · simp [h1]

set_option maxRecDepth 1000000 in
/-- C6 (witness): "Alpha0.10.1" is kept and "R1.2.3" loses its letter. -/
theorem standardize_lettered_version_example :
    StandardizeVersion ("Alpha".toList ++ "0.10.1".toList) = "Alpha".toList ++ "0.10.1".toList ∧
    StandardizeVersion ("R".toList ++ "1.2.3".toList) = "1.2.3".toList :=
  ⟨standardize_lettered_version "Alpha".toList "0.10.1".toList (by decide) (by decide) (by decide)
      (by decide) (by decide),
   standardize_lettered_version "R".toList "1.2.3".toList (by decide) (by decide) (by decide)
      (by decide) (by decide)⟩

/-- C8: `CompareVersions` returns -1, 0 or 1, swapping the operands negates
the result, and a version compares as 0 with itself. -/
theorem compareVersions_antisymmetric (a b : Str) :
    (CompareVersions a b = -1 ∨ CompareVersions a b = 0 ∨ CompareVersions a b = 1) ∧
    CompareVersions a b = -CompareVersions b a ∧
    CompareVersions a a = 0 := by
  have key : (CompareVersions a b = -1 ∨ CompareVersions a b = 0 ∨ CompareVersions a b = 1) ∧
      CompareVersions a b = -CompareVersions b a := by
    cases ha : parseToSemver (StandardizeVersion a) with
    | none =>
        rw [compareVersions_fallback a b (Or.inl ha), compareVersions_fallback b a (Or.inr ha),
          compareVersionStrings_swap (StandardizeVersion a) (StandardizeVersion b)]
        rcases compareVersionStrings_values (StandardizeVersion a) (StandardizeVersion b)
          with h | h | h <;> rw [h] <;> simp
    | some va =>
        cases hb : parseToSemver (StandardizeVersion b) with
        | none =>
            rw [compareVersions_fallback a b (Or.inr hb), compareVersions_fallback b a (Or.inl hb),
              compareVersionStrings_swap (StandardizeVersion a) (StandardizeVersion b)]
            rcases compareVersionStrings_values (StandardizeVersion a) (StandardizeVersion b)
              with h | h | h <;> rw [h] <;> simp
        | some vb =>
            have ca := parseToSemver_canonical _ _ ha
            have cb := parseToSemver_canonical _ _ hb
            rw [compareVersions_semver a b va vb ha hb, compareVersions_semver b a vb va hb ha,
              versionCompare_swap va vb ca cb]
            rcases versionCompare_values va vb ca cb with h | h | h <;> rw [h] <;> simp
  refine ⟨key.1, key.2, ?_⟩
  unfold CompareVersions
  simp

/-- C7 (amended): `CompareVersions` is transitive on three operands that are
all compared by the same engine: when the standardized forms of all three
are semantic versions for `parseToSemver`, or of at most one of them. -/
theorem compareVersions_transitive (a b c : Str)
    (h : ((parseToSemver (StandardizeVersion a)).isSome = true ∧
            (parseToSemver (StandardizeVersion b)).isSome = true ∧
            (parseToSemver (StandardizeVersion c)).isSome = true) ∨
         (parseToSemver (StandardizeVersion a) = none ∧
            parseToSemver (StandardizeVersion b) = none) ∨
         (parseToSemver (StandardizeVersion a) = none ∧
            parseToSemver (StandardizeVersion c) = none) ∨
         (parseToSemver (StandardizeVersion b) = none ∧
            parseToSemver (StandardizeVersion c) = none))
    (h12 : CompareVersions a b ≤ 0) (h23 : CompareVersions b c ≤ 0) :
    CompareVersions a c ≤ 0 := by
  rcases h with ⟨ha, hb, hc⟩ | h
  · cases ea : parseToSemver (StandardizeVersion a) with
    | none => rw [ea] at ha; cases ha
    | some va =>
        cases eb : parseToSemver (StandardizeVersion b) with
        | none => rw [eb] at hb; cases hb
        | some vb =>
            cases ec : parseToSemver (StandardizeVersion c) with
            | none => rw [ec] at hc; cases hc
            | some vc =>
                rw [compareVersions_semver a b va vb ea eb] at h12
                rw [compareVersions_semver b c vb vc eb ec] at h23
                rw [compareVersions_semver a c va vc ea ec]
                exact versionCompare_trans va vb vc (parseToSemver_canonical _ _ ea)
                  (parseToSemver_canonical _ _ eb) (parseToSemver_canonical _ _ ec) h12 h23
  · have f12 : parseToSemver (StandardizeVersion a) = none
        ∨ parseToSemver (StandardizeVersion b) = none := by
      rcases h with ⟨h1, _⟩ | ⟨h1, _⟩ | ⟨h1, _⟩
      · exact Or.inl h1
      · exact Or.inl h1
      · exact Or.inr h1
    have f23 : parseToSemver (StandardizeVersion b) = none
        ∨ parseToSemver (StandardizeVersion c) = none := by
      rcases h with ⟨_, h1⟩ | ⟨_, h1⟩ | ⟨_, h1⟩
      · exact Or.inl h1
      · exact Or.inr h1
      · exact Or.inr h1
    have f13 : parseToSemver (StandardizeVersion a) = none
        ∨ parseToSemver (StandardizeVersion c) = none := by
      rcases h with ⟨h1, _⟩ | ⟨h1, _⟩ | ⟨_, h1⟩
      · exact Or.inl h1
      · exact Or.inl h1
      · exact Or.inr h1
    rw [compareVersions_fallback a b f12] at h12
    rw [compareVersions_fallback b c f23] at h23
    rw [compareVersions_fallback a c f13]
    exact compareVersionStrings_trans _ _ _ h12 h23

set_option maxRecDepth 1000000 in
/-- C7 (example): "1.2.0-rc.1", "1.2.0" and "1.10.0" are all semantic
versions and come in this order, so the first is not above the third. -/
theorem compareVersions_transitive_example :
    CompareVersions "1.2.0-rc.1".toList "1.10.0".toList ≤ 0 :=
  compareVersions_transitive "1.2.0-rc.1".toList "1.2.0".toList "1.10.0".toList
    (Or.inl (by decide)) (by decide) (by decide)

end AurUpdateChecker
